import Mathlib

/-!
# cloudwu/pathfinding: a shallow embedding of `pathfinding.c`

The engine of `pathfinding.c` is an A* search over a caller-owned buffer: a header
followed by `2^pow2` slots that serve at once as an open-addressed hash table
(linear probing, liveness by version stamp) and as an intrusive singly linked open
list sorted by `fscore`.

Conventions of the embedding:

* `unsigned int` values are `Nat`, with `% 2^32` written where the C arithmetic wraps;
  `int` values that can be negative (`next`, `list`, `goal_index`, `path_length`,
  `sz`) are `Int`.
* The slot array `state->hash` is a function `Nat → node`; only the indices below
  `2^pow2` belong to the buffer.  `ctx->hash` aliases that array, so the functions
  that take a `struct context *` take the array as an explicit argument and return
  the updated array.
* A pointer `struct node *` into the array is the slot's index.
* Every read or write through an index that comes from memory is bounds checked;
  an index outside `[0, 2^pow2)` is the result `Fault.outOfBounds` (undefined
  behaviour in C).  A failed `assert` is `Fault.assertion`.
* The loops over the slot array or over a chain of links get `2^pow2 + 1` steps
  (`2^pow2` for the probe loop): memory does not change while they walk, so a walk
  that has not finished by then revisits a slot and never finishes
  (`Fault.diverge`).  The `for (;;)` of `astar` takes an explicit step budget
  (`Fault.fuel` when it runs out).
* The expression `1 << pow2` is an `int`: its value is `one_shl pow2`, which is
  `2^pow2` up to `pow2 = 30` and wraps to `-2^31` for `pow2 = 31`, the largest value
  `pathfinding_init` stores.
* The neighbour callback `func(ud, pos, result)` is a function from the user data
  and the coordinate to the entries it wrote (the returned count is the length of
  the list) and the user data it leaves behind.
-/

set_option autoImplicit false

namespace Pathfinding

/-! ## Data model -/

/-- Ways in which a run of the embedded code fails to return a value. -/
inductive Fault where
  | outOfBounds
  | assertion
  | diverge
  | fuel
  deriving DecidableEq

/-- The slot `struct node`. -/
structure node where
  version : Nat
  coord : Nat
  gscore : Nat
  fscore : Nat
  camefrom : Nat
  next : Int
  deriving DecidableEq

/-- The slot array `hash[]`. -/
abbrev Mem := Nat → node

/-- The header `struct pathfinding_state` together with the slot array behind it. -/
structure pathfinding_state where
  version : Nat
  goal_index : Int
  path_length : Int
  pow2 : Nat
  hash : Mem

/-- The fields `version` and `pow2` of `struct context`; its `hash` pointer is the
array passed next to it, `func` and `ud` are passed to `astar` directly. -/
structure context where
  version : Nat
  pow2 : Nat

/-- One entry `struct pathfinding_neighbor` written by the callback. -/
structure pathfinding_neighbor where
  pos : Nat
  dist : Nat
  estimate : Nat
  deriving DecidableEq

/-- The callback type `pathfinding_hfunc`, with the user data threaded through. -/
abbrev pathfinding_hfunc (σ : Type) := σ → Nat → List pathfinding_neighbor × σ

/-- The query `struct pathfinding_args` (its `ud` is passed separately). -/
structure pathfinding_args (σ : Type) where
  start : Nat
  goal : Nat
  func : pathfinding_hfunc σ

/-- Number of slots of the buffer, `2^pow2`. -/
def cap (pow2 : Nat) : Nat := 1 <<< pow2

/-- Conversion of an `unsigned int` to `int`. -/
def toInt32 (v : Nat) : Int :=
  if v % 2 ^ 32 < 2 ^ 31 then ((v % 2 ^ 32 : Nat) : Int)
  else ((v % 2 ^ 32 : Nat) : Int) - 2 ^ 32

/-- The value of the `int` expression `1 << pow2`, kept to 32 bits. -/
def one_shl (pow2 : Nat) : Int := toInt32 (1 <<< pow2)

/-- Assignment `hash[i].next = v`. -/
def setNext (m : Mem) (i : Nat) (v : Int) : Mem :=
  fun j => if j = i then { m i with next := v } else m j

/-- Assignment of a whole slot. -/
def setNode (m : Mem) (i : Nat) (n : node) : Mem :=
  fun j => if j = i then n else m j

/-- Conversion of an index read from memory into a slot index, with the bounds check. -/
def slotIndex (pow2 : Nat) (i : Int) : Except Fault Nat :=
  if i < 0 then .error .outOfBounds
  else if i.toNat < cap pow2 then .ok i.toNat
  else .error .outOfBounds

/-! ## Sizing and initialisation -/

/-- Function `pathfinding_size`'s doubling loop `while (size < area) size *= 2`. -/
def size_loop (area : Nat) : Nat → Nat → Nat
  | 0, size => size
  | fuel + 1, size => if size < area then size_loop area fuel (size * 2) else size

/-- Function `pathfinding_size`: `sizeof(struct pathfinding_state)` is 40 (a 16 byte
header and one slot of 24 bytes). -/
def pathfinding_size (length : Nat) : Nat :=
  let area := length * length
  let size := size_loop area 32 1024
  40 + (size - 1) * 24

/-- Function `highest_bit_idx`. -/
def highest_bit_idx (x : Nat) : Nat :=
  let r := 0
  let (x, r) := if x &&& 0xffff0000 ≠ 0 then (x >>> 16, r + 16) else (x, r)
  let (x, r) := if x &&& 0x0000ff00 ≠ 0 then (x >>> 8, r + 8) else (x, r)
  let (x, r) := if x &&& 0x000000f0 ≠ 0 then (x >>> 4, r + 4) else (x, r)
  let (x, r) := if x &&& 0x0000000c ≠ 0 then (x >>> 2, r + 2) else (x, r)
  if x &&& 0x00000002 ≠ 0 then r + 1 else r

/-- Function `pathfinding_init`: `P` is what the buffer held before. -/
def pathfinding_init (P : pathfinding_state) (sz : Nat) : Except Fault pathfinding_state :=
  let n := ((sz + 2 ^ 64 - 40) % 2 ^ 64 / 24 + 1) % 2 ^ 32
  let pow2 := highest_bit_idx n
  if pow2 ≥ 8 then .ok { P with version := 0, pow2 := pow2 }
  else .error .assertion

/-! ## The versioned slot table -/

/-- Function `context_init`: the new state and the context of the query.  The sweep
`for (i=0;i<cap;i++)` runs over the `int` values `i` below `int cap = 1 << pow2`. -/
def context_init (state : pathfinding_state) : context × pathfinding_state :=
  let version := state.version
  let state1 := { state with version := (state.version + 1) % 2 ^ 32 }
  let state2 :=
    if version = 0 then
      { state1 with
        hash := fun i => if (i : Int) < one_shl state.pow2 then
                           { state1.hash i with version := version }
                         else state1.hash i }
    else state1
  ({ version := state2.version, pow2 := state.pow2 }, state2)

/-- Function `hash`, Knuth's multiplicative hash. -/
def hash (ctx : context) (v : Nat) : Nat :=
  let mask := (1 <<< ctx.pow2) - 1
  ((2654435761 * v) >>> (32 - ctx.pow2)) &&& mask

/-- The probe loop of `find_node`, from slot `index`; the test
`index >= (1 << ctx->pow2)` after `++index` compares two `int`s. -/
def find_node_loop (ctx : context) (m : Mem) (pos : Nat) : Nat → Nat → Except Fault Nat
  | 0, _ => .error .diverge
  | fuel + 1, index =>
    if (m index).coord = pos then .ok index
    else if (m index).version ≠ ctx.version then .ok index
    else find_node_loop ctx m pos fuel
      (if toInt32 (index + 1) ≥ one_shl ctx.pow2 then 0 else index + 1)

/-- Function `find_node`. -/
def find_node (ctx : context) (m : Mem) (pos : Nat) : Except Fault Nat :=
  find_node_loop ctx m pos (cap ctx.pow2) (hash ctx pos)

/-! ## The intrusive ordered open list -/

/-- The walk `for (;;)` of `insert_node`, standing at slot `cur`. -/
def insert_node_loop (ctx : context) (index : Nat) : Nat → Mem → Nat → Except Fault Mem
  | 0, _, _ => .error .diverge
  | fuel + 1, m, cur =>
    if (m cur).next < 0 then
      let m1 := setNext m cur index
      .ok (setNext m1 index (-1))
    else
      match slotIndex ctx.pow2 (m cur).next with
      | .error e => .error e
      | .ok nx =>
        if (m index).fscore ≤ (m nx).fscore then
          let m1 := setNext m index (m cur).next
          .ok (setNext m1 cur index)
        else insert_node_loop ctx index fuel m nx

/-- Function `insert_node`; `index` is the slot `tmp` points to. -/
def insert_node (ctx : context) (m : Mem) (index : Nat) (list : Int) :
    Except Fault (Mem × Int) :=
  if list < 0 then .ok (setNext m index (-1), index)
  else
    match slotIndex ctx.pow2 list with
    | .error e => .error e
    | .ok cur =>
      if (m index).fscore ≤ (m cur).fscore then .ok (setNext m index list, index)
      else
        match insert_node_loop ctx index (cap ctx.pow2 + 1) m cur with
        | .error e => .error e
        | .ok m1 => .ok (m1, list)

/-- The walk of `remove_node`, standing at slot `cur`. -/
def remove_node_loop (ctx : context) (remove_index : Nat) (next_index : Int) :
    Nat → Mem → Nat → Except Fault Mem
  | 0, _, _ => .error .diverge
  | fuel + 1, m, cur =>
    if (m cur).next ≠ remove_index then
      if (m cur).next < 0 then .error .assertion
      else
        match slotIndex ctx.pow2 (m cur).next with
        | .error e => .error e
        | .ok n => remove_node_loop ctx remove_index next_index fuel m n
    else .ok (setNext m cur next_index)

/-- Function `remove_node`. -/
def remove_node (ctx : context) (m : Mem) (from_index : Int) (remove_index : Nat)
    (next_index : Int) : Except Fault Mem :=
  match slotIndex ctx.pow2 from_index with
  | .error e => .error e
  | .ok cur => remove_node_loop ctx remove_index next_index (cap ctx.pow2 + 1) m cur

/-- The walk `for (;;)` of `advance_node`, standing at slot `cur`. -/
def advance_node_loop (ctx : context) (index : Nat) (next_node : Int) (list : Int) :
    Nat → Mem → Nat → Except Fault (Mem × Int)
  | 0, _, _ => .error .diverge
  | fuel + 1, m, cur =>
    if (m cur).next < 0 then
      let m1 := setNext m cur index
      .ok (setNext m1 index (-1), list)
    else
      match slotIndex ctx.pow2 (m cur).next with
      | .error e => .error e
      | .ok nx =>
        if nx = index then .ok (m, list)
        else if (m index).fscore ≤ (m nx).fscore then
          let m1 := setNext m index (m cur).next
          let m2 := setNext m1 cur index
          match remove_node ctx m2 (m2 index).next index next_node with
          | .error e => .error e
          | .ok m3 => .ok (m3, list)
        else advance_node_loop ctx index next_node list fuel m nx

/-- Function `advance_node`; `index` is the slot `tmp` points to. -/
def advance_node (ctx : context) (m : Mem) (index : Nat) (list : Int) :
    Except Fault (Mem × Int) :=
  if (index : Int) = list then .ok (m, index)
  else
    let next_node := (m index).next
    if list < 0 then .error .assertion
    else
      match slotIndex ctx.pow2 list with
      | .error e => .error e
      | .ok cur =>
        if (m index).fscore ≤ (m cur).fscore then
          let m1 := setNext m index list
          match remove_node ctx m1 list index next_node with
          | .error e => .error e
          | .ok m2 => .ok (m2, index)
        else advance_node_loop ctx index next_node list (cap ctx.pow2 + 1) m cur

/-! ## The A* driver -/

/-- The state of the `for (;;)` of `astar` between two statements: the slot array,
the head `list` of the open list and the count `size` of stamped slots. -/
structure search where
  m : Mem
  list : Int
  size : Nat

/-- The body of the loop over the neighbours of slot `cur` in `astar`, for one entry. -/
def relax (ctx : context) (cur : Nat) (s : search) (d : pathfinding_neighbor) :
    Except Fault search :=
  let tentative_gscore := ((s.m cur).gscore + d.dist) % 2 ^ 32
  match find_node ctx s.m d.pos with
  | .error e => .error e
  | .ok tmp =>
    if (s.m tmp).version ≠ ctx.version then
      let m1 := setNode s.m tmp
        { version := ctx.version, coord := d.pos, gscore := tentative_gscore,
          fscore := (tentative_gscore + d.estimate) % 2 ^ 32, camefrom := cur,
          next := (s.m tmp).next }
      match insert_node ctx m1 tmp s.list with
      | .error e => .error e
      | .ok (m2, list) => .ok { m := m2, list := list, size := s.size + 1 }
    else if tentative_gscore < (s.m tmp).gscore then
      let isOpen := (s.m tmp).fscore ≠ 0
      let m1 := setNode s.m tmp
        { s.m tmp with gscore := tentative_gscore,
                       fscore := (tentative_gscore + d.estimate) % 2 ^ 32, camefrom := cur }
      match (if isOpen then advance_node ctx m1 tmp s.list
             else insert_node ctx m1 tmp s.list) with
      | .error e => .error e
      | .ok (m2, list) => .ok { m := m2, list := list, size := s.size }
    else .ok s

/-- The loop `for (i=0;i<n;i++)` of `astar` over the entries the callback wrote. -/
def relax_all (ctx : context) (cur : Nat) : List pathfinding_neighbor → search →
    Except Fault search
  | [], s => .ok s
  | d :: ds, s =>
    match relax ctx cur s d with
    | .error e => .error e
    | .ok s1 => relax_all ctx cur ds s1

/-- The statements of one pass of the `for (;;)` of `astar` after the callback has
returned a non-final answer: close slot `cur` and relax its neighbours. -/
def expand (ctx : context) (cur : Nat) (nb : List pathfinding_neighbor) (s : search) :
    Except Fault search :=
  let m1 := setNode s.m cur { s.m cur with fscore := 0 }
  relax_all ctx cur nb { m := m1, list := (m1 cur).next, size := s.size }

/-- The `for (;;)` of `astar`: the returned index, the slot array and the user data. -/
def astar_loop {σ : Type} (ctx : context) (func : pathfinding_hfunc σ) (goal : Nat) :
    Nat → search → σ → Except Fault (Int × Mem × σ)
  | 0, _, _ => .error .fuel
  | fuel + 1, s, ud =>
    match slotIndex ctx.pow2 s.list with
    | .error e => .error e
    | .ok cur =>
      if (s.m cur).coord = goal then .ok (s.list, s.m, ud)
      else
        let r := func ud (s.m cur).coord
        if r.1.length = 0 ∧ (s.m cur).next < 0 then .ok (-1, s.m, r.2)
        else
          match expand ctx cur r.1 s with
          | .error e => .error e
          | .ok s1 =>
            if s1.size > 1 <<< (ctx.pow2 - 1) then .ok (s1.list, s1.m, r.2)
            else astar_loop ctx func goal fuel s1 r.2

/-- The slot array after `astar` has seeded the start coordinate. -/
def seed (ctx : context) (m : Mem) (start : Nat) : search :=
  let index := hash ctx start
  { m := setNode m index
      { version := ctx.version, coord := start, gscore := 0, fscore := 0,
        camefrom := index, next := -1 },
    list := index, size := 1 }

/-- Function `astar`. -/
def astar {σ : Type} (ctx : context) (func : pathfinding_hfunc σ) (fuel : Nat) (m : Mem)
    (ud : σ) (start goal : Nat) : Except Fault (Int × Mem × σ) :=
  astar_loop ctx func goal fuel (seed ctx m start) ud

/-! ## Reconstruction -/

/-- The loop `while (n->gscore != 0)` of `calc_length`, standing at slot `n`. -/
def calc_length_loop (pow2 : Nat) (m : Mem) : Nat → Nat → Int → Except Fault Int
  | 0, _, _ => .error .diverge
  | fuel + 1, n, count =>
    if (m n).gscore ≠ 0 then
      if (m n).camefrom < cap pow2 then calc_length_loop pow2 m fuel (m n).camefrom (count + 1)
      else .error .outOfBounds
    else .ok count

/-- Function `calc_length`. -/
def calc_length (state : pathfinding_state) : Except Fault pathfinding_state :=
  if state.goal_index < 0 then .error .assertion
  else
    match slotIndex state.pow2 state.goal_index with
    | .error e => .error e
    | .ok n =>
      match calc_length_loop state.pow2 state.hash (cap state.pow2 + 1) n 1 with
      | .error e => .error e
      | .ok count => .ok { state with path_length := count }

/-- Function `pathfinding_find`: the returned value, the state and the user data. -/
def pathfinding_find {σ : Type} (fuel : Nat) (state : pathfinding_state)
    (args : pathfinding_args σ) (ud : σ) : Except Fault (Int × pathfinding_state × σ) :=
  let (ctx, state1) := context_init state
  match astar ctx args.func fuel state1.hash ud args.start args.goal with
  | .error e => .error e
  | .ok (goal_index, m, ud1) =>
    let state2 := { state1 with hash := m, goal_index := goal_index }
    if state2.goal_index < 0 then .ok (0, { state2 with path_length := 0 }, ud1)
    else
      match slotIndex state2.pow2 state2.goal_index with
      | .error e => .error e
      | .ok n =>
        match calc_length state2 with
        | .error e => .error e
        | .ok state3 =>
          if (state3.hash n).coord ≠ args.goal then .ok (-state3.path_length, state3, ud1)
          else .ok (state3.path_length, state3, ud1)

/-- Function `skip_path`: `n` steps along `camefrom` from slot `index`. -/
def skip_path_loop (pow2 : Nat) (m : Mem) : Nat → Int → Except Fault Int
  | 0, index => .ok index
  | n + 1, index =>
    match slotIndex pow2 index with
    | .error e => .error e
    | .ok cur => skip_path_loop pow2 m n (m cur).camefrom

/-- Function `skip_path`. -/
def skip_path (state : pathfinding_state) (n : Int) : Except Fault Int :=
  skip_path_loop state.pow2 state.hash n.toNat state.goal_index

/-- The loop `for (i=sz-1;i>=0;i--)` of `pathfinding_path` with `i + 1 = k`. -/
def fill_loop (pow2 : Nat) (m : Mem) : Nat → Int → (Nat → Nat) → Except Fault (Nat → Nat)
  | 0, _, result => .ok result
  | k + 1, index, result =>
    match slotIndex pow2 index with
    | .error e => .error e
    | .ok cur =>
      fill_loop pow2 m k (m cur).camefrom (fun j => if j = k then (m cur).coord else result j)

/-- Function `pathfinding_path`: the array `result` after the call and the returned
value. -/
def pathfinding_path (state : pathfinding_state) (result : Nat → Nat) (sz : Int) :
    Except Fault ((Nat → Nat) × Int) :=
  let start : Except Fault (Int × Int) :=
    if state.path_length ≠ sz then
      if state.path_length > sz then
        match skip_path state (state.path_length - sz) with
        | .error e => .error e
        | .ok index => .ok (index, sz)
      else .ok (state.goal_index, state.path_length)
    else .ok (state.goal_index, sz)
  match start with
  | .error e => .error e
  | .ok (index, sz1) =>
    match fill_loop state.pow2 state.hash sz1.toNat index result with
    | .error e => .error e
    | .ok result1 => .ok (result1, state.path_length)


/-! ## The debug image -/

/-- The first loop of `pathfinding_image` over the slots `i`: the largest `gscore` of a
live slot, compared as `int`. -/
def max_score_loop (state : pathfinding_state) : List Nat → Int → Int
  | [], max_score => max_score
  | i :: rest, max_score =>
    let gscore := toInt32 (state.hash i).gscore
    if (state.hash i).version = state.version ∧ gscore > max_score then
      max_score_loop state rest gscore
    else max_score_loop state rest max_score

/-- The second loop of `pathfinding_image` over the slots `i`.  The array `graph` has
`x * y` bytes; a write at another offset is `Fault.outOfBounds`.  The product
`n->gscore * 255` is unsigned, the value stored is its quotient by `max_score` cut to a
byte. -/
def image_loop (state : pathfinding_state) (max_score : Int) (x y : Nat) :
    List Nat → (Nat → Nat) → Int → Except Fault ((Nat → Nat) × Int)
  | [], graph, count => .ok (graph, count)
  | i :: rest, graph, count =>
    if (state.hash i).version = state.version then
      let gscore := ((state.hash i).gscore * 255) % 2 ^ 32 / max_score.toNat
      let xx := (state.hash i).coord >>> 16
      let yy := (state.hash i).coord &&& 0xffff
      if xx < x ∨ yy < y then
        let off := yy * x + xx
        if off < x * y then
          image_loop state max_score x y rest
            (fun j => if j = off then gscore % 256 else graph j) (count + 1)
        else .error .outOfBounds
      else image_loop state max_score x y rest graph (count + 1)
    else image_loop state max_score x y rest graph count

/-- Function `pathfinding_image` for an image of `x` columns and `y` rows (both
positive): the array `graph` after the call and the returned value.  Both loops run
over the `int` values `i` with `0 ≤ i < cap`, where `int cap = 1 << pow2`. -/
def pathfinding_image (state : pathfinding_state) (graph : Nat → Nat) (x y : Nat) :
    Except Fault ((Nat → Nat) × Int) :=
  let cap := one_shl state.pow2
  let max_score := max_score_loop state (List.range cap.toNat) 0
  let graph1 := fun j => if j < x * y then 0 else graph j
  if max_score = 0 then .ok (graph1, 0)
  else image_loop state max_score x y (List.range cap.toNat) graph1 0

/-! ## States inside the loop of `astar`

The loop of `astar` read once more, to name the states a run passes through. -/

/-- The state of the `for (;;)` of `astar` at the top of pass number `k` (counted from
0) and the user data at that moment, when the run that starts the loop in state `s`
gets that far: the tests and the statements of a pass are those of `astar_loop`. -/
def astar_pass {σ : Type} (ctx : context) (func : pathfinding_hfunc σ) (goal : Nat) :
    Nat → search → σ → Option (search × σ)
  | 0, s, ud => some (s, ud)
  | k + 1, s, ud =>
    match slotIndex ctx.pow2 s.list with
    | .error _ => none
    | .ok cur =>
      if (s.m cur).coord = goal then none
      else
        let r := func ud (s.m cur).coord
        if r.1.length = 0 ∧ (s.m cur).next < 0 then none
        else
          match expand ctx cur r.1 s with
          | .error _ => none
          | .ok s1 =>
            if s1.size > 1 <<< (ctx.pow2 - 1) then none
            else astar_pass ctx func goal k s1 r.2

/-- The state inside pass number `k` of the `for (;;)` of `astar` when the head of the
open list has been closed and the first `j` entries the callback wrote have been
relaxed (all of them when there are fewer than `j`). -/
def astar_mid {σ : Type} (ctx : context) (func : pathfinding_hfunc σ) (goal : Nat)
    (k j : Nat) (s : search) (ud : σ) : Option search :=
  match astar_pass ctx func goal k s ud with
  | none => none
  | some (s0, ud0) =>
    match slotIndex ctx.pow2 s0.list with
    | .error _ => none
    | .ok cur =>
      if (s0.m cur).coord = goal then none
      else
        let r := func ud0 (s0.m cur).coord
        if r.1.length = 0 ∧ (s0.m cur).next < 0 then none
        else
          match expand ctx cur (r.1.take j) s0 with
          | .error _ => none
          | .ok s1 => some s1
/-! ## Vocabulary of the specification -/

/-- The slot reached from slot `i` by `j` steps along `camefrom`. -/
def chainAt (m : Mem) : Nat → Nat → Nat
  | 0, i => i
  | j + 1, i => chainAt m j (m i).camefrom

/-- The header records a path: `path_length` is not negative, and when it is positive
`goal_index` is a slot and the `path_length` slots of its `camefrom` chain lie in the
array. -/
def PathRecorded (st : pathfinding_state) : Prop :=
  0 ≤ st.path_length ∧ (0 < st.path_length → 0 ≤ st.goal_index) ∧
    ∀ j : Nat, (j : Int) < st.path_length →
      chainAt st.hash j st.goal_index.toNat < cap st.pow2

/-- The coordinate at position `i` of the recorded path, counted from its first
coordinate: the slot `path_length - 1 - i` steps behind the terminal slot. -/
def pathCoord (st : pathfinding_state) (i : Nat) : Nat :=
  (st.hash (chainAt st.hash (st.path_length.toNat - 1 - i) st.goal_index.toNat)).coord

/-- The fault with which a run ended, when it ended with one. -/
def faultOf {α : Type} : Except Fault α → Option Fault
  | .error e => some e
  | .ok _ => none

/-- A callback without side effects, given by its neighbour lists. -/
def pureFunc (nb : Nat → List pathfinding_neighbor) : pathfinding_hfunc Unit :=
  fun u p => (nb p, u)

/-! ### Concrete inputs -/

/-- A freshly initialised state of 256 slots whose buffer held zeros. -/
def zeroState : pathfinding_state :=
  { version := 0, goal_index := 0, path_length := 0, pow2 := 8,
    hash := fun _ => ⟨0, 0, 0, 0, 0, 0⟩ }

/-- The line graph on the coordinates `0 .. n-1`: steps of weight 5 to the left and to
the right neighbour, with the estimate `5 * |goal - pos|`. -/
def lineGraph (n goal : Nat) : Nat → List pathfinding_neighbor := fun p =>
  (if 0 < p ∧ p < n then [⟨p - 1, 5, 5 * ((goal - (p - 1)) + ((p - 1) - goal))⟩] else []) ++
  (if p + 1 < n then [⟨p + 1, 5, 5 * ((goal - (p + 1)) + ((p + 1) - goal))⟩] else [])

/-- The query from coordinate 0 to coordinate 2 on the line graph with three nodes. -/
def lineQuery : pathfinding_args Unit :=
  { start := 0, goal := 2, func := pureFunc (lineGraph 3 2) }

/-- The state a run of `pathfinding_find` leaves (the given state if the run faults). -/
def stateAfter {σ : Type} (fuel : Nat) (st : pathfinding_state) (args : pathfinding_args σ)
    (ud : σ) : pathfinding_state :=
  match pathfinding_find fuel st args ud with
  | .ok (_, st1, _) => st1
  | .error _ => st

/-- The value a run of `pathfinding_find` returns, when it returns. -/
def returnOf {σ : Type} (fuel : Nat) (st : pathfinding_state) (args : pathfinding_args σ)
    (ud : σ) : Option Int :=
  match pathfinding_find fuel st args ud with
  | .ok (n, _, _) => some n
  | .error _ => none

/-- The value `pathfinding_path` returns and the first `cells` positions of the array
it leaves, when it returns. -/
def pathOf (st : pathfinding_state) (result : Nat → Nat) (sz : Int) (cells : Nat) :
    Option (Int × List Nat) :=
  match pathfinding_path st result sz with
  | .ok (out, len) => some (len, (List.range cells).map out)
  | .error _ => none

/-- The state left by the query `lineQuery` on `zeroState`. -/
def lineState : pathfinding_state := stateAfter 10 zeroState lineQuery ()

/-- The graph in which every coordinate has the single neighbour 0, at distance 1. -/
def selfLoop : Nat → List pathfinding_neighbor := fun _ => [⟨0, 1, 0⟩]

/-- The query from coordinate 0 to the unreachable coordinate 1 on `selfLoop`. -/
def selfLoopQuery : pathfinding_args Unit :=
  { start := 0, goal := 1, func := pureFunc selfLoop }

/-- A slot array whose open list is the single slot 1, with `fscore` 5; slot 2 is not
linked and has `fscore` 5 as well. -/
def tieMem : Mem := fun i =>
  if i = 1 then ⟨1, 11, 5, 5, 0, -1⟩
  else if i = 2 then ⟨1, 12, 5, 5, 0, 0⟩
  else ⟨0, 0, 0, 0, 0, 0⟩

/-! ### The slot table -/

/-- Number of slots stamped with the version of the running query. -/
def liveCount (ctx : context) (m : Mem) : Nat :=
  ((Finset.range (cap ctx.pow2)).filter (fun i => (m i).version = ctx.version)).card

/-- The slot the probe loop of `find_node` turns to after slot `index`:
`++index; if (index >= (1 << ctx->pow2)) index = 0;`. -/
def probe_next (ctx : context) (index : Nat) : Nat :=
  if toInt32 (index + 1) ≥ one_shl ctx.pow2 then 0 else index + 1

/-- The slot the probe loop of `find_node` looks at for `pos` after `k` steps. -/
def probe (ctx : context) (pos k : Nat) : Nat := (probe_next ctx)^[k] (hash ctx pos)

/-- The first `k` slots of the probe sequence of `pos` are live and hold other
coordinates. -/
def Probed (ctx : context) (m : Mem) (pos k : Nat) : Prop :=
  ∀ j, j < k → (m (probe ctx pos j)).version = ctx.version ∧ (m (probe ctx pos j)).coord ≠ pos

/-- Every live slot is reached by the probe sequence of its coordinate through live
slots that hold other coordinates. -/
def TableOk (ctx : context) (m : Mem) : Prop :=
  ∀ i, i < cap ctx.pow2 → (m i).version = ctx.version →
    ∃ k, k < cap ctx.pow2 ∧ i = probe ctx (m i).coord k ∧ Probed ctx m (m i).coord k

/-- The two slot arrays agree in every field except `next`. -/
structure SameData (m m1 : Mem) : Prop where
  version : ∀ i, (m1 i).version = (m i).version
  coord : ∀ i, (m1 i).coord = (m i).coord
  gscore : ∀ i, (m1 i).gscore = (m i).gscore
  fscore : ∀ i, (m1 i).fscore = (m i).fscore
  camefrom : ∀ i, (m1 i).camefrom = (m i).camefrom

/-! ### The open list -/

/-- The chain of `next` links that starts with the link `h` runs through the slots `l`,
in this order, and ends with the link `t`. -/
def IsSeg (p : Nat) (m : Mem) : Int → List Nat → Int → Prop
  | h, [], t => h = t
  | h, i :: l, t => h = (i : Int) ∧ i < cap p ∧ IsSeg p m (m i).next l t

/-- The open list with head link `h` consists of the slots `l`, in this order, and
ends with a negative link: it is acyclic. -/
def IsList (p : Nat) (m : Mem) : Int → List Nat → Prop
  | h, [] => h < 0
  | h, i :: l => h = (i : Int) ∧ i < cap p ∧ IsList p m (m i).next l

/-- The list `l` with the slot `x` put in front of its first entry whose `fscore` is
not below that of `x` (at the end when there is none). -/
def placeByFscore (m : Mem) (x : Nat) : List Nat → List Nat
  | [] => [x]
  | i :: l => if (m x).fscore ≤ (m i).fscore then x :: i :: l else i :: placeByFscore m x l

/-- The slots `l` are in ascending order of `fscore`. -/
def SortedByFscore (m : Mem) (l : List Nat) : Prop :=
  l.Pairwise (fun a b => (m a).fscore ≤ (m b).fscore)

/-! ### No overflow -/

/-- One relaxation forms its sums without overflow: the tentative `gscore` of the entry
`d` reported for slot `cur` is below `2^32`, and so is the `fscore` formed from it when
the slot `find_node` returns is stamped or improved (the cases in which the code forms
it). -/
def relax_fits (ctx : context) (cur : Nat) (s : search) (d : pathfinding_neighbor) : Bool :=
  decide ((s.m cur).gscore + d.dist < 2 ^ 32) &&
    match find_node ctx s.m d.pos with
    | .error _ => true
    | .ok tmp =>
      if (s.m tmp).version ≠ ctx.version ∨ (s.m cur).gscore + d.dist < (s.m tmp).gscore then
        decide ((s.m cur).gscore + d.dist + d.estimate < 2 ^ 32)
      else true

/-- No relaxation of the loop over the entries, run from state `s`, overflows. -/
def relax_all_fits (ctx : context) (cur : Nat) : List pathfinding_neighbor → search → Bool
  | [], _ => true
  | d :: ds, s =>
    relax_fits ctx cur s d &&
      match relax ctx cur s d with
      | .error _ => true
      | .ok s1 => relax_all_fits ctx cur ds s1

/-- No relaxation of the expansion of slot `cur` overflows. -/
def expand_fits (ctx : context) (cur : Nat) (nb : List pathfinding_neighbor) (s : search) :
    Bool :=
  let m1 := setNode s.m cur { s.m cur with fscore := 0 }
  relax_all_fits ctx cur nb { m := m1, list := (m1 cur).next, size := s.size }

/-- No sum overflows in the passes the loop of `astar` makes from state `s` within the
step budget: every tentative `gscore` and every `fscore` formed is below `2^32`. -/
def astar_fits {σ : Type} (ctx : context) (func : pathfinding_hfunc σ) (goal : Nat) :
    Nat → search → σ → Bool
  | 0, _, _ => true
  | fuel + 1, s, ud =>
    match slotIndex ctx.pow2 s.list with
    | .error _ => true
    | .ok cur =>
      if (s.m cur).coord = goal then true
      else
        let r := func ud (s.m cur).coord
        if r.1.length = 0 ∧ (s.m cur).next < 0 then true
        else
          expand_fits ctx cur r.1 s &&
            match expand ctx cur r.1 s with
            | .error _ => true
            | .ok s1 =>
              if s1.size > 1 <<< (ctx.pow2 - 1) then true
              else astar_fits ctx func goal fuel s1 r.2

/-- No sum overflows in the run of `pathfinding_find` with the given step budget. -/
def find_fits {σ : Type} (fuel : Nat) (state : pathfinding_state) (args : pathfinding_args σ)
    (ud : σ) : Bool :=
  astar_fits (context_init state).1 args.func args.goal fuel
    (seed (context_init state).1 (context_init state).2.hash args.start) ud

/-! ### The search -/

/-- The contract of a callback whose neighbour lists are `nb`, for a table of `2^pow2`
slots with `8 ≤ pow2`: at most 16 entries per call and every edge weight at least 1. -/
structure Contract (pow2 : Nat) (nb : Nat → List pathfinding_neighbor) : Prop where
  pow2_ge : 8 ≤ pow2
  count : ∀ p, (nb p).length ≤ 16
  dist_pos : ∀ p e, e ∈ nb p → 1 ≤ e.dist

/-- The slot written for a coordinate met for the first time (`// new node`). -/
def newNode (ctx : context) (cur : Nat) (m : Mem) (d : pathfinding_neighbor) (tmp : Nat) :
    node :=
  { version := ctx.version, coord := d.pos, gscore := ((m cur).gscore + d.dist) % 2 ^ 32,
    fscore := (((m cur).gscore + d.dist) % 2 ^ 32 + d.estimate) % 2 ^ 32, camefrom := cur,
    next := (m tmp).next }

/-- The slot written for a coordinate reached at a lower cost. -/
def improvedNode (cur : Nat) (m : Mem) (d : pathfinding_neighbor) (tmp : Nat) : node :=
  { m tmp with gscore := ((m cur).gscore + d.dist) % 2 ^ 32,
               fscore := (((m cur).gscore + d.dist) % 2 ^ 32 + d.estimate) % 2 ^ 32,
               camefrom := cur }

/-- The invariant of the search on the stamped slots, apart from the open list: the
table is well formed and `size` counts its live slots; the start slot is the hashed slot
of the start coordinate, with `gscore` 0 and itself as predecessor; and every other live
slot has a positive `gscore` and a live predecessor from whose coordinate the callback
reports an edge to the slot's coordinate, no heavier than the difference of the two
`gscore`s. -/
structure TreeInv (ctx : context) (nb : Nat → List pathfinding_neighbor) (start : Nat)
    (s : search) : Prop where
  table : TableOk ctx s.m
  count : liveCount ctx s.m = s.size
  start_live : (s.m (hash ctx start)).version = ctx.version
  start_coord : (s.m (hash ctx start)).coord = start
  start_gscore : (s.m (hash ctx start)).gscore = 0
  start_from : (s.m (hash ctx start)).camefrom = hash ctx start
  tree : ∀ i, i < cap ctx.pow2 → (s.m i).version = ctx.version → i ≠ hash ctx start →
    1 ≤ (s.m i).gscore ∧ (s.m i).camefrom < cap ctx.pow2 ∧
    (s.m (s.m i).camefrom).version = ctx.version ∧
    ∃ e, e ∈ nb (s.m (s.m i).camefrom).coord ∧ e.pos = (s.m i).coord ∧
      (s.m (s.m i).camefrom).gscore + e.dist ≤ (s.m i).gscore

/-- The open list `l` holds the live slots whose `fscore` is not 0, and only them. -/
def OpenOk (ctx : context) (m : Mem) (l : List Nat) : Prop :=
  ∀ i, i ∈ l ↔ (i < cap ctx.pow2 ∧ (m i).version = ctx.version ∧ (m i).fscore ≠ 0)

/-- What one relaxation whose sums do not overflow does to the slot array and the open
list `l`: the slot `tmp` of the neighbour is stamped and put into the list, or improved
and moved forward in the list (put into it again when it was closed), or nothing
changes. -/
def RelaxStep (ctx : context) (cur : Nat) (s : search) (d : pathfinding_neighbor)
    (l : List Nat) (s1 : search) (l1 : List Nat) : Prop :=
  ∃ tmp, tmp < cap ctx.pow2 ∧ (s.m cur).gscore + d.dist < 2 ^ 32 ∧
    (((s.m tmp).version ≠ ctx.version ∧
        (s.m cur).gscore + d.dist + d.estimate < 2 ^ 32 ∧
        (∃ k, k < cap ctx.pow2 ∧ tmp = probe ctx d.pos k ∧ Probed ctx s.m d.pos k) ∧
        SameData (setNode s.m tmp (newNode ctx cur s.m d tmp)) s1.m ∧
        l1 = placeByFscore (setNode s.m tmp (newNode ctx cur s.m d tmp)) tmp l ∧
        s1.size = s.size + 1) ∨
     ((s.m tmp).version = ctx.version ∧ (s.m tmp).coord = d.pos ∧
        ((s.m cur).gscore + d.dist) % 2 ^ 32 < (s.m tmp).gscore ∧
        (s.m cur).gscore + d.dist + d.estimate < 2 ^ 32 ∧
        SameData (setNode s.m tmp (improvedNode cur s.m d tmp)) s1.m ∧
        s1.size = s.size ∧
        (((s.m tmp).fscore ≠ 0 ∧ ∃ a b, l = a ++ tmp :: b ∧
            l1 = placeByFscore (setNode s.m tmp (improvedNode cur s.m d tmp)) tmp a ++ b) ∨
         ((s.m tmp).fscore = 0 ∧
            l1 = placeByFscore (setNode s.m tmp (improvedNode cur s.m d tmp)) tmp l))) ∨
     ((s.m tmp).version = ctx.version ∧ (s.m tmp).coord = d.pos ∧
        ¬ ((s.m cur).gscore + d.dist) % 2 ^ 32 < (s.m tmp).gscore ∧ s1 = s ∧ l1 = l))

/-- The estimate the callback reports with an entry depends on the entry's coordinate
only: it is `h` of that coordinate. -/
def EstFn (nb : Nat → List pathfinding_neighbor) (h : Nat → Nat) : Prop :=
  ∀ p e, e ∈ nb p → e.estimate = h e.pos

/-- The open list is in ascending order of `fscore`, and the `fscore` of each entry is
its `gscore` plus the estimate `h` of its coordinate. -/
def Ordered (h : Nat → Nat) (m : Mem) (l : List Nat) : Prop :=
  SortedByFscore m l ∧ ∀ i, i ∈ l → (m i).fscore = (m i).gscore + h (m i).coord

/-- The coordinate of the entry `e` reported for slot `i` holds a live slot whose
`gscore` is at most that of `i` plus the weight of the edge. -/
def Reached (ctx : context) (m : Mem) (i : Nat) (e : pathfinding_neighbor) : Prop :=
  ∃ j, j < cap ctx.pow2 ∧ (m j).version = ctx.version ∧ (m j).coord = e.pos ∧
    (m j).gscore ≤ (m i).gscore + e.dist

/-- The closed slots (live, `fscore` 0) while slot `cur` is being expanded: none holds
the goal; every edge out of a closed slot other than `cur` has been relaxed, and so
have the edges `done` out of `cur`. -/
def ClosedInv (ctx : context) (nb : Nat → List pathfinding_neighbor) (goal : Nat) (m : Mem)
    (cur : Nat) (done : List pathfinding_neighbor) : Prop :=
  ∀ i, i < cap ctx.pow2 → (m i).version = ctx.version → (m i).fscore = 0 →
    (m i).coord ≠ goal ∧ (i ≠ cur → ∀ e, e ∈ nb (m i).coord → Reached ctx m i e) ∧
      (i = cur → ∀ e, e ∈ done → Reached ctx m i e)

/-- The closed slots between two expansions: none holds the goal and every edge out of
a closed slot has been relaxed. -/
def ClosedAll (ctx : context) (nb : Nat → List pathfinding_neighbor) (goal : Nat) (m : Mem) :
    Prop :=
  ∀ i, i < cap ctx.pow2 → (m i).version = ctx.version → (m i).fscore = 0 →
    (m i).coord ≠ goal ∧ ∀ e, e ∈ nb (m i).coord → Reached ctx m i e

/-- A walk from `u` to `v` along edges the callback reports: `p` lists its coordinates,
from `u` to `v`, and `c` is its total edge weight. -/
inductive Walk (nb : Nat → List pathfinding_neighbor) : Nat → Nat → List Nat → Nat → Prop where
  | nil (u : Nat) : Walk nb u u [u] 0
  | cons {u v c : Nat} {p : List Nat} (e : pathfinding_neighbor) (he : e ∈ nb u)
      (hw : Walk nb e.pos v p c) : Walk nb u v (u :: p) (e.dist + c)

/-- The estimate `h` is admissible: it never exceeds the weight of a walk to the goal. -/
def Admissible (nb : Nat → List pathfinding_neighbor) (goal : Nat) (h : Nat → Nat) : Prop :=
  ∀ u p c, Walk nb u goal p c → h u ≤ c

/-- The estimate `h` is consistent: it is 0 at the goal and drops along an edge by at
most the weight of the edge. -/
def Consistent (nb : Nat → List pathfinding_neighbor) (goal : Nat) (h : Nat → Nat) : Prop :=
  h goal = 0 ∧ ∀ u e, e ∈ nb u → h u ≤ e.dist + h e.pos

/-- The invariant of the search between two relaxations of the expansion of slot `cur`,
whose coordinate is `cpos`; `done` are the entries relaxed so far and `l` is the open
list. -/
structure MidInv (ctx : context) (nb : Nat → List pathfinding_neighbor) (start goal : Nat)
    (h : Nat → Nat) (cur cpos : Nat) (done : List pathfinding_neighbor) (s : search)
    (l : List Nat) : Prop where
  tree : TreeInv ctx nb start s
  cur_lt : cur < cap ctx.pow2
  cur_live : (s.m cur).version = ctx.version
  cur_coord : (s.m cur).coord = cpos
  chain : IsList ctx.pow2 s.m s.list l
  openOk : OpenOk ctx s.m l
  ordered : EstFn nb h → Ordered h s.m l
  closed : ClosedInv ctx nb goal s.m cur done

/-- The invariant of the search when an expansion is complete; `l` is the open list. -/
structure PostExpand (ctx : context) (nb : Nat → List pathfinding_neighbor)
    (start goal : Nat) (h : Nat → Nat) (s : search) (l : List Nat) : Prop where
  tree : TreeInv ctx nb start s
  chain : IsList ctx.pow2 s.m s.list l
  openOk : OpenOk ctx s.m l
  ordered : EstFn nb h → Ordered h s.m l
  closed : ClosedAll ctx nb goal s.m

/-- The invariant of the search at the top of the loop, with the head `cur` of the open
list still linked: `l` is the rest of the list.  The freshly seeded start has `fscore`
0 although it is linked, so the head is left out of the statements about open slots. -/
structure PreExpand (ctx : context) (nb : Nat → List pathfinding_neighbor)
    (start goal : Nat) (h : Nat → Nat) (cur : Nat) (s : search) (l : List Nat) : Prop where
  tree : TreeInv ctx nb start s
  size_le : s.size ≤ 2 ^ (ctx.pow2 - 1)
  chain : IsList ctx.pow2 s.m s.list (cur :: l)
  cur_live : (s.m cur).version = ctx.version
  openOk : ∀ i, i ∈ l ↔ (i < cap ctx.pow2 ∧ (s.m i).version = ctx.version ∧
    (s.m i).fscore ≠ 0 ∧ i ≠ cur)
  ordered : EstFn nb h → Ordered h s.m l
  closed : ∀ i, i < cap ctx.pow2 → (s.m i).version = ctx.version → (s.m i).fscore = 0 →
    i ≠ cur → (s.m i).coord ≠ goal ∧ ∀ e, e ∈ nb (s.m i).coord → Reached ctx s.m i e

/-- What `astar` guarantees about the index `r` and the slot array `m1` it returns.
Either `r` is negative and at most half of the slots are live; or `r` is a live slot, the
invariant on the stamped slots holds with a live-slot count `size`, and: when the slot
does not hold the goal, `size` exceeds half of the table and the slot is open, with the
least `fscore` of all open slots if the estimate is a function of the coordinate; when
it holds the goal and the estimate is an admissible function of the coordinate, its
`gscore` is at most the weight of every walk from the start to the goal. -/
def AstarPost (ctx : context) (nb : Nat → List pathfinding_neighbor) (start goal : Nat)
    (h : Nat → Nat) (r : Int) (m1 : Mem) : Prop :=
  (r < 0 ∧ liveCount ctx m1 ≤ 2 ^ (ctx.pow2 - 1)) ∨
  ∃ (n size : Nat), r = (n : Int) ∧ n < cap ctx.pow2 ∧ TreeInv ctx nb start ⟨m1, r, size⟩ ∧
    (m1 n).version = ctx.version ∧
    ((m1 n).coord ≠ goal → 2 ^ (ctx.pow2 - 1) < size ∧ (m1 n).fscore ≠ 0 ∧
      (EstFn nb h → ∀ i, i < cap ctx.pow2 → (m1 i).version = ctx.version →
        (m1 i).fscore ≠ 0 → (m1 n).fscore ≤ (m1 i).fscore)) ∧
    ((m1 n).coord = goal → EstFn nb h → Admissible nb goal h →
      ∀ p c, Walk nb start goal p c → (m1 n).gscore ≤ c)

/-- The invariant of the search at the top of the loop of `astar`: an expansion is
complete and at most half of the slots are live, or the start has just been seeded into
the array `m0` without live slots. -/
def HeadInv (ctx : context) (nb : Nat → List pathfinding_neighbor) (start goal : Nat)
    (h : Nat → Nat) (m0 : Mem) (s : search) : Prop :=
  (∃ l, PostExpand ctx nb start goal h s l ∧ s.size ≤ 2 ^ (ctx.pow2 - 1)) ∨
  (s = seed ctx m0 start ∧ ∀ i, i < cap ctx.pow2 → (m0 i).version ≠ ctx.version)

/-- The query on `state` starts with no live slot: once `context_init` has run, no slot
of the table carries the version of the query. -/
def StartsClean (state : pathfinding_state) : Prop :=
  ∀ i, i < cap (context_init state).1.pow2 →
    ((context_init state).2.hash i).version ≠ (context_init state).1.version

/-- The state can run a query: it is freshly initialised (`version` 0, the first query
sweeps the table), or its version counter does not wrap at the next query and no slot
carries a version above it. -/
def Usable (st : pathfinding_state) : Prop :=
  st.version = 0 ∨
    (st.version + 1 < 2 ^ 32 ∧ ∀ i, i < cap st.pow2 → (st.hash i).version ≤ st.version)

/-- The chain of predecessors of slot `n` reaches the start slot after `k` steps through
live slots, each step going against an edge the callback reports and to a strictly
smaller `gscore`. -/
structure ChainTo (ctx : context) (nb : Nat → List pathfinding_neighbor) (start : Nat)
    (m : Mem) (n k : Nat) : Prop where
  last : chainAt m k n = hash ctx start
  slot : ∀ j, j ≤ k → chainAt m j n < cap ctx.pow2 ∧ (m (chainAt m j n)).version = ctx.version
  step : ∀ j, j < k → (m (chainAt m j n)).gscore ≠ 0 ∧
    ∃ e, e ∈ nb (m (chainAt m (j + 1) n)).coord ∧ e.pos = (m (chainAt m j n)).coord ∧
      1 ≤ e.dist ∧ (m (chainAt m (j + 1) n)).gscore + e.dist ≤ (m (chainAt m j n)).gscore

/-- The slot at position `i` of the recorded path, counted from its first slot. -/
def pathSlot (st : pathfinding_state) (i : Nat) : Nat :=
  chainAt st.hash (st.path_length.toNat - 1 - i) st.goal_index.toNat

/-- The header records a path of `len ≥ 1` slots that is rooted at the start: its first
slot holds the start coordinate with `gscore` 0, its last slot is the terminal slot
`goal_index`, and each slot is followed by a slot the callback reports as a neighbour
of its coordinate, over an edge no heavier than the difference of the two `gscore`s. -/
structure PathFacts (nb : Nat → List pathfinding_neighbor) (start : Nat)
    (st : pathfinding_state) (len : Nat) : Prop where
  recorded : PathRecorded st
  length : st.path_length = (len : Int)
  pos : 0 < len
  first_coord : pathCoord st 0 = start
  first_gscore : (st.hash (pathSlot st 0)).gscore = 0
  terminal : pathSlot st (len - 1) = st.goal_index.toNat
  edge : ∀ i, i + 1 < len → ∃ e, e ∈ nb (pathCoord st i) ∧ e.pos = pathCoord st (i + 1) ∧
    1 ≤ e.dist ∧
    (st.hash (pathSlot st i)).gscore + e.dist ≤ (st.hash (pathSlot st (i + 1))).gscore

/-- The user data a run of `pathfinding_find` leaves (the given one if the run faults). -/
def udAfter {σ : Type} (fuel : Nat) (st : pathfinding_state) (args : pathfinding_args σ)
    (ud : σ) : σ :=
  match pathfinding_find fuel st args ud with
  | .ok (_, _, ud1) => ud1
  | .error _ => ud

/-- The index `astar` returned (`-1` if the run faults). -/
def indexOf {σ : Type} : Except Fault (Int × Mem × σ) → Int
  | .ok (r, _, _) => r
  | .error _ => -1

/-- The slot array `astar` returned (zeros if the run faults). -/
def memOf {σ : Type} : Except Fault (Int × Mem × σ) → Mem
  | .ok (_, m, _) => m
  | .error _ => fun _ => ⟨0, 0, 0, 0, 0, 0⟩

/-- The user data `astar` returned (`ud` if the run faults). -/
def udOf {σ : Type} (ud : σ) : Except Fault (Int × Mem × σ) → σ
  | .ok (_, _, ud1) => ud1
  | .error _ => ud

/-- A graph like `chainGraph` whose callback reports two estimates for one coordinate:
coordinate 800 reports 900 at distance 5 with the estimate 0, then 901 at distance 6
with the estimate 0, then 900 again at distance 1 with the estimate 100, then 13
neighbours with the estimate 1200. -/
def trapGraph : Nat → List pathfinding_neighbor := fun p =>
  if p % 100 = 0 ∧ p < 800 then
    ⟨p + 100, 1, 0⟩ :: (List.range 14).map (fun j => ⟨p + j + 1, 1, 2000 - p⟩)
  else if p = 800 then
    [⟨900, 5, 0⟩, ⟨901, 6, 0⟩, ⟨900, 1, 100⟩] ++
      (List.range 13).map (fun j => ⟨p + j + 1, 1, 1200⟩)
  else []

/-- The query from 0 to a coordinate that is not in `trapGraph`. -/
def trapQuery : pathfinding_args Unit :=
  { start := 0, goal := 99999, func := pureFunc trapGraph }

/-- The run of `astar` for `trapQuery` on `zeroState`. -/
def trapRun : Except Fault (Int × Mem × Unit) :=
  astar (context_init zeroState).1 trapQuery.func 20 (context_init zeroState).2.hash ()
    trapQuery.start trapQuery.goal


/-- A callback that counts its calls in the user data. -/
def countingFunc (nb : Nat → List pathfinding_neighbor) : pathfinding_hfunc Nat :=
  fun n p => (nb p, n + 1)

/-- The state after `k` runs of the query `args`, one after another, from `st`. -/
def stateAfterRuns {σ : Type} (fuel : Nat) (args : pathfinding_args σ) (ud : σ) :
    Nat → pathfinding_state → pathfinding_state
  | 0, st => st
  | k + 1, st => stateAfterRuns fuel args ud k (stateAfter fuel st args ud)

/-- The query from coordinate 7 to itself. -/
def restQuery : pathfinding_args Unit :=
  { start := 7, goal := 7, func := pureFunc (fun _ => []) }

/-- The state of 256 slots in which slot 83, the home slot of coordinate 7, was stamped
by the query `restQuery` at version `k` and every other slot holds zeros. -/
def restedState (k : Nat) : pathfinding_state :=
  { version := k, goal_index := 83, path_length := 1, pow2 := 8,
    hash := fun i => if i = 83 then ⟨k, 7, 0, 0, 83, -1⟩ else ⟨0, 0, 0, 0, 0, 0⟩ }

/-- The graph with the two edges 5 → 0 and 5 → 7 of weight 1. -/
def forkGraph : Nat → List pathfinding_neighbor := fun p =>
  if p = 5 then [⟨0, 1, 0⟩, ⟨7, 1, 0⟩] else []

/-- The query from coordinate 5 to its neighbour 0 on `forkGraph`. -/
def forkQuery : pathfinding_args Unit :=
  { start := 5, goal := 0, func := pureFunc forkGraph }

/-! ### States of a run -/

/-- The search state `s` occurs in the run of the loop of `astar` that starts in state
`s0` with user data `ud`: at the top of a pass, or inside a pass between two
relaxations. -/
def Visited {σ : Type} (ctx : context) (func : pathfinding_hfunc σ) (goal : Nat)
    (s0 : search) (ud : σ) (s : search) : Prop :=
  ∃ k, (∃ ud1, astar_pass ctx func goal k s0 ud = some (s, ud1)) ∨
    ∃ j, astar_mid ctx func goal k j s0 ud = some s

/-- The slot table of the search state is well formed and `size` counts its live
slots. -/
structure TableInv (ctx : context) (s : search) : Prop where
  table : TableOk ctx s.m
  count : liveCount ctx s.m = s.size

/-- The empty search state. -/
def emptySearch : search := ⟨fun _ => ⟨0, 0, 0, 0, 0, 0⟩, -1, 0⟩

/-- The state of the query `lineQuery` on `zeroState` inside pass number 1 of the loop of
`astar`, after the first relaxation. -/
def lineMid : search :=
  (astar_mid (context_init zeroState).1 lineQuery.func lineQuery.goal 1 1
    (seed (context_init zeroState).1 (context_init zeroState).2.hash lineQuery.start)
    ()).getD emptySearch

/-- A slot array with the open list 1, 2, 3 of `fscore`s 3, 5 and `f3`. -/
def advanceMem (f3 : Nat) : Mem := fun i =>
  if i = 1 then ⟨1, 11, 1, 3, 0, 2⟩
  else if i = 2 then ⟨1, 12, 1, 5, 0, 3⟩
  else if i = 3 then ⟨1, 13, 1, f3, 0, -1⟩
  else ⟨0, 0, 0, 0, 0, 0⟩

/-! ### The slots a query has written, whatever else the table holds -/

/-- The invariant of the search on the set `W` of the slots the running query has
written, on a table that may hold further live slots: the slots of `W` are live slots of
the table; the start slot is one of them and holds the start coordinate with `gscore` 0;
every other slot of `W` has a `gscore` of at least 1 and a predecessor in `W` from whose
coordinate the callback reports an edge to the slot's coordinate, no heavier than the
difference of the two `gscore`s; and the open list is an acyclic chain `l` of slots of
`W`. -/
structure WrittenInv (ctx : context) (nb : Nat → List pathfinding_neighbor) (start : Nat)
    (W : Nat → Prop) (s : search) (l : List Nat) : Prop where
  live : ∀ i, W i → i < cap ctx.pow2 ∧ (s.m i).version = ctx.version
  start_in : W (hash ctx start)
  start_coord : (s.m (hash ctx start)).coord = start
  start_gscore : (s.m (hash ctx start)).gscore = 0
  tree : ∀ i, W i → i ≠ hash ctx start →
    1 ≤ (s.m i).gscore ∧ W (s.m i).camefrom ∧
    ∃ e, e ∈ nb (s.m (s.m i).camefrom).coord ∧ e.pos = (s.m i).coord ∧
      (s.m (s.m i).camefrom).gscore + e.dist ≤ (s.m i).gscore
  chain : IsList ctx.pow2 s.m s.list l
  open_in : ∀ i, i ∈ l → W i

/-! ### The predecessor links, edge weights of 0 allowed -/

/-- Slot `i` is a slot of the array stamped with the version of the running query. -/
def Live (ctx : context) (m : Mem) (i : Nat) : Prop :=
  i < cap ctx.pow2 ∧ (m i).version = ctx.version

/-- The link `v` is an end mark (a negative value) or the index of a slot for which `R`
holds. -/
def LinkIn (R : Nat → Prop) (v : Int) : Prop :=
  v < 0 ∨ ∃ n : Nat, v = (n : Int) ∧ R n

/-- Slot `c` ranks below slot `i`: its `gscore` is smaller, or it is the same and `c`
was written before `i` according to the clock `τ`. -/
def RankedBelow (m : Mem) (τ : Nat → Nat) (c i : Nat) : Prop :=
  (m c).gscore < (m i).gscore ∨ ((m c).gscore = (m i).gscore ∧ τ c < τ i)

/-- The invariant of the search on the predecessor links and the list links, for edge
weights that may be 0: the start slot is live with `gscore` 0 and is its own
predecessor; the predecessor of a live slot is live; along `camefrom` the slots other
than the start go down in rank for some clock; and the head link and the `next` link of
every live slot are end marks or live slots. -/
structure CameInv (ctx : context) (start : Nat) (s : search) : Prop where
  start_live : (s.m (hash ctx start)).version = ctx.version
  start_gscore : (s.m (hash ctx start)).gscore = 0
  start_from : (s.m (hash ctx start)).camefrom = hash ctx start
  from_live : ∀ i, Live ctx s.m i → Live ctx s.m (s.m i).camefrom
  rank : ∃ τ : Nat → Nat, ∀ i, Live ctx s.m i → i ≠ hash ctx start →
    RankedBelow s.m τ (s.m i).camefrom i
  list_ok : LinkIn (Live ctx s.m) s.list
  next_ok : ∀ i, Live ctx s.m i → LinkIn (Live ctx s.m) (s.m i).next

/-- The graph 0 → 1 → 2 → 3 with the edge weights 3, 0 and 3 and an edge of weight 0
back from 2 to 1; every estimate is 0. -/
def zeroGraph : Nat → List pathfinding_neighbor := fun p =>
  if p = 0 then [⟨1, 3, 0⟩]
  else if p = 1 then [⟨2, 0, 0⟩]
  else if p = 2 then [⟨3, 3, 0⟩, ⟨1, 0, 0⟩]
  else []

/-- The query from coordinate 0 to coordinate 3 on `zeroGraph`. -/
def zeroQuery : pathfinding_args Unit :=
  { start := 0, goal := 3, func := pureFunc zeroGraph }

/-- The run of `astar` for `zeroQuery` on `zeroState`. -/
def zeroRun : Except Fault (Int × Mem × Unit) :=
  astar (context_init zeroState).1 zeroQuery.func 10 (context_init zeroState).2.hash ()
    zeroQuery.start zeroQuery.goal

/-! ### Two runs of one query on different buffers -/

/-- Two runs end alike: with the same fault, or with results related by `R`. -/
def ExceptRel {α β : Type} (R : α → β → Prop) : Except Fault α → Except Fault β → Prop
  | .ok a, .ok b => R a b
  | .error e1, .error e2 => e1 = e2
  | _, _ => False

/-- The slot array `m1`, read with the context `c1`, and the slot array `m2`, read with
`c2`, hold the same search: the same slots are live, and a live slot holds the same
coordinate, scores and links in both. -/
structure SameSearch (c1 c2 : context) (m1 m2 : Mem) : Prop where
  live : ∀ i, i < cap c1.pow2 → ((m1 i).version = c1.version ↔ (m2 i).version = c2.version)
  coord : ∀ i, Live c1 m1 i → (m1 i).coord = (m2 i).coord
  gscore : ∀ i, Live c1 m1 i → (m1 i).gscore = (m2 i).gscore
  fscore : ∀ i, Live c1 m1 i → (m1 i).fscore = (m2 i).fscore
  camefrom : ∀ i, Live c1 m1 i → (m1 i).camefrom = (m2 i).camefrom
  next : ∀ i, Live c1 m1 i → (m1 i).next = (m2 i).next

/-- The links of the live slots stay within the live slots: the predecessor of a live
slot is live, and the head link and the `next` link of every live slot are end marks or
live slots. -/
structure LiveLinks (ctx : context) (s : search) : Prop where
  from_live : ∀ i, Live ctx s.m i → Live ctx s.m (s.m i).camefrom
  list_ok : LinkIn (Live ctx s.m) s.list
  next_ok : ∀ i, Live ctx s.m i → LinkIn (Live ctx s.m) (s.m i).next

/-- Two search states hold the same search, with links that stay within the live
slots. -/
structure SameState (c1 c2 : context) (s1 s2 : search) : Prop where
  same : SameSearch c1 c2 s1.m s2.m
  list : s1.list = s2.list
  size : s1.size = s2.size
  links : LiveLinks c1 s1

/-- Two states record the same path after a query: the same open addressing capacity,
terminal slot and path length, slot arrays that hold the same search for the versions of
the two states, a terminal slot that is live when there is one, and predecessors of
live slots that are live. -/
structure SameRecord (st1 st2 : pathfinding_state) : Prop where
  pow2 : st1.pow2 = st2.pow2
  goal_index : st1.goal_index = st2.goal_index
  path_length : st1.path_length = st2.path_length
  same : SameSearch ⟨st1.version, st1.pow2⟩ ⟨st2.version, st2.pow2⟩ st1.hash st2.hash
  terminal : LinkIn (Live ⟨st1.version, st1.pow2⟩ st1.hash) st1.goal_index
  from_live : ∀ i, Live ⟨st1.version, st1.pow2⟩ st1.hash i →
    Live ⟨st1.version, st1.pow2⟩ st1.hash (st1.hash i).camefrom

/-- The state after the queries `qs`, each with its user data, run one after another
from `st`. -/
def stateAfterAll {σ : Type} (fuel : Nat) :
    List (pathfinding_args σ × σ) → pathfinding_state → pathfinding_state
  | [], st => st
  | q :: qs, st => stateAfterAll fuel qs (stateAfter fuel st q.1 q.2)

/-- The state has served at most `k` queries since it was initialised: its version
counter is at most `k`, and it is 0 (the next query sweeps the table) or no slot carries
a version above it. -/
def Served (k : Nat) (st : pathfinding_state) : Prop :=
  st.version ≤ k ∧
    (st.version = 0 ∨ ∀ i, i < cap st.pow2 → (st.hash i).version ≤ st.version)

/-! ### Inputs for a table of `2^31` slots -/

/-- The state `pathfinding_init` leaves on a zeroed buffer of `16 + 24 * 2^31` bytes:
`pow2` is 31. -/
def wideState : pathfinding_state :=
  { version := 0, goal_index := 0, path_length := 0, pow2 := 31,
    hash := fun _ => ⟨0, 0, 0, 0, 0, 0⟩ }

/-- The graph with the single edge from 0 to 244002641, of weight 1.  In a table of
`2^31` slots both coordinates hash to slot 0 (`2654435761 * 244002641 = 1` modulo
`2^32`). -/
def spinGraph : Nat → List pathfinding_neighbor := fun p =>
  if p = 0 then [⟨244002641, 1, 0⟩] else []

/-- The query from coordinate 0 to coordinate 1 on `spinGraph`. -/
def spinQuery : pathfinding_args Unit :=
  { start := 0, goal := 1, func := pureFunc spinGraph }

/-- The state of the query `spinQuery` on `wideState` inside pass number 0 of the loop of
`astar`, when the start slot has been closed and no entry has been relaxed yet. -/
def wideMid : search :=
  (astar_mid (context_init wideState).1 spinQuery.func spinQuery.goal 0 0
    (seed (context_init wideState).1 (context_init wideState).2.hash spinQuery.start)
    ()).getD emptySearch

/-- A buffer before `pathfinding_init`: zeros, except for slot 1327217880 (the slot
coordinate 1 hashes to in a table of `2^31` slots), which holds version 1, coordinate 1,
`gscore` 0, `fscore` 0 and `camefrom` 12345. -/
def staleBuffer : pathfinding_state :=
  { version := 0, goal_index := 0, path_length := 0, pow2 := 0,
    hash := fun i => if i = 1327217880 then ⟨1, 1, 0, 0, 12345, -1⟩ else ⟨0, 0, 0, 0, 0, 0⟩ }

/-- The state `pathfinding_init` leaves on `staleBuffer` for a buffer size of
`16 + 24 * 2^31` bytes: `pow2` is 31, the slots are as they were. -/
def staleState : pathfinding_state := { staleBuffer with version := 0, pow2 := 31 }

/-- The graph with the edges 0 → 1 and 1 → 9 of weight 1 and the edge 0 → 9 of weight
5; every estimate is 0. -/
def detourGraph : Nat → List pathfinding_neighbor := fun p =>
  if p = 0 then [⟨1, 1, 0⟩, ⟨9, 5, 0⟩]
  else if p = 1 then [⟨9, 1, 0⟩]
  else []

/-- The query from coordinate 0 to coordinate 9 on `detourGraph`. -/
def detourQuery : pathfinding_args Unit :=
  { start := 0, goal := 9, func := pureFunc detourGraph }

/-- The run of `astar` for `detourQuery` on `staleState`. -/
def detourRun : Except Fault (Int × Mem × Unit) :=
  astar (context_init staleState).1 detourQuery.func 5 (context_init staleState).2.hash ()
    detourQuery.start detourQuery.goal
/-! # Theorems -/

/-! ## Basic facts about the memory operations -/

theorem cap_eq (p : Nat) : cap p = 2 ^ p := by
  simp [cap, Nat.shiftLeft_eq]

theorem cap_pos (p : Nat) : 0 < cap p := by
  rw [cap_eq]; positivity

theorem toInt32_of_lt {v : Nat} (h : v < 2 ^ 31) : toInt32 v = (v : Int) := by
  unfold toInt32
  have h1 : v % 2 ^ 32 = v := Nat.mod_eq_of_lt (by omega)
  rw [h1, if_pos h]

/-- Up to `pow2 = 30` the `int` expression `1 << pow2` is the number of slots. -/
theorem one_shl_eq {p : Nat} (hp : p ≤ 30) : one_shl p = (cap p : Int) := by
  unfold one_shl
  have h : cap p ≤ 2 ^ 30 := by
    rw [cap_eq]
    exact Nat.pow_le_pow_right (by norm_num) hp
  exact toInt32_of_lt (by show cap p < 2 ^ 31; omega)

theorem cap_le_of_le {p : Nat} (hp : p ≤ 30) : cap p ≤ 2 ^ 30 := by
  rw [cap_eq]
  exact Nat.pow_le_pow_right (by norm_num) hp

theorem slotIndex_natCast {p i : Nat} (h : i < cap p) : slotIndex p (i : Int) = .ok i := by
  simp [slotIndex, h]

theorem slotIndex_ok {p : Nat} {i : Int} {n : Nat} (h : slotIndex p i = .ok n) :
    0 ≤ i ∧ i = (n : Int) ∧ n < cap p := by
  unfold slotIndex at h
  split_ifs at h with h1 h2
  simp only [Except.ok.injEq] at h
  subst h
  have h0 : 0 ≤ i := not_lt.mp h1
  exact ⟨h0, (Int.toNat_of_nonneg h0).symm, h2⟩

theorem slotIndex_neg {p : Nat} {i : Int} (h : i < 0) : slotIndex p i = .error .outOfBounds := by
  simp [slotIndex, h]

theorem chainAt_add (m : Mem) (a b i : Nat) : chainAt m (a + b) i = chainAt m b (chainAt m a i) := by
  induction a generalizing i with
  | zero => simp [chainAt]
  | succ a ih =>
    rw [Nat.succ_add]
    simp only [chainAt]
    exact ih _

theorem chainAt_succ (m : Mem) (a i : Nat) :
    chainAt m (a + 1) i = (m (chainAt m a i)).camefrom := by
  rw [chainAt_add]; rfl

/-! ## Path extraction -/

theorem skip_path_loop_eq (p : Nat) (m : Mem) (n i : Nat)
    (h : ∀ j, j < n → chainAt m j i < cap p) :
    skip_path_loop p m n (i : Int) = .ok ((chainAt m n i : Nat) : Int) := by
  induction n generalizing i with
  | zero => simp [skip_path_loop, chainAt]
  | succ n ih =>
    have h0 : i < cap p := h 0 (Nat.succ_pos n)
    simp only [skip_path_loop, slotIndex_natCast h0, chainAt]
    apply ih
    intro j hj
    exact h (j + 1) (Nat.succ_lt_succ hj)

theorem fill_loop_eq (p : Nat) (m : Mem) (k i : Nat) (result : Nat → Nat)
    (h : ∀ j, j < k → chainAt m j i < cap p) :
    fill_loop p m k (i : Int) result =
      .ok (fun x => if x < k then (m (chainAt m (k - 1 - x) i)).coord else result x) := by
  induction k generalizing i result with
  | zero => simp [fill_loop]
  | succ k ih =>
    have h0 : i < cap p := h 0 (Nat.succ_pos k)
    simp only [fill_loop, slotIndex_natCast h0]
    rw [ih]
    · congr 1
      funext x
      by_cases hx : x < k
      · have hx1 : x < k + 1 := Nat.lt_succ_of_lt hx
        have e : k + 1 - 1 - x = (k - 1 - x) + 1 := by omega
        simp only [hx, hx1, if_true, e, chainAt]
      · by_cases hxk : x = k
        · subst hxk
          simp [chainAt]
        · have hx1 : ¬ x < k + 1 := by omega
          simp [hx, hx1, hxk]
    · intro j hj
      exact h (j + 1) (Nat.succ_lt_succ hj)

/-- The array `pathfinding_path` leaves and the value it returns, for every capacity
`sz ≥ 0`: the first `min sz path_length` positions hold the coordinates of the
recorded path from its first coordinate on, the others are untouched. -/
theorem pathfinding_path_eq (st : pathfinding_state) (result : Nat → Nat) (sz : Int)
    (hsz : 0 ≤ sz) (hst : PathRecorded st) :
    pathfinding_path st result sz =
      .ok (fun x => if (x : Int) < min sz st.path_length then pathCoord st x else result x,
           st.path_length) := by
  obtain ⟨v, gi, pl, p, m⟩ := st
  obtain ⟨hk, hg, hch⟩ := hst
  simp only at hk hg hch
  obtain ⟨k, rfl⟩ := Int.eq_ofNat_of_zero_le hk
  obtain ⟨s, rfl⟩ := Int.eq_ofNat_of_zero_le hsz
  have hch' : ∀ j, j < k → chainAt m j gi.toNat < cap p := by
    intro j hj
    exact hch j (by exact_mod_cast hj)
  have hgi : 0 < k → ∃ g : Nat, gi = g := by
    intro h
    exact Int.eq_ofNat_of_zero_le (hg (by exact_mod_cast h))
  unfold pathfinding_path
  simp only [pathCoord, Int.toNat_ofNat, ne_eq, Nat.cast_inj, gt_iff_lt, Nat.cast_lt]
  by_cases hks : k = s
  · -- the capacity is the path length
    subst hks
    simp only [not_true_eq_false, if_false, min_self, Nat.cast_lt, Int.toNat_ofNat]
    rcases Nat.eq_zero_or_pos k with hk0 | hk0
    · subst hk0
      simp [fill_loop]
    · obtain ⟨g, rfl⟩ := hgi hk0
      simp only [Int.toNat_ofNat] at hch' ⊢
      rw [fill_loop_eq _ _ _ _ _ hch']
  · simp only [hks, not_false_eq_true, if_true]
    by_cases hlt : s < k
    · -- a smaller array: skip the slots nearest the terminal
      obtain ⟨g, rfl⟩ := hgi (by omega)
      simp only [Int.toNat_ofNat] at hch' ⊢
      have e3 : ((k : Int) - (s : Int)).toNat = k - s := by omega
      have hskip : skip_path ⟨v, (g : Int), (k : Int), p, m⟩ ((k : Int) - (s : Int)) =
          .ok ((chainAt m (k - s) g : Nat) : Int) := by
        unfold skip_path
        simp only [e3]
        apply skip_path_loop_eq
        intro j hj
        exact hch' j (by omega)
      have hch2 : ∀ j, j < s → chainAt m j (chainAt m (k - s) g) < cap p := by
        intro j hj
        rw [← chainAt_add]
        exact hch' _ (by omega)
      simp only [hlt, if_true, hskip, Int.toNat_ofNat, fill_loop_eq _ _ _ _ _ hch2]
      have hmin : min (s : Int) (k : Int) = (s : Int) := min_eq_left (by exact_mod_cast hlt.le)
      simp only [hmin, Nat.cast_lt]
      congr 2
      funext x
      by_cases hx : x < s
      · simp only [hx, if_true, ← chainAt_add]
        congr 3
        omega
      · simp [hx]
    · -- a larger array: only `path_length` positions are written
      have hgt : k < s := by omega
      simp only [hlt, if_false, Int.toNat_ofNat]
      have hmin : min (s : Int) (k : Int) = (k : Int) := min_eq_right (by exact_mod_cast hgt.le)
      simp only [hmin, Nat.cast_lt]
      rcases Nat.eq_zero_or_pos k with hk0 | hk0
      · subst hk0
        simp [fill_loop]
      · obtain ⟨g, rfl⟩ := hgi hk0
        simp only [Int.toNat_ofNat] at hch' ⊢
        rw [fill_loop_eq _ _ _ _ _ hch']

theorem hash_lt (ctx : context) (v : Nat) : hash ctx v < cap ctx.pow2 := by
  unfold hash
  rw [cap_eq]
  apply Nat.and_lt_two_pow
  simp only [Nat.shiftLeft_eq, one_mul]
  exact Nat.sub_lt (by positivity) Nat.one_pos

theorem setNode_same (m : Mem) (i : Nat) (n : node) : setNode m i n i = n := by
  simp [setNode]

theorem setNode_other (m : Mem) {i j : Nat} (n : node) (h : j ≠ i) : setNode m i n j = m j := by
  simp [setNode, h]

theorem context_init_pow2 (st : pathfinding_state) : (context_init st).1.pow2 = st.pow2 := rfl

theorem context_init_state_pow2 (st : pathfinding_state) : (context_init st).2.pow2 = st.pow2 := by
  unfold context_init
  dsimp only
  split_ifs <;> rfl

/-- What `pathfinding_find` returns in terms of what `astar` returned: a negative index. -/
theorem pathfinding_find_of_astar_neg {σ : Type} (fuel : Nat) (st : pathfinding_state)
    (args : pathfinding_args σ) (ud ud1 : σ) (gi : Int) (m : Mem) (hgi : gi < 0)
    (h : astar (context_init st).1 args.func fuel (context_init st).2.hash ud args.start
      args.goal = .ok (gi, m, ud1)) :
    pathfinding_find fuel st args ud =
      .ok (0, { (context_init st).2 with hash := m, goal_index := gi, path_length := 0 }, ud1) := by
  unfold pathfinding_find
  simp only [h, hgi, if_true]

/-- What `pathfinding_find` returns in terms of what `astar` returned: a slot from which
`calc_length` counts `count` slots. -/
theorem pathfinding_find_of_astar_slot {σ : Type} (fuel : Nat) (st : pathfinding_state)
    (args : pathfinding_args σ) (ud ud1 : σ) (n : Nat) (m : Mem) (count : Int)
    (hn : n < cap st.pow2)
    (h : astar (context_init st).1 args.func fuel (context_init st).2.hash ud args.start
      args.goal = .ok ((n : Int), m, ud1))
    (hc : calc_length_loop st.pow2 m (cap st.pow2 + 1) n 1 = .ok count) :
    pathfinding_find fuel st args ud =
      .ok (if (m n).coord ≠ args.goal then -count else count,
        { (context_init st).2 with hash := m, goal_index := (n : Int), path_length := count },
        ud1) := by
  unfold pathfinding_find
  have h0 : ¬ (n : Int) < 0 := by omega
  simp only [h, h0, if_false, context_init_state_pow2, slotIndex_natCast hn, calc_length, hc]
  split_ifs <;> rfl

theorem astar_start_is_goal {σ : Type} (ctx : context) (func : pathfinding_hfunc σ)
    (fuel : Nat) (m : Mem) (ud : σ) (start : Nat) :
    astar ctx func (fuel + 1) m ud start start =
      .ok ((hash ctx start : Nat), (seed ctx m start).m, ud) := by
  unfold astar
  simp only [astar_loop, seed, slotIndex_natCast (hash_lt ctx start), setNode_same, if_true]

theorem astar_blocked_start {σ : Type} (ctx : context) (func : pathfinding_hfunc σ)
    (fuel : Nat) (m : Mem) (ud : σ) (start goal : Nat) (hne : start ≠ goal)
    (h0 : (func ud start).1 = []) :
    astar ctx func (fuel + 1) m ud start goal =
      .ok (-1, (seed ctx m start).m, (func ud start).2) := by
  unfold astar
  simp [astar_loop, seed, slotIndex_natCast (hash_lt ctx start), setNode_same, hne, h0]

/-! ## The slot table: `find_node` -/

theorem probe_zero (ctx : context) (pos : Nat) : probe ctx pos 0 = hash ctx pos := rfl

theorem probe_succ (ctx : context) (pos k : Nat) :
    probe ctx pos (k + 1) = probe_next ctx (probe ctx pos k) :=
  Function.iterate_succ_apply' _ _ _

/-- The probe loop of `find_node` steps to a slot of the table, whatever `pow2` is. -/
theorem probe_next_lt (ctx : context) (index : Nat) (h : index < cap ctx.pow2) :
    probe_next ctx index < cap ctx.pow2 := by
  unfold probe_next
  split_ifs with h1
  · exact cap_pos _
  · have hne : index + 1 ≠ cap ctx.pow2 := by
      intro e
      apply h1
      rw [e]
      exact le_refl _
    omega

theorem probe_lt (ctx : context) (pos k : Nat) : probe ctx pos k < cap ctx.pow2 := by
  induction k with
  | zero => exact hash_lt ctx pos
  | succ k ih =>
    rw [probe_succ]
    exact probe_next_lt ctx _ ih

/-- In a table of at most `2^30` slots the probe loop steps to the next slot modulo the
capacity. -/
theorem probe_next_eq (ctx : context) (hp : ctx.pow2 ≤ 30) (index : Nat)
    (h : index < cap ctx.pow2) : probe_next ctx index = (index + 1) % cap ctx.pow2 := by
  have hc := cap_le_of_le hp
  unfold probe_next
  rw [one_shl_eq hp, toInt32_of_lt (by omega)]
  split_ifs with h1
  · have : index + 1 = cap ctx.pow2 := by omega
    rw [this, Nat.mod_self]
  · exact (Nat.mod_eq_of_lt (by omega)).symm

/-- In a table of at most `2^30` slots the probe sequence of `pos` is the hashed slot
plus the number of steps, modulo the capacity. -/
theorem probe_eq_mod (ctx : context) (hp : ctx.pow2 ≤ 30) (pos k : Nat) :
    probe ctx pos k = (hash ctx pos + k) % cap ctx.pow2 := by
  induction k with
  | zero =>
    rw [probe_zero]
    exact (Nat.mod_eq_of_lt (hash_lt ctx pos)).symm
  | succ k ih =>
    rw [probe_succ, probe_next_eq ctx hp _ (probe_lt ctx pos k), ih, Nat.mod_add_mod]
    rfl

/-- In a table of at most `2^30` slots every slot is on the probe sequence of every
coordinate. -/
theorem probe_surj (ctx : context) (hp : ctx.pow2 ≤ 30) (pos i : Nat)
    (hi : i < cap ctx.pow2) : ∃ k, k < cap ctx.pow2 ∧ probe ctx pos k = i := by
  have hh := hash_lt ctx pos
  by_cases h : hash ctx pos ≤ i
  · refine ⟨i - hash ctx pos, by omega, ?_⟩
    rw [probe_eq_mod ctx hp, Nat.add_sub_cancel' h]
    exact Nat.mod_eq_of_lt hi
  · refine ⟨i + cap ctx.pow2 - hash ctx pos, by omega, ?_⟩
    rw [probe_eq_mod ctx hp]
    have e : hash ctx pos + (i + cap ctx.pow2 - hash ctx pos) = i + cap ctx.pow2 := by omega
    rw [e, Nat.add_mod_right]
    exact Nat.mod_eq_of_lt hi

theorem find_node_loop_eq (ctx : context) (m : Mem) (pos : Nat) (k : Nat) :
    ∀ (fuel index : Nat), k < fuel →
      (∀ j, j < k → (m ((probe_next ctx)^[j] index)).version = ctx.version ∧
        (m ((probe_next ctx)^[j] index)).coord ≠ pos) →
      ((m ((probe_next ctx)^[k] index)).coord = pos ∨
        (m ((probe_next ctx)^[k] index)).version ≠ ctx.version) →
      find_node_loop ctx m pos fuel index = .ok ((probe_next ctx)^[k] index) := by
  induction k with
  | zero =>
    intro fuel index hf _ hstop
    obtain ⟨f, rfl⟩ : ∃ f, fuel = f + 1 := ⟨fuel - 1, by omega⟩
    rw [Function.iterate_zero_apply] at hstop ⊢
    unfold find_node_loop
    rcases hstop with h | h
    · simp [h]
    · by_cases hc : (m index).coord = pos
      · simp [hc]
      · simp [hc, h]
  | succ k ih =>
    intro fuel index hf hpre hstop
    obtain ⟨f, rfl⟩ : ∃ f, fuel = f + 1 := ⟨fuel - 1, by omega⟩
    have h0 := hpre 0 (Nat.succ_pos k)
    rw [Function.iterate_zero_apply] at h0
    unfold find_node_loop
    simp only [h0.2, if_false, h0.1, ne_eq, not_true_eq_false]
    rw [Function.iterate_succ_apply] at hstop ⊢
    refine ih f (probe_next ctx index) (by omega) ?_ hstop
    intro j hj
    have := hpre (j + 1) (by omega)
    rw [Function.iterate_succ_apply] at this
    exact this

/-- What the probe loop returns lies on the walk from `index` behind live slots with
other coordinates, and holds the coordinate or is not live. -/
theorem find_node_loop_sound (ctx : context) (m : Mem) (pos : Nat) :
    ∀ (fuel index r : Nat), find_node_loop ctx m pos fuel index = .ok r →
      ∃ k, k < fuel ∧ r = (probe_next ctx)^[k] index ∧
        (∀ j, j < k → (m ((probe_next ctx)^[j] index)).version = ctx.version ∧
          (m ((probe_next ctx)^[j] index)).coord ≠ pos) ∧
        ((m r).coord = pos ∨ (m r).version ≠ ctx.version) := by
  intro fuel
  induction fuel with
  | zero =>
    intro index r h
    simp [find_node_loop] at h
  | succ f ih =>
    intro index r h
    unfold find_node_loop at h
    by_cases hc : (m index).coord = pos
    · rw [if_pos hc] at h
      have e : index = r := Except.ok.inj h
      subst e
      exact ⟨0, Nat.succ_pos f, rfl, fun j hj => absurd hj (Nat.not_lt_zero _), Or.inl hc⟩
    · rw [if_neg hc] at h
      by_cases hv : (m index).version ≠ ctx.version
      · rw [if_pos hv] at h
        have e : index = r := Except.ok.inj h
        subst e
        exact ⟨0, Nat.succ_pos f, rfl, fun j hj => absurd hj (Nat.not_lt_zero _), Or.inr hv⟩
      · rw [if_neg hv] at h
        obtain ⟨k, hk, hr, hpre, hstop⟩ := ih (probe_next ctx index) r h
        refine ⟨k + 1, by omega, ?_, ?_, hstop⟩
        · rw [Function.iterate_succ_apply]
          exact hr
        · intro j hj
          cases j with
          | zero => exact ⟨not_not.mp hv, hc⟩
          | succ j =>
            rw [Function.iterate_succ_apply]
            exact hpre j (by omega)

/-- The probe of `find_node` stops at the first slot of the probe sequence that holds
the coordinate or is not live. -/
theorem find_node_eq (ctx : context) (m : Mem) (pos k : Nat)
    (hk : k < cap ctx.pow2)
    (hpre : Probed ctx m pos k)
    (hstop : (m (probe ctx pos k)).coord = pos ∨ (m (probe ctx pos k)).version ≠ ctx.version) :
    find_node ctx m pos = .ok (probe ctx pos k) := by
  unfold find_node
  exact find_node_loop_eq ctx m pos k _ _ hk hpre hstop

/-- The slot `find_node` returns lies on the probe sequence of the coordinate behind
live slots with other coordinates, and holds the coordinate or is not live. -/
theorem find_node_sound (ctx : context) (m : Mem) (pos r : Nat)
    (h : find_node ctx m pos = .ok r) :
    ∃ k, k < cap ctx.pow2 ∧ r = probe ctx pos k ∧ Probed ctx m pos k ∧
      ((m r).coord = pos ∨ (m r).version ≠ ctx.version) :=
  find_node_loop_sound ctx m pos _ _ r h

theorem exists_not_live (ctx : context) (m : Mem) (h : liveCount ctx m < cap ctx.pow2) :
    ∃ i, i < cap ctx.pow2 ∧ (m i).version ≠ ctx.version := by
  by_contra hno
  push_neg at hno
  have : (Finset.range (cap ctx.pow2)).filter (fun i => (m i).version = ctx.version) =
      Finset.range (cap ctx.pow2) := by
    apply Finset.filter_true_of_mem
    intro i hi
    exact hno i (Finset.mem_range.mp hi)
  unfold liveCount at h
  rw [this, Finset.card_range] at h
  exact lt_irrefl _ h

/-- While a slot is not live, `find_node` returns: the slot it returns lies on the
probe sequence of the coordinate behind live slots with other coordinates, and holds
the coordinate or is not live. -/
theorem find_node_total (ctx : context) (hp : ctx.pow2 ≤ 30) (m : Mem) (pos : Nat)
    (h : liveCount ctx m < cap ctx.pow2) :
    ∃ k, k < cap ctx.pow2 ∧ find_node ctx m pos = .ok (probe ctx pos k) ∧
      Probed ctx m pos k ∧
      ((m (probe ctx pos k)).coord = pos ∨ (m (probe ctx pos k)).version ≠ ctx.version) := by
  obtain ⟨i, hi, hni⟩ := exists_not_live ctx m h
  obtain ⟨k0, hk0, rfl⟩ := probe_surj ctx hp pos i hi
  have hex : ∃ k, (m (probe ctx pos k)).coord = pos ∨
      (m (probe ctx pos k)).version ≠ ctx.version := ⟨k0, Or.inr hni⟩
  classical
  have hspec := Nat.find_spec hex
  have hmin : ∀ j, j < Nat.find hex → ¬ ((m (probe ctx pos j)).coord = pos ∨
      (m (probe ctx pos j)).version ≠ ctx.version) := fun j hj => Nat.find_min hex hj
  have hle : Nat.find hex ≤ k0 := Nat.find_min' hex (Or.inr hni)
  have hpre : Probed ctx m pos (Nat.find hex) := by
    intro j hj
    have := hmin j hj
    push_neg at this
    exact ⟨this.2, this.1⟩
  exact ⟨Nat.find hex, by omega, find_node_eq ctx m pos _ (by omega) hpre hspec, hpre, hspec⟩

/-- In a well-formed table `find_node` returns the live slot that holds the coordinate. -/
theorem find_node_live (ctx : context) (m : Mem) (ht : TableOk ctx m)
    (i : Nat) (hi : i < cap ctx.pow2) (hl : (m i).version = ctx.version) :
    find_node ctx m (m i).coord = .ok i := by
  obtain ⟨k, hk, hik, hpre⟩ := ht i hi hl
  have := find_node_eq ctx m (m i).coord k hk hpre (Or.inl (by rw [← hik]))
  rw [← hik] at this
  exact this

/-- No two live slots hold the same coordinate. -/
theorem TableOk.unique_slot {ctx : context} {m : Mem} (ht : TableOk ctx m)
    {i j : Nat} (hi : i < cap ctx.pow2) (hj : j < cap ctx.pow2)
    (hli : (m i).version = ctx.version)
    (hlj : (m j).version = ctx.version) (hc : (m i).coord = (m j).coord) : i = j := by
  have h1 := find_node_live ctx m ht i hi hli
  have h2 := find_node_live ctx m ht j hj hlj
  rw [hc, h2] at h1
  exact (Except.ok.inj h1).symm

theorem TableOk.congr_table {ctx : context} {m m1 : Mem} (ht : TableOk ctx m)
    (hv : ∀ i, (m1 i).version = (m i).version) (hc : ∀ i, (m1 i).coord = (m i).coord) :
    TableOk ctx m1 := by
  intro i hi hl
  rw [hv] at hl
  obtain ⟨k, hk, hik, hpre⟩ := ht i hi hl
  refine ⟨k, hk, by rw [hc]; exact hik, ?_⟩
  intro j hj
  rw [hv, hc, hc]
  exact hpre j hj

/-- Stamping the slot that `find_node` returned for a coordinate no live slot holds
keeps the table well formed. -/
theorem TableOk.stamp_slot {ctx : context} {m : Mem} (ht : TableOk ctx m) (pos k : Nat)
    (hk : k < cap ctx.pow2) (hpre : Probed ctx m pos k)
    (hn : (m (probe ctx pos k)).version ≠ ctx.version) (n : node) (hnc : n.coord = pos) :
    TableOk ctx (setNode m (probe ctx pos k) n) := by
  intro i hi hl
  by_cases hik : i = probe ctx pos k
  · subst hik
    rw [setNode_same, hnc]
    refine ⟨k, hk, rfl, ?_⟩
    intro j hj
    have hne : probe ctx pos j ≠ probe ctx pos k := by
      intro e
      have := (hpre j hj).1
      rw [e] at this
      exact hn this
    rw [setNode_other _ _ hne]
    exact hpre j hj
  · rw [setNode_other _ _ hik] at hl ⊢
    obtain ⟨k1, hk1, hik1, hpre1⟩ := ht i hi hl
    refine ⟨k1, hk1, hik1, ?_⟩
    intro j hj
    have hne : probe ctx (m i).coord j ≠ probe ctx pos k := by
      intro e
      have := (hpre1 j hj).1
      rw [e] at this
      exact hn this
    rw [setNode_other _ _ hne]
    exact hpre1 j hj

theorem liveCount_congr (ctx : context) {m m1 : Mem}
    (hv : ∀ i, (m1 i).version = (m i).version) : liveCount ctx m1 = liveCount ctx m := by
  unfold liveCount
  simp only [hv]

theorem liveCount_stamp (ctx : context) (m : Mem) (r : Nat) (hr : r < cap ctx.pow2)
    (hn : (m r).version ≠ ctx.version) (n : node) (hnv : n.version = ctx.version) :
    liveCount ctx (setNode m r n) = liveCount ctx m + 1 := by
  unfold liveCount
  have : (Finset.range (cap ctx.pow2)).filter
      (fun i => (setNode m r n i).version = ctx.version) =
      insert r ((Finset.range (cap ctx.pow2)).filter (fun i => (m i).version = ctx.version)) := by
    ext i
    simp only [Finset.mem_filter, Finset.mem_range, Finset.mem_insert]
    by_cases hir : i = r
    · subst hir
      simp [setNode_same, hnv, hr]
    · simp [setNode_other _ _ hir, hir]
  rw [this, Finset.card_insert_of_not_mem]
  simp [hn]

theorem liveCount_le (ctx : context) (m : Mem) : liveCount ctx m ≤ cap ctx.pow2 := by
  unfold liveCount
  calc _ ≤ (Finset.range (cap ctx.pow2)).card := Finset.card_filter_le _ _
    _ = cap ctx.pow2 := Finset.card_range _

/-! ## The open list: `insert_node`, `remove_node`, `advance_node` -/

theorem setNext_same (m : Mem) (i : Nat) (v : Int) : (setNext m i v i).next = v := by
  simp [setNext]

theorem setNext_other (m : Mem) {i j : Nat} (v : Int) (h : j ≠ i) : setNext m i v j = m j := by
  simp [setNext, h]

theorem SameData.refl (m : Mem) : SameData m m :=
  ⟨fun _ => rfl, fun _ => rfl, fun _ => rfl, fun _ => rfl, fun _ => rfl⟩

theorem SameData.trans {m m1 m2 : Mem} (h1 : SameData m m1) (h2 : SameData m1 m2) :
    SameData m m2 :=
  ⟨fun i => (h2.version i).trans (h1.version i), fun i => (h2.coord i).trans (h1.coord i),
   fun i => (h2.gscore i).trans (h1.gscore i), fun i => (h2.fscore i).trans (h1.fscore i),
   fun i => (h2.camefrom i).trans (h1.camefrom i)⟩

theorem SameData.setNext (m : Mem) (i : Nat) (v : Int) : SameData m (setNext m i v) := by
  refine ⟨?_, ?_, ?_, ?_, ?_⟩ <;> intro j <;> by_cases h : j = i <;> simp [Pathfinding.setNext, h]

/-! ### Only `next` fields are written -/

theorem insert_node_loop_sameData (ctx : context) (index : Nat) (m : Mem) :
    ∀ (fuel cur : Nat) (m1 : Mem), insert_node_loop ctx index fuel m cur = .ok m1 →
      SameData m m1 := by
  intro fuel
  induction fuel with
  | zero => intro cur m1 h; simp [insert_node_loop] at h
  | succ f ih =>
    intro cur m1 h
    unfold insert_node_loop at h
    split_ifs at h with h1
    · simp only [Except.ok.injEq] at h
      subst h
      exact (SameData.setNext _ _ _).trans (SameData.setNext _ _ _)
    · split at h
      · simp at h
      · split_ifs at h with h2
        · simp only [Except.ok.injEq] at h
          subst h
          exact (SameData.setNext _ _ _).trans (SameData.setNext _ _ _)
        · exact ih _ _ h

theorem insert_node_sameData (ctx : context) (m : Mem) (index : Nat) (list : Int) (m1 : Mem)
    (list1 : Int) (h : insert_node ctx m index list = .ok (m1, list1)) : SameData m m1 := by
  unfold insert_node at h
  split_ifs at h with h1
  · simp only [Except.ok.injEq, Prod.mk.injEq] at h
    rw [← h.1]
    exact SameData.setNext _ _ _
  · split at h
    · simp at h
    · split_ifs at h with h2
      · simp only [Except.ok.injEq, Prod.mk.injEq] at h
        rw [← h.1]
        exact SameData.setNext _ _ _
      · split at h
        · simp at h
        · rename_i m2 hm2
          simp only [Except.ok.injEq, Prod.mk.injEq] at h
          rw [← h.1]
          exact insert_node_loop_sameData ctx index m _ _ _ hm2

theorem remove_node_loop_sameData (ctx : context) (ri : Nat) (ni : Int) (m : Mem) :
    ∀ (fuel cur : Nat) (m1 : Mem), remove_node_loop ctx ri ni fuel m cur = .ok m1 →
      SameData m m1 := by
  intro fuel
  induction fuel with
  | zero => intro cur m1 h; simp [remove_node_loop] at h
  | succ f ih =>
    intro cur m1 h
    unfold remove_node_loop at h
    split_ifs at h with h1 h2
    · split at h
      · simp at h
      · exact ih _ _ h
    · simp only [Except.ok.injEq] at h
      subst h
      exact SameData.setNext _ _ _

theorem remove_node_sameData (ctx : context) (m : Mem) (fi : Int) (ri : Nat) (ni : Int)
    (m1 : Mem) (h : remove_node ctx m fi ri ni = .ok m1) : SameData m m1 := by
  unfold remove_node at h
  split at h
  · simp at h
  · exact remove_node_loop_sameData ctx ri ni m _ _ _ h

theorem advance_node_loop_sameData (ctx : context) (index : Nat) (nn list : Int) (m : Mem) :
    ∀ (fuel cur : Nat) (m1 : Mem) (list1 : Int),
      advance_node_loop ctx index nn list fuel m cur = .ok (m1, list1) → SameData m m1 := by
  intro fuel
  induction fuel with
  | zero => intro cur m1 list1 h; simp [advance_node_loop] at h
  | succ f ih =>
    intro cur m1 list1 h
    unfold advance_node_loop at h
    split_ifs at h with h1
    · simp only [Except.ok.injEq, Prod.mk.injEq] at h
      rw [← h.1]
      exact (SameData.setNext _ _ _).trans (SameData.setNext _ _ _)
    · split at h
      · simp at h
      · split_ifs at h with h2 h3
        · simp only [Except.ok.injEq, Prod.mk.injEq] at h
          rw [← h.1]
          exact SameData.refl _
        · dsimp only at h
          split at h
          · simp at h
          · rename_i m3 hm3
            simp only [Except.ok.injEq, Prod.mk.injEq] at h
            rw [← h.1]
            exact ((SameData.setNext _ _ _).trans (SameData.setNext _ _ _)).trans
              (remove_node_sameData ctx _ _ _ _ _ hm3)
        · exact ih _ _ _ h

theorem advance_node_sameData (ctx : context) (m : Mem) (index : Nat) (list : Int) (m1 : Mem)
    (list1 : Int) (h : advance_node ctx m index list = .ok (m1, list1)) : SameData m m1 := by
  unfold advance_node at h
  split_ifs at h with h1 h2
  · simp only [Except.ok.injEq, Prod.mk.injEq] at h
    rw [← h.1]
    exact SameData.refl _
  · split at h
    · simp at h
    · split_ifs at h with h3
      · dsimp only at h
        split at h
        · simp at h
        · rename_i m2 hm2
          simp only [Except.ok.injEq, Prod.mk.injEq] at h
          rw [← h.1]
          exact (SameData.setNext _ _ _).trans (remove_node_sameData ctx _ _ _ _ _ hm2)
      · exact advance_node_loop_sameData ctx index _ list m _ _ _ _ h

/-! ### Chains of links -/

theorem IsList.lt_cap {p : Nat} {m : Mem} : ∀ {l : List Nat} {h : Int}, IsList p m h l →
    ∀ i, i ∈ l → i < cap p
  | [], _, _, i, hi => by simp at hi
  | j :: l, _, hl, i, hi => by
    obtain ⟨_, hj, hrest⟩ := hl
    rcases List.mem_cons.mp hi with rfl | hi
    · exact hj
    · exact IsList.lt_cap hrest i hi

theorem IsList.congr {p : Nat} {m m1 : Mem} : ∀ {l : List Nat} {h : Int},
    (∀ i, i ∈ l → (m1 i).next = (m i).next) → IsList p m h l → IsList p m1 h l
  | [], _, _, hl => hl
  | j :: l, _, hn, hl => by
    obtain ⟨h1, hj, hrest⟩ := hl
    refine ⟨h1, hj, ?_⟩
    rw [hn j (List.mem_cons_self _ _)]
    exact IsList.congr (fun i hi => hn i (List.mem_cons_of_mem _ hi)) hrest

theorem IsSeg.congr_seg {p : Nat} {m m1 : Mem} : ∀ {l : List Nat} {h t : Int},
    (∀ i, i ∈ l → (m1 i).next = (m i).next) → IsSeg p m h l t → IsSeg p m1 h l t
  | [], _, _, _, hl => hl
  | j :: l, _, _, hn, hl => by
    obtain ⟨h1, hj, hrest⟩ := hl
    refine ⟨h1, hj, ?_⟩
    rw [hn j (List.mem_cons_self _ _)]
    exact IsSeg.congr_seg (fun i hi => hn i (List.mem_cons_of_mem _ hi)) hrest

theorem IsList.unique {p : Nat} {m : Mem} : ∀ {l1 l2 : List Nat} {h : Int},
    IsList p m h l1 → IsList p m h l2 → l1 = l2
  | [], [], _, _, _ => rfl
  | [], j :: l2, h, h1, h2 => by
    have a : h < 0 := h1
    have b : h = (j : Int) := h2.1
    omega
  | i :: l1, [], h, h1, h2 => by
    have a : h < 0 := h2
    have b : h = (i : Int) := h1.1
    omega
  | i :: l1, j :: l2, h, h1, h2 => by
    obtain ⟨a1, _, c1⟩ := h1
    obtain ⟨a2, _, c2⟩ := h2
    have e : i = j := by omega
    subst e
    rw [IsList.unique c1 c2]

/-- A chain that ends with a negative link splits at every slot into a segment and a
chain. -/
theorem IsList.split {p : Nat} {m : Mem} : ∀ {a b : List Nat} {h : Int},
    IsList p m h (a ++ b) → ∃ x, IsSeg p m h a x ∧ IsList p m x b
  | [], _, h, hl => ⟨h, rfl, hl⟩
  | i :: a, b, _, hl => by
    obtain ⟨h1, hi, hrest⟩ := hl
    obtain ⟨x, hx1, hx2⟩ := IsList.split hrest
    exact ⟨x, ⟨h1, hi, hx1⟩, hx2⟩

theorem IsSeg.append_list {p : Nat} {m : Mem} : ∀ {a b : List Nat} {h x : Int},
    IsSeg p m h a x → IsList p m x b → IsList p m h (a ++ b)
  | [], _, h, x, hs, hl => by
    have e : h = x := hs
    rw [e]; exact hl
  | i :: a, b, _, _, hs, hl => by
    obtain ⟨h1, hi, hrest⟩ := hs
    exact ⟨h1, hi, IsSeg.append_list hrest hl⟩

theorem IsSeg.seg_lt_cap {p : Nat} {m : Mem} : ∀ {l : List Nat} {h t : Int}, IsSeg p m h l t →
    ∀ i, i ∈ l → i < cap p
  | [], _, _, _, i, hi => by simp at hi
  | j :: l, _, _, hl, i, hi => by
    obtain ⟨_, hj, hrest⟩ := hl
    rcases List.mem_cons.mp hi with rfl | hi
    · exact hj
    · exact IsSeg.seg_lt_cap hrest i hi

/-- Redirecting the link of the last slot of a segment. -/
theorem IsSeg.setNext_last {p : Nat} {m : Mem} : ∀ {pre : List Nat} {z : Nat} {h t : Int}
    (v : Int), IsSeg p m h (pre ++ [z]) t → (pre ++ [z]).Nodup →
    IsSeg p (setNext m z v) h (pre ++ [z]) v
  | [], z, _, _, v, hs, _ => by
    obtain ⟨h1, hz, _⟩ := hs
    exact ⟨h1, hz, setNext_same m z v⟩
  | i :: pre, z, _, _, v, hs, hnd => by
    obtain ⟨h1, hi, hrest⟩ := hs
    have hnd' : (i :: (pre ++ [z])).Nodup := hnd
    rw [List.nodup_cons] at hnd'
    have hiz : i ≠ z := by
      intro e
      apply hnd'.1
      rw [e]
      simp
    refine ⟨h1, hi, ?_⟩
    rw [setNext_other _ _ hiz]
    exact IsSeg.setNext_last v hrest hnd'.2

theorem IsList.head_link {p : Nat} {m : Mem} {l : List Nat} {h : Int} (hl : IsList p m h l) :
    h < 0 ∨ ∃ i, i ∈ l ∧ h = (i : Int) := by
  cases l with
  | nil => exact Or.inl hl
  | cons i l => exact Or.inr ⟨i, List.mem_cons_self _ _, hl.1⟩

theorem IsList.nodup {p : Nat} {m : Mem} : ∀ {l : List Nat} {h : Int}, IsList p m h l →
    l.Nodup
  | [], _, _ => List.nodup_nil
  | i :: l, _, hl => by
    obtain ⟨_, _, hrest⟩ := hl
    rw [List.nodup_cons]
    refine ⟨?_, IsList.nodup hrest⟩
    intro hmem
    obtain ⟨a, b, hab⟩ := List.append_of_mem hmem
    rw [hab] at hrest
    obtain ⟨x, _, hx2⟩ := IsList.split hrest
    have hb : IsList p m (m i).next b := hx2.2.2
    have := IsList.unique hrest hb
    have hlen := congrArg List.length this
    simp at hlen
    omega

theorem IsList.length_le {p : Nat} {m : Mem} {l : List Nat} {h : Int} (hl : IsList p m h l) :
    l.length ≤ cap p := by
  have hsub : l.toFinset ⊆ Finset.range (cap p) := by
    intro i hi
    rw [List.mem_toFinset] at hi
    exact Finset.mem_range.mpr (hl.lt_cap i hi)
  have := Finset.card_le_card hsub
  rw [List.toFinset_card_of_nodup hl.nodup, Finset.card_range] at this
  exact this

theorem exists_append_last {α : Type} (x : α) (l : List α) : ∃ pre z, x :: l = pre ++ [z] := by
  induction l generalizing x with
  | nil => exact ⟨[], x, rfl⟩
  | cons y l ih =>
    obtain ⟨pre, z, h⟩ := ih y
    exact ⟨x :: pre, z, by rw [h]; rfl⟩

theorem mem_placeByFscore (m : Mem) (x : Nat) (l : List Nat) (i : Nat) :
    i ∈ placeByFscore m x l ↔ i = x ∨ i ∈ l := by
  induction l with
  | nil => simp [placeByFscore]
  | cons j l ih =>
    unfold placeByFscore
    split_ifs
    · simp
    · simp only [List.mem_cons, ih]
      tauto

theorem placeByFscore_congr {m m1 : Mem} (hf : ∀ i, (m1 i).fscore = (m i).fscore) (x : Nat)
    (l : List Nat) : placeByFscore m1 x l = placeByFscore m x l := by
  induction l with
  | nil => rfl
  | cons j l ih =>
    unfold placeByFscore
    rw [hf, hf, ih]

/-! ### `insert_node` -/

theorem insert_node_loop_spec (ctx : context) (index : Nat) (m : Mem)
    (hidx : index < cap ctx.pow2) :
    ∀ (l : List Nat) (fuel cur : Nat), l.length < fuel →
      IsList ctx.pow2 m (cur : Int) (cur :: l) → index ∉ cur :: l →
      ∃ m1, insert_node_loop ctx index fuel m cur = .ok m1 ∧
        IsList ctx.pow2 m1 (cur : Int) (cur :: placeByFscore m index l) ∧
        ∀ i, i ≠ index → i ∉ cur :: l → m1 i = m i := by
  intro l
  induction l with
  | nil =>
    intro fuel cur hf hl hni
    obtain ⟨f, rfl⟩ : ∃ f, fuel = f + 1 := ⟨fuel - 1, by omega⟩
    obtain ⟨_, hcur, hend⟩ := hl
    have hend' : (m cur).next < 0 := hend
    have hne : cur ≠ index := by
      intro e; apply hni; simp [e]
    unfold insert_node_loop
    simp only [hend', if_true]
    refine ⟨_, rfl, ⟨rfl, hcur, ?_, hidx, ?_⟩, ?_⟩
    · rw [setNext_other _ _ hne, setNext_same]
    · show (setNext _ _ _ _).next < 0
      rw [setNext_same]; omega
    · intro i h1 h2
      have : i ≠ cur := by
        intro e; apply h2; simp [e]
      rw [setNext_other _ _ h1, setNext_other _ _ this]
  | cons nx l ih =>
    intro fuel cur hf hl hni
    obtain ⟨f, rfl⟩ : ∃ f, fuel = f + 1 := ⟨fuel - 1, by omega⟩
    have hnd := hl.nodup
    obtain ⟨_, hcur, hnext, hnx, hrest⟩ := hl
    have hne : cur ≠ index := by
      intro e; apply hni; simp [e]
    have hne2 : nx ≠ index := by
      intro e; apply hni; simp [e]
    have hne3 : cur ≠ nx := by
      intro e
      rw [List.nodup_cons] at hnd
      apply hnd.1
      simp [e]
    have hnn : ¬ (m cur).next < 0 := by rw [hnext]; omega
    unfold insert_node_loop
    simp only [hnn, if_false, hnext, slotIndex_natCast hnx]
    by_cases hle : (m index).fscore ≤ (m nx).fscore
    · simp only [hle, if_true]
      refine ⟨_, rfl, ?_, ?_⟩
      · unfold placeByFscore
        rw [if_pos hle]
        refine ⟨rfl, hcur, ?_, hidx, ?_, hnx, ?_⟩
        · rw [setNext_same]
        · rw [setNext_other _ _ hne.symm, setNext_same]
        · rw [setNext_other _ _ hne3.symm, setNext_other _ _ hne2]
          apply IsList.congr _ hrest
          intro i hi
          have h1 : i ≠ cur := by
            intro e
            rw [List.nodup_cons] at hnd
            apply hnd.1
            rw [← e]
            exact List.mem_cons_of_mem _ hi
          have h2 : i ≠ index := by
            intro e; apply hni; rw [← e]
            exact List.mem_cons_of_mem _ (List.mem_cons_of_mem _ hi)
          rw [setNext_other _ _ h1, setNext_other _ _ h2]
      · intro i h1 h2
        have : i ≠ cur := by
          intro e; apply h2; simp [e]
        rw [setNext_other _ _ this, setNext_other _ _ h1]
    · simp only [hle, if_false]
      have hni' : index ∉ nx :: l := fun h => hni (List.mem_cons_of_mem _ h)
      obtain ⟨m1, hm1, hl1, hfr⟩ := ih f nx (by simpa using hf) ⟨rfl, hnx, hrest⟩ hni'
      refine ⟨m1, hm1, ?_, ?_⟩
      · unfold placeByFscore
        rw [if_neg hle]
        refine ⟨rfl, hcur, ?_⟩
        have hcur_nin : cur ∉ nx :: l := (List.nodup_cons.mp hnd).1
        rw [hfr cur hne hcur_nin, hnext]
        exact hl1
      · intro i h1 h2
        apply hfr i h1
        intro h3
        exact h2 (List.mem_cons_of_mem _ h3)

/-- What `insert_node` does to an open list: it returns, and the list it leaves is the
old one with the slot put in front of the first entry whose `fscore` is not below its
own. -/
theorem insert_node_spec (ctx : context) (m : Mem) (index : Nat) (list : Int) (l : List Nat)
    (hidx : index < cap ctx.pow2) (hl : IsList ctx.pow2 m list l) (hni : index ∉ l) :
    ∃ m1 list1, insert_node ctx m index list = .ok (m1, list1) ∧
      IsList ctx.pow2 m1 list1 (placeByFscore m index l) := by
  cases l with
  | nil =>
    have hneg : list < 0 := hl
    unfold insert_node
    simp only [hneg, if_true]
    refine ⟨_, _, rfl, rfl, hidx, ?_⟩
    show (setNext _ _ _ _).next < 0
    rw [setNext_same]; omega
  | cons cur l =>
    have hlen := hl.length_le
    obtain ⟨hhead, hcur, hrest⟩ := hl
    subst hhead
    have hnn : ¬ (cur : Int) < 0 := by omega
    have hne : cur ≠ index := by
      intro e; apply hni; simp [e]
    unfold insert_node
    simp only [hnn, if_false, slotIndex_natCast hcur]
    by_cases hle : (m index).fscore ≤ (m cur).fscore
    · simp only [hle, if_true]
      refine ⟨_, _, rfl, ?_⟩
      unfold placeByFscore
      rw [if_pos hle]
      refine ⟨rfl, hidx, ?_⟩
      rw [setNext_same]
      refine ⟨rfl, hcur, ?_⟩
      rw [setNext_other _ _ hne]
      apply IsList.congr _ hrest
      intro i hi
      have : i ≠ index := by
        intro e; apply hni; rw [← e]; exact List.mem_cons_of_mem _ hi
      rw [setNext_other _ _ this]
    · simp only [hle, if_false]
      obtain ⟨m1, hm1, hl1, _⟩ := insert_node_loop_spec ctx index m hidx l (cap ctx.pow2 + 1) cur
        (by simp at hlen; omega) ⟨rfl, hcur, hrest⟩ hni
      simp only [hm1]
      refine ⟨_, _, rfl, ?_⟩
      unfold placeByFscore
      rw [if_neg hle]
      exact hl1

/-! ### `remove_node` -/

theorem remove_node_loop_spec (ctx : context) (ri : Nat) (ni : Int) (m : Mem) :
    ∀ (pre : List Nat) (z fuel cur : Nat), pre.length < fuel →
      IsSeg ctx.pow2 m (cur : Int) (pre ++ [z]) (ri : Int) → ri ∉ pre ++ [z] →
      remove_node_loop ctx ri ni fuel m cur = .ok (setNext m z ni) := by
  intro pre
  induction pre with
  | nil =>
    intro z fuel cur hf hs _
    obtain ⟨f, rfl⟩ : ∃ f, fuel = f + 1 := ⟨fuel - 1, by omega⟩
    obtain ⟨h1, _, h2⟩ := hs
    have h2' : (m z).next = (ri : Int) := h2
    have e : cur = z := by omega
    subst e
    unfold remove_node_loop
    simp [h2']
  | cons c pre ih =>
    intro z fuel cur hf hs hni
    obtain ⟨f, rfl⟩ : ∃ f, fuel = f + 1 := ⟨fuel - 1, by omega⟩
    obtain ⟨h1, _, h2⟩ := hs
    have e : cur = c := by omega
    subst e
    obtain ⟨y, rest, hy⟩ : ∃ y rest, pre ++ [z] = y :: rest := by
      cases pre with
      | nil => exact ⟨z, [], rfl⟩
      | cons y pre => exact ⟨y, pre ++ [z], rfl⟩
    have h2' : IsSeg ctx.pow2 m (m cur).next (pre ++ [z]) (ri : Int) := h2
    have h3 := h2'
    rw [hy] at h3
    obtain ⟨hnext, hylt, _⟩ := h3
    have hyne : y ≠ ri := by
      intro e
      apply hni
      have : ri ∈ pre ++ [z] := by
        rw [hy, e]
        exact List.mem_cons_self _ _
      exact List.mem_cons_of_mem _ this
    have hne : (m cur).next ≠ (ri : Int) := by rw [hnext]; omega
    have hnn : ¬ (m cur).next < 0 := by rw [hnext]; omega
    unfold remove_node_loop
    simp only [hne, ne_eq, not_false_eq_true, if_true, hnn, if_false]
    rw [hnext, slotIndex_natCast hylt]
    apply ih z f y (by simpa using hf)
    · rw [← hnext]; exact h2'
    · intro h; exact hni (List.mem_cons_of_mem _ h)

/-- What `remove_node` does: walking from the first slot of a segment whose last
slot links to `remove_index`, it redirects that link. -/
theorem remove_node_spec (ctx : context) (m : Mem) (fi : Int) (ri : Nat) (ni : Int)
    (pre : List Nat) (z : Nat) (hlen : pre.length ≤ cap ctx.pow2)
    (hs : IsSeg ctx.pow2 m fi (pre ++ [z]) (ri : Int)) (hni : ri ∉ pre ++ [z]) :
    remove_node ctx m fi ri ni = .ok (setNext m z ni) := by
  obtain ⟨y, rest, hy⟩ : ∃ y rest, pre ++ [z] = y :: rest := by
    cases pre with
    | nil => exact ⟨z, [], rfl⟩
    | cons y pre => exact ⟨y, pre ++ [z], rfl⟩
  have h3 := hs
  rw [hy] at h3
  obtain ⟨hfi, hylt, _⟩ := h3
  unfold remove_node
  rw [hfi, slotIndex_natCast hylt]
  apply remove_node_loop_spec ctx ri ni m pre z _ y (by omega)
  · rw [← hfi]; exact hs
  · exact hni

/-! ### `advance_node` -/

theorem advance_node_loop_spec (ctx : context) (index : Nat) (list : Int) (m : Mem)
    (hidx : index < cap ctx.pow2) :
    ∀ (a2 b : List Nat) (fuel cur : Nat), a2.length < fuel →
      IsList ctx.pow2 m (cur : Int) (cur :: a2 ++ index :: b) →
      ∃ m1, advance_node_loop ctx index (m index).next list fuel m cur = .ok (m1, list) ∧
        IsList ctx.pow2 m1 (cur : Int) (cur :: (placeByFscore m index a2 ++ b)) ∧
        ∀ i, i ∉ cur :: a2 ++ index :: b → m1 i = m i := by
  intro a2
  induction a2 with
  | nil =>
    intro b fuel cur hf hl
    obtain ⟨f, rfl⟩ : ∃ f, fuel = f + 1 := ⟨fuel - 1, by omega⟩
    have hl' := hl
    obtain ⟨_, hcur, hnext, _, _⟩ := hl'
    have hnn : ¬ (m cur).next < 0 := by rw [hnext]; omega
    unfold advance_node_loop
    simp only [hnn, if_false, hnext, slotIndex_natCast hidx, if_true]
    exact ⟨m, rfl, hl, fun _ _ => rfl⟩
  | cons nx a2 ih =>
    intro b fuel cur hf hl
    obtain ⟨f, rfl⟩ : ∃ f, fuel = f + 1 := ⟨fuel - 1, by omega⟩
    have hnd := hl.nodup
    have hlen := hl.length_le
    obtain ⟨_, hcur, hrest⟩ := hl
    have hrest' : IsList ctx.pow2 m (m cur).next (nx :: (a2 ++ index :: b)) := hrest
    have hnext : (m cur).next = (nx : Int) := hrest'.1
    have hnx : nx < cap ctx.pow2 := hrest'.2.1
    have hnd1 : cur ∉ nx :: (a2 ++ index :: b) := (List.nodup_cons.mp hnd).1
    have hnd2 : (nx :: (a2 ++ index :: b)).Nodup := (List.nodup_cons.mp hnd).2
    have hidx_nin : index ∉ nx :: a2 := by
      intro h
      have h2 : ((nx :: a2) ++ index :: b).Nodup := hnd2
      rw [List.nodup_append] at h2
      exact h2.2.2 h (List.mem_cons_self _ _)
    have hne_ci : cur ≠ index := by
      intro e; apply hnd1; rw [e]; simp
    have hne_ni : nx ≠ index := by
      intro e; apply hidx_nin; rw [e]; simp
    have hnn : ¬ (m cur).next < 0 := by rw [hnext]; omega
    unfold advance_node_loop
    simp only [hnn, if_false, hnext, slotIndex_natCast hnx, hne_ni]
    by_cases hle : (m index).fscore ≤ (m nx).fscore
    · simp only [hle, if_true]
      have hsplit : IsList ctx.pow2 m (nx : Int) ((nx :: a2) ++ index :: b) := by
        rw [← hnext]; exact hrest'
      obtain ⟨x, hseg, hx⟩ := IsList.split hsplit
      obtain ⟨hxi, _, hb⟩ := hx
      subst hxi
      obtain ⟨pre, z, hpz⟩ := exists_append_last nx a2
      rw [hpz] at hseg hidx_nin
      have hz_mem : z ∈ nx :: a2 := by rw [hpz]; simp
      have hcur_nin : cur ∉ nx :: a2 := fun h => hnd1 (by
        have : cur ∈ (nx :: a2) ++ index :: b := List.mem_append_left _ h
        exact this)
      have hne_cz : cur ≠ z := fun e => hcur_nin (e ▸ hz_mem)
      have hne_iz : index ≠ z := by
        intro e; apply hidx_nin; rw [e]; simp
      have hseg2 : IsSeg ctx.pow2 (setNext (setNext m index (nx : Int)) cur (index : Int))
          (nx : Int) (pre ++ [z]) (index : Int) := by
        apply IsSeg.congr_seg _ hseg
        intro i hi
        have h1 : i ≠ cur := by
          intro e; apply hcur_nin; rw [hpz, ← e]; exact hi
        have h2 : i ≠ index := fun e => hidx_nin (e ▸ hi)
        rw [setNext_other _ _ h1, setNext_other _ _ h2]
      have hm2i : (setNext (setNext m index (nx : Int)) cur (index : Int) index).next =
          (nx : Int) := by
        rw [setNext_other _ _ hne_ci.symm, setNext_same]
      have hprelen : pre.length ≤ cap ctx.pow2 := by
        have : (pre ++ [z]).length = (nx :: a2).length := by rw [hpz]
        simp at this hlen
        omega
      rw [hm2i, remove_node_spec ctx _ (nx : Int) index (m index).next pre z hprelen hseg2
        hidx_nin]
      have hpz_nd : (pre ++ [z]).Nodup := by
        rw [← hpz]
        have h2 : ((nx :: a2) ++ index :: b).Nodup := hnd2
        exact (List.nodup_append.mp h2).1
      refine ⟨_, rfl, ?_, ?_⟩
      · unfold placeByFscore
        rw [if_pos hle]
        refine ⟨rfl, hcur, ?_⟩
        rw [setNext_other _ _ hne_cz, setNext_same]
        refine ⟨rfl, hidx, ?_⟩
        · rw [setNext_other _ _ hne_iz, hm2i]
          have hsegz := IsSeg.setNext_last (m index).next hseg2 hpz_nd
          rw [← hpz] at hsegz
          have hb3 : IsList ctx.pow2 (setNext (setNext (setNext m index (nx : Int)) cur
              (index : Int)) z (m index).next) (m index).next b := by
            apply IsList.congr _ hb
            intro i hi
            have hmem : i ∈ (nx :: a2) ++ index :: b :=
              List.mem_append_right _ (List.mem_cons_of_mem _ hi)
            have h1 : i ≠ cur := fun e => hnd1 (e ▸ hmem)
            have hnd3 : ((nx :: a2) ++ index :: b).Nodup := hnd2
            rw [List.nodup_append] at hnd3
            have h2 : i ≠ index := by
              intro e
              have := (List.nodup_cons.mp hnd3.2.1).1
              exact this (e ▸ hi)
            have h3 : i ≠ z := by
              intro e
              exact hnd3.2.2 hz_mem (List.mem_cons_of_mem _ (e ▸ hi))
            rw [setNext_other _ _ h3, setNext_other _ _ h1, setNext_other _ _ h2]
          exact IsSeg.append_list hsegz hb3
      · intro i hi
        have h1 : i ≠ cur := by
          intro e; apply hi; rw [e]; exact List.mem_cons_self _ _
        have h2 : i ≠ index := by
          intro e; apply hi; rw [e]
          apply List.mem_cons_of_mem
          exact List.mem_append_right _ (List.mem_cons_self _ _)
        have h3 : i ≠ z := by
          intro e; apply hi; rw [e]
          apply List.mem_cons_of_mem
          exact List.mem_append_left _ hz_mem
        rw [setNext_other _ _ h3, setNext_other _ _ h1, setNext_other _ _ h2]
    · simp only [hle, if_false]
      have hl2 : IsList ctx.pow2 m (nx : Int) (nx :: a2 ++ index :: b) := by
        rw [← hnext]; exact hrest'
      obtain ⟨m1, hm1, hl1, hfr⟩ := ih b f nx (by simpa using hf) hl2
      refine ⟨m1, hm1, ?_, ?_⟩
      · unfold placeByFscore
        rw [if_neg hle]
        refine ⟨rfl, hcur, ?_⟩
        rw [hfr cur hnd1, hnext]
        exact hl1
      · intro i hi
        apply hfr
        intro h
        exact hi (List.mem_cons_of_mem _ h)

/-- What `advance_node` does to an open list that contains the slot: it returns, and in
the list it leaves the slot has moved in front of the first entry before it whose
`fscore` is not below its own (it stays where it is when there is none). -/
theorem advance_node_spec (ctx : context) (m : Mem) (index : Nat) (list : Int)
    (a b : List Nat) (hl : IsList ctx.pow2 m list (a ++ index :: b)) :
    ∃ m1 list1, advance_node ctx m index list = .ok (m1, list1) ∧
      IsList ctx.pow2 m1 list1 (placeByFscore m index a ++ b) := by
  have hidx : index < cap ctx.pow2 := hl.lt_cap index (by simp)
  cases a with
  | nil =>
    have hl' := hl
    obtain ⟨hhead, _, _⟩ := hl'
    unfold advance_node
    simp only [hhead, if_true]
    refine ⟨m, _, rfl, ?_⟩
    rw [← hhead]
    exact hl
  | cons a0 a =>
    have hnd := hl.nodup
    have hlen := hl.length_le
    have hl' := hl
    obtain ⟨hhead, ha0, _⟩ := hl'
    have hidx_nin : index ∉ a0 :: a := by
      intro h
      have h2 : ((a0 :: a) ++ index :: b).Nodup := hnd
      rw [List.nodup_append] at h2
      exact h2.2.2 h (List.mem_cons_self _ _)
    have hne : a0 ≠ index := by
      intro e; apply hidx_nin; rw [e]; simp
    have hne' : ¬ (index : Int) = list := by rw [hhead]; omega
    have hnn : ¬ list < 0 := by rw [hhead]; omega
    unfold advance_node
    simp only [hne', if_false, hnn]
    rw [hhead, slotIndex_natCast ha0]
    dsimp only
    by_cases hle : (m index).fscore ≤ (m a0).fscore
    · simp only [hle, if_true]
      have hsplit : IsList ctx.pow2 m list ((a0 :: a) ++ index :: b) := hl
      obtain ⟨x, hseg, hx⟩ := IsList.split hsplit
      obtain ⟨hxi, _, hb⟩ := hx
      subst hxi
      obtain ⟨pre, z, hpz⟩ := exists_append_last a0 a
      rw [hpz] at hseg hidx_nin
      have hz_mem : z ∈ a0 :: a := by rw [hpz]; simp
      have hne_iz : index ≠ z := by
        intro e; apply hidx_nin; rw [e]; simp
      have hseg2 : IsSeg ctx.pow2 (setNext m index (a0 : Int)) (a0 : Int) (pre ++ [z])
          (index : Int) := by
        rw [← hhead]
        apply IsSeg.congr_seg _ hseg
        intro i hi
        have h2 : i ≠ index := fun e => hidx_nin (e ▸ hi)
        rw [setNext_other _ _ h2]
      have hprelen : pre.length ≤ cap ctx.pow2 := by
        have : (pre ++ [z]).length = (a0 :: a).length := by rw [hpz]
        simp at this hlen
        omega
      rw [remove_node_spec ctx _ (a0 : Int) index (m index).next pre z hprelen hseg2 hidx_nin]
      have hpz_nd : (pre ++ [z]).Nodup := by
        rw [← hpz]
        have h2 : ((a0 :: a) ++ index :: b).Nodup := hnd
        exact (List.nodup_append.mp h2).1
      refine ⟨_, _, rfl, ?_⟩
      unfold placeByFscore
      rw [if_pos hle]
      refine ⟨rfl, hidx, ?_⟩
      rw [setNext_other _ _ hne_iz, setNext_same]
      have hsegz := IsSeg.setNext_last (m index).next hseg2 hpz_nd
      rw [← hpz] at hsegz
      have hb3 : IsList ctx.pow2 (setNext (setNext m index (a0 : Int)) z (m index).next)
          (m index).next b := by
        apply IsList.congr _ hb
        intro i hi
        have hnd3 : ((a0 :: a) ++ index :: b).Nodup := hnd
        rw [List.nodup_append] at hnd3
        have h2 : i ≠ index := by
          intro e
          have := (List.nodup_cons.mp hnd3.2.1).1
          exact this (e ▸ hi)
        have h3 : i ≠ z := by
          intro e
          exact hnd3.2.2 hz_mem (List.mem_cons_of_mem _ (e ▸ hi))
        rw [setNext_other _ _ h3, setNext_other _ _ h2]
      exact IsSeg.append_list hsegz hb3
    · simp only [hle, if_false]
      have hl2 : IsList ctx.pow2 m (a0 : Int) (a0 :: a ++ index :: b) := by
        rw [← hhead]; exact hl
      obtain ⟨m1, hm1, hl1, _⟩ := advance_node_loop_spec ctx index (a0 : Int) m hidx a b
        (cap ctx.pow2 + 1) a0 (by simp at hlen; omega) hl2
      refine ⟨m1, _, hm1, ?_⟩
      unfold placeByFscore
      rw [if_neg hle]
      exact hl1

/-! ## The invariant on the stamped slots -/

theorem TreeInv.congr_fields {ctx : context} {nb : Nat → List pathfinding_neighbor}
    {start : Nat} {s : search} (h : TreeInv ctx nb start s) {m1 : Mem}
    (hv : ∀ i, (m1 i).version = (s.m i).version) (hco : ∀ i, (m1 i).coord = (s.m i).coord)
    (hg : ∀ i, (m1 i).gscore = (s.m i).gscore)
    (hcf : ∀ i, (m1 i).camefrom = (s.m i).camefrom) (list : Int) :
    TreeInv ctx nb start ⟨m1, list, s.size⟩ := by
  refine ⟨h.table.congr_table hv hco, ?_, ?_, ?_, ?_, ?_, ?_⟩
  · show liveCount ctx m1 = s.size
    rw [liveCount_congr ctx hv]; exact h.count
  · show (m1 _).version = _
    rw [hv]; exact h.start_live
  · show (m1 _).coord = _
    rw [hco]; exact h.start_coord
  · show (m1 _).gscore = _
    rw [hg]; exact h.start_gscore
  · show (m1 _).camefrom = _
    rw [hcf]; exact h.start_from
  · intro i hi hl hne
    simp only [hv, hco, hg, hcf] at hl ⊢
    exact h.tree i hi hl hne

theorem TreeInv.congr_next {ctx : context} {nb : Nat → List pathfinding_neighbor} {start : Nat}
    {s : search} (h : TreeInv ctx nb start s) {m1 : Mem} (hd : SameData s.m m1) (list : Int) :
    TreeInv ctx nb start ⟨m1, list, s.size⟩ :=
  h.congr_fields hd.version hd.coord hd.gscore hd.camefrom list

/-- Stamping a new node keeps the invariant. -/
theorem TreeInv.stamp {ctx : context} {nb : Nat → List pathfinding_neighbor}
    {start : Nat} {s : search} (h : TreeInv ctx nb start s)
    (hc : Contract ctx.pow2 nb) {cur : Nat} (hcur : cur < cap ctx.pow2)
    (hlive : (s.m cur).version = ctx.version) {d : pathfinding_neighbor}
    (hd : d ∈ nb (s.m cur).coord) (hfit : (s.m cur).gscore + d.dist < 2 ^ 32)
    {k : Nat} (hk : k < cap ctx.pow2) (hpre : Probed ctx s.m d.pos k)
    (hn : (s.m (probe ctx d.pos k)).version ≠ ctx.version) (list : Int) :
    TreeInv ctx nb start
      ⟨setNode s.m (probe ctx d.pos k) (newNode ctx cur s.m d (probe ctx d.pos k)), list,
        s.size + 1⟩ := by
  have ht1 : ((s.m cur).gscore + d.dist) % 2 ^ 32 = (s.m cur).gscore + d.dist :=
    Nat.mod_eq_of_lt hfit
  have hw1 := hc.dist_pos _ d hd
  have hlt := probe_lt ctx d.pos k
  have hne_start : hash ctx start ≠ probe ctx d.pos k := by
    intro e; rw [← e] at hn; exact hn h.start_live
  have hne_cur : cur ≠ probe ctx d.pos k := by
    intro e; rw [← e] at hn; exact hn hlive
  refine ⟨h.table.stamp_slot d.pos k hk hpre hn _ rfl, ?_, ?_, ?_, ?_, ?_, ?_⟩
  · show liveCount ctx _ = s.size + 1
    rw [liveCount_stamp ctx s.m _ hlt hn _ rfl, h.count]
  · show (setNode _ _ _ _).version = _
    rw [setNode_other _ _ hne_start]; exact h.start_live
  · show (setNode _ _ _ _).coord = _
    rw [setNode_other _ _ hne_start]; exact h.start_coord
  · show (setNode _ _ _ _).gscore = _
    rw [setNode_other _ _ hne_start]; exact h.start_gscore
  · show (setNode _ _ _ _).camefrom = _
    rw [setNode_other _ _ hne_start]; exact h.start_from
  · intro i hi hl hne
    dsimp only at hl ⊢
    by_cases hik : i = probe ctx d.pos k
    · subst hik
      rw [setNode_same]
      simp only [newNode, ht1]
      rw [setNode_other _ _ hne_cur]
      exact ⟨by omega, hcur, hlive, d, hd, rfl, le_refl _⟩
    · rw [setNode_other _ _ hik] at hl ⊢
      obtain ⟨h1, h2, h3, h4⟩ := h.tree i hi hl hne
      have hne2 : (s.m i).camefrom ≠ probe ctx d.pos k := by
        intro e; rw [e] at h3; exact hn h3
      rw [setNode_other _ _ hne2]
      exact ⟨h1, h2, h3, h4⟩

/-- Improving a live node keeps the invariant. -/
theorem TreeInv.improve {ctx : context} {nb : Nat → List pathfinding_neighbor}
    {start : Nat} {s : search} (h : TreeInv ctx nb start s)
    (hc : Contract ctx.pow2 nb) {cur : Nat} (hcur : cur < cap ctx.pow2)
    (hlive : (s.m cur).version = ctx.version) {d : pathfinding_neighbor}
    (hd : d ∈ nb (s.m cur).coord) (hfit : (s.m cur).gscore + d.dist < 2 ^ 32)
    {tmp : Nat} (hcoord : (s.m tmp).coord = d.pos)
    (hlt : ((s.m cur).gscore + d.dist) % 2 ^ 32 < (s.m tmp).gscore) (list : Int) :
    TreeInv ctx nb start ⟨setNode s.m tmp (improvedNode cur s.m d tmp), list, s.size⟩ := by
  have ht1 : ((s.m cur).gscore + d.dist) % 2 ^ 32 = (s.m cur).gscore + d.dist :=
    Nat.mod_eq_of_lt hfit
  rw [ht1] at hlt
  have hw1 := hc.dist_pos _ d hd
  have hne_start : hash ctx start ≠ tmp := by
    intro e; rw [← e, h.start_gscore] at hlt; omega
  have hne_cur : cur ≠ tmp := by
    intro e; rw [← e] at hlt; omega
  have hv : ∀ i, ((setNode s.m tmp (improvedNode cur s.m d tmp)) i).version = (s.m i).version := by
    intro i
    by_cases hi : i = tmp
    · subst hi; rw [setNode_same]; rfl
    · rw [setNode_other _ _ hi]
  have hco : ∀ i, ((setNode s.m tmp (improvedNode cur s.m d tmp)) i).coord = (s.m i).coord := by
    intro i
    by_cases hi : i = tmp
    · subst hi; rw [setNode_same]; rfl
    · rw [setNode_other _ _ hi]
  refine ⟨h.table.congr_table hv hco, ?_, ?_, ?_, ?_, ?_, ?_⟩
  · show liveCount ctx _ = s.size
    rw [liveCount_congr ctx hv]; exact h.count
  · show (setNode _ _ _ _).version = _
    rw [setNode_other _ _ hne_start]; exact h.start_live
  · show (setNode _ _ _ _).coord = _
    rw [setNode_other _ _ hne_start]; exact h.start_coord
  · show (setNode _ _ _ _).gscore = _
    rw [setNode_other _ _ hne_start]; exact h.start_gscore
  · show (setNode _ _ _ _).camefrom = _
    rw [setNode_other _ _ hne_start]; exact h.start_from
  · intro i hi hl hne
    dsimp only at hl ⊢
    rw [hv] at hl
    by_cases hik : i = tmp
    · subst hik
      rw [setNode_same]
      simp only [improvedNode, ht1]
      rw [setNode_other _ _ hne_cur]
      exact ⟨by omega, hcur, hlive, d, hd, hcoord.symm, le_refl _⟩
    · rw [setNode_other _ _ hik]
      obtain ⟨h1, h2, h3, e, he1, he2, he3⟩ := h.tree i hi hl hne
      refine ⟨h1, h2, by rw [hv]; exact h3, e, by rw [hco]; exact he1, he2, ?_⟩
      by_cases hcf : (s.m i).camefrom = tmp
      · rw [hcf, setNode_same]
        simp only [improvedNode, ht1]
        rw [hcf] at he3
        omega
      · rw [setNode_other _ _ hcf]
        exact he3

/-! ## One relaxation on a well-formed open list -/

theorem relax_unfold (ctx : context) (cur : Nat) (s : search) (d : pathfinding_neighbor) :
    relax ctx cur s d =
      match find_node ctx s.m d.pos with
      | .error e => .error e
      | .ok tmp =>
        if (s.m tmp).version ≠ ctx.version then
          match insert_node ctx (setNode s.m tmp (newNode ctx cur s.m d tmp)) tmp s.list with
          | .error e => .error e
          | .ok (m2, list) => .ok { m := m2, list := list, size := s.size + 1 }
        else if ((s.m cur).gscore + d.dist) % 2 ^ 32 < (s.m tmp).gscore then
          match (if (s.m tmp).fscore ≠ 0 then
                  advance_node ctx (setNode s.m tmp (improvedNode cur s.m d tmp)) tmp s.list
                else
                  insert_node ctx (setNode s.m tmp (improvedNode cur s.m d tmp)) tmp s.list) with
          | .error e => .error e
          | .ok (m2, list) => .ok { m := m2, list := list, size := s.size }
        else .ok s := rfl

/-- A relaxation does not return when `find_node` does not. -/
theorem relax_of_find_error (ctx : context) (cur : Nat) (s : search) (d : pathfinding_neighbor)
    (e : Fault) (h : find_node ctx s.m d.pos = .error e) : relax ctx cur s d = .error e := by
  rw [relax_unfold, h]

/-- A relaxation whose sums do not overflow acts on the slot array and the open list as
`RelaxStep` says, once `find_node` has returned the slot `tmp`: on a well-formed open
list the operations on the list return. -/
theorem relax_of_find (ctx : context) (cur : Nat) (s : search)
    (d : pathfinding_neighbor) (l : List Nat) (tmp : Nat)
    (hfind : find_node ctx s.m d.pos = .ok tmp)
    (hl : IsList ctx.pow2 s.m s.list l) (ho : OpenOk ctx s.m l)
    (hfit : relax_fits ctx cur s d = true) :
    ∃ s1 l1, relax ctx cur s d = .ok s1 ∧ IsList ctx.pow2 s1.m s1.list l1 ∧
      RelaxStep ctx cur s d l s1 l1 := by
  obtain ⟨k, hk, htmp, hpre, hstop⟩ := find_node_sound ctx s.m d.pos tmp hfind
  have hlt : tmp < cap ctx.pow2 := htmp ▸ probe_lt ctx d.pos k
  unfold relax_fits at hfit
  rw [hfind, Bool.and_eq_true, decide_eq_true_eq] at hfit
  obtain ⟨hfg, hff⟩ := hfit
  dsimp only at hff
  have hmod : ((s.m cur).gscore + d.dist) % 2 ^ 32 = (s.m cur).gscore + d.dist :=
    Nat.mod_eq_of_lt hfg
  by_cases hv : (s.m tmp).version = ctx.version
  · have hcoord : (s.m tmp).coord = d.pos := by
      rcases hstop with h1 | h1
      · exact h1
      · exact absurd hv h1
    by_cases hlt2 : ((s.m cur).gscore + d.dist) % 2 ^ 32 < (s.m tmp).gscore
    · -- improved
      have hfe : (s.m cur).gscore + d.dist + d.estimate < 2 ^ 32 := by
        rw [if_pos (Or.inr (hmod ▸ hlt2)), decide_eq_true_eq] at hff
        exact hff
      have hnext : ∀ i, (setNode s.m tmp (improvedNode cur s.m d tmp) i).next = (s.m i).next := by
        intro i
        by_cases hi : i = tmp
        · subst hi; rw [setNode_same]; rfl
        · rw [setNode_other _ _ hi]
      have hl1 : IsList ctx.pow2 (setNode s.m tmp (improvedNode cur s.m d tmp)) s.list l :=
        IsList.congr (fun i _ => hnext i) hl
      by_cases hf : (s.m tmp).fscore ≠ 0
      · have hmem : tmp ∈ l := (ho tmp).mpr ⟨hlt, hv, hf⟩
        obtain ⟨a, b, hab⟩ := List.append_of_mem hmem
        rw [hab] at hl1
        obtain ⟨m2, list1, hadv, hl2⟩ := advance_node_spec ctx _ tmp s.list a b hl1
        refine ⟨⟨m2, list1, s.size⟩, _, ?_, hl2, tmp, hlt, hfg, Or.inr (Or.inl
          ⟨hv, hcoord, hlt2, hfe, advance_node_sameData ctx _ _ _ _ _ hadv, rfl,
            Or.inl ⟨hf, a, b, hab, rfl⟩⟩)⟩
        rw [relax_unfold, hfind]
        dsimp only
        rw [if_neg (not_not.mpr hv), if_pos hlt2, if_pos hf, hadv]
      · have hf0 : (s.m tmp).fscore = 0 := not_not.mp hf
        have hnm : tmp ∉ l := fun h => ((ho tmp).mp h).2.2 hf0
        obtain ⟨m2, list1, hins, hl2⟩ := insert_node_spec ctx _ tmp s.list l hlt hl1 hnm
        refine ⟨⟨m2, list1, s.size⟩, _, ?_, hl2, tmp, hlt, hfg, Or.inr (Or.inl
          ⟨hv, hcoord, hlt2, hfe, insert_node_sameData ctx _ _ _ _ _ hins, rfl,
            Or.inr ⟨hf0, rfl⟩⟩)⟩
        rw [relax_unfold, hfind]
        dsimp only
        rw [if_neg (not_not.mpr hv), if_pos hlt2, if_neg hf, hins]
    · -- unchanged
      refine ⟨s, l, ?_, hl, tmp, hlt, hfg, Or.inr (Or.inr ⟨hv, hcoord, hlt2, rfl, rfl⟩)⟩
      rw [relax_unfold, hfind]
      dsimp only
      rw [if_neg (not_not.mpr hv), if_neg hlt2]
  · -- new node
    have hfe : (s.m cur).gscore + d.dist + d.estimate < 2 ^ 32 := by
      rw [if_pos (Or.inl hv), decide_eq_true_eq] at hff
      exact hff
    have hnm : tmp ∉ l := fun h => hv ((ho tmp).mp h).2.1
    have hl1 : IsList ctx.pow2 (setNode s.m tmp (newNode ctx cur s.m d tmp)) s.list l := by
      apply IsList.congr _ hl
      intro i hi
      have : i ≠ tmp := fun e => hnm (e ▸ hi)
      rw [setNode_other _ _ this]
    obtain ⟨m2, list1, hins, hl2⟩ := insert_node_spec ctx _ tmp s.list l hlt hl1 hnm
    refine ⟨⟨m2, list1, s.size + 1⟩, _, ?_, hl2, tmp, hlt, hfg, Or.inl
      ⟨hv, hfe, ⟨k, hk, htmp, hpre⟩, insert_node_sameData ctx _ _ _ _ _ hins, rfl, rfl⟩⟩
    rw [relax_unfold, hfind]
    dsimp only
    rw [if_pos hv, hins]

/-- In a table of at most `2^30` slots a relaxation whose sums do not overflow returns
while the table has a free slot and the open list is well formed. -/
theorem relax_total (ctx : context) (hp : ctx.pow2 ≤ 30) (cur : Nat) (s : search)
    (d : pathfinding_neighbor) (l : List Nat) (hcount : liveCount ctx s.m < cap ctx.pow2)
    (hl : IsList ctx.pow2 s.m s.list l) (ho : OpenOk ctx s.m l)
    (hfit : relax_fits ctx cur s d = true) :
    ∃ s1 l1, relax ctx cur s d = .ok s1 ∧ IsList ctx.pow2 s1.m s1.list l1 ∧
      RelaxStep ctx cur s d l s1 l1 := by
  obtain ⟨k, _, hfind, _, _⟩ := find_node_total ctx hp s.m d.pos hcount
  exact relax_of_find ctx cur s d l _ hfind hl ho hfit

/-- When a relaxation returns, `find_node` has returned a slot on the probe sequence of
the neighbour behind live slots with other coordinates, which holds the coordinate or is
not live. -/
theorem find_node_of_relax (ctx : context) (cur : Nat) (s s1 : search)
    (d : pathfinding_neighbor) (hr : relax ctx cur s d = .ok s1) :
    ∃ k, k < cap ctx.pow2 ∧ find_node ctx s.m d.pos = .ok (probe ctx d.pos k) ∧
      Probed ctx s.m d.pos k ∧
      ((s.m (probe ctx d.pos k)).coord = d.pos ∨
        (s.m (probe ctx d.pos k)).version ≠ ctx.version) := by
  cases hf : find_node ctx s.m d.pos with
  | error e =>
    rw [relax_of_find_error ctx cur s d e hf] at hr
    exact absurd hr (by simp)
  | ok tmp =>
    obtain ⟨k, hk, rfl, hpre, hstop⟩ := find_node_sound ctx s.m d.pos tmp hf
    exact ⟨k, hk, rfl, hpre, hstop⟩

/-- A relaxation that returns and whose sums do not overflow acts on the slot array and
the open list as `RelaxStep` says. -/
theorem relax_sound (ctx : context) (cur : Nat) (s : search)
    (d : pathfinding_neighbor) (l : List Nat) (hret : ∃ r, relax ctx cur s d = .ok r)
    (hl : IsList ctx.pow2 s.m s.list l) (ho : OpenOk ctx s.m l)
    (hfit : relax_fits ctx cur s d = true) :
    ∃ s1 l1, relax ctx cur s d = .ok s1 ∧ IsList ctx.pow2 s1.m s1.list l1 ∧
      RelaxStep ctx cur s d l s1 l1 := by
  obtain ⟨r, hr⟩ := hret
  cases hf : find_node ctx s.m d.pos with
  | error e =>
    rw [relax_of_find_error ctx cur s d e hf] at hr
    exact absurd hr (by simp)
  | ok tmp => exact relax_of_find ctx cur s d l tmp hf hl ho hfit

/-! ## Consequences of one relaxation -/

theorem setNode_improved_version (cur : Nat) (m : Mem) (d : pathfinding_neighbor) (tmp i : Nat) :
    (setNode m tmp (improvedNode cur m d tmp) i).version = (m i).version := by
  by_cases hi : i = tmp
  · subst hi; rw [setNode_same]; rfl
  · rw [setNode_other _ _ hi]

theorem setNode_improved_coord (cur : Nat) (m : Mem) (d : pathfinding_neighbor) (tmp i : Nat) :
    (setNode m tmp (improvedNode cur m d tmp) i).coord = (m i).coord := by
  by_cases hi : i = tmp
  · subst hi; rw [setNode_same]; rfl
  · rw [setNode_other _ _ hi]

theorem RelaxStep.size_le {ctx : context} {cur : Nat} {s s1 : search}
    {d : pathfinding_neighbor} {l l1 : List Nat} (h : RelaxStep ctx cur s d l s1 l1) :
    s1.size ≤ s.size + 1 := by
  obtain ⟨tmp, _, _, h | h | h⟩ := h
  · omega
  · omega
  · rw [h.2.2.2.1]; omega

/-- A relaxation keeps the version and the coordinate of the live slots and does not
raise their `gscore`. -/
theorem RelaxStep.keys {ctx : context} {cur : Nat} {s s1 : search}
    {d : pathfinding_neighbor} {l l1 : List Nat} (h : RelaxStep ctx cur s d l s1 l1)
    (i : Nat) (hi : (s.m i).version = ctx.version) :
    (s1.m i).version = ctx.version ∧ (s1.m i).coord = (s.m i).coord ∧
      (s1.m i).gscore ≤ (s.m i).gscore := by
  obtain ⟨tmp, _, _, h | h | h⟩ := h
  · obtain ⟨hv, _, _, hsd, _, _⟩ := h
    have hne : i ≠ tmp := fun e => hv (e ▸ hi)
    rw [hsd.version, hsd.coord, hsd.gscore, setNode_other _ _ hne]
    exact ⟨hi, rfl, le_refl _⟩
  · obtain ⟨_, _, hlt, _, hsd, _, _⟩ := h
    rw [hsd.version, hsd.coord, hsd.gscore, setNode_improved_version,
      setNode_improved_coord]
    refine ⟨hi, rfl, ?_⟩
    by_cases hit : i = tmp
    · subst hit
      rw [setNode_same]
      exact hlt.le
    · rw [setNode_other _ _ hit]
  · rw [h.2.2.2.1]
    exact ⟨hi, rfl, le_refl _⟩

/-- A relaxation keeps the invariant on the stamped slots. -/
theorem RelaxStep.treeInv {ctx : context} {nb : Nat → List pathfinding_neighbor}
    {start : Nat} {cur : Nat} {s s1 : search} {d : pathfinding_neighbor}
    {l l1 : List Nat} (h : RelaxStep ctx cur s d l s1 l1) (ht : TreeInv ctx nb start s)
    (hc : Contract ctx.pow2 nb) (hcur : cur < cap ctx.pow2)
    (hlive : (s.m cur).version = ctx.version) (hd : d ∈ nb (s.m cur).coord) :
    TreeInv ctx nb start s1 := by
  obtain ⟨m1, list1, size1⟩ := s1
  obtain ⟨tmp, _, hfg, h | h | h⟩ := h
  · obtain ⟨hv, _, ⟨k, hk, rfl, hpre⟩, hsd, _, hsz⟩ := h
    simp only at hsd hsz
    subst hsz
    exact (ht.stamp hc hcur hlive hd hfg hk hpre hv list1).congr_next hsd list1
  · obtain ⟨_, hcoord, hlt, _, hsd, hsz, _⟩ := h
    simp only at hsd hsz
    subst hsz
    exact (ht.improve hc hcur hlive hd hfg hcoord hlt list1).congr_next hsd list1
  · rw [h.2.2.2.1]
    exact ht

/-- The `fscore` written by a relaxation whose sums do not overflow is not 0. -/
theorem fscore_pos {g dist est : Nat} (hd : 1 ≤ dist) (hfe : g + dist + est < 2 ^ 32) :
    (g + dist) % 2 ^ 32 = g + dist ∧
      ((g + dist) % 2 ^ 32 + est) % 2 ^ 32 = g + dist + est ∧
      ((g + dist) % 2 ^ 32 + est) % 2 ^ 32 ≠ 0 := by
  have h1 : (g + dist) % 2 ^ 32 = g + dist := Nat.mod_eq_of_lt (by omega)
  have h3 : (g + dist + est) % 2 ^ 32 = g + dist + est := Nat.mod_eq_of_lt hfe
  rw [h1, h3]
  exact ⟨rfl, rfl, by omega⟩

/-- A relaxation keeps the open list the list of the live slots with `fscore` not 0. -/
theorem RelaxStep.openOk {ctx : context} {nb : Nat → List pathfinding_neighbor}
    {cur : Nat} {s s1 : search} {d : pathfinding_neighbor}
    {l l1 : List Nat} (h : RelaxStep ctx cur s d l s1 l1)
    (hc : Contract ctx.pow2 nb) (hd : d ∈ nb (s.m cur).coord) (ho : OpenOk ctx s.m l) :
    OpenOk ctx s1.m l1 := by
  have hd1 := hc.dist_pos _ d hd
  obtain ⟨tmp, htmp, _, h | h | h⟩ := h
  · obtain ⟨hv, hfe, _, hsd, hl1, _⟩ := h
    have hfp := (fscore_pos hd1 hfe).2.2
    intro i
    rw [hl1, mem_placeByFscore, hsd.version, hsd.fscore]
    by_cases hi : i = tmp
    · subst hi
      rw [setNode_same]
      simp only [true_or, true_iff]
      exact ⟨htmp, rfl, hfp⟩
    · rw [setNode_other _ _ hi]
      simp only [hi, false_or]
      exact ho i
  · obtain ⟨hv, _, _, hfe, hsd, _, hcase⟩ := h
    have hfp := (fscore_pos hd1 hfe).2.2
    have key : ∀ i, (i = tmp ∨ i ∈ l) ↔ (i < cap ctx.pow2 ∧
        (s1.m i).version = ctx.version ∧ (s1.m i).fscore ≠ 0) := by
      intro i
      rw [hsd.version, hsd.fscore, setNode_improved_version]
      by_cases hi : i = tmp
      · subst hi
        rw [setNode_same]
        simp only [true_or, true_iff]
        exact ⟨htmp, hv, hfp⟩
      · rw [setNode_other _ _ hi]
        simp only [hi, false_or]
        exact ho i
    intro i
    rcases hcase with ⟨_, a, b, hab, hl1⟩ | ⟨_, hl1⟩
    · rw [← key i, hl1, hab]
      simp only [List.mem_append, mem_placeByFscore, List.mem_cons]
      tauto
    · rw [← key i, hl1, mem_placeByFscore]
  · rw [h.2.2.2.1, h.2.2.2.2]
    exact ho

/-! ## The order of the open list -/

theorem SortedByFscore.congr_fscore {m m1 : Mem} {l : List Nat}
    (hf : ∀ i, i ∈ l → (m1 i).fscore = (m i).fscore) (h : SortedByFscore m l) :
    SortedByFscore m1 l := by
  unfold SortedByFscore at h ⊢
  apply List.Pairwise.imp_of_mem _ h
  intro a b ha hb hab
  rw [hf a ha, hf b hb]
  exact hab

theorem placeByFscore_sorted_append (m : Mem) (x : Nat) :
    ∀ (a b : List Nat), SortedByFscore m (a ++ b) →
      (∀ y, y ∈ b → (m x).fscore ≤ (m y).fscore) →
      SortedByFscore m (placeByFscore m x a ++ b) := by
  intro a
  induction a with
  | nil =>
    intro b hs hb
    show List.Pairwise _ (x :: b)
    exact List.pairwise_cons.mpr ⟨hb, hs⟩
  | cons i a ih =>
    intro b hs hb
    have hs' : List.Pairwise (fun a b => (m a).fscore ≤ (m b).fscore) (i :: (a ++ b)) := hs
    obtain ⟨hi, hrest⟩ := List.pairwise_cons.mp hs'
    unfold placeByFscore
    split_ifs with hle
    · show List.Pairwise _ (x :: (i :: a ++ b))
      refine List.pairwise_cons.mpr ⟨?_, hs⟩
      intro y hy
      rcases List.mem_cons.mp hy with rfl | hy
      · exact hle
      · exact le_trans hle (hi y hy)
    · show List.Pairwise _ (i :: (placeByFscore m x a ++ b))
      refine List.pairwise_cons.mpr ⟨?_, ih b hrest hb⟩
      intro y hy
      rcases List.mem_append.mp hy with hy | hy
      · rcases (mem_placeByFscore m x a y).mp hy with rfl | hy
        · omega
        · exact hi y (List.mem_append_left _ hy)
      · exact hi y (List.mem_append_right _ hy)

theorem placeByFscore_sorted (m : Mem) (x : Nat) (l : List Nat) (hs : SortedByFscore m l) :
    SortedByFscore m (placeByFscore m x l) := by
  have := placeByFscore_sorted_append m x l [] (by simpa using hs) (by simp)
  simpa using this

/-- The head of a sorted open list has the least `fscore`. -/
theorem SortedByFscore.head_le {m : Mem} {i : Nat} {l : List Nat}
    (h : SortedByFscore m (i :: l)) (y : Nat) (hy : y ∈ i :: l) :
    (m i).fscore ≤ (m y).fscore := by
  rcases List.mem_cons.mp hy with rfl | hy
  · exact le_refl _
  · exact (List.pairwise_cons.mp h).1 y hy

/-- A relaxation keeps the open list ordered when the estimate is a function of the
coordinate. -/
theorem RelaxStep.ordered {ctx : context} {nb : Nat → List pathfinding_neighbor}
    {h : Nat → Nat} {cur : Nat} {s s1 : search} {d : pathfinding_neighbor}
    {l l1 : List Nat} (hr : RelaxStep ctx cur s d l s1 l1)
    (hc : Contract ctx.pow2 nb) (hd : d ∈ nb (s.m cur).coord) (ho : OpenOk ctx s.m l)
    (hnd : l.Nodup) (hest : EstFn nb h) (hord : Ordered h s.m l) : Ordered h s1.m l1 := by
  have hd1 := hc.dist_pos _ d hd
  have he := hest _ d hd
  obtain ⟨hsort, hfeq⟩ := hord
  obtain ⟨tmp, htmp, _, hcase | hcase | hcase⟩ := hr
  · -- new node
    obtain ⟨hv, hfe, _, hsd, hl1, _⟩ := hcase
    obtain ⟨hg1, hf1, _⟩ := fscore_pos hd1 hfe
    rw [hg1, he] at hf1
    have hnm : tmp ∉ l := fun hm => hv ((ho tmp).mp hm).2.1
    have hsame : ∀ i, i ∈ l → setNode s.m tmp (newNode ctx cur s.m d tmp) i = s.m i := by
      intro i hi
      exact setNode_other _ _ (fun e => hnm (e ▸ hi))
    have hs1 : SortedByFscore (setNode s.m tmp (newNode ctx cur s.m d tmp)) l :=
      hsort.congr_fscore (fun i hi => by rw [hsame i hi])
    refine ⟨?_, ?_⟩
    · rw [hl1]
      exact (placeByFscore_sorted _ tmp l hs1).congr_fscore (fun i _ => hsd.fscore i)
    · intro i hi
      rw [hl1, mem_placeByFscore] at hi
      rw [hsd.fscore, hsd.gscore, hsd.coord]
      rcases hi with rfl | hi
      · rw [setNode_same]
        simp only [newNode, hg1, he, hf1]
      · rw [hsame i hi]
        exact hfeq i hi
  · -- improved node
    obtain ⟨hv, hcoord, hlt, hfe, hsd, _, hopen⟩ := hcase
    obtain ⟨hg1, hf1, _⟩ := fscore_pos hd1 hfe
    rw [hg1, he] at hf1
    have hother : ∀ i, i ≠ tmp → setNode s.m tmp (improvedNode cur s.m d tmp) i = s.m i :=
      fun i hi => setNode_other _ _ hi
    have htmp_eq : (setNode s.m tmp (improvedNode cur s.m d tmp) tmp).fscore =
        (setNode s.m tmp (improvedNode cur s.m d tmp) tmp).gscore +
          h (setNode s.m tmp (improvedNode cur s.m d tmp) tmp).coord := by
      rw [setNode_same]
      simp only [improvedNode, hg1, he, hf1, hcoord]
    have hfeq1 : ∀ i, i = tmp ∨ i ∈ l → (s1.m i).fscore = (s1.m i).gscore + h (s1.m i).coord := by
      intro i hi
      rw [hsd.fscore, hsd.gscore, hsd.coord]
      by_cases hit : i = tmp
      · rw [hit]; exact htmp_eq
      · rw [hother i hit]
        rcases hi with hi | hi
        · exact absurd hi hit
        · exact hfeq i hi
    rcases hopen with ⟨hfne, a, b, hab, hl1⟩ | ⟨hf0, hl1⟩
    · subst hab
      have hnd' := List.nodup_append.mp hnd
      have hta : tmp ∉ a := fun hm => hnd'.2.2 hm (List.mem_cons_self _ _)
      have htb : tmp ∉ b := (List.nodup_cons.mp hnd'.2.1).1
      have hsort' : List.Pairwise (fun a b => (s.m a).fscore ≤ (s.m b).fscore)
          (a ++ tmp :: b) := hsort
      have hsub : SortedByFscore s.m (a ++ b) := by
        apply List.Pairwise.sublist _ hsort'
        exact List.Sublist.append_left (List.sublist_cons_self tmp b) a
      have hb_ge : ∀ y, y ∈ b → (s.m tmp).fscore ≤ (s.m y).fscore := by
        intro y hy
        have := (List.pairwise_append.mp hsort').2.1
        exact (List.pairwise_cons.mp this).1 y hy
      have hs1 : SortedByFscore (setNode s.m tmp (improvedNode cur s.m d tmp)) (a ++ b) := by
        apply hsub.congr_fscore
        intro i hi
        have : i ≠ tmp := by
          intro e
          rcases List.mem_append.mp hi with hi | hi
          · exact hta (e ▸ hi)
          · exact htb (e ▸ hi)
        rw [hother i this]
      have hold := hfeq tmp (by simp)
      have hb1 : ∀ y, y ∈ b → (setNode s.m tmp (improvedNode cur s.m d tmp) tmp).fscore ≤
          (setNode s.m tmp (improvedNode cur s.m d tmp) y).fscore := by
        intro y hy
        have hyt : y ≠ tmp := fun e => htb (e ▸ hy)
        rw [hother y hyt, setNode_same]
        have := hb_ge y hy
        simp only [improvedNode, hg1, he, hf1]
        rw [hg1] at hlt
        rw [hcoord] at hold
        omega
      refine ⟨?_, ?_⟩
      · rw [hl1]
        exact (placeByFscore_sorted_append _ tmp a b hs1 hb1).congr_fscore (fun i _ => hsd.fscore i)
      · intro i hi
        apply hfeq1
        rw [hl1] at hi
        simp only [List.mem_append, mem_placeByFscore, List.mem_cons] at hi ⊢
        tauto
    · have hnm : tmp ∉ l := fun hm => ((ho tmp).mp hm).2.2 hf0
      have hs1 : SortedByFscore (setNode s.m tmp (improvedNode cur s.m d tmp)) l :=
        hsort.congr_fscore (fun i hi => by rw [hother i (fun e => hnm (e ▸ hi))])
      refine ⟨?_, ?_⟩
      · rw [hl1]
        exact (placeByFscore_sorted _ tmp l hs1).congr_fscore (fun i _ => hsd.fscore i)
      · intro i hi
        apply hfeq1
        rw [hl1, mem_placeByFscore] at hi
        exact hi
  · rw [hcase.2.2.2.1, hcase.2.2.2.2]
    exact ⟨hsort, hfeq⟩

/-- The place `placeByFscore` chooses in a sorted list: behind the entries with a
smaller `fscore`, in front of those with an equal or larger one. -/
theorem placeByFscore_split (m : Mem) (x : Nat) :
    ∀ (l : List Nat), SortedByFscore m l →
      ∃ l1 l2, l = l1 ++ l2 ∧ placeByFscore m x l = l1 ++ x :: l2 ∧
        (∀ i, i ∈ l1 → (m i).fscore < (m x).fscore) ∧
        (∀ i, i ∈ l2 → (m x).fscore ≤ (m i).fscore) := by
  intro l
  induction l with
  | nil =>
    intro _
    exact ⟨[], [], rfl, rfl, by simp, by simp⟩
  | cons j l ih =>
    intro hs
    obtain ⟨hj, hrest⟩ := List.pairwise_cons.mp hs
    unfold placeByFscore
    split_ifs with hle
    · refine ⟨[], j :: l, rfl, rfl, by simp, ?_⟩
      intro i hi
      rcases List.mem_cons.mp hi with rfl | hi
      · exact hle
      · exact le_trans hle (hj i hi)
    · obtain ⟨l1, l2, h1, h2, h3, h4⟩ := ih hrest
      refine ⟨j :: l1, l2, by rw [h1]; rfl, by rw [h2]; rfl, ?_, h4⟩
      intro i hi
      rcases List.mem_cons.mp hi with rfl | hi
      · omega
      · exact h3 i hi

/-! ## The closed slots -/

/-- After a relaxation the coordinate of the entry holds a live slot whose `gscore` is at
most the tentative score. -/
theorem RelaxStep.target {ctx : context} {cur : Nat} {s s1 : search}
    {d : pathfinding_neighbor} {l l1 : List Nat} (hr : RelaxStep ctx cur s d l s1 l1) :
    ∃ j, j < cap ctx.pow2 ∧ (s1.m j).version = ctx.version ∧ (s1.m j).coord = d.pos ∧
      (s1.m j).gscore ≤ ((s.m cur).gscore + d.dist) % 2 ^ 32 := by
  obtain ⟨tmp, htmp, _, hcase | hcase | hcase⟩ := hr
  · obtain ⟨_, _, _, hsd, _, _⟩ := hcase
    refine ⟨tmp, htmp, ?_, ?_, ?_⟩
    · rw [hsd.version, setNode_same]; rfl
    · rw [hsd.coord, setNode_same]; rfl
    · rw [hsd.gscore, setNode_same]; exact le_refl _
  · obtain ⟨hv, hcoord, _, _, hsd, _, _⟩ := hcase
    refine ⟨tmp, htmp, ?_, ?_, ?_⟩
    · rw [hsd.version, setNode_improved_version]; exact hv
    · rw [hsd.coord, setNode_improved_coord]; exact hcoord
    · rw [hsd.gscore, setNode_same]; exact le_refl _
  · obtain ⟨hv, hcoord, hnlt, hs, _⟩ := hcase
    rw [hs]
    exact ⟨tmp, htmp, hv, hcoord, not_lt.mp hnlt⟩

/-- A slot that is closed after a relaxation was closed before it, with the same
coordinate and `gscore`. -/
theorem RelaxStep.closed_before {ctx : context} {nb : Nat → List pathfinding_neighbor}
    {cur : Nat} {s s1 : search} {d : pathfinding_neighbor}
    {l l1 : List Nat} (hr : RelaxStep ctx cur s d l s1 l1)
    (hc : Contract ctx.pow2 nb) (hd : d ∈ nb (s.m cur).coord) (i : Nat)
    (hv1 : (s1.m i).version = ctx.version) (hf1 : (s1.m i).fscore = 0) :
    (s.m i).version = ctx.version ∧ (s.m i).fscore = 0 ∧ (s1.m i).coord = (s.m i).coord ∧
      (s1.m i).gscore = (s.m i).gscore := by
  have hd1 := hc.dist_pos _ d hd
  obtain ⟨tmp, htmp, _, hcase | hcase | hcase⟩ := hr
  · obtain ⟨_, hfe, _, hsd, _, _⟩ := hcase
    have hfp := (fscore_pos hd1 hfe).2.2
    rw [hsd.version] at hv1
    rw [hsd.fscore] at hf1
    rw [hsd.coord, hsd.gscore]
    have hne : i ≠ tmp := by
      intro e
      rw [e, setNode_same] at hf1
      exact hfp hf1
    rw [setNode_other _ _ hne] at hv1 hf1 ⊢
    exact ⟨hv1, hf1, rfl, rfl⟩
  · obtain ⟨_, _, _, hfe, hsd, _, _⟩ := hcase
    have hfp := (fscore_pos hd1 hfe).2.2
    rw [hsd.version] at hv1
    rw [hsd.fscore] at hf1
    rw [hsd.coord, hsd.gscore]
    have hne : i ≠ tmp := by
      intro e
      rw [e, setNode_same] at hf1
      exact hfp hf1
    rw [setNode_other _ _ hne] at hv1 hf1 ⊢
    exact ⟨hv1, hf1, rfl, rfl⟩
  · rw [hcase.2.2.2.1] at hv1 hf1 ⊢
    exact ⟨hv1, hf1, rfl, rfl⟩

/-- A relaxation keeps the invariant of the closed slots and adds the relaxed edge to
the edges done for the slot being expanded. -/
theorem RelaxStep.closed {ctx : context} {nb : Nat → List pathfinding_neighbor}
    {goal : Nat} {cur : Nat} {s s1 : search} {d : pathfinding_neighbor}
    {l l1 : List Nat} {done : List pathfinding_neighbor}
    (hr : RelaxStep ctx cur s d l s1 l1)
    (hc : Contract ctx.pow2 nb) (hd : d ∈ nb (s.m cur).coord)
    (hcl : ClosedInv ctx nb goal s.m cur done) :
    ClosedInv ctx nb goal s1.m cur (done ++ [d]) := by
  intro i hi hv1 hf1
  obtain ⟨hv, hf, hco, hg⟩ := hr.closed_before hc hd i hv1 hf1
  obtain ⟨h1, h2, h3⟩ := hcl i hi hv hf
  have hmono : ∀ e, Reached ctx s.m i e → Reached ctx s1.m i e := by
    intro e ⟨j, hj, hjv, hjc, hjg⟩
    obtain ⟨k1, k2, k3⟩ := hr.keys j hjv
    exact ⟨j, hj, k1, by rw [k2]; exact hjc, by rw [hg]; omega⟩
  refine ⟨by rw [hco]; exact h1, ?_, ?_⟩
  · intro hne e he
    rw [hco] at he
    exact hmono e (h2 hne e he)
  · intro hic e he
    rcases List.mem_append.mp he with he | he
    · exact hmono e (h3 hic e he)
    · have hed : e = d := by simpa using he
      subst hed
      obtain ⟨j, hj, hjv, hjc, hjg⟩ := hr.target
      refine ⟨j, hj, hjv, hjc, ?_⟩
      rw [hg, hic]
      exact le_trans hjg (Nat.mod_le _ _)

/-! ## The relaxations of one expansion -/

theorem RelaxStep.size_ge {ctx : context} {cur : Nat} {s s1 : search}
    {d : pathfinding_neighbor} {l l1 : List Nat} (h : RelaxStep ctx cur s d l s1 l1) :
    s.size ≤ s1.size := by
  obtain ⟨tmp, _, _, h | h | h⟩ := h
  · omega
  · omega
  · rw [h.2.2.2.1]

theorem placeByFscore_ne_nil (m : Mem) (x : Nat) (l : List Nat) : placeByFscore m x l ≠ [] := by
  cases l with
  | nil => simp [placeByFscore]
  | cons i l =>
    unfold placeByFscore
    split_ifs <;> simp

/-- A relaxation does not empty the open list, and it leaves a list with an entry
when it stamps a slot. -/
theorem RelaxStep.ne_nil {ctx : context} {cur : Nat} {s s1 : search}
    {d : pathfinding_neighbor} {l l1 : List Nat} (h : RelaxStep ctx cur s d l s1 l1)
    (hl : l ≠ [] ∨ s.size < s1.size) : l1 ≠ [] := by
  obtain ⟨tmp, _, _, h | h | h⟩ := h
  · rw [h.2.2.2.2.1]
    exact placeByFscore_ne_nil _ _ _
  · obtain ⟨_, _, _, _, _, _, ⟨_, a, b, _, hl1⟩ | ⟨_, hl1⟩⟩ := h
    · rw [hl1]
      intro e
      exact placeByFscore_ne_nil _ _ _ (List.append_eq_nil.mp e).1
    · rw [hl1]
      exact placeByFscore_ne_nil _ _ _
  · obtain ⟨_, _, _, hs, hl1⟩ := h
    rw [hl1]
    rcases hl with hl | hl
    · exact hl
    · rw [hs] at hl
      exact absurd hl (lt_irrefl _)

/-- One relaxation that returns keeps the invariant of the expansion. -/
theorem relax_inv {ctx : context} {nb : Nat → List pathfinding_neighbor}
    {start goal : Nat} {h : Nat → Nat} {cur cpos : Nat}
    {done : List pathfinding_neighbor} {s : search} {l : List Nat}
    (hc : Contract ctx.pow2 nb) (hinv : MidInv ctx nb start goal h cur cpos done s l)
    (d : pathfinding_neighbor) (hd : d ∈ nb cpos) (hret : ∃ r, relax ctx cur s d = .ok r)
    (hfit : relax_fits ctx cur s d = true) :
    ∃ s1 l1, relax ctx cur s d = .ok s1 ∧
      MidInv ctx nb start goal h cur cpos (done ++ [d]) s1 l1 ∧
      s.size ≤ s1.size ∧ s1.size ≤ s.size + 1 ∧ (l ≠ [] ∨ s.size < s1.size → l1 ≠ []) := by
  obtain ⟨s1, l1, hrel, hchain, hstep⟩ := relax_sound ctx cur s d l hret
    hinv.chain hinv.openOk hfit
  have hd' : d ∈ nb (s.m cur).coord := by rw [hinv.cur_coord]; exact hd
  have hkeys := hstep.keys cur hinv.cur_live
  refine ⟨s1, l1, hrel, ⟨?_, hinv.cur_lt, hkeys.1, by rw [hkeys.2.1]; exact hinv.cur_coord,
    hchain, ?_, ?_, ?_⟩, hstep.size_ge, hstep.size_le, hstep.ne_nil⟩
  · exact hstep.treeInv hinv.tree hc hinv.cur_lt hinv.cur_live hd'
  · exact hstep.openOk hc hd' hinv.openOk
  · intro hest
    exact hstep.ordered hc hd' hinv.openOk hinv.chain.nodup hest (hinv.ordered hest)
  · exact hstep.closed hc hd' hinv.closed

/-- A relaxation of an expansion returns when the relaxations of the expansion do. -/
theorem relax_of_relax_all (ctx : context) (cur : Nat) (d : pathfinding_neighbor)
    (ds : List pathfinding_neighbor) (s : search)
    (hret : ∃ r, relax_all ctx cur (d :: ds) s = .ok r) : ∃ r, relax ctx cur s d = .ok r := by
  obtain ⟨r, hr⟩ := hret
  unfold relax_all at hr
  cases hx : relax ctx cur s d with
  | error e =>
    rw [hx] at hr
    exact absurd hr (by simp)
  | ok s1 => exact ⟨s1, rfl⟩

/-- The relaxations of an expansion, when they return, keep its invariant. -/
theorem relax_all_inv {ctx : context} {nb : Nat → List pathfinding_neighbor}
    {start goal : Nat} {h : Nat → Nat} {cur cpos : Nat}
    (hc : Contract ctx.pow2 nb) :
    ∀ (rem done : List pathfinding_neighbor) (s : search) (l : List Nat),
      MidInv ctx nb start goal h cur cpos done s l → (∀ d, d ∈ rem → d ∈ nb cpos) →
      (∃ r, relax_all ctx cur rem s = .ok r) →
      relax_all_fits ctx cur rem s = true →
      ∃ s1 l1, relax_all ctx cur rem s = .ok s1 ∧
        MidInv ctx nb start goal h cur cpos (done ++ rem) s1 l1 ∧
        s.size ≤ s1.size ∧ s1.size ≤ s.size + rem.length ∧
        (l ≠ [] ∨ s.size < s1.size → l1 ≠ []) := by
  intro rem
  induction rem with
  | nil =>
    intro done s l hinv _ _ _
    refine ⟨s, l, rfl, by simpa using hinv, le_refl _, by simp, ?_⟩
    intro hl
    rcases hl with hl | hl
    · exact hl
    · exact absurd hl (lt_irrefl _)
  | cons d rem ih =>
    intro done s l hinv hmem hret hfits
    have hlen : (d :: rem).length = rem.length + 1 := rfl
    unfold relax_all_fits at hfits
    rw [Bool.and_eq_true] at hfits
    obtain ⟨hfit, hrest⟩ := hfits
    obtain ⟨s1, l1, hrel, hinv1, hge1, hle1, hne1⟩ :=
      relax_inv hc hinv d (hmem d (List.mem_cons_self _ _))
        (relax_of_relax_all ctx cur d rem s hret) hfit
    rw [hrel] at hrest
    have hret1 : ∃ r, relax_all ctx cur rem s1 = .ok r := by
      obtain ⟨r, hr⟩ := hret
      unfold relax_all at hr
      rw [hrel] at hr
      exact ⟨r, hr⟩
    obtain ⟨s2, l2, hrel2, hinv2, hge2, hle2, hne2⟩ := ih (done ++ [d]) s1 l1 hinv1
      (fun e he => hmem e (List.mem_cons_of_mem _ he)) hret1 hrest
    refine ⟨s2, l2, ?_, by simpa using hinv2, by omega, by omega, ?_⟩
    · unfold relax_all
      rw [hrel]
      exact hrel2
    · intro hl
      apply hne2
      by_cases h1 : l1 = []
      · right
        have : ¬ (l ≠ [] ∨ s.size < s1.size) := fun hh => hne1 hh h1
        push_neg at this
        rcases hl with hl | hl
        · exact absurd this.1 hl
        · omega
      · exact Or.inl h1

/-! ## One expansion -/

theorem Reached.congr_data {ctx : context} {m m1 : Mem} {i : Nat} {e : pathfinding_neighbor}
    (hv : ∀ j, (m1 j).version = (m j).version) (hco : ∀ j, (m1 j).coord = (m j).coord)
    (hg : ∀ j, (m1 j).gscore = (m j).gscore) (h : Reached ctx m i e) : Reached ctx m1 i e := by
  obtain ⟨j, hj, hjv, hjc, hjg⟩ := h
  exact ⟨j, hj, by rw [hv]; exact hjv, by rw [hco]; exact hjc, by rw [hg, hg]; exact hjg⟩

/-- Closing the head of the open list and relaxing its neighbours leaves, when it
returns, the invariant of a complete expansion; at most 16 slots are stamped. -/
theorem expand_inv {ctx : context} {nb : Nat → List pathfinding_neighbor}
    {start goal : Nat} {h : Nat → Nat} {cur : Nat} {s : search} {l : List Nat}
    (hc : Contract ctx.pow2 nb) (hpre : PreExpand ctx nb start goal h cur s l)
    (hgoal : (s.m cur).coord ≠ goal)
    (hret : ∃ r, expand ctx cur (nb (s.m cur).coord) s = .ok r)
    (hfits : expand_fits ctx cur (nb (s.m cur).coord) s = true) :
    ∃ s1 l1, expand ctx cur (nb (s.m cur).coord) s = .ok s1 ∧
      PostExpand ctx nb start goal h s1 l1 ∧ s.size ≤ s1.size ∧ s1.size ≤ s.size + 16 ∧
      (l ≠ [] ∨ s.size < s1.size → l1 ≠ []) := by
  have hcur : cur < cap ctx.pow2 := hpre.chain.2.1
  have hv : ∀ i, (setNode s.m cur { s.m cur with fscore := 0 } i).version = (s.m i).version := by
    intro i
    by_cases hi : i = cur
    · subst hi; rw [setNode_same]
    · rw [setNode_other _ _ hi]
  have hco : ∀ i, (setNode s.m cur { s.m cur with fscore := 0 } i).coord = (s.m i).coord := by
    intro i
    by_cases hi : i = cur
    · subst hi; rw [setNode_same]
    · rw [setNode_other _ _ hi]
  have hg : ∀ i, (setNode s.m cur { s.m cur with fscore := 0 } i).gscore = (s.m i).gscore := by
    intro i
    by_cases hi : i = cur
    · subst hi; rw [setNode_same]
    · rw [setNode_other _ _ hi]
  have hcf : ∀ i, (setNode s.m cur { s.m cur with fscore := 0 } i).camefrom =
      (s.m i).camefrom := by
    intro i
    by_cases hi : i = cur
    · subst hi; rw [setNode_same]
    · rw [setNode_other _ _ hi]
  have hnx : ∀ i, (setNode s.m cur { s.m cur with fscore := 0 } i).next = (s.m i).next := by
    intro i
    by_cases hi : i = cur
    · subst hi; rw [setNode_same]
    · rw [setNode_other _ _ hi]
  have hfc : (setNode s.m cur { s.m cur with fscore := 0 } cur).fscore = 0 := by
    rw [setNode_same]
  have hfo : ∀ i, i ≠ cur →
      (setNode s.m cur { s.m cur with fscore := 0 } i).fscore = (s.m i).fscore := by
    intro i hi
    rw [setNode_other _ _ hi]
  have hcur_nin : cur ∉ l := fun hm => ((hpre.openOk cur).mp hm).2.2.2 rfl
  have hmid : MidInv ctx nb start goal h cur (s.m cur).coord []
      ⟨setNode s.m cur { s.m cur with fscore := 0 },
        (setNode s.m cur { s.m cur with fscore := 0 } cur).next, s.size⟩ l := by
    refine ⟨hpre.tree.congr_fields hv hco hg hcf _, hcur, ?_, ?_, ?_, ?_, ?_, ?_⟩
    · show (setNode _ _ _ _).version = _
      rw [hv]; exact hpre.cur_live
    · show (setNode _ _ _ _).coord = _
      rw [hco]
    · show IsList _ _ (setNode _ _ _ _).next l
      rw [hnx]
      exact IsList.congr (fun i _ => hnx i) hpre.chain.2.2
    · intro i
      show i ∈ l ↔ _ ∧ (setNode _ _ _ _).version = _ ∧ (setNode _ _ _ _).fscore ≠ 0
      rw [hpre.openOk i, hv]
      by_cases hi : i = cur
      · subst hi
        rw [hfc]
        simp
      · rw [hfo i hi]
        simp [hi]
    · intro hest
      obtain ⟨hs, hf⟩ := hpre.ordered hest
      refine ⟨hs.congr_fscore (fun i hi => hfo i (fun e => hcur_nin (e ▸ hi))), ?_⟩
      intro i hi
      show (setNode _ _ _ _).fscore = (setNode _ _ _ _).gscore + h (setNode _ _ _ _).coord
      rw [hfo i (fun e => hcur_nin (e ▸ hi)), hg, hco]
      exact hf i hi
    · intro i hi hvi hfi
      simp only [hv, hco] at hvi ⊢
      by_cases hic : i = cur
      · subst hic
        exact ⟨hgoal, fun hne => absurd rfl hne, fun _ e he => by simp at he⟩
      · rw [hfo i hic] at hfi
        obtain ⟨h1, h2⟩ := hpre.closed i hi hvi hfi hic
        exact ⟨h1, fun _ e he => (h2 e he).congr_data hv hco hg, fun hh => absurd hh hic⟩
  have hlen := hc.count (s.m cur).coord
  obtain ⟨s1, l1, hrel, hinv1, hge, hle, hne⟩ := relax_all_inv hc (nb (s.m cur).coord) [] _ l
    hmid (fun d hd => hd) hret hfits
  refine ⟨s1, l1, hrel, ⟨hinv1.tree, hinv1.chain, hinv1.openOk, hinv1.ordered, ?_⟩, hge,
    by simp only at hle; omega, hne⟩
  intro i hi hvi hfi
  obtain ⟨h1, h2, h3⟩ := hinv1.closed i hi hvi hfi
  refine ⟨h1, ?_⟩
  intro e he
  by_cases hic : i = cur
  · apply h3 hic e
    rw [hic, hinv1.cur_coord] at he
    simpa using he
  · exact h2 hic e he

/-! ## The loop of `astar` -/

theorem liveCount_zero (ctx : context) (m : Mem)
    (h : ∀ i, i < cap ctx.pow2 → (m i).version ≠ ctx.version) : liveCount ctx m = 0 := by
  unfold liveCount
  rw [Finset.card_eq_zero, Finset.filter_eq_empty_iff]
  intro i hi
  exact h i (Finset.mem_range.mp hi)

theorem seed_other (ctx : context) (m : Mem) (start : Nat) {i : Nat}
    (h : i ≠ hash ctx start) : (seed ctx m start).m i = m i :=
  setNode_other _ _ h

/-- The seeded start satisfies the invariant on the stamped slots. -/
theorem seed_treeInv (ctx : context) (nb : Nat → List pathfinding_neighbor) (start : Nat)
    (m : Mem) (hno : ∀ i, i < cap ctx.pow2 → (m i).version ≠ ctx.version) :
    TreeInv ctx nb start (seed ctx m start) := by
  have hs := hash_lt ctx start
  refine ⟨?_, ?_, ?_, ?_, ?_, ?_, ?_⟩
  · intro i hi hl
    by_cases hi0 : i = hash ctx start
    · subst hi0
      refine ⟨0, cap_pos _, ?_, fun j hj => absurd hj (Nat.not_lt_zero _)⟩
      simp [seed, setNode_same, probe_zero]
    · rw [seed_other ctx m start hi0] at hl
      exact absurd hl (hno i hi)
  · show liveCount ctx (setNode _ _ _) = 1
    rw [liveCount_stamp ctx m _ hs (hno _ hs) _ rfl, liveCount_zero ctx m hno]
  · simp [seed, setNode_same]
  · simp [seed, setNode_same]
  · simp [seed, setNode_same]
  · simp [seed, setNode_same]
  · intro i hi hl hne
    rw [seed_other ctx m start hne] at hl
    exact absurd hl (hno i hi)

/-- The seeded start is a state at the top of the loop. -/
theorem seed_preExpand (ctx : context) (nb : Nat → List pathfinding_neighbor)
    (start goal : Nat) (h : Nat → Nat) (m : Mem)
    (hno : ∀ i, i < cap ctx.pow2 → (m i).version ≠ ctx.version) :
    PreExpand ctx nb start goal h (hash ctx start) (seed ctx m start) [] := by
  have hs := hash_lt ctx start
  have honly : ∀ i, i < cap ctx.pow2 → ((seed ctx m start).m i).version = ctx.version →
      i = hash ctx start := by
    intro i hi hl
    by_contra hne
    rw [seed_other ctx m start hne] at hl
    exact hno i hi hl
  refine ⟨seed_treeInv ctx nb start m hno, Nat.one_le_two_pow, ⟨rfl, hs, ?_⟩, ?_, ?_, ?_, ?_⟩
  · show ((seed ctx m start).m _).next < 0
    simp [seed, setNode_same]
  · simp [seed, setNode_same]
  · intro i
    simp only [List.not_mem_nil, false_iff, not_and, not_not]
    intro hi hl _
    exact honly i hi hl
  · intro _
    exact ⟨List.Pairwise.nil, fun i hi => by simp at hi⟩
  · intro i hi hl _ hne
    exact absurd (honly i hi hl) hne

/-- A complete expansion whose open list has the head `cur` is a state at the top of
the loop. -/
theorem PostExpand.toPreExpand {ctx : context} {nb : Nat → List pathfinding_neighbor}
    {start goal : Nat} {h : Nat → Nat} {s : search} {cur : Nat} {l : List Nat}
    (hp : PostExpand ctx nb start goal h s (cur :: l)) (hsz : s.size ≤ 2 ^ (ctx.pow2 - 1)) :
    PreExpand ctx nb start goal h cur s l := by
  have hnd := hp.chain.nodup
  have hcur_nin : cur ∉ l := (List.nodup_cons.mp hnd).1
  have hcur := (hp.openOk cur).mp (List.mem_cons_self _ _)
  refine ⟨hp.tree, hsz, hp.chain, hcur.2.1, ?_, ?_, ?_⟩
  · intro i
    have := hp.openOk i
    rw [List.mem_cons] at this
    constructor
    · intro hi
      have hne : i ≠ cur := fun e => hcur_nin (e ▸ hi)
      have := this.mp (Or.inr hi)
      exact ⟨this.1, this.2.1, this.2.2, hne⟩
    · intro ⟨h1, h2, h3, h4⟩
      rcases this.mpr ⟨h1, h2, h3⟩ with e | hm
      · exact absurd e h4
      · exact hm
  · intro hest
    obtain ⟨hs, hf⟩ := hp.ordered hest
    exact ⟨(List.pairwise_cons.mp hs).2, fun i hi => hf i (List.mem_cons_of_mem _ hi)⟩
  · intro i hi hl hf _
    exact hp.closed i hi hl hf

/-- At the top of the loop, a head link that is a slot is the head of the open list. -/
theorem HeadInv.preExpand {ctx : context} {nb : Nat → List pathfinding_neighbor}
    {start goal : Nat} {h : Nat → Nat} {m0 : Mem} {s : search} {cur : Nat}
    (hh : HeadInv ctx nb start goal h m0 s)
    (hcur : slotIndex ctx.pow2 s.list = .ok cur) :
    ∃ l, PreExpand ctx nb start goal h cur s l := by
  obtain ⟨h0, hlist, _⟩ := slotIndex_ok hcur
  rcases hh with ⟨l, hp, hsz⟩ | ⟨hs, hno⟩
  · cases l with
    | nil =>
      have : s.list < 0 := hp.chain
      omega
    | cons c l =>
      have : s.list = (c : Int) := hp.chain.1
      have e : c = cur := by omega
      subst e
      exact ⟨l, hp.toPreExpand hsz⟩
  · subst hs
    have : cur = hash ctx start := by
      have : ((hash ctx start : Nat) : Int) = (cur : Int) := hlist
      omega
    subst this
    exact ⟨[], seed_preExpand ctx nb start goal h m0 hno⟩

/-- After a complete expansion, every walk to the goal from the coordinate of a live
slot meets the open list: some open slot has an `fscore` of at most the slot's
`gscore` plus the weight of the walk. -/
theorem PostExpand.open_on_walk {ctx : context} {nb : Nat → List pathfinding_neighbor}
    {start goal : Nat} {h : Nat → Nat} {s : search} {l : List Nat}
    (hp : PostExpand ctx nb start goal h s l) (hest : EstFn nb h)
    (hadm : Admissible nb goal h) {u c : Nat} {p : List Nat} (hw : Walk nb u goal p c) :
    ∀ i, i < cap ctx.pow2 → (s.m i).version = ctx.version → (s.m i).coord = u →
      ∃ o, o ∈ l ∧ (s.m o).fscore ≤ (s.m i).gscore + c := by
  induction hw with
  | nil u =>
    intro i hi hv hco
    obtain ⟨_, hfeq⟩ := hp.ordered hest
    have hf : (s.m i).fscore ≠ 0 := by
      intro hf0
      exact (hp.closed i hi hv hf0).1 hco
    have hmem : i ∈ l := (hp.openOk i).mpr ⟨hi, hv, hf⟩
    refine ⟨i, hmem, ?_⟩
    rw [hfeq i hmem, hco]
    have := hadm u _ 0 (Walk.nil u)
    omega
  | @cons u v c p e he hw ih =>
    intro i hi hv hco
    obtain ⟨_, hfeq⟩ := hp.ordered hest
    by_cases hf : (s.m i).fscore = 0
    · obtain ⟨_, hreach⟩ := hp.closed i hi hv hf
      obtain ⟨j, hj, hjv, hjc, hjg⟩ := hreach e (by rw [hco]; exact he)
      obtain ⟨o, ho, hof⟩ := ih hp hadm j hj hjv hjc
      exact ⟨o, ho, by omega⟩
    · have hmem : i ∈ l := (hp.openOk i).mpr ⟨hi, hv, hf⟩
      refine ⟨i, hmem, ?_⟩
      rw [hfeq i hmem, hco]
      have := hadm u _ (e.dist + c) (Walk.cons e he hw)
      omega

/-- The guarantee of `astar` when it returns the head of the open list after a
complete expansion. -/
theorem PostExpand.toPost {ctx : context} {nb : Nat → List pathfinding_neighbor}
    {start goal : Nat} {h : Nat → Nat} {s : search} {n : Nat} {l : List Nat}
    (hp : PostExpand ctx nb start goal h s (n :: l))
    (hsz : (s.m n).coord ≠ goal → 2 ^ (ctx.pow2 - 1) < s.size) :
    AstarPost ctx nb start goal h s.list s.m := by
  have hn := (hp.openOk n).mp (List.mem_cons_self _ _)
  have hlist : s.list = (n : Int) := hp.chain.1
  right
  refine ⟨n, s.size, hlist, hn.1, hp.tree, hn.2.1, ?_, ?_⟩
  · intro hne
    refine ⟨hsz hne, hn.2.2, ?_⟩
    intro hest i hi hv hf
    have hmem : i ∈ n :: l := (hp.openOk i).mpr ⟨hi, hv, hf⟩
    exact (hp.ordered hest).1.head_le i hmem
  · intro hgoal hest hadm p c hw
    obtain ⟨o, ho, hof⟩ := hp.open_on_walk hest hadm hw (hash ctx start) (hash_lt ctx start)
      hp.tree.start_live hp.tree.start_coord
    rw [hp.tree.start_gscore] at hof
    have h1 := (hp.ordered hest).1.head_le o ho
    have h2 := (hp.ordered hest).2 n (List.mem_cons_self _ _)
    omega

/-- The guarantee of `astar` when it returns the head of the open list at the top of
the loop because the head holds the goal. -/
theorem HeadInv.post {ctx : context} {nb : Nat → List pathfinding_neighbor}
    {start goal : Nat} {h : Nat → Nat} {m0 : Mem} {s : search} {cur : Nat}
    (hh : HeadInv ctx nb start goal h m0 s)
    (hcur : slotIndex ctx.pow2 s.list = .ok cur) (hgoal : (s.m cur).coord = goal) :
    AstarPost ctx nb start goal h s.list s.m := by
  obtain ⟨h0, hlist, hlt⟩ := slotIndex_ok hcur
  rcases hh with ⟨l, hp, hsz⟩ | ⟨hs, hno⟩
  · cases l with
    | nil =>
      have : s.list < 0 := hp.chain
      omega
    | cons c l =>
      have : s.list = (c : Int) := hp.chain.1
      have e : c = cur := by omega
      subst e
      exact hp.toPost (fun hne => absurd hgoal hne)
  · have hpre := seed_preExpand ctx nb start goal h m0 hno
    have hcs : cur = hash ctx start := by
      rw [hs] at hlist
      have : ((hash ctx start : Nat) : Int) = (cur : Int) := hlist
      omega
    right
    refine ⟨cur, s.size, hlist, hlt, ?_, ?_, fun hne => absurd hgoal hne, ?_⟩
    · rw [hs]; exact hpre.tree
    · rw [hcs, hs]; exact hpre.cur_live
    · intro _ _ _ p c _
      rw [hcs, hs, hpre.tree.start_gscore]
      exact Nat.zero_le _

/-- Partial correctness of the loop of `astar`: from a state at the top of the loop,
what the loop returns satisfies `AstarPost` when no sum of the run overflows. -/
theorem astar_loop_post {σ : Type} {ctx : context} {nb : Nat → List pathfinding_neighbor}
    {start goal : Nat} {h : Nat → Nat} {m0 : Mem} (func : pathfinding_hfunc σ)
    (hc : Contract ctx.pow2 nb) (hpure : ∀ u p, (func u p).1 = nb p) :
    ∀ (fuel : Nat) (s : search) (ud : σ) (r : Int) (m1 : Mem) (ud1 : σ),
      HeadInv ctx nb start goal h m0 s →
      astar_fits ctx func goal fuel s ud = true →
      astar_loop ctx func goal fuel s ud = .ok (r, m1, ud1) →
      AstarPost ctx nb start goal h r m1 := by
  intro fuel
  induction fuel with
  | zero =>
    intro s ud r m1 ud1 _ _ hrun
    simp [astar_loop] at hrun
  | succ f ih =>
    intro s ud r m1 ud1 hh hfits hrun
    unfold astar_loop at hrun
    unfold astar_fits at hfits
    split at hrun
    · simp at hrun
    · rename_i cur hcur
      rw [hcur] at hfits
      dsimp only at hfits
      by_cases hgoal : (s.m cur).coord = goal
      · rw [if_pos hgoal] at hrun
        simp only [Except.ok.injEq, Prod.mk.injEq] at hrun
        obtain ⟨rfl, rfl, _⟩ := hrun
        exact hh.post hcur hgoal
      · rw [if_neg hgoal] at hrun hfits
        dsimp only at hrun
        obtain ⟨l, hpre⟩ := hh.preExpand hcur
        by_cases hdrain : (func ud (s.m cur).coord).1.length = 0 ∧ (s.m cur).next < 0
        · rw [if_pos hdrain] at hrun
          simp only [Except.ok.injEq, Prod.mk.injEq] at hrun
          obtain ⟨rfl, rfl, _⟩ := hrun
          left
          refine ⟨by omega, ?_⟩
          rw [hpre.tree.count]
          exact hpre.size_le
        · rw [if_neg hdrain] at hrun hfits
          rw [Bool.and_eq_true, hpure] at hfits
          obtain ⟨hfit1, hfit2⟩ := hfits
          have hret : ∃ r, expand ctx cur (nb (s.m cur).coord) s = .ok r := by
            cases hx : expand ctx cur (nb (s.m cur).coord) s with
            | error e =>
              rw [hpure, hx] at hrun
              exact absurd hrun (by simp)
            | ok r => exact ⟨r, rfl⟩
          obtain ⟨s1, l1, hexp, hpost, hge, hle, hne⟩ := expand_inv hc hpre hgoal hret hfit1
          rw [hpure, hexp] at hrun
          rw [hexp] at hfit2
          dsimp only at hrun hfit2
          by_cases hbig : s1.size > 1 <<< (ctx.pow2 - 1)
          · rw [if_pos hbig] at hrun
            simp only [Except.ok.injEq, Prod.mk.injEq] at hrun
            obtain ⟨rfl, rfl, _⟩ := hrun
            have hbig' : 2 ^ (ctx.pow2 - 1) < s1.size := by
              simpa [Nat.shiftLeft_eq] using hbig
            have hl1 : l1 ≠ [] := hne (Or.inr (lt_of_le_of_lt hpre.size_le hbig'))
            obtain ⟨n, l2, rfl⟩ := List.exists_cons_of_ne_nil hl1
            exact hpost.toPost (fun _ => hbig')
          · rw [if_neg hbig] at hrun hfit2
            have hsmall : s1.size ≤ 2 ^ (ctx.pow2 - 1) := by
              simpa [Nat.shiftLeft_eq] using hbig
            exact ih s1 _ r m1 ud1 (Or.inl ⟨l1, hpost, hsmall⟩) hfit2 hrun

/-- Partial correctness of `astar` on a slot array without live slots. -/
theorem astar_post {σ : Type} {ctx : context} {nb : Nat → List pathfinding_neighbor}
    {start goal : Nat} (h : Nat → Nat) {m0 : Mem} (func : pathfinding_hfunc σ)
    (hc : Contract ctx.pow2 nb) (hpure : ∀ u p, (func u p).1 = nb p)
    (hno : ∀ i, i < cap ctx.pow2 → (m0 i).version ≠ ctx.version)
    (fuel : Nat) (ud : σ) (r : Int) (m1 : Mem) (ud1 : σ)
    (hfits : astar_fits ctx func goal fuel (seed ctx m0 start) ud = true)
    (hrun : astar ctx func fuel m0 ud start goal = .ok (r, m1, ud1)) :
    AstarPost ctx nb start goal h r m1 :=
  astar_loop_post func hc hpure fuel _ ud r m1 ud1 (Or.inr ⟨rfl, hno⟩) hfits hrun

/-! ## The chain of predecessors and `calc_length` -/

/-- On a usable state of at most `2^30` slots no slot is live once `context_init` has
run. -/
theorem context_init_noLive (st : pathfinding_state) (hp : st.pow2 ≤ 30) (hu : Usable st) :
    StartsClean st := by
  intro i hi
  have hi' : i < cap st.pow2 := hi
  unfold context_init
  by_cases h0 : st.version = 0
  · have hlt : (i : Int) < one_shl st.pow2 := by
      rw [one_shl_eq hp]
      exact_mod_cast hi'
    simp [h0, hlt]
  · rcases hu with hu | ⟨hlt, hle⟩
    · exact absurd hu h0
    · have := hle i hi'
      simp only [h0, if_false]
      rw [Nat.mod_eq_of_lt hlt]
      omega

/-- Under the invariant on the stamped slots every live slot has a chain of
predecessors to the start slot. -/
theorem TreeInv.chainTo {ctx : context} {nb : Nat → List pathfinding_neighbor}
    {start : Nat} {s : search} (ht : TreeInv ctx nb start s)
    (hc : Contract ctx.pow2 nb) :
    ∀ (g n : Nat), (s.m n).gscore = g → n < cap ctx.pow2 → (s.m n).version = ctx.version →
      ∃ k, ChainTo ctx nb start s.m n k := by
  intro g
  induction g using Nat.strong_induction_on with
  | _ g ih =>
    intro n hg hn hv
    by_cases hs : n = hash ctx start
    · refine ⟨0, ⟨hs, ?_, fun j hj => absurd hj (Nat.not_lt_zero _)⟩⟩
      intro j hj
      have : j = 0 := by omega
      subst this
      exact ⟨hn, hv⟩
    · obtain ⟨h1, h2, h3, e, he1, he2, he3⟩ := ht.tree n hn hv hs
      have hd := hc.dist_pos _ e he1
      obtain ⟨k, hk⟩ := ih (s.m (s.m n).camefrom).gscore (by omega) (s.m n).camefrom rfl h2 h3
      refine ⟨k + 1, ⟨hk.last, ?_, ?_⟩⟩
      · intro j hj
        cases j with
        | zero => exact ⟨hn, hv⟩
        | succ j => exact hk.slot j (by omega)
      · intro j hj
        cases j with
        | zero =>
          refine ⟨by show (s.m n).gscore ≠ 0; omega, e, he1, he2, hd, he3⟩
        | succ j => exact hk.step j (by omega)

theorem ChainTo.chain_gscore_lt {ctx : context} {nb : Nat → List pathfinding_neighbor}
    {start : Nat} {m : Mem} {n k : Nat} (h : ChainTo ctx nb start m n k) :
    ∀ a b, a < b → b ≤ k → (m (chainAt m b n)).gscore < (m (chainAt m a n)).gscore := by
  intro a b hab
  induction b with
  | zero => omega
  | succ b ih =>
    intro hb
    obtain ⟨_, e, _, _, he1, he2⟩ := h.step b (by omega)
    by_cases hab' : a = b
    · subst hab'
      omega
    · have := ih (by omega) (by omega)
      omega

/-- The chain of predecessors runs through different live slots: it has at most as
many slots as there are live slots. -/
theorem ChainTo.chain_length_le {ctx : context} {nb : Nat → List pathfinding_neighbor}
    {start : Nat} {m : Mem} {n k : Nat} (h : ChainTo ctx nb start m n k) :
    k + 1 ≤ liveCount ctx m := by
  unfold liveCount
  have hinj : Set.InjOn (fun j => chainAt m j n) (Finset.range (k + 1) : Set Nat) := by
    intro a ha b hb hab
    simp only [Finset.coe_range, Set.mem_Iio] at ha hb
    by_contra hne
    rcases Nat.lt_or_gt_of_ne hne with hlt | hlt
    · have := h.chain_gscore_lt a b hlt (by omega)
      simp only at hab
      rw [hab] at this
      exact lt_irrefl _ this
    · have := h.chain_gscore_lt b a hlt (by omega)
      simp only at hab
      rw [hab] at this
      exact lt_irrefl _ this
  have := Finset.card_le_card_of_injOn (fun j => chainAt m j n)
    (s := Finset.range (k + 1))
    (t := (Finset.range (cap ctx.pow2)).filter (fun i => (m i).version = ctx.version))
    (by
      intro j hj
      have hj' : j ≤ k := by
        have := Finset.mem_range.mp hj
        omega
      obtain ⟨h1, h2⟩ := h.slot j hj'
      have hmem : chainAt m j n ∈ (Finset.range (cap ctx.pow2)).filter
          (fun i => (m i).version = ctx.version) :=
        Finset.mem_filter.mpr ⟨Finset.mem_range.mpr h1, h2⟩
      exact hmem) hinj
  rwa [Finset.card_range] at this

theorem calc_length_loop_eq (p : Nat) (m : Mem) :
    ∀ (k n fuel : Nat) (count : Int), k < fuel →
      (∀ j, j < k → (m (chainAt m j n)).gscore ≠ 0 ∧ chainAt m (j + 1) n < cap p) →
      (m (chainAt m k n)).gscore = 0 →
      calc_length_loop p m fuel n count = .ok (count + k) := by
  intro k
  induction k with
  | zero =>
    intro n fuel count hf _ h0
    obtain ⟨f, rfl⟩ : ∃ f, fuel = f + 1 := ⟨fuel - 1, by omega⟩
    have h0' : (m n).gscore = 0 := h0
    simp [calc_length_loop, h0']
  | succ k ih =>
    intro n fuel count hf hstep h0
    obtain ⟨f, rfl⟩ : ∃ f, fuel = f + 1 := ⟨fuel - 1, by omega⟩
    obtain ⟨hg, hlt⟩ := hstep 0 (Nat.succ_pos k)
    have hg' : (m n).gscore ≠ 0 := hg
    have hlt' : (m n).camefrom < cap p := hlt
    unfold calc_length_loop
    simp only [hg', ne_eq, not_false_eq_true, if_true, hlt']
    rw [ih (m n).camefrom f (count + 1) (by omega) (fun j hj => hstep (j + 1) (by omega)) h0]
    congr 1
    push_cast
    ring

/-- From a slot with a chain of predecessors to the start slot, whose `gscore` is 0,
`calc_length` counts the slots of the chain. -/
theorem ChainTo.calc_length {ctx : context} {nb : Nat → List pathfinding_neighbor}
    {start : Nat} {m : Mem} {n k : Nat} (h : ChainTo ctx nb start m n k)
    (hg : (m (hash ctx start)).gscore = 0) :
    calc_length_loop ctx.pow2 m (cap ctx.pow2 + 1) n 1 = .ok ((k : Int) + 1) := by
  have hlen := h.chain_length_le
  have hle := liveCount_le ctx m
  rw [calc_length_loop_eq ctx.pow2 m k n _ 1 (by omega)]
  · congr 1; ring
  · intro j hj
    exact ⟨(h.step j hj).1, (h.slot (j + 1) (by omega)).1⟩
  · rw [h.last]
    exact hg

/-! ## `pathfinding_find` -/

theorem pathfinding_find_astar {σ : Type} {fuel : Nat} {st : pathfinding_state}
    {args : pathfinding_args σ} {ud ud1 : σ} {n : Int} {st1 : pathfinding_state}
    (h : pathfinding_find fuel st args ud = .ok (n, st1, ud1)) :
    ∃ r m1, astar (context_init st).1 args.func fuel (context_init st).2.hash ud args.start
      args.goal = .ok (r, m1, ud1) := by
  unfold pathfinding_find at h
  dsimp only at h
  split at h
  · simp at h
  · rename_i gi m ud2 hrun
    refine ⟨gi, m, ?_⟩
    rw [hrun]
    congr 3
    split_ifs at h with h1
    · simp only [Except.ok.injEq, Prod.mk.injEq] at h
      exact h.2.2
    · split at h
      · simp at h
      · split at h
        · simp at h
        · split_ifs at h <;>
          · simp only [Except.ok.injEq, Prod.mk.injEq] at h
            exact h.2.2

/-- The recorded path of a state whose terminal slot has a chain of predecessors to the
start slot, which holds the start coordinate with `gscore` 0. -/
theorem ChainTo.pathFacts {ctx : context} {nb : Nat → List pathfinding_neighbor}
    {start : Nat} {m : Mem} {n k : Nat} (h : ChainTo ctx nb start m n k)
    (hco : (m (hash ctx start)).coord = start) (hg : (m (hash ctx start)).gscore = 0)
    (v : Nat) :
    PathFacts nb start ⟨v, (n : Int), (k : Int) + 1, ctx.pow2, m⟩ (k + 1) := by
  have hslot : ∀ i, pathSlot ⟨v, (n : Int), (k : Int) + 1, ctx.pow2, m⟩ i =
      chainAt m (k - i) n := by
    intro i
    unfold pathSlot
    simp only [Int.toNat_ofNat]
    congr 1
  have hcoord : ∀ i, pathCoord ⟨v, (n : Int), (k : Int) + 1, ctx.pow2, m⟩ i =
      (m (chainAt m (k - i) n)).coord := by
    intro i
    show (m (pathSlot ⟨v, (n : Int), (k : Int) + 1, ctx.pow2, m⟩ i)).coord = _
    rw [hslot]
  refine ⟨⟨by simp only; omega, fun _ => by simp only; omega, ?_⟩, by push_cast; rfl,
    Nat.succ_pos k, ?_, ?_, ?_, ?_⟩
  · intro j hj
    simp only at hj ⊢
    rw [Int.toNat_ofNat]
    exact (h.slot j (by omega)).1
  · rw [hcoord, Nat.sub_zero, h.last]
    exact hco
  · rw [hslot, Nat.sub_zero, h.last]
    exact hg
  · rw [hslot]
    simp [chainAt]
  · intro i hi
    rw [hcoord, hcoord, hslot, hslot]
    obtain ⟨_, e, he1, he2, he3, he4⟩ := h.step (k - (i + 1)) (by omega)
    have e1 : k - (i + 1) + 1 = k - i := by omega
    rw [e1] at he1 he4
    exact ⟨e, he1, he2, he3, he4⟩

/-- When `astar` returns a slot with a chain of predecessors to the start slot,
`pathfinding_find` returns: plus or minus the number of slots on the chain, and the state
records the path. -/
theorem pathfinding_find_of_chain {σ : Type} {nb : Nat → List pathfinding_neighbor}
    (fuel : Nat) (st : pathfinding_state) (args : pathfinding_args σ)
    (ud ud1 : σ) (n k : Nat) (m : Mem)
    (hk : ChainTo (context_init st).1 nb args.start m n k)
    (hco : (m (hash (context_init st).1 args.start)).coord = args.start)
    (hg : (m (hash (context_init st).1 args.start)).gscore = 0)
    (h : astar (context_init st).1 args.func fuel (context_init st).2.hash ud args.start
      args.goal = .ok ((n : Int), m, ud1)) :
    pathfinding_find fuel st args ud =
        .ok (if (m n).coord ≠ args.goal then -((k : Int) + 1) else (k : Int) + 1,
          ⟨(context_init st).2.version, (n : Int), (k : Int) + 1, st.pow2, m⟩, ud1) ∧
      PathFacts nb args.start
        ⟨(context_init st).2.version, (n : Int), (k : Int) + 1, st.pow2, m⟩ (k + 1) := by
  have hcalc := hk.calc_length hg
  have hn : n < cap st.pow2 := (hk.slot 0 (Nat.zero_le _)).1
  refine ⟨?_, hk.pathFacts hco hg _⟩
  rw [pathfinding_find_of_astar_slot fuel st args ud ud1 n m _ hn h hcalc]
  congr 3
  show pathfinding_state.mk _ _ _ (context_init st).2.pow2 _ = _
  rw [context_init_state_pow2]

/-- When `astar` returns a live slot of a table that satisfies the invariant,
`pathfinding_find` returns: plus or minus the number of slots on the slot's chain of
predecessors, and the state records the path. -/
theorem pathfinding_find_of_slot {σ : Type} {nb : Nat → List pathfinding_neighbor}
    (fuel : Nat) (st : pathfinding_state) (args : pathfinding_args σ)
    (ud ud1 : σ) (n size : Nat) (m : Mem) (hc : Contract st.pow2 nb)
    (hn : n < cap st.pow2)
    (ht : TreeInv (context_init st).1 nb args.start ⟨m, (n : Int), size⟩)
    (hv : (m n).version = (context_init st).1.version)
    (h : astar (context_init st).1 args.func fuel (context_init st).2.hash ud args.start
      args.goal = .ok ((n : Int), m, ud1)) :
    ∃ k, ChainTo (context_init st).1 nb args.start m n k ∧
      pathfinding_find fuel st args ud =
        .ok (if (m n).coord ≠ args.goal then -((k : Int) + 1) else (k : Int) + 1,
          ⟨(context_init st).2.version, (n : Int), (k : Int) + 1, st.pow2, m⟩, ud1) ∧
      PathFacts nb args.start
        ⟨(context_init st).2.version, (n : Int), (k : Int) + 1, st.pow2, m⟩ (k + 1) := by
  obtain ⟨k, hk⟩ := ht.chainTo hc (m n).gscore n rfl hn hv
  obtain ⟨h1, h2⟩ := pathfinding_find_of_chain fuel st args ud ud1 n k m hk ht.start_coord
    ht.start_gscore h
  exact ⟨k, hk, h1, h2⟩

theorem pathfinding_find_of_returnOf {σ : Type} {fuel : Nat} {st : pathfinding_state}
    {args : pathfinding_args σ} {ud : σ} {n : Int}
    (h : returnOf fuel st args ud = some n) :
    pathfinding_find fuel st args ud =
      .ok (n, stateAfter fuel st args ud, udAfter fuel st args ud) := by
  unfold returnOf at h
  unfold stateAfter udAfter
  split at h
  · rename_i n1 st1 ud1 hrun
    simp only [Option.some.injEq] at h
    rw [hrun, h]
  · simp at h

/-- The array `pathfinding_path` leaves when it has room for the whole recorded path. -/
theorem PathFacts.output {nb : Nat → List pathfinding_neighbor} {start : Nat}
    {st : pathfinding_state} {len : Nat} (h : PathFacts nb start st len)
    (result : Nat → Nat) (sz : Int) (hsz : (len : Int) ≤ sz) :
    ∃ out, pathfinding_path st result sz = .ok (out, (len : Int)) ∧
      (∀ i, i < len → out i = pathCoord st i) ∧ ∀ i, len ≤ i → out i = result i := by
  refine ⟨fun x => if (x : Int) < min sz st.path_length then pathCoord st x else result x,
    ?_, ?_, ?_⟩
  · rw [pathfinding_path_eq st result sz (by omega) h.recorded, h.length]
  · intro i hi
    have : (i : Int) < min sz st.path_length := by
      rw [h.length, min_eq_right hsz]
      exact_mod_cast hi
    simp only [this, if_true]
  · intro i hi
    have : ¬ (i : Int) < min sz st.path_length := by
      rw [h.length, min_eq_right hsz]
      omega
    simp only [this, if_false]

theorem PathFacts.gscore_lt {nb : Nat → List pathfinding_neighbor} {start : Nat}
    {st : pathfinding_state} {len : Nat} (h : PathFacts nb start st len) (i : Nat)
    (hi : i + 1 < len) :
    (st.hash (pathSlot st i)).gscore < (st.hash (pathSlot st (i + 1))).gscore := by
  obtain ⟨e, _, _, h1, h2⟩ := h.edge i hi
  omega

/-- What a run of `pathfinding_find` that returns has done, under the contract of the
callback, without overflow and from a table with no live slot: `astar` returned an index and a slot
array that satisfy its guarantee; the run returned 0 for a negative index, and otherwise
plus or minus the number `k + 1` of slots of the recorded path, plus when the terminal
slot holds the goal. -/
theorem pathfinding_find_post {σ : Type} {nb : Nat → List pathfinding_neighbor}
    (h : Nat → Nat) {fuel : Nat} {st : pathfinding_state}
    {args : pathfinding_args σ} {ud ud1 : σ} {n : Int} {st1 : pathfinding_state}
    (hc : Contract st.pow2 nb) (hpure : ∀ u p, (args.func u p).1 = nb p)
    (hfits : find_fits fuel st args ud = true)
    (hclean : StartsClean st)
    (hrun : pathfinding_find fuel st args ud = .ok (n, st1, ud1)) :
    ∃ r m1, AstarPost (context_init st).1 nb args.start args.goal h r m1 ∧
      st1.hash = m1 ∧ st1.goal_index = r ∧
      ((r < 0 ∧ n = 0 ∧ st1.path_length = 0) ∨
       (0 ≤ r ∧ ∃ k : Nat, PathFacts nb args.start st1 (k + 1) ∧
          n = (if (m1 r.toNat).coord ≠ args.goal then -((k : Int) + 1) else (k : Int) + 1))) := by
  obtain ⟨r, m1, hastar⟩ := pathfinding_find_astar hrun
  have hpost := astar_post h args.func hc hpure hclean fuel ud r m1 ud1 hfits hastar
  refine ⟨r, m1, hpost, ?_⟩
  rcases hpost with ⟨hneg, _⟩ | ⟨nn, size, hr, hnn, htree, hlive, _, _⟩
  · have := pathfinding_find_of_astar_neg fuel st args ud ud1 r m1 hneg hastar
    rw [hrun] at this
    simp only [Except.ok.injEq, Prod.mk.injEq] at this
    obtain ⟨rfl, rfl, _⟩ := this
    exact ⟨rfl, rfl, Or.inl ⟨hneg, rfl, rfl⟩⟩
  · subst hr
    obtain ⟨k, _, hfind, hfacts⟩ := pathfinding_find_of_slot fuel st args ud ud1 nn size m1 hc
      hnn htree hlive hastar
    rw [hrun] at hfind
    simp only [Except.ok.injEq, Prod.mk.injEq] at hfind
    obtain ⟨rfl, rfl, _⟩ := hfind
    exact ⟨rfl, rfl, Or.inr ⟨by omega, k, hfacts, by simp only [Int.toNat_ofNat]⟩⟩

theorem eq_ok_of_indexOf {σ : Type} (x : Except Fault (Int × Mem × σ)) (ud : σ)
    (h : 0 ≤ indexOf x) : x = .ok (indexOf x, memOf x, udOf ud x) := by
  cases x with
  | error e => simp [indexOf] at h
  | ok v => rfl

/-- A consistent estimate is admissible. -/
theorem Consistent.admissible {nb : Nat → List pathfinding_neighbor} {goal : Nat}
    {h : Nat → Nat} (hcons : Consistent nb goal h) : Admissible nb goal h := by
  intro u p c hw
  induction hw with
  | nil u => rw [hcons.1]
  | @cons u v c p e he hw ih =>
    have := hcons.2 u e he
    have := ih hcons
    omega

/-- The recorded path from position `j` on is a walk to the terminal's coordinate whose
weight is at most the difference of the `gscore`s of its two ends. -/
theorem PathFacts.walk_from {nb : Nat → List pathfinding_neighbor} {start : Nat}
    {st : pathfinding_state} {len : Nat} (h : PathFacts nb start st len) :
    ∀ (d j : Nat), j + d + 1 = len →
      ∃ c, Walk nb (pathCoord st j) (pathCoord st (len - 1))
          ((List.range' j (d + 1)).map (pathCoord st)) c ∧
        (st.hash (pathSlot st j)).gscore + c ≤ (st.hash (pathSlot st (len - 1))).gscore := by
  intro d
  induction d with
  | zero =>
    intro j hj
    have : j = len - 1 := by omega
    subst this
    exact ⟨0, Walk.nil _, le_refl _⟩
  | succ d ih =>
    intro j hj
    obtain ⟨c, hw, hc⟩ := ih (j + 1) (by omega)
    obtain ⟨e, he1, he2, _, he4⟩ := h.edge j (by omega)
    rw [← he2] at hw
    refine ⟨e.dist + c, ?_, by omega⟩
    have := Walk.cons e he1 hw
    rw [List.range'_succ, List.map_cons]
    exact this

/-- The recorded path is a walk from the start to the terminal's coordinate whose
weight is at most the terminal's `gscore`. -/
theorem PathFacts.walk {nb : Nat → List pathfinding_neighbor} {start : Nat}
    {st : pathfinding_state} {len : Nat} (h : PathFacts nb start st len) :
    ∃ c, Walk nb start (pathCoord st (len - 1)) ((List.range len).map (pathCoord st)) c ∧
      c ≤ (st.hash (pathSlot st (len - 1))).gscore := by
  have hpos := h.pos
  obtain ⟨c, hw, hc⟩ := h.walk_from (len - 1) 0 (by omega)
  have e : len - 1 + 1 = len := by omega
  rw [e, h.first_coord, ← List.range_eq_range'] at hw
  exact ⟨c, hw, by omega⟩

/-! ## Sizing -/

/-- The doubling loop of `pathfinding_size`, started at `2^j` with enough steps left to
reach `area`, stops at the first power of two from `2^j` on that is not below `area`. -/
theorem size_loop_pow (area : Nat) : ∀ (fuel j : Nat), area ≤ 2 ^ (j + fuel) →
    ∃ k, j ≤ k ∧ size_loop area fuel (2 ^ j) = 2 ^ k ∧ area ≤ 2 ^ k ∧
      (k = j ∨ 2 ^ (k - 1) < area) := by
  intro fuel
  induction fuel with
  | zero =>
    intro j h
    exact ⟨j, le_refl _, rfl, h, Or.inl rfl⟩
  | succ f ih =>
    intro j h
    unfold size_loop
    by_cases hlt : 2 ^ j < area
    · rw [if_pos hlt]
      have e : 2 ^ j * 2 = 2 ^ (j + 1) := by ring
      rw [e]
      obtain ⟨k, hk, hs, ha, hmin⟩ := ih (j + 1) (by rw [show j + 1 + f = j + (f + 1) by omega]; exact h)
      refine ⟨k, by omega, hs, ha, Or.inr ?_⟩
      rcases hmin with rfl | hmin
      · simpa using hlt
      · exact hmin
    · rw [if_neg hlt]
      exact ⟨j, le_refl _, rfl, by omega, Or.inl rfl⟩

/-- The doubling loop of `pathfinding_size` is monotone in the area. -/
theorem size_loop_mono (a b : Nat) (hab : a ≤ b) : ∀ (fuel size : Nat),
    size_loop a fuel size ≤ size_loop b fuel size := by
  intro fuel
  induction fuel with
  | zero => intro size; exact le_refl _
  | succ f ih =>
    intro size
    unfold size_loop
    by_cases h1 : size < a
    · rw [if_pos h1, if_pos (by omega)]
      exact ih _
    · rw [if_neg h1]
      by_cases h2 : size < b
      · rw [if_pos h2]
        have : ∀ (g s : Nat), s ≤ size_loop b g s := by
          intro g
          induction g with
          | zero => intro s; exact le_refl _
          | succ g ihg =>
            intro s
            unfold size_loop
            split_ifs
            · exact le_trans (by omega) (ihg _)
            · exact le_refl _
        exact le_trans (by omega) (this f (size * 2))
      · rw [if_neg h2]

/-- The index of the highest bit of a power of two. -/
theorem highest_bit_idx_pow (k : Nat) (hk : k < 32) : highest_bit_idx (2 ^ k) = k := by
  interval_cases k <;> decide

/-! ## The slot table throughout a run -/

/-- A relaxation that returns keeps the table well formed, whatever the open list looks
like; it stamps at most one slot. -/
theorem relax_tableInv (ctx : context) (cur : Nat) (s : search) (d : pathfinding_neighbor)
    (h : TableInv ctx s) (s1 : search) (hr : relax ctx cur s d = .ok s1) :
    TableInv ctx s1 ∧ s.size ≤ s1.size ∧ s1.size ≤ s.size + 1 := by
  obtain ⟨k, hk, hfind, hpre, hstop⟩ := find_node_of_relax ctx cur s s1 d hr
  have hlt := probe_lt ctx d.pos k
  rw [relax_unfold, hfind] at hr
  dsimp only at hr
  by_cases hv : (s.m (probe ctx d.pos k)).version = ctx.version
  · rw [if_neg (not_not.mpr hv)] at hr
    by_cases hlow : ((s.m cur).gscore + d.dist) % 2 ^ 32 < (s.m (probe ctx d.pos k)).gscore
    · rw [if_pos hlow] at hr
      have hsd : ∀ m2 list, (if (s.m (probe ctx d.pos k)).fscore ≠ 0 then
            advance_node ctx (setNode s.m (probe ctx d.pos k)
              (improvedNode cur s.m d (probe ctx d.pos k))) (probe ctx d.pos k) s.list
          else insert_node ctx (setNode s.m (probe ctx d.pos k)
              (improvedNode cur s.m d (probe ctx d.pos k))) (probe ctx d.pos k) s.list) =
            .ok (m2, list) →
          SameData (setNode s.m (probe ctx d.pos k)
            (improvedNode cur s.m d (probe ctx d.pos k))) m2 := by
        intro m2 list hop
        split_ifs at hop
        · exact advance_node_sameData _ _ _ _ _ _ hop
        · exact insert_node_sameData _ _ _ _ _ _ hop
      split at hr
      · simp at hr
      · rename_i m2 list hop
        have hsame := hsd m2 list hop
        simp only [Except.ok.injEq] at hr
        subst hr
        have hver : ∀ i, (m2 i).version = (s.m i).version := by
          intro i
          rw [hsame.version]
          by_cases hi : i = probe ctx d.pos k
          · subst hi; rw [setNode_same]; rfl
          · rw [setNode_other _ _ hi]
        have hco : ∀ i, (m2 i).coord = (s.m i).coord := by
          intro i
          rw [hsame.coord]
          by_cases hi : i = probe ctx d.pos k
          · subst hi; rw [setNode_same]; rfl
          · rw [setNode_other _ _ hi]
        refine ⟨⟨h.table.congr_table hver hco, ?_⟩, le_refl _, Nat.le_succ _⟩
        show liveCount ctx m2 = s.size
        rw [liveCount_congr ctx hver, h.count]
    · rw [if_neg hlow] at hr
      simp only [Except.ok.injEq] at hr
      subst hr
      exact ⟨h, le_refl _, Nat.le_succ _⟩
  · rw [if_pos hv] at hr
    split at hr
    · simp at hr
    · rename_i m2 list hop
      have hsame := insert_node_sameData _ _ _ _ _ _ hop
      simp only [Except.ok.injEq] at hr
      subst hr
      have ht1 := h.table.stamp_slot d.pos k hk hpre hv
        (newNode ctx cur s.m d (probe ctx d.pos k)) rfl
      refine ⟨⟨ht1.congr_table hsame.version hsame.coord, ?_⟩, Nat.le_succ _, le_refl _⟩
      show liveCount ctx m2 = s.size + 1
      rw [liveCount_congr ctx hsame.version, liveCount_stamp ctx s.m _ hlt hv _ rfl, h.count]

/-- The relaxations of a list of entries, when they return, keep the table well formed;
they stamp at most one slot per entry. -/
theorem relax_all_tableInv (ctx : context) (cur : Nat) :
    ∀ (ds : List pathfinding_neighbor) (s s1 : search), TableInv ctx s →
      relax_all ctx cur ds s = .ok s1 →
      TableInv ctx s1 ∧ s.size ≤ s1.size ∧ s1.size ≤ s.size + ds.length := by
  intro ds
  induction ds with
  | nil =>
    intro s s1 h hr
    simp only [relax_all, Except.ok.injEq] at hr
    subst hr
    exact ⟨h, le_refl _, le_refl _⟩
  | cons d ds ih =>
    intro s s1 h hr
    unfold relax_all at hr
    split at hr
    · simp at hr
    · rename_i s2 h2
      obtain ⟨ht2, hge, hle⟩ := relax_tableInv ctx cur s d h s2 h2
      obtain ⟨ht1, hge1, hle1⟩ := ih s2 s1 ht2 hr
      refine ⟨ht1, by omega, ?_⟩
      simp only [List.length_cons]
      omega

/-- Closing a slot and relaxing a list of entries keeps the table well formed. -/
theorem expand_tableInv (ctx : context) (cur : Nat)
    (ds : List pathfinding_neighbor)
    (s s1 : search) (h : TableInv ctx s) (hr : expand ctx cur ds s = .ok s1) :
    TableInv ctx s1 ∧ s.size ≤ s1.size ∧ s1.size ≤ s.size + ds.length := by
  unfold expand at hr
  dsimp only at hr
  have hver : ∀ i, ((setNode s.m cur { s.m cur with fscore := 0 }) i).version =
      (s.m i).version := by
    intro i
    by_cases hi : i = cur
    · subst hi; rw [setNode_same]
    · rw [setNode_other _ _ hi]
  have hco : ∀ i, ((setNode s.m cur { s.m cur with fscore := 0 }) i).coord =
      (s.m i).coord := by
    intro i
    by_cases hi : i = cur
    · subst hi; rw [setNode_same]
    · rw [setNode_other _ _ hi]
  have h0 : TableInv ctx ⟨setNode s.m cur { s.m cur with fscore := 0 },
      ((setNode s.m cur { s.m cur with fscore := 0 }) cur).next, s.size⟩ :=
    ⟨h.table.congr_table hver hco, by
      show liveCount ctx (setNode s.m cur { s.m cur with fscore := 0 }) = s.size
      rw [liveCount_congr ctx hver, h.count]⟩
  have h3 := relax_all_tableInv ctx cur ds _ s1 h0 hr
  exact h3

theorem half_add_le_cap (p : Nat) (hp : 8 ≤ p) (n : Nat) (hn : n ≤ 16) :
    2 ^ (p - 1) + n < cap p := by
  rw [cap_eq]
  obtain ⟨q, rfl⟩ : ∃ q, p = q + 8 := ⟨p - 8, by omega⟩
  have e : q + 8 - 1 = q + 7 := by omega
  rw [e, pow_add, pow_add]
  have : 1 ≤ 2 ^ q := Nat.one_le_two_pow
  norm_num
  nlinarith

/-- The table is well formed, with at most half of the slots live, at the top of every
pass of the loop of `astar`. -/
theorem astar_pass_tableInv {σ : Type} (ctx : context) (func : pathfinding_hfunc σ)
    (goal : Nat) :
    ∀ (k : Nat) (s : search) (ud : σ) (s1 : search) (ud1 : σ), TableInv ctx s →
      s.size ≤ 2 ^ (ctx.pow2 - 1) → astar_pass ctx func goal k s ud = some (s1, ud1) →
      TableInv ctx s1 ∧ s1.size ≤ 2 ^ (ctx.pow2 - 1) := by
  intro k
  induction k with
  | zero =>
    intro s ud s1 ud1 h hsz hr
    simp only [astar_pass, Option.some.injEq, Prod.mk.injEq] at hr
    obtain ⟨rfl, _⟩ := hr
    exact ⟨h, hsz⟩
  | succ k ih =>
    intro s ud s1 ud1 h hsz hr
    unfold astar_pass at hr
    split at hr
    · simp at hr
    · rename_i cur hcur
      by_cases hgoal : (s.m cur).coord = goal
      · rw [if_pos hgoal] at hr; simp at hr
      rw [if_neg hgoal] at hr
      dsimp only at hr
      by_cases hdrain : (func ud (s.m cur).coord).1.length = 0 ∧ (s.m cur).next < 0
      · rw [if_pos hdrain] at hr; simp at hr
      rw [if_neg hdrain] at hr
      split at hr
      · simp at hr
      · rename_i s2 hexp
        by_cases hbig : s2.size > 1 <<< (ctx.pow2 - 1)
        · rw [if_pos hbig] at hr; simp at hr
        rw [if_neg hbig] at hr
        obtain ⟨ht2, _, _⟩ := expand_tableInv ctx cur _ s s2 h hexp
        have hsmall : s2.size ≤ 2 ^ (ctx.pow2 - 1) := by
          simpa [Nat.shiftLeft_eq] using hbig
        exact ih s2 _ s1 ud1 ht2 hsmall hr

/-- The table is well formed, with fewer than all slots live, between the relaxations
of every pass of the loop of `astar`. -/
theorem astar_mid_tableInv {σ : Type} (ctx : context) (func : pathfinding_hfunc σ)
    (goal : Nat)
    (hcount : ∀ u p, (func u p).1.length ≤ 16)
    (k j : Nat) (s : search) (ud : σ) (s1 : search) (h : TableInv ctx s)
    (hsz : s.size ≤ 2 ^ (ctx.pow2 - 1)) (hr : astar_mid ctx func goal k j s ud = some s1) :
    TableInv ctx s1 ∧ s1.size ≤ 2 ^ (ctx.pow2 - 1) + 16 := by
  unfold astar_mid at hr
  split at hr
  · simp at hr
  · rename_i s0 ud0 hpass
    obtain ⟨ht0, hsz0⟩ := astar_pass_tableInv ctx func goal k s ud s0 ud0 h hsz hpass
    dsimp only at hr
    split at hr
    · simp at hr
    · rename_i cur hcur
      by_cases hgoal : (s0.m cur).coord = goal
      · rw [if_pos hgoal] at hr; simp at hr
      rw [if_neg hgoal] at hr
      by_cases hdrain : (func ud0 (s0.m cur).coord).1.length = 0 ∧ (s0.m cur).next < 0
      · rw [if_pos hdrain] at hr; simp at hr
      rw [if_neg hdrain] at hr
      split at hr
      · simp at hr
      · rename_i s2 hexp
        simp only [Option.some.injEq] at hr
        subst hr
        have hlen : ((func ud0 (s0.m cur).coord).1.take j).length ≤ 16 :=
          le_trans (List.length_take_le' _ _) (hcount ud0 (s0.m cur).coord)
        obtain ⟨ht2, _, hle⟩ := expand_tableInv ctx cur _ s0 s2 ht0 hexp
        exact ⟨ht2, by omega⟩

/-- The table is well formed, with at most `2^(pow2-1) + 16` live slots, in every state
of a run of `astar` on a slot array without live slots. -/
theorem Visited.tableInv {σ : Type} {ctx : context} {func : pathfinding_hfunc σ}
    {goal start : Nat} {m0 : Mem} {ud : σ} {s : search}
    (hv : Visited ctx func goal (seed ctx m0 start) ud s)
    (hcount : ∀ u p, (func u p).1.length ≤ 16)
    (hno : ∀ i, i < cap ctx.pow2 → (m0 i).version ≠ ctx.version) :
    TableInv ctx s ∧ s.size ≤ 2 ^ (ctx.pow2 - 1) + 16 := by
  have hseed := seed_treeInv ctx (fun _ => []) start m0 hno
  have h0 : TableInv ctx (seed ctx m0 start) := ⟨hseed.table, hseed.count⟩
  have hs0 : (seed ctx m0 start).size ≤ 2 ^ (ctx.pow2 - 1) := Nat.one_le_two_pow
  obtain ⟨k, ⟨ud1, hpass⟩ | ⟨j, hmid⟩⟩ := hv
  · obtain ⟨h1, h2⟩ := astar_pass_tableInv ctx func goal k _ ud s ud1 h0 hs0 hpass
    exact ⟨h1, by omega⟩
  · exact astar_mid_tableInv ctx func goal hcount k j _ ud s h0 hs0 hmid

/-! ## Auxiliary facts for the statements on the open list and the table -/

/-- The hashed slot of a coordinate consists of the top `pow2` bits of the low 32 bits
of its product with 2654435761. -/
theorem hash_top_bits (ctx : context) (pos : Nat) (hp : ctx.pow2 ≤ 32) :
    hash ctx pos = 2654435761 * pos % 2 ^ 32 / 2 ^ (32 - ctx.pow2) := by
  unfold hash
  simp only [Nat.shiftRight_eq_div_pow, Nat.shiftLeft_eq, one_mul,
    Nat.and_pow_two_sub_one_eq_mod]
  have e : 2 ^ 32 = 2 ^ (32 - ctx.pow2) * 2 ^ ctx.pow2 := by
    rw [← pow_add]; congr 1; omega
  rw [e, Nat.mod_mul_right_div_self]

/-- An option that holds a value is that value. -/
theorem eq_some_getD {α : Type} (o : Option α) (d : α) (h : o.isSome = true) :
    o = some (o.getD d) := by
  cases o with
  | none => simp at h
  | some v => rfl

/-- What `pathfinding_size` returns while the area does not exceed `2^30`. -/
theorem pathfinding_size_pow (L : Nat) (hL : L * L ≤ 2 ^ 30) :
    ∃ k, 10 ≤ k ∧ k ≤ 30 ∧ L * L ≤ 2 ^ k ∧ (k = 10 ∨ 2 ^ (k - 1) < L * L) ∧
      pathfinding_size L = 16 + 24 * 2 ^ k := by
  obtain ⟨k, hk, hs, ha, hmin⟩ := size_loop_pow (L * L) 32 10 (le_trans hL (by norm_num))
  have hk30 : k ≤ 30 := by
    rcases hmin with rfl | hmin
    · omega
    · by_contra hcon
      have : 2 ^ 30 ≤ 2 ^ (k - 1) := Nat.pow_le_pow_right (by norm_num) (by omega)
      omega
  have h1024 : (1024 : Nat) ≤ 2 ^ k := by
    have : 2 ^ 10 ≤ 2 ^ k := Nat.pow_le_pow_right (by norm_num) hk
    simpa using this
  refine ⟨k, hk, hk30, ha, hmin, ?_⟩
  unfold pathfinding_size
  simp only
  rw [show (1024 : Nat) = 2 ^ 10 by norm_num, hs]
  omega

/-- Placing a slot into a list adds it to the entries of the list, once. -/
theorem placeByFscore_perm (m : Mem) (x : Nat) :
    ∀ l : List Nat, (placeByFscore m x l).Perm (x :: l) := by
  intro l
  induction l with
  | nil => exact List.Perm.refl _
  | cons i l ih =>
    unfold placeByFscore
    split_ifs
    · exact List.Perm.refl _
    · exact (List.Perm.cons i ih).trans (List.Perm.swap x i l)

/-- The head of a list into which a slot was placed. -/
theorem placeByFscore_head (m : Mem) (x : Nat) (l : List Nat) (hx : x ∉ l) :
    (placeByFscore m x l).head? = some x ↔
      (l = [] ∨ ∃ c t, l = c :: t ∧ (m x).fscore ≤ (m c).fscore) := by
  cases l with
  | nil => simp [placeByFscore]
  | cons i l =>
    unfold placeByFscore
    have hne : i ≠ x := by
      intro e; apply hx; simp [e]
    split_ifs with h
    · simp [h]
    · simp [h, hne]

/-- A link into a set is a link into every larger set. -/
theorem LinkIn.mono {S R : Nat → Prop} (h : ∀ i, S i → R i) {v : Int} (hv : LinkIn S v) :
    LinkIn R v := by
  rcases hv with hv | ⟨n, hn, hs⟩
  · exact Or.inl hv
  · exact Or.inr ⟨n, hn, h n hs⟩

/-- A link that passes the bounds check and lies in `S` is a slot of `S`. -/
theorem LinkIn.slot {S : Nat → Prop} {v : Int} (hv : LinkIn S v) {p n : Nat}
    (h : slotIndex p v = .ok n) : S n := by
  obtain ⟨h0, hvn, _⟩ := slotIndex_ok h
  rcases hv with hv | ⟨k, hk, hs⟩
  · omega
  · have : k = n := by omega
    exact this ▸ hs

/-- The end mark is a link into every set. -/
theorem LinkIn.neg_one (S : Nat → Prop) : LinkIn S (-1) := Or.inl (by omega)

/-- The index of a slot of a set is a link into the set. -/
theorem LinkIn.index {S : Nat → Prop} {n : Nat} (h : S n) : LinkIn S (n : Int) :=
  Or.inr ⟨n, rfl, h⟩

/-- The walk of `insert_node` from a slot of a set `S` that is closed under `next`
leaves links into `R`, a set that contains `S` and the inserted slot, at every slot of
`S` and at the inserted slot. -/
theorem insert_node_loop_links (ctx : context) (index : Nat) (S R : Nat → Prop)
    (hSR : ∀ i, S i → R i) (hidx : R index) :
    ∀ (fuel : Nat) (m : Mem) (cur : Nat) (m1 : Mem), S cur →
      (∀ i, S i → LinkIn S (m i).next) →
      insert_node_loop ctx index fuel m cur = .ok m1 →
      ∀ i, (S i ∨ i = index) → LinkIn R (m1 i).next := by
  intro fuel
  induction fuel with
  | zero =>
    intro m cur m1 _ _ hr
    simp [insert_node_loop] at hr
  | succ f ih =>
    intro m cur m1 hcur hcl hr
    unfold insert_node_loop at hr
    by_cases hneg : (m cur).next < 0
    · rw [if_pos hneg] at hr
      simp only [Except.ok.injEq] at hr
      subst hr
      intro i hi
      by_cases h1 : i = index
      · subst h1
        rw [setNext_same]
        exact LinkIn.neg_one R
      · rw [setNext_other _ _ h1]
        by_cases h2 : i = cur
        · subst h2
          rw [setNext_same]
          exact LinkIn.index hidx
        · rw [setNext_other _ _ h2]
          rcases hi with hi | hi
          · exact (hcl i hi).mono hSR
          · exact absurd hi h1
    · rw [if_neg hneg] at hr
      split at hr
      · simp at hr
      · rename_i nx hnx
        have hsnx : S nx := (hcl cur hcur).slot hnx
        by_cases hle : (m index).fscore ≤ (m nx).fscore
        · rw [if_pos hle] at hr
          simp only [Except.ok.injEq] at hr
          subst hr
          intro i hi
          by_cases h2 : i = cur
          · subst h2
            rw [setNext_same]
            exact LinkIn.index hidx
          · rw [setNext_other _ _ h2]
            by_cases h1 : i = index
            · subst h1
              rw [setNext_same]
              exact (hcl cur hcur).mono hSR
            · rw [setNext_other _ _ h1]
              rcases hi with hi | hi
              · exact (hcl i hi).mono hSR
              · exact absurd hi h1
        · rw [if_neg hle] at hr
          exact ih m nx m1 hsnx hcl hr

/-- Function `insert_node` on a list that lies in a set `S` closed under `next`: the
head it returns and the links it leaves at the slots of `S` and at the inserted slot lie
in `R`, a set that contains `S` and the inserted slot. -/
theorem insert_node_links (ctx : context) (m : Mem) (index : Nat) (list : Int)
    (S R : Nat → Prop) (hSR : ∀ i, S i → R i) (hidx : R index)
    (hlist : LinkIn S list) (hcl : ∀ i, S i → LinkIn S (m i).next) (m1 : Mem) (list1 : Int)
    (hr : insert_node ctx m index list = .ok (m1, list1)) :
    LinkIn R list1 ∧ ∀ i, (S i ∨ i = index) → LinkIn R (m1 i).next := by
  unfold insert_node at hr
  by_cases hneg : list < 0
  · rw [if_pos hneg] at hr
    simp only [Except.ok.injEq, Prod.mk.injEq] at hr
    obtain ⟨rfl, rfl⟩ := hr
    refine ⟨LinkIn.index hidx, ?_⟩
    intro i hi
    by_cases h1 : i = index
    · subst h1
      rw [setNext_same]
      exact LinkIn.neg_one R
    · rw [setNext_other _ _ h1]
      rcases hi with hi | hi
      · exact (hcl i hi).mono hSR
      · exact absurd hi h1
  · rw [if_neg hneg] at hr
    split at hr
    · simp at hr
    · rename_i cur hcur
      have hscur : S cur := hlist.slot hcur
      by_cases hle : (m index).fscore ≤ (m cur).fscore
      · rw [if_pos hle] at hr
        simp only [Except.ok.injEq, Prod.mk.injEq] at hr
        obtain ⟨rfl, rfl⟩ := hr
        refine ⟨LinkIn.index hidx, ?_⟩
        intro i hi
        by_cases h1 : i = index
        · subst h1
          rw [setNext_same]
          exact hlist.mono hSR
        · rw [setNext_other _ _ h1]
          rcases hi with hi | hi
          · exact (hcl i hi).mono hSR
          · exact absurd hi h1
      · rw [if_neg hle] at hr
        split at hr
        · simp at hr
        · rename_i m2 hloop
          simp only [Except.ok.injEq, Prod.mk.injEq] at hr
          obtain ⟨rfl, rfl⟩ := hr
          exact ⟨hlist.mono hSR,
            insert_node_loop_links ctx index S R hSR hidx _ m cur _ hscur hcl hloop⟩

/-- The walk of `remove_node` through a set `S` closed under `next` leaves it closed. -/
theorem remove_node_loop_links (ctx : context) (ri : Nat) (ni : Int) (S : Nat → Prop)
    (hni : LinkIn S ni) :
    ∀ (fuel : Nat) (m : Mem) (cur : Nat) (m1 : Mem), S cur →
      (∀ i, S i → LinkIn S (m i).next) →
      remove_node_loop ctx ri ni fuel m cur = .ok m1 →
      ∀ i, S i → LinkIn S (m1 i).next := by
  intro fuel
  induction fuel with
  | zero =>
    intro m cur m1 _ _ hr
    simp [remove_node_loop] at hr
  | succ f ih =>
    intro m cur m1 hcur hcl hr
    unfold remove_node_loop at hr
    by_cases hne : (m cur).next ≠ (ri : Int)
    · rw [if_pos hne] at hr
      by_cases hneg : (m cur).next < 0
      · rw [if_pos hneg] at hr
        simp at hr
      · rw [if_neg hneg] at hr
        split at hr
        · simp at hr
        · rename_i n hn
          exact ih m n m1 ((hcl cur hcur).slot hn) hcl hr
    · rw [if_neg hne] at hr
      simp only [Except.ok.injEq] at hr
      subst hr
      intro i hi
      by_cases h2 : i = cur
      · subst h2
        rw [setNext_same]
        exact hni
      · rw [setNext_other _ _ h2]
        exact hcl i hi

/-- Function `remove_node` from a link into a set `S` closed under `next` leaves the
set closed. -/
theorem remove_node_links (ctx : context) (m : Mem) (fi : Int) (ri : Nat) (ni : Int)
    (S : Nat → Prop) (hfi : LinkIn S fi) (hni : LinkIn S ni)
    (hcl : ∀ i, S i → LinkIn S (m i).next) (m1 : Mem)
    (hr : remove_node ctx m fi ri ni = .ok m1) :
    ∀ i, S i → LinkIn S (m1 i).next := by
  unfold remove_node at hr
  split at hr
  · simp at hr
  · rename_i cur hcur
    exact remove_node_loop_links ctx ri ni S hni _ m cur m1 (hfi.slot hcur) hcl hr

/-- The walk of `advance_node` through a set `S` closed under `next` leaves it
closed. -/
theorem advance_node_loop_links (ctx : context) (index : Nat) (nn list : Int)
    (S : Nat → Prop) (hidx : S index) (hnn : LinkIn S nn) :
    ∀ (fuel : Nat) (m : Mem) (cur : Nat) (m1 : Mem) (list1 : Int), S cur →
      (∀ i, S i → LinkIn S (m i).next) →
      advance_node_loop ctx index nn list fuel m cur = .ok (m1, list1) →
      list1 = list ∧ ∀ i, S i → LinkIn S (m1 i).next := by
  intro fuel
  induction fuel with
  | zero =>
    intro m cur m1 list1 _ _ hr
    simp [advance_node_loop] at hr
  | succ f ih =>
    intro m cur m1 list1 hcur hcl hr
    unfold advance_node_loop at hr
    by_cases hneg : (m cur).next < 0
    · rw [if_pos hneg] at hr
      simp only [Except.ok.injEq, Prod.mk.injEq] at hr
      obtain ⟨rfl, rfl⟩ := hr
      refine ⟨rfl, ?_⟩
      intro i hi
      by_cases h1 : i = index
      · subst h1
        rw [setNext_same]
        exact LinkIn.neg_one S
      · rw [setNext_other _ _ h1]
        by_cases h2 : i = cur
        · subst h2
          rw [setNext_same]
          exact LinkIn.index hidx
        · rw [setNext_other _ _ h2]
          exact hcl i hi
    · rw [if_neg hneg] at hr
      split at hr
      · simp at hr
      · rename_i nx hnx
        have hsnx : S nx := (hcl cur hcur).slot hnx
        by_cases heq : nx = index
        · rw [if_pos heq] at hr
          simp only [Except.ok.injEq, Prod.mk.injEq] at hr
          obtain ⟨rfl, rfl⟩ := hr
          exact ⟨rfl, hcl⟩
        · rw [if_neg heq] at hr
          by_cases hle : (m index).fscore ≤ (m nx).fscore
          · rw [if_pos hle] at hr
            dsimp only at hr
            have hcl2 : ∀ i, S i → LinkIn S
                ((setNext (setNext m index (m cur).next) cur (index : Int)) i).next := by
              intro i hi
              by_cases h2 : i = cur
              · subst h2
                rw [setNext_same]
                exact LinkIn.index hidx
              · rw [setNext_other _ _ h2]
                by_cases h1 : i = index
                · subst h1
                  rw [setNext_same]
                  exact hcl cur hcur
                · rw [setNext_other _ _ h1]
                  exact hcl i hi
            split at hr
            · simp at hr
            · rename_i m3 hrem
              simp only [Except.ok.injEq, Prod.mk.injEq] at hr
              obtain ⟨rfl, rfl⟩ := hr
              exact ⟨rfl, remove_node_links ctx _ _ index nn S (hcl2 index hidx) hnn hcl2 _
                hrem⟩
          · rw [if_neg hle] at hr
            exact ih m nx m1 list1 hsnx hcl hr

/-- Function `advance_node` for a slot of a set `S` closed under `next` and a head link
into `S` leaves the set closed and returns a head link into `S`. -/
theorem advance_node_links (ctx : context) (m : Mem) (index : Nat) (list : Int)
    (S : Nat → Prop) (hidx : S index) (hlist : LinkIn S list)
    (hcl : ∀ i, S i → LinkIn S (m i).next) (m1 : Mem) (list1 : Int)
    (hr : advance_node ctx m index list = .ok (m1, list1)) :
    LinkIn S list1 ∧ ∀ i, S i → LinkIn S (m1 i).next := by
  unfold advance_node at hr
  by_cases heq : (index : Int) = list
  · rw [if_pos heq] at hr
    simp only [Except.ok.injEq, Prod.mk.injEq] at hr
    obtain ⟨rfl, rfl⟩ := hr
    exact ⟨LinkIn.index hidx, hcl⟩
  · rw [if_neg heq] at hr
    dsimp only at hr
    by_cases hneg : list < 0
    · rw [if_pos hneg] at hr
      simp at hr
    · rw [if_neg hneg] at hr
      split at hr
      · simp at hr
      · rename_i cur hcur
        have hscur : S cur := hlist.slot hcur
        by_cases hle : (m index).fscore ≤ (m cur).fscore
        · rw [if_pos hle] at hr
          have hcl1 : ∀ i, S i → LinkIn S ((setNext m index list) i).next := by
            intro i hi
            by_cases h1 : i = index
            · subst h1
              rw [setNext_same]
              exact hlist
            · rw [setNext_other _ _ h1]
              exact hcl i hi
          split at hr
          · simp at hr
          · rename_i m2 hrem
            simp only [Except.ok.injEq, Prod.mk.injEq] at hr
            obtain ⟨rfl, rfl⟩ := hr
            exact ⟨LinkIn.index hidx,
              remove_node_links ctx _ list index _ S hlist (hcl index hidx) hcl1 _ hrem⟩
        · rw [if_neg hle] at hr
          obtain ⟨h1, h2⟩ := advance_node_loop_links ctx index _ list S hidx (hcl index hidx)
            _ m cur m1 list1 hscur hcl hr
          exact ⟨h1 ▸ hlist, h2⟩

/-! ## The predecessor links, edge weights of 0 allowed -/

/-- The invariant on the predecessor links survives a relaxation that writes slot `tmp`
(a slot that was not live, or a live slot reached at a lower cost) with the predecessor
`cur`, once the links of the new list are known to stay within the live slots. -/
theorem CameInv.write {ctx : context} {start : Nat} {s : search} (h : CameInv ctx start s)
    {cur tmp : Nat} {d : pathfinding_neighbor} {m2 : Mem} {list2 : Int} {size2 : Nat}
    (hcur : Live ctx s.m cur) (htmp : tmp < cap ctx.pow2) (hne : tmp ≠ cur)
    (hns : tmp ≠ hash ctx start)
    (hv : ∀ i, i ≠ tmp → (m2 i).version = (s.m i).version)
    (hvt : (m2 tmp).version = ctx.version)
    (hg : ∀ i, i ≠ tmp → (m2 i).gscore = (s.m i).gscore)
    (hgt : (m2 tmp).gscore = (s.m cur).gscore + d.dist)
    (hc : ∀ i, i ≠ tmp → (m2 i).camefrom = (s.m i).camefrom)
    (hct : (m2 tmp).camefrom = cur)
    (himp : (s.m tmp).version = ctx.version → (s.m cur).gscore + d.dist < (s.m tmp).gscore)
    (hlist : LinkIn (Live ctx m2) list2)
    (hnext : ∀ i, Live ctx m2 i → LinkIn (Live ctx m2) (m2 i).next) :
    CameInv ctx start ⟨m2, list2, size2⟩ := by
  have hold : ∀ i, i ≠ tmp → Live ctx m2 i → Live ctx s.m i := by
    intro i hi hl
    exact ⟨hl.1, by rw [← hv i hi]; exact hl.2⟩
  have hup : ∀ i, Live ctx s.m i → Live ctx m2 i := by
    intro i hl
    by_cases hi : i = tmp
    · subst hi; exact ⟨htmp, hvt⟩
    · exact ⟨hl.1, by rw [hv i hi]; exact hl.2⟩
  refine ⟨?_, ?_, ?_, ?_, ?_, hlist, hnext⟩
  · show (m2 (hash ctx start)).version = ctx.version
    rw [hv _ (Ne.symm hns)]; exact h.start_live
  · show (m2 (hash ctx start)).gscore = 0
    rw [hg _ (Ne.symm hns)]; exact h.start_gscore
  · show (m2 (hash ctx start)).camefrom = hash ctx start
    rw [hc _ (Ne.symm hns)]; exact h.start_from
  · intro i hl
    show Live ctx m2 (m2 i).camefrom
    by_cases hi : i = tmp
    · subst hi; rw [hct]; exact hup cur hcur
    · rw [hc i hi]; exact hup _ (h.from_live i (hold i hi hl))
  · obtain ⟨τ, hτ⟩ := h.rank
    have hsup : ∀ i, i < cap ctx.pow2 → τ i < (Finset.range (cap ctx.pow2)).sup τ + 1 := by
      intro i hi
      exact Nat.lt_succ_of_le (Finset.le_sup (Finset.mem_range.mpr hi))
    obtain ⟨τ1, e1, e2⟩ : ∃ τ1 : Nat → Nat,
        τ1 tmp = (Finset.range (cap ctx.pow2)).sup τ + 1 ∧ ∀ i, i ≠ tmp → τ1 i = τ i :=
      ⟨fun i => if i = tmp then (Finset.range (cap ctx.pow2)).sup τ + 1 else τ i,
        by simp, fun i hi => by simp [hi]⟩
    refine ⟨τ1, ?_⟩
    intro i hl his
    show RankedBelow m2 τ1 (m2 i).camefrom i
    by_cases hi : i = tmp
    · rw [hi, hct]
      unfold RankedBelow
      rw [hgt, hg cur (Ne.symm hne), e1, e2 cur (Ne.symm hne)]
      by_cases hd0 : d.dist = 0
      · right
        exact ⟨by omega, hsup cur hcur.1⟩
      · left
        omega
    · rw [hc i hi]
      have hli := hold i hi hl
      have hr := hτ i hli his
      unfold RankedBelow at hr ⊢
      rw [hg i hi, e2 i hi]
      by_cases hct' : (s.m i).camefrom = tmp
      · rw [hct'] at hr ⊢
        have hlt : (s.m tmp).version = ctx.version := by
          have := (h.from_live i hli).2
          rw [hct'] at this
          exact this
        have := himp hlt
        left
        rw [hgt]
        omega
      · rw [hg _ hct', e2 _ hct']
        exact hr

/-- A relaxation keeps the invariant on the predecessor links, whatever the open list
looks like, and every live slot stays live. -/
theorem relax_cameInv (ctx : context) (start cur : Nat) (s : search)
    (d : pathfinding_neighbor)
    (hfit : relax_fits ctx cur s d = true)
    (hcur : Live ctx s.m cur) (h : CameInv ctx start s) (s1 : search)
    (hr : relax ctx cur s d = .ok s1) :
    CameInv ctx start s1 ∧ ∀ i, Live ctx s.m i → Live ctx s1.m i := by
  obtain ⟨k, hk, hfind, hpre, hstop⟩ := find_node_of_relax ctx cur s s1 d hr
  have hlt := probe_lt ctx d.pos k
  have hwrap : ((s.m cur).gscore + d.dist) % 2 ^ 32 = (s.m cur).gscore + d.dist := by
    unfold relax_fits at hfit
    rw [Bool.and_eq_true, decide_eq_true_eq] at hfit
    exact Nat.mod_eq_of_lt hfit.1
  obtain ⟨tmp, htmp⟩ : ∃ tmp, tmp = probe ctx d.pos k := ⟨_, rfl⟩
  rw [← htmp] at hfind hstop hlt
  rw [relax_unfold, hfind] at hr
  dsimp only at hr
  by_cases hv : (s.m tmp).version = ctx.version
  · rw [if_neg (not_not.mpr hv)] at hr
    by_cases hlow : ((s.m cur).gscore + d.dist) % 2 ^ 32 < (s.m tmp).gscore
    · rw [if_pos hlow] at hr
      have hlive : Live ctx s.m tmp := ⟨hlt, hv⟩
      have hcl : ∀ i, Live ctx s.m i → LinkIn (Live ctx s.m)
          ((setNode s.m tmp (improvedNode cur s.m d tmp)) i).next := by
        intro i hi
        by_cases hit : i = tmp
        · rw [hit, setNode_same]
          exact h.next_ok tmp hlive
        · rw [setNode_other _ _ hit]
          exact h.next_ok i hi
      have hop : ∀ m2 list, (if (s.m tmp).fscore ≠ 0 then
            advance_node ctx (setNode s.m tmp (improvedNode cur s.m d tmp)) tmp s.list
          else insert_node ctx (setNode s.m tmp (improvedNode cur s.m d tmp)) tmp s.list) =
            .ok (m2, list) →
          SameData (setNode s.m tmp (improvedNode cur s.m d tmp)) m2 ∧
          LinkIn (Live ctx s.m) list ∧ ∀ i, Live ctx s.m i → LinkIn (Live ctx s.m) (m2 i).next := by
        intro m2 list hop
        split_ifs at hop
        · exact ⟨advance_node_sameData _ _ _ _ _ _ hop,
            advance_node_links ctx _ tmp s.list _ hlive h.list_ok hcl _ _ hop⟩
        · obtain ⟨h1, h2⟩ := insert_node_links ctx _ tmp s.list _ _ (fun _ hi => hi) hlive
            h.list_ok hcl _ _ hop
          exact ⟨insert_node_sameData _ _ _ _ _ _ hop, h1, fun i hi => h2 i (Or.inl hi)⟩
      split at hr
      · simp at hr
      · rename_i m2 list hopr
        obtain ⟨hsame, hl1, hl2⟩ := hop m2 list hopr
        simp only [Except.ok.injEq] at hr
        subst hr
        rw [hwrap] at hlow
        have hne : tmp ≠ cur := by
          intro e
          rw [e] at hlow
          omega
        have hns : tmp ≠ hash ctx start := by
          intro e
          rw [e, h.start_gscore] at hlow
          omega
        have hver : ∀ i, (m2 i).version = (s.m i).version := by
          intro i
          rw [hsame.version]
          by_cases hi : i = tmp
          · rw [hi, setNode_same]; rfl
          · rw [setNode_other _ _ hi]
        have hlv : ∀ i, Live ctx s.m i → Live ctx m2 i :=
          fun i hi => ⟨hi.1, by rw [hver]; exact hi.2⟩
        refine ⟨?_, hlv⟩
        refine h.write (d := d) hcur hlt hne hns (fun i _ => hver i)
          (by rw [hver]; exact hv) ?_ ?_ ?_ ?_ (fun _ => hlow) (hl1.mono hlv) ?_
        · intro i hi
          rw [hsame.gscore, setNode_other _ _ hi]
        · rw [hsame.gscore, setNode_same]
          show ((s.m cur).gscore + d.dist) % 2 ^ 32 = _
          exact hwrap
        · intro i hi
          rw [hsame.camefrom, setNode_other _ _ hi]
        · rw [hsame.camefrom, setNode_same]
          rfl
        · intro i hi
          exact (hl2 i ⟨hi.1, by rw [← hver]; exact hi.2⟩).mono hlv
    · rw [if_neg hlow] at hr
      simp only [Except.ok.injEq] at hr
      subst hr
      exact ⟨h, fun _ hi => hi⟩
  · rw [if_pos hv] at hr
    split at hr
    · simp at hr
    · rename_i m2 list hop
      have hsame := insert_node_sameData _ _ _ _ _ _ hop
      simp only [Except.ok.injEq] at hr
      subst hr
      have hne : tmp ≠ cur := by
        intro e
        rw [e] at hv
        exact hv hcur.2
      have hns : tmp ≠ hash ctx start := by
        intro e
        rw [e] at hv
        exact hv h.start_live
      have hcl : ∀ i, Live ctx s.m i → LinkIn (Live ctx s.m)
          ((setNode s.m tmp (newNode ctx cur s.m d tmp)) i).next := by
        intro i hi
        have hit : i ≠ tmp := by
          intro e
          rw [e] at hi
          exact hv hi.2
        rw [setNode_other _ _ hit]
        exact h.next_ok i hi
      obtain ⟨hl1, hl2⟩ := insert_node_links ctx _ tmp s.list (Live ctx s.m)
        (fun i => Live ctx s.m i ∨ i = tmp) (fun _ hi => Or.inl hi) (Or.inr rfl)
        h.list_ok hcl _ _ hop
      have hvo : ∀ i, i ≠ tmp → (m2 i).version = (s.m i).version := by
        intro i hi
        rw [hsame.version, setNode_other _ _ hi]
      have hvt : (m2 tmp).version = ctx.version := by
        rw [hsame.version, setNode_same]
        rfl
      have hlv : ∀ i, Live ctx s.m i ∨ i = tmp → Live ctx m2 i := by
        intro i hi
        rcases hi with hi | hi
        · have hit : i ≠ tmp := by
            intro e
            rw [e] at hi
            exact hv hi.2
          exact ⟨hi.1, by rw [hvo i hit]; exact hi.2⟩
        · rw [hi]
          exact ⟨hlt, hvt⟩
      refine ⟨?_, fun i hi => hlv i (Or.inl hi)⟩
      refine h.write (d := d) hcur hlt hne hns hvo hvt ?_ ?_ ?_ ?_
        (fun hn => absurd hn hv) (hl1.mono hlv) ?_
      · intro i hi
        rw [hsame.gscore, setNode_other _ _ hi]
      · rw [hsame.gscore, setNode_same]
        show ((s.m cur).gscore + d.dist) % 2 ^ 32 = _
        exact hwrap
      · intro i hi
        rw [hsame.camefrom, setNode_other _ _ hi]
      · rw [hsame.camefrom, setNode_same]
        rfl
      · intro i hi
        refine (hl2 i ?_).mono hlv
        by_cases hit : i = tmp
        · exact Or.inr hit
        · exact Or.inl ⟨hi.1, by rw [← hvo i hit]; exact hi.2⟩

/-- The relaxations of a list of entries, when they return, keep the invariants on the
table and on the predecessor links while no sum overflows. -/
theorem relax_all_cameInv (ctx : context) (start cur : Nat) :
    ∀ (ds : List pathfinding_neighbor) (s s1 : search), TableInv ctx s →
      relax_all_fits ctx cur ds s = true →
      Live ctx s.m cur → CameInv ctx start s → relax_all ctx cur ds s = .ok s1 →
      TableInv ctx s1 ∧ CameInv ctx start s1 ∧ s1.size ≤ s.size + ds.length := by
  intro ds
  induction ds with
  | nil =>
    intro s s1 ht _ _ h hr
    simp only [relax_all, Except.ok.injEq] at hr
    subst hr
    exact ⟨ht, h, le_refl _⟩
  | cons d ds ih =>
    intro s s1 ht hfits hcur h hr
    unfold relax_all at hr
    unfold relax_all_fits at hfits
    rw [Bool.and_eq_true] at hfits
    obtain ⟨hfit, hrest⟩ := hfits
    split at hr
    · simp at hr
    · rename_i s2 h2
      rw [h2] at hrest
      obtain ⟨ht2, _, hle⟩ := relax_tableInv ctx cur s d ht s2 h2
      obtain ⟨hc2, hlv⟩ := relax_cameInv ctx start cur s d hfit hcur h s2 h2
      obtain ⟨ht1, hc1, hle1⟩ := ih s2 s1 ht2 hrest (hlv cur hcur) hc2 hr
      refine ⟨ht1, hc1, ?_⟩
      simp only [List.length_cons]
      omega

/-- The invariant on the predecessor links does not depend on the `fscore`s. -/
theorem CameInv.congr_links {ctx : context} {start : Nat} {s : search}
    (h : CameInv ctx start s) {m1 : Mem} {list1 : Int}
    (hv : ∀ i, (m1 i).version = (s.m i).version)
    (hg : ∀ i, (m1 i).gscore = (s.m i).gscore)
    (hc : ∀ i, (m1 i).camefrom = (s.m i).camefrom)
    (hn : ∀ i, (m1 i).next = (s.m i).next) (hl : LinkIn (Live ctx s.m) list1) :
    CameInv ctx start ⟨m1, list1, s.size⟩ := by
  have hlv : ∀ i, Live ctx s.m i → Live ctx m1 i :=
    fun i hi => ⟨hi.1, by rw [hv]; exact hi.2⟩
  have hlv' : ∀ i, Live ctx m1 i → Live ctx s.m i :=
    fun i hi => ⟨hi.1, by rw [← hv]; exact hi.2⟩
  refine ⟨?_, ?_, ?_, ?_, ?_, hl.mono hlv, ?_⟩
  · show (m1 _).version = _
    rw [hv]; exact h.start_live
  · show (m1 _).gscore = _
    rw [hg]; exact h.start_gscore
  · show (m1 _).camefrom = _
    rw [hc]; exact h.start_from
  · intro i hi
    show Live ctx m1 (m1 i).camefrom
    rw [hc]
    exact hlv _ (h.from_live i (hlv' i hi))
  · obtain ⟨τ, hτ⟩ := h.rank
    refine ⟨τ, ?_⟩
    intro i hi his
    show RankedBelow m1 τ (m1 i).camefrom i
    have := hτ i (hlv' i hi) his
    unfold RankedBelow at this ⊢
    rw [hc, hg, hg]
    exact this
  · intro i hi
    show LinkIn (Live ctx m1) (m1 i).next
    rw [hn]
    exact (h.next_ok i (hlv' i hi)).mono hlv

/-- Closing a live slot and relaxing a list of entries keeps the invariants on the
table and on the predecessor links. -/
theorem expand_cameInv (ctx : context) (start cur : Nat) (ds : List pathfinding_neighbor)
    (s s1 : search) (ht : TableInv ctx s) (hfits : expand_fits ctx cur ds s = true)
    (hcur : Live ctx s.m cur)
    (h : CameInv ctx start s) (hr : expand ctx cur ds s = .ok s1) :
    TableInv ctx s1 ∧ CameInv ctx start s1 := by
  unfold expand at hr
  unfold expand_fits at hfits
  dsimp only at hr hfits
  have hfield : ∀ i, ((setNode s.m cur { s.m cur with fscore := 0 }) i).version =
        (s.m i).version ∧
      ((setNode s.m cur { s.m cur with fscore := 0 }) i).coord = (s.m i).coord ∧
      ((setNode s.m cur { s.m cur with fscore := 0 }) i).gscore = (s.m i).gscore ∧
      ((setNode s.m cur { s.m cur with fscore := 0 }) i).camefrom = (s.m i).camefrom ∧
      ((setNode s.m cur { s.m cur with fscore := 0 }) i).next = (s.m i).next := by
    intro i
    by_cases hi : i = cur
    · subst hi; rw [setNode_same]; exact ⟨rfl, rfl, rfl, rfl, rfl⟩
    · rw [setNode_other _ _ hi]; exact ⟨rfl, rfl, rfl, rfl, rfl⟩
  have ht0 : TableInv ctx ⟨setNode s.m cur { s.m cur with fscore := 0 },
      ((setNode s.m cur { s.m cur with fscore := 0 }) cur).next, s.size⟩ :=
    ⟨ht.table.congr_table (fun i => (hfield i).1) (fun i => (hfield i).2.1), by
      show liveCount ctx (setNode s.m cur { s.m cur with fscore := 0 }) = s.size
      rw [liveCount_congr ctx (fun i => (hfield i).1), ht.count]⟩
  have hc0 : CameInv ctx start ⟨setNode s.m cur { s.m cur with fscore := 0 },
      ((setNode s.m cur { s.m cur with fscore := 0 }) cur).next, s.size⟩ := by
    apply h.congr_links (fun i => (hfield i).1) (fun i => (hfield i).2.2.1)
      (fun i => (hfield i).2.2.2.1) (fun i => (hfield i).2.2.2.2)
    rw [(hfield cur).2.2.2.2]
    exact h.next_ok cur hcur
  have hcur0 : Live ctx (setNode s.m cur { s.m cur with fscore := 0 }) cur :=
    ⟨hcur.1, by rw [(hfield cur).1]; exact hcur.2⟩
  have h3 := relax_all_cameInv ctx start cur ds _ s1 ht0 hfits hcur0 hc0 hr
  exact ⟨h3.1, h3.2.1⟩

/-- The seeded start satisfies the invariant on the predecessor links. -/
theorem seed_cameInv (ctx : context) (start : Nat) (m : Mem)
    (hno : ∀ i, i < cap ctx.pow2 → (m i).version ≠ ctx.version) :
    CameInv ctx start (seed ctx m start) := by
  have hs := hash_lt ctx start
  have honly : ∀ i, Live ctx (seed ctx m start).m i → i = hash ctx start := by
    intro i hl
    by_contra hne
    have := hl.2
    rw [seed_other ctx m start hne] at this
    exact hno i hl.1 this
  have hself : Live ctx (seed ctx m start).m (hash ctx start) :=
    ⟨hs, by simp [seed, setNode_same]⟩
  refine ⟨hself.2, by simp [seed, setNode_same], by simp [seed, setNode_same], ?_,
    ⟨fun _ => 0, ?_⟩, LinkIn.index hself, ?_⟩
  · intro i hl
    rw [honly i hl]
    have : ((seed ctx m start).m (hash ctx start)).camefrom = hash ctx start := by
      simp [seed, setNode_same]
    rw [this]
    exact hself
  · intro i hl hne
    exact absurd (honly i hl) hne
  · intro i hl
    rw [honly i hl]
    have : ((seed ctx m start).m (hash ctx start)).next = -1 := by
      simp [seed, setNode_same]
    rw [this]
    exact LinkIn.neg_one _

/-- What the loop of `astar` returns satisfies the invariants on the table and on the
predecessor links, for a callback whose edge weights may be 0, when no sum of the run
overflows. -/
theorem astar_loop_cameInv {σ : Type} {ctx : context} {start goal : Nat}
    (func : pathfinding_hfunc σ) :
    ∀ (fuel : Nat) (s : search) (ud : σ) (r : Int) (m1 : Mem) (ud1 : σ),
      TableInv ctx s → CameInv ctx start s →
      astar_fits ctx func goal fuel s ud = true →
      astar_loop ctx func goal fuel s ud = .ok (r, m1, ud1) →
      ∃ size, TableInv ctx ⟨m1, r, size⟩ ∧ CameInv ctx start ⟨m1, r, size⟩ := by
  intro fuel
  induction fuel with
  | zero =>
    intro s ud r m1 ud1 _ _ _ hrun
    simp [astar_loop] at hrun
  | succ f ih =>
    intro s ud r m1 ud1 ht h hfits hrun
    unfold astar_loop at hrun
    unfold astar_fits at hfits
    split at hrun
    · simp at hrun
    · rename_i cur hcur
      rw [hcur] at hfits
      dsimp only at hfits
      have hlcur : Live ctx s.m cur := h.list_ok.slot hcur
      by_cases hgoal : (s.m cur).coord = goal
      · rw [if_pos hgoal] at hrun
        simp only [Except.ok.injEq, Prod.mk.injEq] at hrun
        obtain ⟨rfl, rfl, _⟩ := hrun
        exact ⟨s.size, ht, h⟩
      · rw [if_neg hgoal] at hrun hfits
        dsimp only at hrun
        by_cases hdrain : (func ud (s.m cur).coord).1.length = 0 ∧ (s.m cur).next < 0
        · rw [if_pos hdrain] at hrun
          simp only [Except.ok.injEq, Prod.mk.injEq] at hrun
          obtain ⟨rfl, rfl, _⟩ := hrun
          exact ⟨s.size, ⟨ht.table, ht.count⟩,
            h.congr_links (fun _ => rfl) (fun _ => rfl) (fun _ => rfl) (fun _ => rfl)
              (LinkIn.neg_one _)⟩
        · rw [if_neg hdrain] at hrun hfits
          rw [Bool.and_eq_true] at hfits
          obtain ⟨hfit1, hfit2⟩ := hfits
          split at hrun
          · simp at hrun
          · rename_i s1 hexp
            rw [hexp] at hfit2
            dsimp only at hfit2
            obtain ⟨ht1, hc1⟩ := expand_cameInv ctx start cur _ s s1 ht hfit1 hlcur h hexp
            by_cases hbig : s1.size > 1 <<< (ctx.pow2 - 1)
            · rw [if_pos hbig] at hrun
              simp only [Except.ok.injEq, Prod.mk.injEq] at hrun
              obtain ⟨rfl, rfl, _⟩ := hrun
              exact ⟨s1.size, ht1, hc1⟩
            · rw [if_neg hbig] at hrun hfit2
              exact ih s1 _ r m1 ud1 ht1 hc1 hfit2 hrun

/-! ## Termination of `calc_length` -/

/-- The rank order is transitive. -/
theorem RankedBelow.trans_rank {m : Mem} {τ : Nat → Nat} {a b c : Nat}
    (h1 : RankedBelow m τ a b) (h2 : RankedBelow m τ b c) : RankedBelow m τ a c := by
  unfold RankedBelow at *
  omega

/-- The rank order is irreflexive. -/
theorem RankedBelow.irrefl_rank {m : Mem} {τ : Nat → Nat} {a : Nat} : ¬ RankedBelow m τ a a := by
  unfold RankedBelow
  omega

/-- The chain of predecessors of a live slot runs through live slots. -/
theorem CameInv.chain_live {ctx : context} {start : Nat} {s : search}
    (h : CameInv ctx start s) {n : Nat} (hn : Live ctx s.m n) :
    ∀ j, Live ctx s.m (chainAt s.m j n) := by
  intro j
  induction j with
  | zero => exact hn
  | succ j ih =>
    rw [chainAt_succ]
    exact h.from_live _ ih

/-- The chain of predecessors stays at the start slot once it is there. -/
theorem CameInv.chain_start {ctx : context} {start : Nat} {s : search}
    (h : CameInv ctx start s) : ∀ j, chainAt s.m j (hash ctx start) = hash ctx start := by
  intro j
  induction j with
  | zero => rfl
  | succ j ih => rw [chainAt_succ, ih, h.start_from]

/-- Along the chain of predecessors of a live slot the rank goes down as long as the
`gscore` is not 0. -/
theorem CameInv.chain_rank {ctx : context} {start : Nat} {s : search}
    (h : CameInv ctx start s) {τ : Nat → Nat}
    (hτ : ∀ i, Live ctx s.m i → i ≠ hash ctx start → RankedBelow s.m τ (s.m i).camefrom i)
    {n : Nat} (hn : Live ctx s.m n) (b : Nat)
    (hg : ∀ j, j < b → (s.m (chainAt s.m j n)).gscore ≠ 0) :
    ∀ a, a < b → RankedBelow s.m τ (chainAt s.m b n) (chainAt s.m a n) := by
  induction b with
  | zero => intro a ha; omega
  | succ b ih =>
    intro a ha
    have hne : chainAt s.m b n ≠ hash ctx start := by
      intro e
      have := hg b (Nat.lt_succ_self b)
      rw [e, h.start_gscore] at this
      exact this rfl
    have hstep : RankedBelow s.m τ (chainAt s.m (b + 1) n) (chainAt s.m b n) := by
      rw [chainAt_succ]
      exact hτ _ (h.chain_live hn b) hne
    by_cases hab : a = b
    · rw [hab]; exact hstep
    · exact hstep.trans_rank (ih (fun j hj => hg j (by omega)) a (by omega))

/-- A chain of predecessors without a `gscore` of 0 among its first `b` slots has
fewer than `liveCount` such slots. -/
theorem CameInv.chain_short {ctx : context} {start : Nat} {s : search}
    (h : CameInv ctx start s) {n : Nat} (hn : Live ctx s.m n) (b : Nat)
    (hg : ∀ j, j < b → (s.m (chainAt s.m j n)).gscore ≠ 0) :
    b + 1 ≤ liveCount ctx s.m := by
  obtain ⟨τ, hτ⟩ := h.rank
  unfold liveCount
  have hinj : Set.InjOn (fun j => chainAt s.m j n) (Finset.range (b + 1) : Set Nat) := by
    intro x hx y hy hxy
    simp only [Finset.coe_range, Set.mem_Iio] at hx hy
    simp only at hxy
    by_contra hne
    rcases Nat.lt_or_gt_of_ne hne with hlt | hlt
    · have := h.chain_rank hτ hn y (fun j hj => hg j (by omega)) x hlt
      rw [hxy] at this
      exact RankedBelow.irrefl_rank this
    · have := h.chain_rank hτ hn x (fun j hj => hg j (by omega)) y hlt
      rw [hxy] at this
      exact RankedBelow.irrefl_rank this
  have := Finset.card_le_card_of_injOn (fun j => chainAt s.m j n)
    (s := Finset.range (b + 1))
    (t := (Finset.range (cap ctx.pow2)).filter (fun i => (s.m i).version = ctx.version))
    (by
      intro j _
      obtain ⟨h1, h2⟩ := h.chain_live hn j
      have hmem : chainAt s.m j n ∈ (Finset.range (cap ctx.pow2)).filter
          (fun i => (s.m i).version = ctx.version) :=
        Finset.mem_filter.mpr ⟨Finset.mem_range.mpr h1, h2⟩
      exact hmem) hinj
  rwa [Finset.card_range] at this

/-- From a live slot `calc_length` returns: it counts the slots of the chain of
predecessors up to the first one with `gscore` 0, and these are at most as many as
there are live slots. -/
theorem CameInv.calc_length_total {ctx : context} {start : Nat} {s : search}
    (h : CameInv ctx start s) {n : Nat} (hn : Live ctx s.m n) :
    ∃ k, k + 1 ≤ liveCount ctx s.m ∧
      calc_length_loop ctx.pow2 s.m (cap ctx.pow2 + 1) n 1 = .ok (((k + 1 : Nat)) : Int) ∧
      (s.m (chainAt s.m k n)).gscore = 0 ∧
      ∀ j, j < k → (s.m (chainAt s.m j n)).gscore ≠ 0 := by
  have hex : ∃ k, (s.m (chainAt s.m k n)).gscore = 0 := by
    by_contra hno
    have hall : ∀ j, (s.m (chainAt s.m j n)).gscore ≠ 0 := fun j hj => hno ⟨j, hj⟩
    have := h.chain_short hn (liveCount ctx s.m) (fun j _ => hall j)
    omega
  classical
  refine ⟨Nat.find hex, ?_, ?_, Nat.find_spec hex, fun j hj => Nat.find_min hex hj⟩
  · exact h.chain_short hn _ (fun j hj => Nat.find_min hex hj)
  · have hk := h.chain_short hn _ (fun j hj => Nat.find_min hex hj)
    have hle := liveCount_le ctx s.m
    rw [calc_length_loop_eq ctx.pow2 s.m (Nat.find hex) n (cap ctx.pow2 + 1) 1 (by omega)
      (fun j hj => ⟨Nat.find_min hex hj, (h.chain_live hn (j + 1)).1⟩) (Nat.find_spec hex)]
    congr 1
    push_cast
    ring

/-- The predecessor links of the live slots have no cycle apart from the link of the
start slot to itself. -/
theorem CameInv.no_cycle {ctx : context} {start : Nat} {s : search}
    (h : CameInv ctx start s) {i : Nat} (hi : Live ctx s.m i) (n : Nat) (hn : 0 < n)
    (hc : chainAt s.m n i = i) : i = hash ctx start := by
  obtain ⟨τ, hτ⟩ := h.rank
  by_contra hne
  have key : ∀ (k : Nat) (x : Nat), Live ctx s.m x → x ≠ hash ctx start →
      chainAt s.m (k + 1) x = hash ctx start ∨ RankedBelow s.m τ (chainAt s.m (k + 1) x) x := by
    intro k
    induction k with
    | zero =>
      intro x hx hxs
      right
      exact hτ x hx hxs
    | succ k ih =>
      intro x hx hxs
      have e : chainAt s.m (k + 1 + 1) x = chainAt s.m (k + 1) (s.m x).camefrom := rfl
      rw [e]
      by_cases hcs : (s.m x).camefrom = hash ctx start
      · left
        rw [hcs]
        exact h.chain_start _
      · rcases ih _ (h.from_live x hx) hcs with h1 | h1
        · exact Or.inl h1
        · exact Or.inr (h1.trans_rank (hτ x hx hxs))
  obtain ⟨k, rfl⟩ : ∃ k, n = k + 1 := ⟨n - 1, by omega⟩
  rcases key k i hi hne with h1 | h1
  · rw [hc] at h1
    exact hne h1
  · rw [hc] at h1
    exact RankedBelow.irrefl_rank h1


/-! ## Two runs of one query on different buffers -/

theorem ExceptRel.ok_ok {α β : Type} {R : α → β → Prop} {a : α} {b : β} (h : R a b) :
    ExceptRel R (.ok a) (.ok b) := h

theorem ExceptRel.error_error {α β : Type} {R : α → β → Prop} (e : Fault) :
    ExceptRel R (.error e : Except Fault α) (.error e : Except Fault β) := rfl

/-- Two runs that end alike and whose results are related by `R` end alike with results
related by every weaker relation. -/
theorem ExceptRel.imp {α β : Type} {R Q : α → β → Prop} (h : ∀ a b, R a b → Q a b)
    {x : Except Fault α} {y : Except Fault β} (hr : ExceptRel R x y) : ExceptRel Q x y := by
  cases x <;> cases y <;> first | exact hr | exact h _ _ hr

theorem hash_pow2 (c1 c2 : context) (hp : c1.pow2 = c2.pow2) (pos : Nat) :
    hash c1 pos = hash c2 pos := by
  unfold hash
  rw [hp]

/-- The probe loop of `find_node` stays within the table. -/
theorem find_node_loop_lt (ctx : context) (m : Mem) (pos : Nat) :
    ∀ (fuel index n : Nat), index < cap ctx.pow2 →
      find_node_loop ctx m pos fuel index = .ok n → n < cap ctx.pow2 := by
  intro fuel
  induction fuel with
  | zero => intro index n _ h; simp [find_node_loop] at h
  | succ f ih =>
    intro index n hi h
    unfold find_node_loop at h
    by_cases h1 : (m index).coord = pos
    · rw [if_pos h1] at h
      simp only [Except.ok.injEq] at h; omega
    · rw [if_neg h1] at h
      by_cases h2 : (m index).version ≠ ctx.version
      · rw [if_pos h2] at h
        simp only [Except.ok.injEq] at h; omega
      · rw [if_neg h2] at h
        exact ih _ n (probe_next_lt ctx index hi) h

theorem find_node_lt (ctx : context) (m : Mem) (pos n : Nat)
    (h : find_node ctx m pos = .ok n) : n < cap ctx.pow2 :=
  find_node_loop_lt ctx m pos _ _ n (hash_lt ctx pos) h

/-- The probe loop of `find_node` takes the same steps on two slot arrays that hold the
same search. -/
theorem find_node_loop_sim (c1 c2 : context) (hp : c1.pow2 = c2.pow2) (m1 m2 : Mem)
    (hs : SameSearch c1 c2 m1 m2) (pos : Nat) :
    ∀ (fuel index : Nat), index < cap c1.pow2 →
      find_node_loop c1 m1 pos fuel index = find_node_loop c2 m2 pos fuel index := by
  intro fuel
  induction fuel with
  | zero => intro index _; rfl
  | succ f ih =>
    intro index hi
    unfold find_node_loop
    rw [← hp]
    by_cases hl : (m1 index).version = c1.version
    · have hl2 := (hs.live index hi).mp hl
      rw [← hs.coord index ⟨hi, hl⟩]
      by_cases hc : (m1 index).coord = pos
      · rw [if_pos hc, if_pos hc]
      · rw [if_neg hc, if_neg hc, if_neg (not_not.mpr hl), if_neg (not_not.mpr hl2)]
        exact ih _ (probe_next_lt c1 index hi)
    · have hl2 : ¬ (m2 index).version = c2.version := fun h => hl ((hs.live index hi).mpr h)
      have e1 : (if (m1 index).coord = pos then Except.ok index
          else if (m1 index).version ≠ c1.version then Except.ok index
          else find_node_loop c1 m1 pos f
            (if toInt32 (index + 1) ≥ one_shl c1.pow2 then 0 else index + 1)) =
          (Except.ok index : Except Fault Nat) := by
        split_ifs <;> rfl
      have e2 : (if (m2 index).coord = pos then Except.ok index
          else if (m2 index).version ≠ c2.version then Except.ok index
          else find_node_loop c2 m2 pos f
            (if toInt32 (index + 1) ≥ one_shl c1.pow2 then 0 else index + 1)) =
          (Except.ok index : Except Fault Nat) := by
        split_ifs <;> rfl
      rw [e1, e2]

/-- Function `find_node` returns the same slot on two slot arrays that hold the same
search. -/
theorem find_node_sim (c1 c2 : context) (hp : c1.pow2 = c2.pow2) (m1 m2 : Mem)
    (hs : SameSearch c1 c2 m1 m2) (pos : Nat) :
    find_node c1 m1 pos = find_node c2 m2 pos := by
  unfold find_node
  rw [← hash_pow2 c1 c2 hp, ← hp]
  exact find_node_loop_sim c1 c2 hp m1 m2 hs pos _ _ (hash_lt c1 pos)

/-- The walk of `insert_node` takes the same steps on two slot arrays that agree, on a
set `S` of slots closed under `next`, in the `next` links and the `fscore`s, and in the
`fscore` of the inserted slot; afterwards they agree in the `next` links on `S` and at
the inserted slot. -/
theorem insert_node_loop_sim (c1 c2 : context) (hp : c1.pow2 = c2.pow2) (index : Nat)
    (S : Nat → Prop) :
    ∀ (fuel : Nat) (m1 m2 : Mem) (cur : Nat), S cur →
      (∀ i, S i → LinkIn S (m1 i).next) → (∀ i, S i → (m1 i).next = (m2 i).next) →
      (∀ i, S i → (m1 i).fscore = (m2 i).fscore) → (m1 index).fscore = (m2 index).fscore →
      ExceptRel (fun a b => ∀ i, (S i ∨ i = index) → (a i).next = (b i).next)
        (insert_node_loop c1 index fuel m1 cur) (insert_node_loop c2 index fuel m2 cur) := by
  intro fuel
  induction fuel with
  | zero =>
    intro m1 m2 cur _ _ _ _ _
    exact ExceptRel.error_error _
  | succ f ih =>
    intro m1 m2 cur hcur hcl hn hf hfi
    unfold insert_node_loop
    rw [← hn cur hcur, ← hp, ← hfi]
    by_cases hneg : (m1 cur).next < 0
    · rw [if_pos hneg, if_pos hneg]
      apply ExceptRel.ok_ok
      intro i hi
      by_cases h1 : i = index
      · rw [h1, setNext_same, setNext_same]
      · rw [setNext_other _ _ h1, setNext_other _ _ h1]
        by_cases h2 : i = cur
        · rw [h2, setNext_same, setNext_same]
        · rw [setNext_other _ _ h2, setNext_other _ _ h2]
          rcases hi with hi | hi
          · exact hn i hi
          · exact absurd hi h1
    · rw [if_neg hneg, if_neg hneg]
      cases hnx : slotIndex c1.pow2 (m1 cur).next with
      | error e => exact ExceptRel.error_error _
      | ok nx =>
        have hsnx : S nx := (hcl cur hcur).slot hnx
        dsimp only
        rw [← hf nx hsnx]
        by_cases hle : (m1 index).fscore ≤ (m1 nx).fscore
        · rw [if_pos hle, if_pos hle]
          apply ExceptRel.ok_ok
          intro i hi
          by_cases h2 : i = cur
          · rw [h2, setNext_same, setNext_same]
          · rw [setNext_other _ _ h2, setNext_other _ _ h2]
            by_cases h1 : i = index
            · rw [h1, setNext_same, setNext_same]
            · rw [setNext_other _ _ h1, setNext_other _ _ h1]
              rcases hi with hi | hi
              · exact hn i hi
              · exact absurd hi h1
        · rw [if_neg hle, if_neg hle]
          exact ih m1 m2 nx hsnx hcl hn hf hfi

/-- Function `insert_node` takes the same steps on two slot arrays that agree, on a set
`S` of slots closed under `next` that holds the list, in the `next` links and the
`fscore`s, and in the `fscore` of the inserted slot. -/
theorem insert_node_sim (c1 c2 : context) (hp : c1.pow2 = c2.pow2) (m1 m2 : Mem)
    (index : Nat) (list : Int) (S : Nat → Prop) (hlist : LinkIn S list)
    (hcl : ∀ i, S i → LinkIn S (m1 i).next) (hn : ∀ i, S i → (m1 i).next = (m2 i).next)
    (hf : ∀ i, S i → (m1 i).fscore = (m2 i).fscore)
    (hfi : (m1 index).fscore = (m2 index).fscore) :
    ExceptRel (fun a b => a.2 = b.2 ∧ ∀ i, (S i ∨ i = index) → (a.1 i).next = (b.1 i).next)
      (insert_node c1 m1 index list) (insert_node c2 m2 index list) := by
  unfold insert_node
  rw [← hp, ← hfi]
  by_cases hneg : list < 0
  · rw [if_pos hneg, if_pos hneg]
    apply ExceptRel.ok_ok
    refine ⟨rfl, ?_⟩
    intro i hi
    show (setNext m1 index (-1) i).next = (setNext m2 index (-1) i).next
    by_cases h1 : i = index
    · rw [h1, setNext_same, setNext_same]
    · rw [setNext_other _ _ h1, setNext_other _ _ h1]
      rcases hi with hi | hi
      · exact hn i hi
      · exact absurd hi h1
  · rw [if_neg hneg, if_neg hneg]
    cases hc : slotIndex c1.pow2 list with
    | error e => exact ExceptRel.error_error _
    | ok cur =>
      have hscur : S cur := hlist.slot hc
      dsimp only
      rw [← hf cur hscur]
      by_cases hle : (m1 index).fscore ≤ (m1 cur).fscore
      · rw [if_pos hle, if_pos hle]
        apply ExceptRel.ok_ok
        refine ⟨rfl, ?_⟩
        intro i hi
        show (setNext m1 index list i).next = (setNext m2 index list i).next
        by_cases h1 : i = index
        · rw [h1, setNext_same, setNext_same]
        · rw [setNext_other _ _ h1, setNext_other _ _ h1]
          rcases hi with hi | hi
          · exact hn i hi
          · exact absurd hi h1
      · rw [if_neg hle, if_neg hle]
        have hloop := insert_node_loop_sim c1 c2 hp index S (cap c1.pow2 + 1) m1 m2 cur hscur
          hcl hn hf hfi
        revert hloop
        generalize insert_node_loop c1 index (cap c1.pow2 + 1) m1 cur = x
        generalize insert_node_loop c2 index (cap c1.pow2 + 1) m2 cur = y
        intro hloop
        cases x <;> cases y <;> first | exact hloop | exact ⟨rfl, hloop⟩

/-- The walk of `remove_node` takes the same steps on two slot arrays that agree in the
`next` links on a set `S` of slots closed under `next`. -/
theorem remove_node_loop_sim (c1 c2 : context) (hp : c1.pow2 = c2.pow2) (ri : Nat)
    (ni : Int) (S : Nat → Prop) :
    ∀ (fuel : Nat) (m1 m2 : Mem) (cur : Nat), S cur →
      (∀ i, S i → LinkIn S (m1 i).next) → (∀ i, S i → (m1 i).next = (m2 i).next) →
      ExceptRel (fun a b => ∀ i, S i → (a i).next = (b i).next)
        (remove_node_loop c1 ri ni fuel m1 cur) (remove_node_loop c2 ri ni fuel m2 cur) := by
  intro fuel
  induction fuel with
  | zero =>
    intro m1 m2 cur _ _ _
    exact ExceptRel.error_error _
  | succ f ih =>
    intro m1 m2 cur hcur hcl hn
    unfold remove_node_loop
    rw [← hn cur hcur, ← hp]
    by_cases hne : (m1 cur).next ≠ (ri : Int)
    · rw [if_pos hne, if_pos hne]
      by_cases hneg : (m1 cur).next < 0
      · rw [if_pos hneg, if_pos hneg]
        exact ExceptRel.error_error _
      · rw [if_neg hneg, if_neg hneg]
        cases hnx : slotIndex c1.pow2 (m1 cur).next with
        | error e => exact ExceptRel.error_error _
        | ok nx => exact ih m1 m2 nx ((hcl cur hcur).slot hnx) hcl hn
    · rw [if_neg hne, if_neg hne]
      apply ExceptRel.ok_ok
      intro i hi
      by_cases h2 : i = cur
      · rw [h2, setNext_same, setNext_same]
      · rw [setNext_other _ _ h2, setNext_other _ _ h2]
        exact hn i hi

/-- Function `remove_node` takes the same steps on two slot arrays that agree in the
`next` links on a set `S` of slots closed under `next`. -/
theorem remove_node_sim (c1 c2 : context) (hp : c1.pow2 = c2.pow2) (m1 m2 : Mem)
    (fi : Int) (ri : Nat) (ni : Int) (S : Nat → Prop) (hfi : LinkIn S fi)
    (hcl : ∀ i, S i → LinkIn S (m1 i).next) (hn : ∀ i, S i → (m1 i).next = (m2 i).next) :
    ExceptRel (fun a b => ∀ i, S i → (a i).next = (b i).next)
      (remove_node c1 m1 fi ri ni) (remove_node c2 m2 fi ri ni) := by
  unfold remove_node
  rw [← hp]
  cases hc : slotIndex c1.pow2 fi with
  | error e => exact ExceptRel.error_error _
  | ok cur => exact remove_node_loop_sim c1 c2 hp ri ni S _ m1 m2 cur (hfi.slot hc) hcl hn

theorem setNext_fscore (m : Mem) (i : Nat) (v : Int) (j : Nat) :
    (setNext m i v j).fscore = (m j).fscore :=
  (SameData.setNext m i v).fscore j

/-- The walk of `advance_node` takes the same steps on two slot arrays that agree in the
`next` links and the `fscore`s on a set `S` of slots closed under `next`. -/
theorem advance_node_loop_sim (c1 c2 : context) (hp : c1.pow2 = c2.pow2) (index : Nat)
    (nn list : Int) (S : Nat → Prop) (hidx : S index) :
    ∀ (fuel : Nat) (m1 m2 : Mem) (cur : Nat), S cur →
      (∀ i, S i → LinkIn S (m1 i).next) → (∀ i, S i → (m1 i).next = (m2 i).next) →
      (∀ i, S i → (m1 i).fscore = (m2 i).fscore) →
      ExceptRel (fun a b => a.2 = b.2 ∧ ∀ i, S i → (a.1 i).next = (b.1 i).next)
        (advance_node_loop c1 index nn list fuel m1 cur)
        (advance_node_loop c2 index nn list fuel m2 cur) := by
  intro fuel
  induction fuel with
  | zero =>
    intro m1 m2 cur _ _ _ _
    exact ExceptRel.error_error _
  | succ f ih =>
    intro m1 m2 cur hcur hcl hn hf
    unfold advance_node_loop
    rw [← hn cur hcur, ← hp, ← hf index hidx]
    by_cases hneg : (m1 cur).next < 0
    · rw [if_pos hneg, if_pos hneg]
      apply ExceptRel.ok_ok
      refine ⟨rfl, ?_⟩
      intro i hi
      show (setNext (setNext m1 cur index) index (-1) i).next =
        (setNext (setNext m2 cur index) index (-1) i).next
      by_cases h1 : i = index
      · rw [h1, setNext_same, setNext_same]
      · rw [setNext_other _ _ h1, setNext_other _ _ h1]
        by_cases h2 : i = cur
        · rw [h2, setNext_same, setNext_same]
        · rw [setNext_other _ _ h2, setNext_other _ _ h2]
          exact hn i hi
    · rw [if_neg hneg, if_neg hneg]
      cases hnx : slotIndex c1.pow2 (m1 cur).next with
      | error e => exact ExceptRel.error_error _
      | ok nx =>
        have hsnx : S nx := (hcl cur hcur).slot hnx
        dsimp only
        rw [← hf nx hsnx]
        by_cases heq : nx = index
        · rw [if_pos heq, if_pos heq]
          exact ExceptRel.ok_ok ⟨rfl, hn⟩
        · rw [if_neg heq, if_neg heq]
          by_cases hle : (m1 index).fscore ≤ (m1 nx).fscore
          · rw [if_pos hle, if_pos hle]
            have hcl2 : ∀ i, S i → LinkIn S
                ((setNext (setNext m1 index (m1 cur).next) cur (index : Int)) i).next := by
              intro i hi
              by_cases h2 : i = cur
              · rw [h2, setNext_same]
                exact LinkIn.index hidx
              · rw [setNext_other _ _ h2]
                by_cases h1 : i = index
                · rw [h1, setNext_same]
                  exact hcl cur hcur
                · rw [setNext_other _ _ h1]
                  exact hcl i hi
            have hn2 : ∀ i, S i →
                ((setNext (setNext m1 index (m1 cur).next) cur (index : Int)) i).next =
                ((setNext (setNext m2 index (m1 cur).next) cur (index : Int)) i).next := by
              intro i hi
              by_cases h2 : i = cur
              · rw [h2, setNext_same, setNext_same]
              · rw [setNext_other _ _ h2, setNext_other _ _ h2]
                by_cases h1 : i = index
                · rw [h1, setNext_same, setNext_same]
                · rw [setNext_other _ _ h1, setNext_other _ _ h1]
                  exact hn i hi
            have hrem := remove_node_sim c1 c2 hp _ _
              ((setNext (setNext m1 index (m1 cur).next) cur (index : Int)) index).next index nn
              S (hcl2 index hidx) hcl2 hn2
            rw [← hn2 index hidx]
            revert hrem
            generalize remove_node c1 _ _ index nn = x
            generalize remove_node c2 _ _ index nn = y
            intro hrem
            cases x <;> cases y <;> first | exact hrem | exact ⟨rfl, hrem⟩
          · rw [if_neg hle, if_neg hle]
            exact ih m1 m2 nx hsnx hcl hn hf

/-- Function `advance_node` takes the same steps on two slot arrays that agree in the
`next` links and the `fscore`s on a set `S` of slots closed under `next` that holds the
list and the slot. -/
theorem advance_node_sim (c1 c2 : context) (hp : c1.pow2 = c2.pow2) (m1 m2 : Mem)
    (index : Nat) (list : Int) (S : Nat → Prop) (hidx : S index) (hlist : LinkIn S list)
    (hcl : ∀ i, S i → LinkIn S (m1 i).next) (hn : ∀ i, S i → (m1 i).next = (m2 i).next)
    (hf : ∀ i, S i → (m1 i).fscore = (m2 i).fscore) :
    ExceptRel (fun a b => a.2 = b.2 ∧ ∀ i, S i → (a.1 i).next = (b.1 i).next)
      (advance_node c1 m1 index list) (advance_node c2 m2 index list) := by
  unfold advance_node
  rw [← hp, ← hf index hidx, ← hn index hidx]
  by_cases heq : (index : Int) = list
  · rw [if_pos heq, if_pos heq]
    exact ExceptRel.ok_ok ⟨rfl, hn⟩
  · rw [if_neg heq, if_neg heq]
    dsimp only
    by_cases hneg : list < 0
    · rw [if_pos hneg, if_pos hneg]
      exact ExceptRel.error_error _
    · rw [if_neg hneg, if_neg hneg]
      cases hc : slotIndex c1.pow2 list with
      | error e => exact ExceptRel.error_error _
      | ok cur =>
        have hscur : S cur := hlist.slot hc
        dsimp only
        rw [← hf cur hscur]
        by_cases hle : (m1 index).fscore ≤ (m1 cur).fscore
        · rw [if_pos hle, if_pos hle]
          have hcl1 : ∀ i, S i → LinkIn S ((setNext m1 index list) i).next := by
            intro i hi
            by_cases h1 : i = index
            · rw [h1, setNext_same]
              exact hlist
            · rw [setNext_other _ _ h1]
              exact hcl i hi
          have hn1 : ∀ i, S i → ((setNext m1 index list) i).next =
              ((setNext m2 index list) i).next := by
            intro i hi
            by_cases h1 : i = index
            · rw [h1, setNext_same, setNext_same]
            · rw [setNext_other _ _ h1, setNext_other _ _ h1]
              exact hn i hi
          have hrem := remove_node_sim c1 c2 hp _ _ list index (m1 index).next S hlist
            hcl1 hn1
          revert hrem
          generalize remove_node c1 _ list index _ = x
          generalize remove_node c2 _ list index _ = y
          intro hrem
          cases x <;> cases y <;> first | exact hrem | exact ⟨rfl, hrem⟩
        · rw [if_neg hle, if_neg hle]
          exact advance_node_loop_sim c1 c2 hp index _ list S hidx _ m1 m2 cur hscur hcl hn hf

/-- Two slot arrays that hold the same search apart from the `next` links, after list
operations that left the same `next` links at the live slots and kept them within the
live slots, are the same state. -/
theorem SameState.of_ops {c1 c2 : context} {n1 n2 a b : Mem} {l : Int} {size : Nat}
    (hlive : ∀ i, i < cap c1.pow2 →
      ((n1 i).version = c1.version ↔ (n2 i).version = c2.version))
    (hdata : ∀ i, Live c1 n1 i → (n1 i).coord = (n2 i).coord ∧
      (n1 i).gscore = (n2 i).gscore ∧ (n1 i).fscore = (n2 i).fscore ∧
      (n1 i).camefrom = (n2 i).camefrom)
    (hsd1 : SameData n1 a) (hsd2 : SameData n2 b)
    (hnext : ∀ i, Live c1 n1 i → (a i).next = (b i).next)
    (hfrom : ∀ i, Live c1 n1 i → Live c1 n1 (n1 i).camefrom)
    (hl : LinkIn (Live c1 n1) l) (hnx : ∀ i, Live c1 n1 i → LinkIn (Live c1 n1) (a i).next) :
    SameState c1 c2 ⟨a, l, size⟩ ⟨b, l, size⟩ := by
  have hto : ∀ i, Live c1 n1 i → Live c1 a i :=
    fun i hi => ⟨hi.1, by rw [hsd1.version]; exact hi.2⟩
  have hback : ∀ i, Live c1 a i → Live c1 n1 i :=
    fun i hi => ⟨hi.1, by rw [← hsd1.version]; exact hi.2⟩
  refine ⟨⟨?_, ?_, ?_, ?_, ?_, ?_⟩, rfl, rfl, ⟨?_, hl.mono hto, ?_⟩⟩
  · intro i hi
    show (a i).version = _ ↔ (b i).version = _
    rw [hsd1.version, hsd2.version]
    exact hlive i hi
  · intro i hi
    show (a i).coord = (b i).coord
    rw [hsd1.coord, hsd2.coord]
    exact (hdata i (hback i hi)).1
  · intro i hi
    show (a i).gscore = (b i).gscore
    rw [hsd1.gscore, hsd2.gscore]
    exact (hdata i (hback i hi)).2.1
  · intro i hi
    show (a i).fscore = (b i).fscore
    rw [hsd1.fscore, hsd2.fscore]
    exact (hdata i (hback i hi)).2.2.1
  · intro i hi
    show (a i).camefrom = (b i).camefrom
    rw [hsd1.camefrom, hsd2.camefrom]
    exact (hdata i (hback i hi)).2.2.2
  · intro i hi
    exact hnext i (hback i hi)
  · intro i hi
    show Live c1 a (a i).camefrom
    rw [hsd1.camefrom]
    exact hto _ (hfrom i (hback i hi))
  · intro i hi
    exact (hnx i (hback i hi)).mono hto

/-- A relaxation takes the same steps in two states that are the same. -/
theorem relax_sim (c1 c2 : context) (hp : c1.pow2 = c2.pow2) (cur : Nat) (s1 s2 : search)
    (d : pathfinding_neighbor) (h : SameState c1 c2 s1 s2) (hcur : Live c1 s1.m cur) :
    ExceptRel (fun a b => SameState c1 c2 a b ∧ ∀ i, Live c1 s1.m i → Live c1 a.m i)
      (relax c1 cur s1 d) (relax c2 cur s2 d) := by
  rw [relax_unfold, relax_unfold, ← find_node_sim c1 c2 hp s1.m s2.m h.same d.pos]
  cases hfind : find_node c1 s1.m d.pos with
  | error e => exact ExceptRel.error_error _
  | ok tmp =>
    have htmp := find_node_lt c1 s1.m d.pos tmp hfind
    have hgc := h.same.gscore cur hcur
    dsimp only
    by_cases hv : (s1.m tmp).version = c1.version
    · have hv2 := (h.same.live tmp htmp).mp hv
      have hlt : Live c1 s1.m tmp := ⟨htmp, hv⟩
      rw [if_neg (not_not.mpr hv), if_neg (not_not.mpr hv2), ← hgc, ← h.same.gscore tmp hlt]
      by_cases hlow : ((s1.m cur).gscore + d.dist) % 2 ^ 32 < (s1.m tmp).gscore
      · rw [if_pos hlow, if_pos hlow, ← h.same.fscore tmp hlt, ← h.size, ← h.list]
        have hver1 : ∀ i, ((setNode s1.m tmp (improvedNode cur s1.m d tmp)) i).version =
            (s1.m i).version := by
          intro i
          by_cases hi : i = tmp
          · rw [hi, setNode_same]; rfl
          · rw [setNode_other _ _ hi]
        have hver2 : ∀ i, ((setNode s2.m tmp (improvedNode cur s2.m d tmp)) i).version =
            (s2.m i).version := by
          intro i
          by_cases hi : i = tmp
          · rw [hi, setNode_same]; rfl
          · rw [setNode_other _ _ hi]
        have hto : ∀ i, Live c1 s1.m i →
            Live c1 (setNode s1.m tmp (improvedNode cur s1.m d tmp)) i :=
          fun i hi => ⟨hi.1, by rw [hver1]; exact hi.2⟩
        have hback : ∀ i, Live c1 (setNode s1.m tmp (improvedNode cur s1.m d tmp)) i →
            Live c1 s1.m i :=
          fun i hi => ⟨hi.1, by rw [← hver1]; exact hi.2⟩
        have hcl : ∀ i, Live c1 s1.m i → LinkIn (Live c1 s1.m)
            ((setNode s1.m tmp (improvedNode cur s1.m d tmp)) i).next := by
          intro i hi
          by_cases hit : i = tmp
          · rw [hit, setNode_same]
            exact h.links.next_ok tmp hlt
          · rw [setNode_other _ _ hit]
            exact h.links.next_ok i hi
        have hn : ∀ i, Live c1 s1.m i →
            ((setNode s1.m tmp (improvedNode cur s1.m d tmp)) i).next =
            ((setNode s2.m tmp (improvedNode cur s2.m d tmp)) i).next := by
          intro i hi
          by_cases hit : i = tmp
          · rw [hit, setNode_same, setNode_same]
            exact h.same.next tmp hlt
          · rw [setNode_other _ _ hit, setNode_other _ _ hit]
            exact h.same.next i hi
        have hdata : ∀ i, Live c1 (setNode s1.m tmp (improvedNode cur s1.m d tmp)) i →
            ((setNode s1.m tmp (improvedNode cur s1.m d tmp)) i).coord =
              ((setNode s2.m tmp (improvedNode cur s2.m d tmp)) i).coord ∧
            ((setNode s1.m tmp (improvedNode cur s1.m d tmp)) i).gscore =
              ((setNode s2.m tmp (improvedNode cur s2.m d tmp)) i).gscore ∧
            ((setNode s1.m tmp (improvedNode cur s1.m d tmp)) i).fscore =
              ((setNode s2.m tmp (improvedNode cur s2.m d tmp)) i).fscore ∧
            ((setNode s1.m tmp (improvedNode cur s1.m d tmp)) i).camefrom =
              ((setNode s2.m tmp (improvedNode cur s2.m d tmp)) i).camefrom := by
          intro i hi
          by_cases hit : i = tmp
          · rw [hit, setNode_same, setNode_same]
            refine ⟨h.same.coord tmp hlt, ?_, ?_, rfl⟩
            · show ((s1.m cur).gscore + d.dist) % 2 ^ 32 = ((s2.m cur).gscore + d.dist) % 2 ^ 32
              rw [hgc]
            · show (((s1.m cur).gscore + d.dist) % 2 ^ 32 + d.estimate) % 2 ^ 32 =
                (((s2.m cur).gscore + d.dist) % 2 ^ 32 + d.estimate) % 2 ^ 32
              rw [hgc]
          · rw [setNode_other _ _ hit, setNode_other _ _ hit]
            have hi' := hback i hi
            exact ⟨h.same.coord i hi', h.same.gscore i hi', h.same.fscore i hi',
              h.same.camefrom i hi'⟩
        have hf : ∀ i, Live c1 s1.m i →
            ((setNode s1.m tmp (improvedNode cur s1.m d tmp)) i).fscore =
            ((setNode s2.m tmp (improvedNode cur s2.m d tmp)) i).fscore :=
          fun i hi => (hdata i (hto i hi)).2.2.1
        have hlive : ∀ i, i < cap c1.pow2 →
            (((setNode s1.m tmp (improvedNode cur s1.m d tmp)) i).version = c1.version ↔
            ((setNode s2.m tmp (improvedNode cur s2.m d tmp)) i).version = c2.version) := by
          intro i hi
          rw [hver1, hver2]
          exact h.same.live i hi
        have hfrom : ∀ i, Live c1 (setNode s1.m tmp (improvedNode cur s1.m d tmp)) i →
            Live c1 (setNode s1.m tmp (improvedNode cur s1.m d tmp))
              ((setNode s1.m tmp (improvedNode cur s1.m d tmp)) i).camefrom := by
          intro i hi
          by_cases hit : i = tmp
          · rw [hit, setNode_same]
            exact hto cur hcur
          · rw [setNode_other _ _ hit]
            exact hto _ (h.links.from_live i (hback i hi))
        by_cases hopen : (s1.m tmp).fscore ≠ 0
        · rw [if_pos hopen, if_pos hopen]
          have hsim := advance_node_sim c1 c2 hp _ _ tmp s1.list (Live c1 s1.m) hlt
            h.links.list_ok hcl hn hf
          cases hx : advance_node c1 (setNode s1.m tmp (improvedNode cur s1.m d tmp)) tmp
              s1.list with
          | error e1 =>
            cases hy : advance_node c2 (setNode s2.m tmp (improvedNode cur s2.m d tmp)) tmp
                s1.list with
            | error e2 =>
              rw [hx, hy] at hsim
              exact hsim
            | ok b =>
              rw [hx, hy] at hsim
              exact hsim.elim
          | ok a =>
            cases hy : advance_node c2 (setNode s2.m tmp (improvedNode cur s2.m d tmp)) tmp
                s1.list with
            | error e2 =>
              rw [hx, hy] at hsim
              exact hsim.elim
            | ok b =>
              rw [hx, hy] at hsim
              obtain ⟨a1, a2⟩ := a
              obtain ⟨b1, b2⟩ := b
              obtain ⟨hl, hnx⟩ : a2 = b2 ∧ ∀ i, Live c1 s1.m i → (a1 i).next = (b1 i).next :=
                hsim
              subst hl
              have hsd1 := advance_node_sameData _ _ _ _ _ _ hx
              have hsd2 := advance_node_sameData _ _ _ _ _ _ hy
              obtain ⟨hk1, hk2⟩ := advance_node_links c1 _ tmp s1.list _ hlt h.links.list_ok
                hcl _ _ hx
              refine ⟨SameState.of_ops hlive hdata hsd1 hsd2 (fun i hi => hnx i (hback i hi))
                hfrom (hk1.mono hto) (fun i hi => (hk2 i (hback i hi)).mono hto), ?_⟩
              intro i hi
              exact ⟨hi.1, by
                show (a1 i).version = _
                rw [hsd1.version, hver1]; exact hi.2⟩
        · rw [if_neg hopen, if_neg hopen]
          have hsim := insert_node_sim c1 c2 hp _ _ tmp s1.list (Live c1 s1.m)
            h.links.list_ok hcl hn hf (hf tmp hlt)
          cases hx : insert_node c1 (setNode s1.m tmp (improvedNode cur s1.m d tmp)) tmp
              s1.list with
          | error e1 =>
            cases hy : insert_node c2 (setNode s2.m tmp (improvedNode cur s2.m d tmp)) tmp
                s1.list with
            | error e2 =>
              rw [hx, hy] at hsim
              exact hsim
            | ok b =>
              rw [hx, hy] at hsim
              exact hsim.elim
          | ok a =>
            cases hy : insert_node c2 (setNode s2.m tmp (improvedNode cur s2.m d tmp)) tmp
                s1.list with
            | error e2 =>
              rw [hx, hy] at hsim
              exact hsim.elim
            | ok b =>
              rw [hx, hy] at hsim
              obtain ⟨a1, a2⟩ := a
              obtain ⟨b1, b2⟩ := b
              obtain ⟨hl, hnx⟩ : a2 = b2 ∧
                  ∀ i, (Live c1 s1.m i ∨ i = tmp) → (a1 i).next = (b1 i).next := hsim
              subst hl
              have hsd1 := insert_node_sameData _ _ _ _ _ _ hx
              have hsd2 := insert_node_sameData _ _ _ _ _ _ hy
              obtain ⟨hk1, hk2⟩ := insert_node_links c1 _ tmp s1.list (Live c1 s1.m)
                (Live c1 s1.m) (fun _ hi => hi) hlt h.links.list_ok hcl _ _ hx
              refine ⟨SameState.of_ops hlive hdata hsd1 hsd2
                (fun i hi => hnx i (Or.inl (hback i hi))) hfrom (hk1.mono hto)
                (fun i hi => (hk2 i (Or.inl (hback i hi))).mono hto), ?_⟩
              intro i hi
              exact ⟨hi.1, by
                show (a1 i).version = _
                rw [hsd1.version, hver1]; exact hi.2⟩
      · rw [if_neg hlow, if_neg hlow]
        exact ExceptRel.ok_ok ⟨h, fun _ hi => hi⟩
    · have hv2 : ¬ (s2.m tmp).version = c2.version :=
        fun e => hv ((h.same.live tmp htmp).mpr e)
      rw [if_pos hv, if_pos hv2, ← h.size, ← h.list]
      have hne : ∀ i, Live c1 s1.m i → i ≠ tmp := by
        intro i hi e
        rw [e] at hi
        exact hv hi.2
      have hto : ∀ i, Live c1 s1.m i ∨ i = tmp →
          Live c1 (setNode s1.m tmp (newNode c1 cur s1.m d tmp)) i := by
        intro i hi
        rcases hi with hi | hi
        · exact ⟨hi.1, by rw [setNode_other _ _ (hne i hi)]; exact hi.2⟩
        · rw [hi]
          exact ⟨htmp, by rw [setNode_same]; rfl⟩
      have hback : ∀ i, Live c1 (setNode s1.m tmp (newNode c1 cur s1.m d tmp)) i →
          Live c1 s1.m i ∨ i = tmp := by
        intro i hi
        by_cases hit : i = tmp
        · exact Or.inr hit
        · left
          have := hi.2
          rw [setNode_other _ _ hit] at this
          exact ⟨hi.1, this⟩
      have hcl : ∀ i, Live c1 s1.m i → LinkIn (Live c1 s1.m)
          ((setNode s1.m tmp (newNode c1 cur s1.m d tmp)) i).next := by
        intro i hi
        rw [setNode_other _ _ (hne i hi)]
        exact h.links.next_ok i hi
      have hn : ∀ i, Live c1 s1.m i →
          ((setNode s1.m tmp (newNode c1 cur s1.m d tmp)) i).next =
          ((setNode s2.m tmp (newNode c2 cur s2.m d tmp)) i).next := by
        intro i hi
        rw [setNode_other _ _ (hne i hi), setNode_other _ _ (hne i hi)]
        exact h.same.next i hi
      have hdata : ∀ i, Live c1 (setNode s1.m tmp (newNode c1 cur s1.m d tmp)) i →
          ((setNode s1.m tmp (newNode c1 cur s1.m d tmp)) i).coord =
            ((setNode s2.m tmp (newNode c2 cur s2.m d tmp)) i).coord ∧
          ((setNode s1.m tmp (newNode c1 cur s1.m d tmp)) i).gscore =
            ((setNode s2.m tmp (newNode c2 cur s2.m d tmp)) i).gscore ∧
          ((setNode s1.m tmp (newNode c1 cur s1.m d tmp)) i).fscore =
            ((setNode s2.m tmp (newNode c2 cur s2.m d tmp)) i).fscore ∧
          ((setNode s1.m tmp (newNode c1 cur s1.m d tmp)) i).camefrom =
            ((setNode s2.m tmp (newNode c2 cur s2.m d tmp)) i).camefrom := by
        intro i hi
        by_cases hit : i = tmp
        · rw [hit, setNode_same, setNode_same]
          refine ⟨rfl, ?_, ?_, rfl⟩
          · show ((s1.m cur).gscore + d.dist) % 2 ^ 32 = ((s2.m cur).gscore + d.dist) % 2 ^ 32
            rw [hgc]
          · show (((s1.m cur).gscore + d.dist) % 2 ^ 32 + d.estimate) % 2 ^ 32 =
              (((s2.m cur).gscore + d.dist) % 2 ^ 32 + d.estimate) % 2 ^ 32
            rw [hgc]
        · rw [setNode_other _ _ hit, setNode_other _ _ hit]
          rcases hback i hi with hi' | hi'
          · exact ⟨h.same.coord i hi', h.same.gscore i hi', h.same.fscore i hi',
              h.same.camefrom i hi'⟩
          · exact absurd hi' hit
      have hf : ∀ i, Live c1 s1.m i →
          ((setNode s1.m tmp (newNode c1 cur s1.m d tmp)) i).fscore =
          ((setNode s2.m tmp (newNode c2 cur s2.m d tmp)) i).fscore :=
        fun i hi => (hdata i (hto i (Or.inl hi))).2.2.1
      have hlive : ∀ i, i < cap c1.pow2 →
          (((setNode s1.m tmp (newNode c1 cur s1.m d tmp)) i).version = c1.version ↔
          ((setNode s2.m tmp (newNode c2 cur s2.m d tmp)) i).version = c2.version) := by
        intro i hi
        by_cases hit : i = tmp
        · rw [hit, setNode_same, setNode_same]
          exact ⟨fun _ => rfl, fun _ => rfl⟩
        · rw [setNode_other _ _ hit, setNode_other _ _ hit]
          exact h.same.live i hi
      have hfrom : ∀ i, Live c1 (setNode s1.m tmp (newNode c1 cur s1.m d tmp)) i →
          Live c1 (setNode s1.m tmp (newNode c1 cur s1.m d tmp))
            ((setNode s1.m tmp (newNode c1 cur s1.m d tmp)) i).camefrom := by
        intro i hi
        by_cases hit : i = tmp
        · rw [hit, setNode_same]
          exact hto cur (Or.inl hcur)
        · rw [setNode_other _ _ hit]
          rcases hback i hi with hi' | hi'
          · exact hto _ (Or.inl (h.links.from_live i hi'))
          · exact absurd hi' hit
      have hsim := insert_node_sim c1 c2 hp _ _ tmp s1.list (Live c1 s1.m)
        h.links.list_ok hcl hn hf (hdata tmp (hto tmp (Or.inr rfl))).2.2.1
      cases hx : insert_node c1 (setNode s1.m tmp (newNode c1 cur s1.m d tmp)) tmp
          s1.list with
      | error e1 =>
        cases hy : insert_node c2 (setNode s2.m tmp (newNode c2 cur s2.m d tmp)) tmp
            s1.list with
        | error e2 =>
          rw [hx, hy] at hsim
          exact hsim
        | ok b =>
          rw [hx, hy] at hsim
          exact hsim.elim
      | ok a =>
        cases hy : insert_node c2 (setNode s2.m tmp (newNode c2 cur s2.m d tmp)) tmp
            s1.list with
        | error e2 =>
          rw [hx, hy] at hsim
          exact hsim.elim
        | ok b =>
          rw [hx, hy] at hsim
          obtain ⟨a1, a2⟩ := a
          obtain ⟨b1, b2⟩ := b
          obtain ⟨hl, hnx⟩ : a2 = b2 ∧
              ∀ i, (Live c1 s1.m i ∨ i = tmp) → (a1 i).next = (b1 i).next := hsim
          subst hl
          have hsd1 := insert_node_sameData _ _ _ _ _ _ hx
          have hsd2 := insert_node_sameData _ _ _ _ _ _ hy
          obtain ⟨hk1, hk2⟩ := insert_node_links c1 _ tmp s1.list (Live c1 s1.m)
            (fun i => Live c1 s1.m i ∨ i = tmp) (fun _ hi => Or.inl hi) (Or.inr rfl)
            h.links.list_ok hcl _ _ hx
          refine ⟨SameState.of_ops hlive hdata hsd1 hsd2
            (fun i hi => hnx i (hback i hi)) hfrom (hk1.mono hto)
            (fun i hi => (hk2 i (hback i hi)).mono hto), ?_⟩
          intro i hi
          have := hto i (Or.inl hi)
          exact ⟨hi.1, by
            show (a1 i).version = _
            rw [hsd1.version]; exact this.2⟩

/-- The relaxations of a list of entries take the same steps in two states that are the
same. -/
theorem relax_all_sim (c1 c2 : context) (hp : c1.pow2 = c2.pow2) (cur : Nat) :
    ∀ (ds : List pathfinding_neighbor) (s1 s2 : search), SameState c1 c2 s1 s2 →
      Live c1 s1.m cur →
      ExceptRel (fun a b => SameState c1 c2 a b)
        (relax_all c1 cur ds s1) (relax_all c2 cur ds s2) := by
  intro ds
  induction ds with
  | nil =>
    intro s1 s2 h _
    exact ExceptRel.ok_ok h
  | cons d ds ih =>
    intro s1 s2 h hcur
    unfold relax_all
    have hsim := relax_sim c1 c2 hp cur s1 s2 d h hcur
    cases hx : relax c1 cur s1 d with
    | error e1 =>
      cases hy : relax c2 cur s2 d with
      | error e2 =>
        rw [hx, hy] at hsim
        exact hsim
      | ok b =>
        rw [hx, hy] at hsim
        exact hsim.elim
    | ok a =>
      cases hy : relax c2 cur s2 d with
      | error e2 =>
        rw [hx, hy] at hsim
        exact hsim.elim
      | ok b =>
        rw [hx, hy] at hsim
        obtain ⟨hab, hmono⟩ : SameState c1 c2 a b ∧ ∀ i, Live c1 s1.m i → Live c1 a.m i := hsim
        exact ih a b hab (hmono cur hcur)

/-- Closing a live slot and relaxing a list of entries takes the same steps in two
states that are the same. -/
theorem expand_sim (c1 c2 : context) (hp : c1.pow2 = c2.pow2) (cur : Nat)
    (ds : List pathfinding_neighbor) (s1 s2 : search) (h : SameState c1 c2 s1 s2)
    (hcur : Live c1 s1.m cur) :
    ExceptRel (fun a b => SameState c1 c2 a b)
      (expand c1 cur ds s1) (expand c2 cur ds s2) := by
  unfold expand
  dsimp only
  have hfield : ∀ (m : Mem) (i : Nat), ((setNode m cur { m cur with fscore := 0 }) i).version =
        (m i).version ∧
      ((setNode m cur { m cur with fscore := 0 }) i).coord = (m i).coord ∧
      ((setNode m cur { m cur with fscore := 0 }) i).gscore = (m i).gscore ∧
      ((setNode m cur { m cur with fscore := 0 }) i).camefrom = (m i).camefrom ∧
      ((setNode m cur { m cur with fscore := 0 }) i).next = (m i).next := by
    intro m i
    by_cases hi : i = cur
    · subst hi; rw [setNode_same]; exact ⟨rfl, rfl, rfl, rfl, rfl⟩
    · rw [setNode_other _ _ hi]; exact ⟨rfl, rfl, rfl, rfl, rfl⟩
  have hto : ∀ i, Live c1 s1.m i → Live c1 (setNode s1.m cur { s1.m cur with fscore := 0 }) i :=
    fun i hi => ⟨hi.1, by rw [(hfield s1.m i).1]; exact hi.2⟩
  have hback : ∀ i, Live c1 (setNode s1.m cur { s1.m cur with fscore := 0 }) i →
      Live c1 s1.m i :=
    fun i hi => ⟨hi.1, by rw [← (hfield s1.m i).1]; exact hi.2⟩
  apply relax_all_sim c1 c2 hp cur ds _ _ _ (hto cur hcur)
  refine ⟨⟨?_, ?_, ?_, ?_, ?_, ?_⟩, ?_, h.size, ⟨?_, ?_, ?_⟩⟩
  · intro i hi
    show ((setNode s1.m cur _) i).version = _ ↔ ((setNode s2.m cur _) i).version = _
    rw [(hfield s1.m i).1, (hfield s2.m i).1]
    exact h.same.live i hi
  · intro i hi
    show ((setNode s1.m cur _) i).coord = ((setNode s2.m cur _) i).coord
    rw [(hfield s1.m i).2.1, (hfield s2.m i).2.1]
    exact h.same.coord i (hback i hi)
  · intro i hi
    show ((setNode s1.m cur _) i).gscore = ((setNode s2.m cur _) i).gscore
    rw [(hfield s1.m i).2.2.1, (hfield s2.m i).2.2.1]
    exact h.same.gscore i (hback i hi)
  · intro i hi
    show ((setNode s1.m cur _) i).fscore = ((setNode s2.m cur _) i).fscore
    by_cases hic : i = cur
    · rw [hic, setNode_same, setNode_same]
    · rw [setNode_other _ _ hic, setNode_other _ _ hic]
      exact h.same.fscore i (hback i hi)
  · intro i hi
    show ((setNode s1.m cur _) i).camefrom = ((setNode s2.m cur _) i).camefrom
    rw [(hfield s1.m i).2.2.2.1, (hfield s2.m i).2.2.2.1]
    exact h.same.camefrom i (hback i hi)
  · intro i hi
    show ((setNode s1.m cur _) i).next = ((setNode s2.m cur _) i).next
    rw [(hfield s1.m i).2.2.2.2, (hfield s2.m i).2.2.2.2]
    exact h.same.next i (hback i hi)
  · show ((setNode s1.m cur _) cur).next = ((setNode s2.m cur _) cur).next
    rw [(hfield s1.m cur).2.2.2.2, (hfield s2.m cur).2.2.2.2]
    exact h.same.next cur hcur
  · intro i hi
    show Live c1 (setNode s1.m cur _) ((setNode s1.m cur _) i).camefrom
    rw [(hfield s1.m i).2.2.2.1]
    exact hto _ (h.links.from_live i (hback i hi))
  · show LinkIn _ ((setNode s1.m cur _) cur).next
    rw [(hfield s1.m cur).2.2.2.2]
    exact (h.links.next_ok cur hcur).mono hto
  · intro i hi
    show LinkIn _ ((setNode s1.m cur _) i).next
    rw [(hfield s1.m i).2.2.2.2]
    exact (h.links.next_ok i (hback i hi)).mono hto

/-- The loop of `astar` takes the same steps from two states that are the same: it ends
with the same fault, or returns the same index and user data and slot arrays that hold
the same search. -/
theorem astar_loop_sim {σ : Type} (c1 c2 : context) (hp : c1.pow2 = c2.pow2)
    (func : pathfinding_hfunc σ) (goal : Nat) :
    ∀ (fuel : Nat) (s1 s2 : search) (ud : σ), SameState c1 c2 s1 s2 →
      ExceptRel (fun a b => a.1 = b.1 ∧ a.2.2 = b.2.2 ∧
          ∃ size, SameState c1 c2 ⟨a.2.1, a.1, size⟩ ⟨b.2.1, b.1, size⟩)
        (astar_loop c1 func goal fuel s1 ud) (astar_loop c2 func goal fuel s2 ud) := by
  intro fuel
  induction fuel with
  | zero =>
    intro s1 s2 ud _
    exact ExceptRel.error_error _
  | succ f ih =>
    intro s1 s2 ud h
    unfold astar_loop
    rw [← hp, ← h.list]
    cases hc : slotIndex c1.pow2 s1.list with
    | error e => exact ExceptRel.error_error _
    | ok cur =>
      have hcur : Live c1 s1.m cur := h.links.list_ok.slot hc
      dsimp only
      rw [← h.same.coord cur hcur, ← h.same.next cur hcur]
      by_cases hgoal : (s1.m cur).coord = goal
      · rw [if_pos hgoal, if_pos hgoal]
        exact ExceptRel.ok_ok ⟨rfl, rfl, s1.size, ⟨h.same, rfl, rfl,
          ⟨h.links.from_live, h.links.list_ok, h.links.next_ok⟩⟩⟩
      · rw [if_neg hgoal, if_neg hgoal]
        by_cases hdrain : (func ud (s1.m cur).coord).1.length = 0 ∧ (s1.m cur).next < 0
        · rw [if_pos hdrain, if_pos hdrain]
          refine ExceptRel.ok_ok ⟨rfl, rfl, s1.size, ⟨h.same, rfl, rfl,
            ⟨h.links.from_live, LinkIn.neg_one _, h.links.next_ok⟩⟩⟩
        · rw [if_neg hdrain, if_neg hdrain]
          have hsim := expand_sim c1 c2 hp cur (func ud (s1.m cur).coord).1 s1 s2 h hcur
          cases hx : expand c1 cur (func ud (s1.m cur).coord).1 s1 with
          | error e1 =>
            cases hy : expand c2 cur (func ud (s1.m cur).coord).1 s2 with
            | error e2 =>
              rw [hx, hy] at hsim
              exact hsim
            | ok b =>
              rw [hx, hy] at hsim
              exact hsim.elim
          | ok a =>
            cases hy : expand c2 cur (func ud (s1.m cur).coord).1 s2 with
            | error e2 =>
              rw [hx, hy] at hsim
              exact hsim.elim
            | ok b =>
              rw [hx, hy] at hsim
              have hab : SameState c1 c2 a b := hsim
              dsimp only
              rw [← hab.size]
              by_cases hbig : a.size > 1 <<< (c1.pow2 - 1)
              · rw [if_pos hbig, if_pos hbig]
                exact ExceptRel.ok_ok ⟨hab.list, rfl, a.size, ⟨hab.same, hab.list, rfl,
                  ⟨hab.links.from_live, hab.links.list_ok, hab.links.next_ok⟩⟩⟩
              · rw [if_neg hbig, if_neg hbig]
                exact ih a b _ hab

/-- The loop of `calc_length` takes the same steps from a live slot on two slot arrays
that hold the same search. -/
theorem calc_length_loop_sim (c1 c2 : context) (p : Nat) (m1 m2 : Mem)
    (hs : SameSearch c1 c2 m1 m2) (hfrom : ∀ i, Live c1 m1 i → Live c1 m1 (m1 i).camefrom) :
    ∀ (fuel n : Nat) (count : Int), Live c1 m1 n →
      calc_length_loop p m1 fuel n count = calc_length_loop p m2 fuel n count := by
  intro fuel
  induction fuel with
  | zero => intro n count _; rfl
  | succ f ih =>
    intro n count hn
    unfold calc_length_loop
    rw [← hs.gscore n hn, ← hs.camefrom n hn]
    by_cases hg : (m1 n).gscore ≠ 0
    · rw [if_pos hg, if_pos hg]
      by_cases hc : (m1 n).camefrom < cap p
      · rw [if_pos hc, if_pos hc]
        exact ih _ _ (hfrom n hn)
      · rw [if_neg hc, if_neg hc]
    · rw [if_neg hg, if_neg hg]

/-- A fault of `astar` is a fault of `pathfinding_find`. -/
theorem pathfinding_find_of_astar_error {σ : Type} (fuel : Nat) (st : pathfinding_state)
    (args : pathfinding_args σ) (ud : σ) (e : Fault)
    (h : astar (context_init st).1 args.func fuel (context_init st).2.hash ud args.start
      args.goal = .error e) :
    pathfinding_find fuel st args ud = .error e := by
  unfold pathfinding_find
  simp only [h]

/-- A fault of `calc_length` is a fault of `pathfinding_find`. -/
theorem pathfinding_find_of_calc_error {σ : Type} (fuel : Nat) (st : pathfinding_state)
    (args : pathfinding_args σ) (ud ud1 : σ) (n : Nat) (m : Mem) (e : Fault)
    (hn : n < cap st.pow2)
    (h : astar (context_init st).1 args.func fuel (context_init st).2.hash ud args.start
      args.goal = .ok ((n : Int), m, ud1))
    (hc : calc_length_loop st.pow2 m (cap st.pow2 + 1) n 1 = .error e) :
    pathfinding_find fuel st args ud = .error e := by
  unfold pathfinding_find
  have h0 : ¬ (n : Int) < 0 := by omega
  simp only [h, h0, if_false, context_init_state_pow2, slotIndex_natCast hn, calc_length, hc]

/-- The context of a query consists of the version and the capacity of the state that
`context_init` leaves. -/
theorem context_init_eq (st : pathfinding_state) :
    (⟨(context_init st).2.version, (context_init st).2.pow2⟩ : context) =
      (context_init st).1 := by
  unfold context_init
  dsimp only
  split_ifs <;> rfl

/-- The seeded starts of two slot arrays without live slots are the same state. -/
theorem seed_sameState (c1 c2 : context) (hp : c1.pow2 = c2.pow2) (m1 m2 : Mem)
    (start : Nat) (hno1 : ∀ i, i < cap c1.pow2 → (m1 i).version ≠ c1.version)
    (hno2 : ∀ i, i < cap c2.pow2 → (m2 i).version ≠ c2.version) :
    SameState c1 c2 (seed c1 m1 start) (seed c2 m2 start) := by
  have hh := hash_pow2 c1 c2 hp start
  have hc := seed_cameInv c1 start m1 hno1
  have honly : ∀ i, Live c1 (seed c1 m1 start).m i → i = hash c1 start := by
    intro i hl
    by_contra hne
    have := hl.2
    rw [seed_other c1 m1 start hne] at this
    exact hno1 i hl.1 this
  have hdata : (seed c1 m1 start).m (hash c1 start) =
      ⟨c1.version, start, 0, 0, hash c1 start, -1⟩ := by
    simp [seed, setNode_same]
  have hdata2 : (seed c2 m2 start).m (hash c1 start) =
      ⟨c2.version, start, 0, 0, hash c1 start, -1⟩ := by
    rw [hh]
    simp [seed, setNode_same]
  refine ⟨⟨?_, ?_, ?_, ?_, ?_, ?_⟩, ?_, rfl, ⟨hc.from_live, hc.list_ok, hc.next_ok⟩⟩
  · intro i hi
    by_cases his : i = hash c1 start
    · rw [his, hdata, hdata2]
      exact ⟨fun _ => rfl, fun _ => rfl⟩
    · rw [seed_other c1 m1 start his, seed_other c2 m2 start (by rw [← hh]; exact his)]
      exact ⟨fun e => absurd e (hno1 i hi), fun e => absurd e (hno2 i (by rw [← hp]; exact hi))⟩
  · intro i hi
    rw [honly i hi, hdata, hdata2]
  · intro i hi
    rw [honly i hi, hdata, hdata2]
  · intro i hi
    rw [honly i hi, hdata, hdata2]
  · intro i hi
    rw [honly i hi, hdata, hdata2]
  · intro i hi
    rw [honly i hi, hdata, hdata2]
  · show ((hash c1 start : Nat) : Int) = ((hash c2 start : Nat) : Int)
    rw [hh]

/-- Function `pathfinding_find` takes the same steps on two usable states of the same
capacity of at most `2^30` slots: it ends with the same fault, or returns the same value
and user data and leaves states that record the same path. -/
theorem pathfinding_find_sim {σ : Type} (fuel : Nat) (st1 st2 : pathfinding_state)
    (args : pathfinding_args σ) (ud : σ) (hp : st1.pow2 = st2.pow2) (hp30 : st1.pow2 ≤ 30)
    (hu1 : Usable st1) (hu2 : Usable st2) :
    ExceptRel (fun a b => a.1 = b.1 ∧ a.2.2 = b.2.2 ∧ SameRecord a.2.1 b.2.1)
      (pathfinding_find fuel st1 args ud) (pathfinding_find fuel st2 args ud) := by
  have hpc : (context_init st1).1.pow2 = (context_init st2).1.pow2 := hp
  have hseed := seed_sameState (context_init st1).1 (context_init st2).1 hpc
    (context_init st1).2.hash (context_init st2).2.hash args.start
    (context_init_noLive st1 hp30 hu1) (context_init_noLive st2 (hp ▸ hp30) hu2)
  have hsim := astar_loop_sim (context_init st1).1 (context_init st2).1 hpc args.func
    args.goal fuel _ _ ud hseed
  cases hx : astar (context_init st1).1 args.func fuel (context_init st1).2.hash ud
      args.start args.goal with
  | error e1 =>
    cases hy : astar (context_init st2).1 args.func fuel (context_init st2).2.hash ud
        args.start args.goal with
    | error e2 =>
      have hx' : astar_loop (context_init st1).1 args.func args.goal fuel
          (seed (context_init st1).1 (context_init st1).2.hash args.start) ud = .error e1 := hx
      have hy' : astar_loop (context_init st2).1 args.func args.goal fuel
          (seed (context_init st2).1 (context_init st2).2.hash args.start) ud = .error e2 := hy
      rw [hx', hy'] at hsim
      have : e1 = e2 := hsim
      rw [pathfinding_find_of_astar_error fuel st1 args ud e1 hx,
        pathfinding_find_of_astar_error fuel st2 args ud e2 hy, this]
      exact ExceptRel.error_error _
    | ok b =>
      have hx' : astar_loop (context_init st1).1 args.func args.goal fuel
          (seed (context_init st1).1 (context_init st1).2.hash args.start) ud = .error e1 := hx
      have hy' : astar_loop (context_init st2).1 args.func args.goal fuel
          (seed (context_init st2).1 (context_init st2).2.hash args.start) ud = .ok b := hy
      rw [hx', hy'] at hsim
      exact hsim.elim
  | ok a =>
    cases hy : astar (context_init st2).1 args.func fuel (context_init st2).2.hash ud
        args.start args.goal with
    | error e2 =>
      have hx' : astar_loop (context_init st1).1 args.func args.goal fuel
          (seed (context_init st1).1 (context_init st1).2.hash args.start) ud = .ok a := hx
      have hy' : astar_loop (context_init st2).1 args.func args.goal fuel
          (seed (context_init st2).1 (context_init st2).2.hash args.start) ud = .error e2 := hy
      rw [hx', hy'] at hsim
      exact hsim.elim
    | ok b =>
      have hx' : astar_loop (context_init st1).1 args.func args.goal fuel
          (seed (context_init st1).1 (context_init st1).2.hash args.start) ud = .ok a := hx
      have hy' : astar_loop (context_init st2).1 args.func args.goal fuel
          (seed (context_init st2).1 (context_init st2).2.hash args.start) ud = .ok b := hy
      rw [hx', hy'] at hsim
      obtain ⟨r, m1, u1⟩ := a
      obtain ⟨r2, m2, u2⟩ := b
      obtain ⟨hr, hu, size, hst⟩ : r = r2 ∧ u1 = u2 ∧ ∃ size,
          SameState (context_init st1).1 (context_init st2).1 ⟨m1, r, size⟩ ⟨m2, r2, size⟩ :=
        hsim
      subst hr hu
      have hsame : SameSearch (context_init st1).1 (context_init st2).1 m1 m2 := hst.same
      have hlist : LinkIn (Live (context_init st1).1 m1) r := hst.links.list_ok
      have hfrom : ∀ i, Live (context_init st1).1 m1 i →
          Live (context_init st1).1 m1 (m1 i).camefrom := hst.links.from_live
      have hrec : ∀ (pl : Int), SameRecord
          { (context_init st1).2 with hash := m1, goal_index := r, path_length := pl }
          { (context_init st2).2 with hash := m2, goal_index := r, path_length := pl } := by
        intro pl
        refine ⟨?_, rfl, rfl, ?_, ?_, ?_⟩
        · show (context_init st1).2.pow2 = (context_init st2).2.pow2
          rw [context_init_state_pow2, context_init_state_pow2, hp]
        · show SameSearch ⟨(context_init st1).2.version, (context_init st1).2.pow2⟩
            ⟨(context_init st2).2.version, (context_init st2).2.pow2⟩ m1 m2
          rw [context_init_eq, context_init_eq]
          exact hsame
        · show LinkIn (Live ⟨(context_init st1).2.version, (context_init st1).2.pow2⟩ m1) r
          rw [context_init_eq]
          exact hlist
        · show ∀ i, Live ⟨(context_init st1).2.version, (context_init st1).2.pow2⟩ m1 i →
            Live ⟨(context_init st1).2.version, (context_init st1).2.pow2⟩ m1 (m1 i).camefrom
          rw [context_init_eq]
          exact hfrom
      by_cases hneg : r < 0
      · rw [pathfinding_find_of_astar_neg fuel st1 args ud u1 r m1 hneg hx,
          pathfinding_find_of_astar_neg fuel st2 args ud u1 r m2 hneg hy]
        exact ExceptRel.ok_ok ⟨rfl, rfl, hrec 0⟩
      · obtain ⟨n, rfl⟩ := Int.eq_ofNat_of_zero_le (not_lt.mp hneg)
        have hlive : Live (context_init st1).1 m1 n := by
          rcases hlist with h1 | ⟨k, hk, hl⟩
          · exact absurd h1 hneg
          · have e : n = k := by omega
            rw [e]
            exact hl
        have hn1 : n < cap st1.pow2 := hlive.1
        have hn2 : n < cap st2.pow2 := by rw [← hp]; exact hn1
        have hcalc := calc_length_loop_sim (context_init st1).1 (context_init st2).1 st1.pow2
          m1 m2 hsame hfrom (cap st1.pow2 + 1) n 1 hlive
        have hcalc' : calc_length_loop st1.pow2 m1 (cap st1.pow2 + 1) n 1 =
            calc_length_loop st2.pow2 m2 (cap st2.pow2 + 1) n 1 := by
          rw [← hp]
          exact hcalc
        cases hc1 : calc_length_loop st1.pow2 m1 (cap st1.pow2 + 1) n 1 with
        | error e =>
          rw [pathfinding_find_of_calc_error fuel st1 args ud u1 n m1 e hn1 hx hc1,
            pathfinding_find_of_calc_error fuel st2 args ud u1 n m2 e hn2 hy
              (by rw [← hcalc', hc1])]
          exact ExceptRel.error_error _
        | ok count =>
          rw [pathfinding_find_of_astar_slot fuel st1 args ud u1 n m1 count hn1 hx hc1,
            pathfinding_find_of_astar_slot fuel st2 args ud u1 n m2 count hn2 hy
              (by rw [← hcalc', hc1]), ← hsame.coord n hlive]
          exact ExceptRel.ok_ok ⟨rfl, rfl, hrec count⟩

/-- Function `skip_path` takes the same steps from a live slot, or from an end mark, on
two slot arrays that hold the same search, and ends at a live slot or an end mark. -/
theorem skip_path_loop_sim (c1 c2 : context) (p : Nat) (m1 m2 : Mem)
    (hs : SameSearch c1 c2 m1 m2) (hfrom : ∀ i, Live c1 m1 i → Live c1 m1 (m1 i).camefrom) :
    ∀ (n : Nat) (index : Int), LinkIn (Live c1 m1) index →
      skip_path_loop p m1 n index = skip_path_loop p m2 n index ∧
      ∀ r, skip_path_loop p m1 n index = .ok r → LinkIn (Live c1 m1) r := by
  intro n
  induction n with
  | zero =>
    intro index hi
    refine ⟨rfl, ?_⟩
    intro r hr
    simp only [skip_path_loop, Except.ok.injEq] at hr
    exact hr ▸ hi
  | succ n ih =>
    intro index hi
    unfold skip_path_loop
    cases hc : slotIndex p index with
    | error e => exact ⟨rfl, fun r hr => by simp at hr⟩
    | ok cur =>
      have hcur : Live c1 m1 cur := hi.slot hc
      dsimp only
      rw [← hs.camefrom cur hcur]
      exact ih _ (LinkIn.index (hfrom cur hcur))

/-- The copy loop of `pathfinding_path` takes the same steps from a live slot, or from
an end mark, on two slot arrays that hold the same search. -/
theorem fill_loop_sim (c1 c2 : context) (p : Nat) (m1 m2 : Mem)
    (hs : SameSearch c1 c2 m1 m2) (hfrom : ∀ i, Live c1 m1 i → Live c1 m1 (m1 i).camefrom) :
    ∀ (k : Nat) (index : Int) (result : Nat → Nat), LinkIn (Live c1 m1) index →
      fill_loop p m1 k index result = fill_loop p m2 k index result := by
  intro k
  induction k with
  | zero => intro index result _; rfl
  | succ k ih =>
    intro index result hi
    unfold fill_loop
    cases hc : slotIndex p index with
    | error e => rfl
    | ok cur =>
      have hcur : Live c1 m1 cur := hi.slot hc
      dsimp only
      rw [← hs.camefrom cur hcur, ← hs.coord cur hcur]
      exact ih _ _ (LinkIn.index (hfrom cur hcur))

/-- Function `pathfinding_path` returns the same value and writes the same coordinates
for two states that record the same path. -/
theorem pathfinding_path_sim (st1 st2 : pathfinding_state) (h : SameRecord st1 st2)
    (result : Nat → Nat) (sz : Int) :
    pathfinding_path st1 result sz = pathfinding_path st2 result sz := by
  have hskip := skip_path_loop_sim _ _ st1.pow2 st1.hash st2.hash h.same h.from_live
    (st1.path_length - sz).toNat st1.goal_index h.terminal
  have hfill := fill_loop_sim _ _ st1.pow2 st1.hash st2.hash h.same h.from_live
  unfold pathfinding_path skip_path
  rw [← h.path_length, ← h.goal_index, ← h.pow2, ← hskip.1]
  by_cases h1 : st1.path_length ≠ sz
  · rw [if_pos h1]
    by_cases h2 : st1.path_length > sz
    · rw [if_pos h2]
      cases hsk : skip_path_loop st1.pow2 st1.hash (st1.path_length - sz).toNat
          st1.goal_index with
      | error e => rfl
      | ok index =>
        dsimp only
        rw [hfill _ _ _ (hskip.2 index hsk)]
    · rw [if_neg h2]
      dsimp only
      rw [hfill _ _ _ h.terminal]
  · rw [if_neg h1]
    dsimp only
    rw [hfill _ _ _ h.terminal]

/-! ### The versions a query writes -/

/-- A relaxation leaves in every slot the version it had or the version of the query. -/
theorem relax_version (ctx : context) (cur : Nat) (s s1 : search) (d : pathfinding_neighbor)
    (hr : relax ctx cur s d = .ok s1) :
    ∀ i, (s1.m i).version = (s.m i).version ∨ (s1.m i).version = ctx.version := by
  rw [relax_unfold] at hr
  split at hr
  · simp at hr
  · rename_i tmp hfind
    have hset : ∀ (n : node), n.version = ctx.version → ∀ m2, SameData (setNode s.m tmp n) m2 →
        ∀ i, (m2 i).version = (s.m i).version ∨ (m2 i).version = ctx.version := by
      intro n hn m2 hsd i
      rw [hsd.version]
      by_cases hi : i = tmp
      · rw [hi, setNode_same]
        exact Or.inr hn
      · rw [setNode_other _ _ hi]
        exact Or.inl rfl
    by_cases hv : (s.m tmp).version ≠ ctx.version
    · rw [if_pos hv] at hr
      split at hr
      · simp at hr
      · rename_i m2 list hop
        simp only [Except.ok.injEq] at hr
        subst hr
        exact hset _ rfl m2 (insert_node_sameData _ _ _ _ _ _ hop)
    · rw [if_neg hv] at hr
      by_cases hlow : ((s.m cur).gscore + d.dist) % 2 ^ 32 < (s.m tmp).gscore
      · rw [if_pos hlow] at hr
        split at hr
        · simp at hr
        · rename_i m2 list hop
          simp only [Except.ok.injEq] at hr
          subst hr
          have hsd : SameData (setNode s.m tmp (improvedNode cur s.m d tmp)) m2 := by
            split_ifs at hop
            · exact advance_node_sameData _ _ _ _ _ _ hop
            · exact insert_node_sameData _ _ _ _ _ _ hop
          exact hset (improvedNode cur s.m d tmp) (not_not.mp hv) m2 hsd
      · rw [if_neg hlow] at hr
        simp only [Except.ok.injEq] at hr
        subst hr
        exact fun i => Or.inl rfl

/-- The relaxations of a list of entries leave in every slot the version it had or the
version of the query. -/
theorem relax_all_version (ctx : context) (cur : Nat) :
    ∀ (ds : List pathfinding_neighbor) (s s1 : search), relax_all ctx cur ds s = .ok s1 →
      ∀ i, (s1.m i).version = (s.m i).version ∨ (s1.m i).version = ctx.version := by
  intro ds
  induction ds with
  | nil =>
    intro s s1 hr i
    simp only [relax_all, Except.ok.injEq] at hr
    subst hr
    exact Or.inl rfl
  | cons d ds ih =>
    intro s s1 hr i
    unfold relax_all at hr
    split at hr
    · simp at hr
    · rename_i s2 h2
      rcases ih s2 s1 hr i with h3 | h3
      · rw [h3]
        exact relax_version ctx cur s s2 d h2 i
      · exact Or.inr h3

/-- An expansion leaves in every slot the version it had or the version of the
query. -/
theorem expand_version (ctx : context) (cur : Nat) (ds : List pathfinding_neighbor)
    (s s1 : search) (hr : expand ctx cur ds s = .ok s1) :
    ∀ i, (s1.m i).version = (s.m i).version ∨ (s1.m i).version = ctx.version := by
  intro i
  unfold expand at hr
  dsimp only at hr
  have := relax_all_version ctx cur ds _ s1 hr i
  have hv : ((setNode s.m cur { s.m cur with fscore := 0 }) i).version = (s.m i).version := by
    by_cases hi : i = cur
    · rw [hi, setNode_same]
    · rw [setNode_other _ _ hi]
  rw [← hv]
  exact this

/-- The loop of `astar` leaves in every slot the version it had or the version of the
query. -/
theorem astar_loop_version {σ : Type} (ctx : context) (func : pathfinding_hfunc σ)
    (goal : Nat) :
    ∀ (fuel : Nat) (s : search) (ud : σ) (r : Int) (m1 : Mem) (ud1 : σ),
      astar_loop ctx func goal fuel s ud = .ok (r, m1, ud1) →
      ∀ i, (m1 i).version = (s.m i).version ∨ (m1 i).version = ctx.version := by
  intro fuel
  induction fuel with
  | zero =>
    intro s ud r m1 ud1 hrun
    simp [astar_loop] at hrun
  | succ f ih =>
    intro s ud r m1 ud1 hrun i
    unfold astar_loop at hrun
    split at hrun
    · simp at hrun
    · rename_i cur hcur
      by_cases hgoal : (s.m cur).coord = goal
      · rw [if_pos hgoal] at hrun
        simp only [Except.ok.injEq, Prod.mk.injEq] at hrun
        obtain ⟨_, rfl, _⟩ := hrun
        exact Or.inl rfl
      · rw [if_neg hgoal] at hrun
        dsimp only at hrun
        by_cases hdrain : (func ud (s.m cur).coord).1.length = 0 ∧ (s.m cur).next < 0
        · rw [if_pos hdrain] at hrun
          simp only [Except.ok.injEq, Prod.mk.injEq] at hrun
          obtain ⟨_, rfl, _⟩ := hrun
          exact Or.inl rfl
        · rw [if_neg hdrain] at hrun
          split at hrun
          · simp at hrun
          · rename_i s1 hexp
            have h1 := expand_version ctx cur _ s s1 hexp i
            by_cases hbig : s1.size > 1 <<< (ctx.pow2 - 1)
            · rw [if_pos hbig] at hrun
              simp only [Except.ok.injEq, Prod.mk.injEq] at hrun
              obtain ⟨_, rfl, _⟩ := hrun
              exact h1
            · rw [if_neg hbig] at hrun
              rcases ih s1 _ r m1 ud1 hrun i with h3 | h3
              · rw [h3]
                exact h1
              · exact Or.inr h3

/-! ### Queries one after another -/

/-- The state `pathfinding_find` leaves carries the version and the capacity that
`context_init` set and the slot array `astar` returned. -/
theorem pathfinding_find_state {σ : Type} {fuel : Nat} {st : pathfinding_state}
    {args : pathfinding_args σ} {ud ud1 : σ} {n : Int} {st1 : pathfinding_state}
    (h : pathfinding_find fuel st args ud = .ok (n, st1, ud1)) :
    ∃ r m1, astar (context_init st).1 args.func fuel (context_init st).2.hash ud args.start
        args.goal = .ok (r, m1, ud1) ∧
      st1.version = (context_init st).2.version ∧ st1.pow2 = st.pow2 ∧ st1.hash = m1 := by
  obtain ⟨r, m1, hrun⟩ := pathfinding_find_astar h
  refine ⟨r, m1, hrun, ?_⟩
  by_cases hneg : r < 0
  · rw [pathfinding_find_of_astar_neg fuel st args ud ud1 r m1 hneg hrun] at h
    simp only [Except.ok.injEq, Prod.mk.injEq] at h
    obtain ⟨_, rfl, _⟩ := h
    exact ⟨rfl, context_init_state_pow2 st, rfl⟩
  · unfold pathfinding_find at h
    simp only [hrun, hneg, if_false] at h
    split at h
    · simp at h
    · split at h
      · simp at h
      · rename_i st3 hcalc
        have hst3 : st3.version = (context_init st).2.version ∧
            st3.pow2 = (context_init st).2.pow2 ∧ st3.hash = m1 := by
          unfold calc_length at hcalc
          simp only [hneg, if_false] at hcalc
          split at hcalc
          · simp at hcalc
          · split at hcalc
            · simp at hcalc
            · simp only [Except.ok.injEq] at hcalc
              subst hcalc
              exact ⟨rfl, rfl, rfl⟩
        split_ifs at h <;>
        · simp only [Except.ok.injEq, Prod.mk.injEq] at h
          obtain ⟨_, rfl, _⟩ := h
          exact ⟨hst3.1, by rw [hst3.2.1, context_init_state_pow2], hst3.2.2⟩

/-- A state that has served at most `k` queries, with `k + 1 < 2^32`, is usable. -/
theorem Served.usable {k : Nat} {st : pathfinding_state} (h : Served k st)
    (hk : k + 1 < 2 ^ 32) : Usable st := by
  rcases h.2 with h0 | hle
  · exact Or.inl h0
  · exact Or.inr ⟨by have := h.1; omega, hle⟩

/-- A query that returns on a state of at most `2^30` slots that has served at most `k`
queries leaves a state of the same capacity that has served at most `k + 1`. -/
theorem Served.find {σ : Type} {k fuel : Nat} {st : pathfinding_state}
    {args : pathfinding_args σ} {ud ud1 : σ} {n : Int} {st1 : pathfinding_state}
    (h : Served k st) (hp30 : st.pow2 ≤ 30) (hk : k + 1 < 2 ^ 32)
    (hrun : pathfinding_find fuel st args ud = .ok (n, st1, ud1)) :
    Served (k + 1) st1 ∧ st1.pow2 = st.pow2 := by
  obtain ⟨r, m1, hastar, hv, hp, hm⟩ := pathfinding_find_state hrun
  have hver : (context_init st).2.version = st.version + 1 := by
    have : (context_init st).2.version = (st.version + 1) % 2 ^ 32 := by
      unfold context_init
      dsimp only
      split_ifs <;> rfl
    rw [this]
    apply Nat.mod_eq_of_lt
    have := h.1
    omega
  have hcv : (context_init st).1.version = st.version + 1 := by
    rw [← hver]
    rfl
  refine ⟨⟨by rw [hv, hver]; have := h.1; omega, Or.inr ?_⟩, hp⟩
  intro i hi
  rw [hp] at hi
  rw [hm, hv, hver]
  have hfr := astar_loop_version (context_init st).1 args.func args.goal fuel _ ud r m1 ud1
    hastar i
  rcases hfr with h1 | h1
  · rw [h1]
    by_cases his : i = hash (context_init st).1 args.start
    · rw [his]
      have : ((seed (context_init st).1 (context_init st).2.hash args.start).m
          (hash (context_init st).1 args.start)).version = (context_init st).1.version := by
        simp [seed, setNode_same]
      rw [this, hcv]
    · rw [seed_other _ _ _ his]
      by_cases h0 : st.version = 0
      · have : ((context_init st).2.hash i).version = 0 := by
          have hlt : (i : Int) < one_shl st.pow2 := by
            rw [one_shl_eq hp30]
            exact_mod_cast hi
          unfold context_init
          simp [h0, hlt]
        rw [this]
        exact Nat.zero_le _
      · have : ((context_init st).2.hash i).version = (st.hash i).version := by
          unfold context_init
          simp [h0]
        rw [this]
        rcases h.2 with h2 | h2
        · exact absurd h2 h0
        · exact le_trans (h2 i hi) (Nat.le_succ _)
  · rw [h1, hcv]

/-- A state that has served at most `k` queries has served at most `k + 1`. -/
theorem Served.succ {k : Nat} {st : pathfinding_state} (h : Served k st) :
    Served (k + 1) st :=
  ⟨le_trans h.1 (Nat.le_succ _), h.2⟩

/-- Queries run one after another on a state of at most `2^30` slots that has served at
most `k` queries leave a state of the same capacity that has served at most one more for
each of them, as long as the version counter does not wrap. -/
theorem stateAfterAll_served {σ : Type} (fuel : Nat) :
    ∀ (qs : List (pathfinding_args σ × σ)) (st : pathfinding_state) (k : Nat),
      st.pow2 ≤ 30 → Served k st → k + qs.length < 2 ^ 32 →
      Served (k + qs.length) (stateAfterAll fuel qs st) ∧
        (stateAfterAll fuel qs st).pow2 = st.pow2 := by
  intro qs
  induction qs with
  | nil =>
    intro st k _ h _
    exact ⟨h, rfl⟩
  | cons q qs ih =>
    intro st k hp30 h hk
    simp only [List.length_cons] at hk
    have hstep : Served (k + 1) (stateAfter fuel st q.1 q.2) ∧
        (stateAfter fuel st q.1 q.2).pow2 = st.pow2 := by
      unfold stateAfter
      split
      · rename_i n st1 ud1 hrun
        exact h.find hp30 (by omega) hrun
      · exact ⟨h.succ, rfl⟩
    obtain ⟨h1, h2⟩ := ih (stateAfter fuel st q.1 q.2) (k + 1) (hstep.2 ▸ hp30) hstep.1
      (by omega)
    refine ⟨?_, ?_⟩
    · show Served (k + (qs.length + 1)) (stateAfterAll fuel qs (stateAfter fuel st q.1 q.2))
      rw [show k + (qs.length + 1) = k + 1 + qs.length by omega]
      exact h1
    · show (stateAfterAll fuel qs (stateAfter fuel st q.1 q.2)).pow2 = st.pow2
      rw [h2, hstep.2]

/-- Before the version counter wraps, a query gives on a buffer that has served earlier
queries what it gives on a freshly initialised buffer.  Let `st0` and `fresh` be
initialised states of the same capacity of at most `2^30` slots, whatever their slots
hold, and let `qs` be
queries (with their user data, for any callbacks) run one after another on `st0`, fewer
than `2^32 - 1` of them.  Then a further query ends in the same way on the state `qs`
left and on `fresh`: with the same fault, or with the same returned value, the same
user data, and states for which `pathfinding_path` returns the same value and writes
the same coordinates, for every array and capacity. -/
theorem queries_as_on_fresh {σ : Type} (fuel : Nat) (qs : List (pathfinding_args σ × σ))
    (st0 fresh : pathfinding_state) (h0 : st0.version = 0) (hf : fresh.version = 0)
    (hp : st0.pow2 = fresh.pow2) (hp30 : st0.pow2 ≤ 30) (hK : qs.length + 1 < 2 ^ 32)
    (args : pathfinding_args σ) (ud : σ) :
    ExceptRel (fun a b => a.1 = b.1 ∧ a.2.2 = b.2.2 ∧
        ∀ (result : Nat → Nat) (sz : Int),
          pathfinding_path a.2.1 result sz = pathfinding_path b.2.1 result sz)
      (pathfinding_find fuel (stateAfterAll fuel qs st0) args ud)
      (pathfinding_find fuel fresh args ud) := by
  have hs0 : Served 0 st0 := ⟨by omega, Or.inl h0⟩
  obtain ⟨hs, hpow⟩ := stateAfterAll_served fuel qs st0 0 hp30 hs0 (by omega)
  have hu : Usable (stateAfterAll fuel qs st0) := hs.usable (by omega)
  have hsim := pathfinding_find_sim fuel (stateAfterAll fuel qs st0) fresh args ud
    (by rw [hpow, hp]) (by rw [hpow]; exact hp30) hu (Or.inl hf)
  exact hsim.imp (fun a b hab => ⟨hab.1, hab.2.1,
    fun result sz => pathfinding_path_sim a.2.1 b.2.1 hab.2.2 result sz⟩)

/-! ## Tables of `2^31` slots -/

/-- For `pow2 = 31` the `int` expression `1 << pow2` is `-2^31`. -/
theorem one_shl_31 : one_shl 31 = -2147483648 := by decide

theorem toInt32_ge (v : Nat) : -2147483648 ≤ toInt32 v := by
  unfold toInt32
  split_ifs <;> omega

/-- In a table of `2^31` slots the probe loop of `find_node` falls back to slot 0 after
every miss (`index >= (1 << ctx->pow2)` holds for every `int`): from a live slot 0 that
holds another coordinate it never returns. -/
theorem find_node_loop_spin (ctx : context) (m : Mem) (pos : Nat) (hp : ctx.pow2 = 31)
    (h0v : (m 0).version = ctx.version) (h0c : (m 0).coord ≠ pos) :
    ∀ fuel, find_node_loop ctx m pos fuel 0 = .error .diverge := by
  intro fuel
  induction fuel with
  | zero => rfl
  | succ f ih =>
    unfold find_node_loop
    rw [if_neg h0c, if_neg (not_not.mpr h0v), hp, one_shl_31, if_pos (toInt32_ge _)]
    exact ih

/-- A pass of the loop of `astar` does not return when the first relaxation of its
expansion does not. -/
theorem astar_loop_of_relax_error {σ : Type} (ctx : context) (func : pathfinding_hfunc σ)
    (goal fuel : Nat) (s : search) (ud : σ) (cur : Nat) (d : pathfinding_neighbor)
    (ds : List pathfinding_neighbor) (e : Fault)
    (hcur : slotIndex ctx.pow2 s.list = .ok cur) (hgoal : (s.m cur).coord ≠ goal)
    (hnb : (func ud (s.m cur).coord).1 = d :: ds)
    (hrel : relax ctx cur ⟨setNode s.m cur { s.m cur with fscore := 0 },
      (setNode s.m cur { s.m cur with fscore := 0 } cur).next, s.size⟩ d = .error e) :
    astar_loop ctx func goal (fuel + 1) s ud = .error e := by
  unfold astar_loop
  rw [hcur]
  dsimp only
  rw [if_neg hgoal, hnb]
  have hd : ¬ ((d :: ds).length = 0 ∧ (s.m cur).next < 0) := by simp
  rw [if_neg hd]
  unfold expand
  dsimp only
  unfold relax_all
  rw [hrel]

/-- The first query on `wideState` starts without a live slot: every slot carries
version 0 and the version of the query is 1. -/
theorem wideState_noLive (i : Nat) :
    ((context_init wideState).2.hash i).version ≠ (context_init wideState).1.version := by
  unfold context_init
  simp only [wideState, if_true]
  split_ifs <;> decide

/-- The cheaper way from 0 to 9 on `detourGraph`. -/
theorem detourGraph_walk : Walk detourGraph 0 9 [0, 1, 9] 2 := by
  have h1 : Walk detourGraph 9 9 [9] 0 := Walk.nil 9
  have h2 : Walk detourGraph 1 9 [1, 9] (1 + 0) :=
    Walk.cons (u := 1) ⟨9, 1, 0⟩ (by decide) h1
  exact Walk.cons (u := 0) ⟨1, 1, 0⟩ (by decide) h2

theorem detourGraph_count (p : Nat) : (detourGraph p).length ≤ 16 := by
  unfold detourGraph
  split_ifs <;> simp

theorem detourGraph_entries (p : Nat) (e : pathfinding_neighbor) (he : e ∈ detourGraph p) :
    1 ≤ e.dist ∧ e.estimate = 0 := by
  unfold detourGraph at he
  split_ifs at he <;> simp at he
  · rcases he with rfl | rfl <;> simp
  · subst he
    simp

/-! ## The slots a query has written, on a table with further live slots -/

/-- The walk of `remove_node` along an open list none of whose slots links to
`remove_index` does not return. -/
theorem remove_node_loop_absent (ctx : context) (ri : Nat) (ni : Int) (m : Mem) :
    ∀ (l : List Nat) (fuel cur : Nat) (m1 : Mem),
      IsList ctx.pow2 m (cur : Int) (cur :: l) → ri ∉ l →
      remove_node_loop ctx ri ni fuel m cur ≠ .ok m1 := by
  intro l
  induction l with
  | nil =>
    intro fuel cur m1 hl _ hr
    obtain ⟨_, _, hend⟩ := hl
    have hneg : (m cur).next < 0 := hend
    cases fuel with
    | zero => simp [remove_node_loop] at hr
    | succ f =>
      unfold remove_node_loop at hr
      have hne : (m cur).next ≠ (ri : Int) := by omega
      rw [if_pos hne, if_pos hneg] at hr
      exact absurd hr (by simp)
  | cons nx l ih =>
    intro fuel cur m1 hl hri hr
    obtain ⟨_, _, hrest⟩ := hl
    have hrest' : IsList ctx.pow2 m (m cur).next (nx :: l) := hrest
    have hnext : (m cur).next = (nx : Int) := hrest'.1
    have hnx : nx < cap ctx.pow2 := hrest'.2.1
    cases fuel with
    | zero => simp [remove_node_loop] at hr
    | succ f =>
      unfold remove_node_loop at hr
      have hne : (m cur).next ≠ (ri : Int) := by
        rw [hnext]
        intro e
        apply hri
        have : nx = ri := by omega
        rw [← this]
        exact List.mem_cons_self _ _
      have hnn : ¬ (m cur).next < 0 := by rw [hnext]; omega
      rw [if_pos hne, if_neg hnn, hnext, slotIndex_natCast hnx] at hr
      refine ih f nx m1 ?_ (fun h => hri (List.mem_cons_of_mem _ h)) hr
      rw [← hnext]
      exact hrest'

/-- The walk of `advance_node` for a slot that is not in the open list returns only by
linking the slot behind the last entry. -/
theorem advance_node_loop_absent (ctx : context) (index : Nat) (nn list : Int)
    (hidx : index < cap ctx.pow2) :
    ∀ (l : List Nat) (fuel cur : Nat) (m m1 : Mem) (list1 : Int),
      IsList ctx.pow2 m (cur : Int) (cur :: l) → index ∉ cur :: l →
      advance_node_loop ctx index nn list fuel m cur = .ok (m1, list1) →
      list1 = list ∧ IsList ctx.pow2 m1 (cur : Int) (cur :: (l ++ [index])) ∧
        ∀ i, i ∉ cur :: l → i ≠ index → m1 i = m i := by
  intro l
  induction l with
  | nil =>
    intro fuel cur m m1 list1 hl hni hr
    obtain ⟨_, hcur, hend⟩ := hl
    have hneg : (m cur).next < 0 := hend
    have hne : cur ≠ index := by
      intro e
      apply hni
      rw [e]
      exact List.mem_cons_self _ _
    cases fuel with
    | zero => simp [advance_node_loop] at hr
    | succ f =>
      unfold advance_node_loop at hr
      rw [if_pos hneg] at hr
      simp only [Except.ok.injEq, Prod.mk.injEq] at hr
      obtain ⟨rfl, rfl⟩ := hr
      refine ⟨rfl, ⟨rfl, hcur, ?_⟩, ?_⟩
      · rw [setNext_other _ _ hne, setNext_same]
        refine ⟨rfl, hidx, ?_⟩
        show (setNext _ _ _ index).next < 0
        rw [setNext_same]
        omega
      · intro i hi hii
        have hic : i ≠ cur := by
          intro e
          apply hi
          rw [e]
          exact List.mem_cons_self _ _
        rw [setNext_other _ _ hii, setNext_other _ _ hic]
  | cons nx l ih =>
    intro fuel cur m m1 list1 hl hni hr
    have hnd := hl.nodup
    obtain ⟨_, hcur, hrest⟩ := hl
    have hrest' : IsList ctx.pow2 m (m cur).next (nx :: l) := hrest
    have hnext : (m cur).next = (nx : Int) := hrest'.1
    have hnx : nx < cap ctx.pow2 := hrest'.2.1
    have hnx_ne : nx ≠ index := by
      intro e
      apply hni
      rw [← e]
      exact List.mem_cons_of_mem _ (List.mem_cons_self _ _)
    have hcur_ne : cur ≠ index := by
      intro e
      apply hni
      rw [e]
      exact List.mem_cons_self _ _
    have hcur_nin : cur ∉ nx :: l := (List.nodup_cons.mp hnd).1
    have hl2 : IsList ctx.pow2 m (nx : Int) (nx :: l) := by
      rw [← hnext]
      exact hrest'
    cases fuel with
    | zero => simp [advance_node_loop] at hr
    | succ f =>
      unfold advance_node_loop at hr
      have hnn : ¬ (m cur).next < 0 := by rw [hnext]; omega
      rw [if_neg hnn, hnext, slotIndex_natCast hnx] at hr
      dsimp only at hr
      rw [if_neg hnx_ne] at hr
      by_cases hle : (m index).fscore ≤ (m nx).fscore
      · rw [if_pos hle] at hr
        exfalso
        have hm2i : (setNext (setNext m index (nx : Int)) cur (index : Int) index).next =
            (nx : Int) := by
          rw [setNext_other _ _ hcur_ne.symm, setNext_same]
        rw [hm2i] at hr
        have hl3 : IsList ctx.pow2 (setNext (setNext m index (nx : Int)) cur (index : Int))
            (nx : Int) (nx :: l) := by
          apply IsList.congr _ hl2
          intro i hi
          have h1 : i ≠ cur := fun e => hcur_nin (e ▸ hi)
          have h2 : i ≠ index := fun e => hni (List.mem_cons_of_mem _ (e ▸ hi))
          rw [setNext_other _ _ h1, setNext_other _ _ h2]
        unfold remove_node at hr
        rw [slotIndex_natCast hnx] at hr
        dsimp only at hr
        split at hr
        · simp at hr
        · rename_i m3 hrem
          exact remove_node_loop_absent ctx index nn _ l _ nx m3 hl3
            (fun h => hni (List.mem_cons_of_mem _ (List.mem_cons_of_mem _ h))) hrem
      · rw [if_neg hle] at hr
        obtain ⟨h1, h2, h3⟩ := ih f nx m m1 list1 hl2
          (fun h => hni (List.mem_cons_of_mem _ h)) hr
        refine ⟨h1, ⟨rfl, hcur, ?_⟩, ?_⟩
        · rw [h3 cur hcur_nin hcur_ne, hnext]
          exact h2
        · intro i hi hii
          exact h3 i (fun h => hi (List.mem_cons_of_mem _ h)) hii

/-- Function `advance_node` for a slot that is not in the open list returns only by
linking the slot behind the last entry of the list. -/
theorem advance_node_absent (ctx : context) (m : Mem) (index : Nat) (list : Int)
    (l : List Nat) (hidx : index < cap ctx.pow2) (hl : IsList ctx.pow2 m list l)
    (hni : index ∉ l) (m1 : Mem) (list1 : Int)
    (hr : advance_node ctx m index list = .ok (m1, list1)) :
    IsList ctx.pow2 m1 list1 (l ++ [index]) := by
  unfold advance_node at hr
  cases l with
  | nil =>
    have hneg : list < 0 := hl
    have hne : ¬ (index : Int) = list := by omega
    rw [if_neg hne] at hr
    dsimp only at hr
    rw [if_pos hneg] at hr
    exact absurd hr (by simp)
  | cons cur l =>
    have hl' := hl
    obtain ⟨hhead, hcur, _⟩ := hl'
    have hcur_ne : cur ≠ index := by
      intro e
      apply hni
      rw [e]
      exact List.mem_cons_self _ _
    have hne : ¬ (index : Int) = list := by rw [hhead]; omega
    have hnn : ¬ list < 0 := by rw [hhead]; omega
    rw [if_neg hne] at hr
    dsimp only at hr
    rw [if_neg hnn, hhead, slotIndex_natCast hcur] at hr
    dsimp only at hr
    have hl2 : IsList ctx.pow2 m (cur : Int) (cur :: l) := by
      rw [← hhead]
      exact hl
    by_cases hle : (m index).fscore ≤ (m cur).fscore
    · rw [if_pos hle] at hr
      exfalso
      have hl3 : IsList ctx.pow2 (setNext m index (cur : Int)) (cur : Int) (cur :: l) := by
        apply IsList.congr _ hl2
        intro i hi
        have h2 : i ≠ index := fun e => hni (e ▸ hi)
        rw [setNext_other _ _ h2]
      unfold remove_node at hr
      rw [slotIndex_natCast hcur] at hr
      dsimp only at hr
      split at hr
      · simp at hr
      · rename_i m3 hrem
        exact remove_node_loop_absent ctx index _ _ l _ cur m3 hl3
          (fun h => hni (List.mem_cons_of_mem _ h)) hrem
    · rw [if_neg hle] at hr
      obtain ⟨h1, h2, _⟩ := advance_node_loop_absent ctx index _ _ hidx l _ cur m m1 list1
        hl2 hni hr
      rw [h1]
      exact h2

/-- Writing the slot `tmp` for the entry `d` reported for the written slot `cur`, and
linking it into the open list, keeps the invariant on the written slots, with `tmp` one
of them. -/
theorem WrittenInv.write_node {ctx : context} {nb : Nat → List pathfinding_neighbor}
    {start : Nat} {W : Nat → Prop} {s : search} {l : List Nat}
    (h : WrittenInv ctx nb start W s l) (hopen : ∀ i, i ∈ l → (s.m i).fscore ≠ 0)
    {cur tmp : Nat} {d : pathfinding_neighbor} (hcur : W cur) (htmp : tmp < cap ctx.pow2)
    (hd : d ∈ nb (s.m cur).coord) (hd1 : 1 ≤ d.dist)
    (hne_cur : tmp ≠ cur) (hne_start : tmp ≠ hash ctx start) (n : node)
    (hnv : n.version = ctx.version) (hnc : n.coord = d.pos)
    (hng : n.gscore = (s.m cur).gscore + d.dist) (hnf : n.fscore ≠ 0)
    (hncf : n.camefrom = cur)
    (hold : W tmp → (s.m tmp).coord = d.pos ∧ n.gscore ≤ (s.m tmp).gscore)
    (m2 : Mem) (list2 : Int) (size2 : Nat) (l1 : List Nat)
    (hsame : SameData (setNode s.m tmp n) m2) (hchain : IsList ctx.pow2 m2 list2 l1)
    (hmem : ∀ i, i ∈ l1 → i = tmp ∨ i ∈ l) :
    WrittenInv ctx nb start (fun i => W i ∨ i = tmp) ⟨m2, list2, size2⟩ l1 ∧
      (∀ i, i ∈ l1 → (m2 i).fscore ≠ 0) ∧ (m2 cur).coord = (s.m cur).coord := by
  have hother : ∀ i, i ≠ tmp → (m2 i).version = (s.m i).version ∧
      (m2 i).coord = (s.m i).coord ∧ (m2 i).gscore = (s.m i).gscore ∧
      (m2 i).camefrom = (s.m i).camefrom ∧ (m2 i).fscore = (s.m i).fscore := by
    intro i hi
    rw [hsame.version, hsame.coord, hsame.gscore, hsame.camefrom, hsame.fscore,
      setNode_other _ _ hi]
    exact ⟨rfl, rfl, rfl, rfl, rfl⟩
  have hself : (m2 tmp).version = n.version ∧ (m2 tmp).coord = n.coord ∧
      (m2 tmp).gscore = n.gscore ∧ (m2 tmp).camefrom = n.camefrom ∧
      (m2 tmp).fscore = n.fscore := by
    rw [hsame.version, hsame.coord, hsame.gscore, hsame.camefrom, hsame.fscore,
      setNode_same]
    exact ⟨rfl, rfl, rfl, rfl, rfl⟩
  have hcur2 := hother cur hne_cur.symm
  refine ⟨⟨?_, Or.inl h.start_in, ?_, ?_, ?_, hchain, ?_⟩, ?_, hcur2.2.1⟩
  · intro i hi
    by_cases hit : i = tmp
    · subst hit
      exact ⟨htmp, by show (m2 i).version = _; rw [hself.1, hnv]⟩
    · rcases hi with hi | hi
      · obtain ⟨h1, h2⟩ := h.live i hi
        exact ⟨h1, by show (m2 i).version = _; rw [(hother i hit).1]; exact h2⟩
      · exact absurd hi hit
  · show (m2 _).coord = _
    rw [(hother _ hne_start.symm).2.1]
    exact h.start_coord
  · show (m2 _).gscore = _
    rw [(hother _ hne_start.symm).2.2.1]
    exact h.start_gscore
  · intro i hi hns
    show 1 ≤ (m2 i).gscore ∧ (W (m2 i).camefrom ∨ (m2 i).camefrom = tmp) ∧
      ∃ e, e ∈ nb (m2 (m2 i).camefrom).coord ∧ e.pos = (m2 i).coord ∧
        (m2 (m2 i).camefrom).gscore + e.dist ≤ (m2 i).gscore
    by_cases hit : i = tmp
    · subst hit
      rw [hself.2.2.1, hself.2.2.2.1, hself.2.1, hncf, hcur2.2.1, hcur2.2.2.1, hng, hnc]
      exact ⟨by omega, Or.inl hcur, d, hd, rfl, le_refl _⟩
    · have hwi : W i := by
        rcases hi with hi | hi
        · exact hi
        · exact absurd hi hit
      obtain ⟨h1, h2, e, he1, he2, he3⟩ := h.tree i hwi hns
      obtain ⟨_, oc, og, ocf, _⟩ := hother i hit
      rw [og, ocf, oc]
      refine ⟨h1, Or.inl h2, e, ?_, he2, ?_⟩
      · by_cases hct : (s.m i).camefrom = tmp
        · rw [hct, hself.2.1, hnc, ← (hold (hct ▸ h2)).1, ← hct]
          exact he1
        · rw [(hother _ hct).2.1]
          exact he1
      · by_cases hct : (s.m i).camefrom = tmp
        · rw [hct, hself.2.2.1]
          have := (hold (hct ▸ h2)).2
          rw [hct] at he3
          omega
        · rw [(hother _ hct).2.2.1]
          exact he3
  · intro i hi
    rcases hmem i hi with e | hl
    · exact Or.inr e
    · exact Or.inl (h.open_in i hl)
  · intro i hi
    by_cases hit : i = tmp
    · subst hit
      rw [hself.2.2.2.2]
      exact hnf
    · rw [(hother i hit).2.2.2.2]
      rcases hmem i hi with e | hl
      · exact absurd e hit
      · exact hopen i hl

/-- A relaxation that returns and whose sums do not overflow keeps the invariant on the
written slots, whatever further live slots the table holds; the expanded slot stays
written and keeps its coordinate. -/
theorem written_relax {ctx : context} {nb : Nat → List pathfinding_neighbor}
    {start : Nat} {W : Nat → Prop} {s : search} {l : List Nat}
    (hdist : ∀ p e, e ∈ nb p → 1 ≤ e.dist)
    (h : WrittenInv ctx nb start W s l) (hopen : ∀ i, i ∈ l → (s.m i).fscore ≠ 0)
    {cur : Nat} (hcur : W cur) (d : pathfinding_neighbor) (hd : d ∈ nb (s.m cur).coord)
    (hfit : relax_fits ctx cur s d = true) (s1 : search)
    (hr : relax ctx cur s d = .ok s1) :
    ∃ W1 l1, WrittenInv ctx nb start W1 s1 l1 ∧ (∀ i, i ∈ l1 → (s1.m i).fscore ≠ 0) ∧
      W1 cur ∧ (s1.m cur).coord = (s.m cur).coord := by
  obtain ⟨k, hk, hfind, hpre, hstop⟩ := find_node_of_relax ctx cur s s1 d hr
  have hlt := probe_lt ctx d.pos k
  obtain ⟨tmp, htmp⟩ : ∃ tmp, tmp = probe ctx d.pos k := ⟨_, rfl⟩
  rw [← htmp] at hfind hstop hlt
  have hd1 := hdist _ d hd
  unfold relax_fits at hfit
  rw [hfind, Bool.and_eq_true, decide_eq_true_eq] at hfit
  obtain ⟨hfg, hff⟩ := hfit
  dsimp only at hff
  have hmod : ((s.m cur).gscore + d.dist) % 2 ^ 32 = (s.m cur).gscore + d.dist :=
    Nat.mod_eq_of_lt hfg
  rw [relax_unfold, hfind] at hr
  dsimp only at hr
  by_cases hv : (s.m tmp).version = ctx.version
  · rw [if_neg (not_not.mpr hv)] at hr
    have hcoord : (s.m tmp).coord = d.pos := by
      rcases hstop with h1 | h1
      · exact h1
      · exact absurd hv h1
    by_cases hlt2 : ((s.m cur).gscore + d.dist) % 2 ^ 32 < (s.m tmp).gscore
    · rw [if_pos hlt2] at hr
      have hfe : (s.m cur).gscore + d.dist + d.estimate < 2 ^ 32 := by
        rw [if_pos (Or.inr (hmod ▸ hlt2)), decide_eq_true_eq] at hff
        exact hff
      obtain ⟨_, _, hfpos⟩ := @fscore_pos (s.m cur).gscore d.dist d.estimate hd1 hfe
      have hne_cur : tmp ≠ cur := by
        intro e
        rw [hmod, e] at hlt2
        omega
      have hne_start : tmp ≠ hash ctx start := by
        intro e
        rw [e, h.start_gscore] at hlt2
        omega
      have hnext : ∀ i, (setNode s.m tmp (improvedNode cur s.m d tmp) i).next =
          (s.m i).next := by
        intro i
        by_cases hi : i = tmp
        · subst hi; rw [setNode_same]; rfl
        · rw [setNode_other _ _ hi]
      have hl1 : IsList ctx.pow2 (setNode s.m tmp (improvedNode cur s.m d tmp)) s.list l :=
        IsList.congr (fun i _ => hnext i) h.chain
      split at hr
      · simp at hr
      · rename_i m2 list2 hop
        simp only [Except.ok.injEq] at hr
        subst hr
        have hsame : SameData (setNode s.m tmp (improvedNode cur s.m d tmp)) m2 := by
          split_ifs at hop
          · exact advance_node_sameData _ _ _ _ _ _ hop
          · exact insert_node_sameData _ _ _ _ _ _ hop
        have hlist : ∃ l1, IsList ctx.pow2 m2 list2 l1 ∧ ∀ i, i ∈ l1 → i = tmp ∨ i ∈ l := by
          by_cases hf : (s.m tmp).fscore ≠ 0
          · rw [if_pos hf] at hop
            by_cases hmem : tmp ∈ l
            · obtain ⟨a, b, hab⟩ := List.append_of_mem hmem
              rw [hab] at hl1
              obtain ⟨m3, list3, hadv, hl3⟩ := advance_node_spec ctx _ tmp s.list a b hl1
              rw [hop] at hadv
              simp only [Except.ok.injEq, Prod.mk.injEq] at hadv
              obtain ⟨rfl, rfl⟩ := hadv
              refine ⟨_, hl3, ?_⟩
              intro i hi
              rw [List.mem_append, mem_placeByFscore] at hi
              rw [hab]
              rcases hi with (hi | hi) | hi
              · exact Or.inl hi
              · exact Or.inr (List.mem_append_left _ hi)
              · exact Or.inr (List.mem_append_right _ (List.mem_cons_of_mem _ hi))
            · refine ⟨_, advance_node_absent ctx _ tmp s.list l hlt hl1 hmem m2 list2 hop, ?_⟩
              intro i hi
              rw [List.mem_append, List.mem_singleton] at hi
              rcases hi with hi | hi
              · exact Or.inr hi
              · exact Or.inl hi
          · rw [if_neg hf] at hop
            have hnm : tmp ∉ l := fun hm => hopen tmp hm (not_not.mp hf)
            obtain ⟨m3, list3, hins, hl3⟩ := insert_node_spec ctx _ tmp s.list l hlt hl1 hnm
            rw [hop] at hins
            simp only [Except.ok.injEq, Prod.mk.injEq] at hins
            obtain ⟨rfl, rfl⟩ := hins
            refine ⟨_, hl3, ?_⟩
            intro i hi
            rw [mem_placeByFscore] at hi
            exact hi
        obtain ⟨l1, hchain, hmem⟩ := hlist
        obtain ⟨hw, ho, hc⟩ := h.write_node hopen hcur hlt hd hd1 hne_cur hne_start
          (improvedNode cur s.m d tmp) hv hcoord hmod hfpos rfl
          (fun _ => ⟨hcoord, by
            show ((s.m cur).gscore + d.dist) % 2 ^ 32 ≤ _
            omega⟩)
          m2 list2 s.size l1 hsame hchain hmem
        exact ⟨_, l1, hw, ho, Or.inl hcur, hc⟩
    · rw [if_neg hlt2] at hr
      simp only [Except.ok.injEq] at hr
      subst hr
      exact ⟨W, l, h, hopen, hcur, rfl⟩
  · rw [if_pos hv] at hr
    have hfe : (s.m cur).gscore + d.dist + d.estimate < 2 ^ 32 := by
      rw [if_pos (Or.inl hv), decide_eq_true_eq] at hff
      exact hff
    obtain ⟨_, _, hfpos⟩ := @fscore_pos (s.m cur).gscore d.dist d.estimate hd1 hfe
    have hnw : ¬ W tmp := fun hw => hv (h.live tmp hw).2
    have hne_cur : tmp ≠ cur := fun e => hnw (e ▸ hcur)
    have hne_start : tmp ≠ hash ctx start := fun e => hnw (e ▸ h.start_in)
    have hnm : tmp ∉ l := fun hm => hnw (h.open_in tmp hm)
    have hl1 : IsList ctx.pow2 (setNode s.m tmp (newNode ctx cur s.m d tmp)) s.list l := by
      apply IsList.congr _ h.chain
      intro i hi
      have : i ≠ tmp := fun e => hnm (e ▸ hi)
      rw [setNode_other _ _ this]
    split at hr
    · simp at hr
    · rename_i m2 list2 hop
      simp only [Except.ok.injEq] at hr
      subst hr
      have hsame := insert_node_sameData _ _ _ _ _ _ hop
      obtain ⟨m3, list3, hins, hl3⟩ := insert_node_spec ctx _ tmp s.list l hlt hl1 hnm
      rw [hop] at hins
      simp only [Except.ok.injEq, Prod.mk.injEq] at hins
      obtain ⟨rfl, rfl⟩ := hins
      obtain ⟨hw, ho, hc⟩ := h.write_node hopen hcur hlt hd hd1 hne_cur hne_start
        (newNode ctx cur s.m d tmp) rfl rfl hmod hfpos rfl
        (fun hw => absurd hw hnw)
        m2 list2 (s.size + 1) _ hsame hl3
        (fun i hi => (mem_placeByFscore _ _ _ _).mp hi)
      exact ⟨_, _, hw, ho, Or.inl hcur, hc⟩

/-- The relaxations of a list of entries reported for the written slot `cur`, when they
return without overflow, keep the invariant on the written slots. -/
theorem written_relax_all {ctx : context} {nb : Nat → List pathfinding_neighbor}
    {start : Nat} (hdist : ∀ p e, e ∈ nb p → 1 ≤ e.dist) {cur cpos : Nat} :
    ∀ (ds : List pathfinding_neighbor) (W : Nat → Prop) (s : search) (l : List Nat)
      (s1 : search), WrittenInv ctx nb start W s l →
      (∀ i, i ∈ l → (s.m i).fscore ≠ 0) → W cur → (s.m cur).coord = cpos →
      (∀ d, d ∈ ds → d ∈ nb cpos) → relax_all_fits ctx cur ds s = true →
      relax_all ctx cur ds s = .ok s1 →
      ∃ W1 l1, WrittenInv ctx nb start W1 s1 l1 ∧ ∀ i, i ∈ l1 → (s1.m i).fscore ≠ 0 := by
  intro ds
  induction ds with
  | nil =>
    intro W s l s1 h hopen _ _ _ _ hr
    simp only [relax_all, Except.ok.injEq] at hr
    subst hr
    exact ⟨W, l, h, hopen⟩
  | cons d ds ih =>
    intro W s l s1 h hopen hcur hco hmem hfits hr
    unfold relax_all at hr
    unfold relax_all_fits at hfits
    rw [Bool.and_eq_true] at hfits
    obtain ⟨hfit, hrest⟩ := hfits
    split at hr
    · simp at hr
    · rename_i s2 h2
      rw [h2] at hrest
      obtain ⟨W2, l2, hw2, ho2, hcur2, hco2⟩ := written_relax hdist h hopen hcur d
        (by rw [hco]; exact hmem d (List.mem_cons_self _ _)) hfit s2 h2
      exact ih W2 s2 l2 s1 hw2 ho2 hcur2 (by rw [hco2, hco])
        (fun e he => hmem e (List.mem_cons_of_mem _ he)) hrest hr

/-- Closing the head of the open list and relaxing the entries reported for it keeps,
when it returns without overflow, the invariant on the written slots: every entry of the
open list it leaves is an open slot. -/
theorem written_expand {ctx : context} {nb : Nat → List pathfinding_neighbor}
    {start : Nat} (hdist : ∀ p e, e ∈ nb p → 1 ≤ e.dist) {W : Nat → Prop} {s : search}
    {cur : Nat} {l : List Nat} (h : WrittenInv ctx nb start W s (cur :: l))
    (hopen : ∀ i, i ∈ l → (s.m i).fscore ≠ 0)
    (hfits : expand_fits ctx cur (nb (s.m cur).coord) s = true) (s1 : search)
    (hr : expand ctx cur (nb (s.m cur).coord) s = .ok s1) :
    ∃ W1 l1, WrittenInv ctx nb start W1 s1 l1 ∧ ∀ i, i ∈ l1 → (s1.m i).fscore ≠ 0 := by
  unfold expand at hr
  unfold expand_fits at hfits
  dsimp only at hr hfits
  have hfield : ∀ i, ((setNode s.m cur { s.m cur with fscore := 0 }) i).version =
        (s.m i).version ∧
      ((setNode s.m cur { s.m cur with fscore := 0 }) i).coord = (s.m i).coord ∧
      ((setNode s.m cur { s.m cur with fscore := 0 }) i).gscore = (s.m i).gscore ∧
      ((setNode s.m cur { s.m cur with fscore := 0 }) i).camefrom = (s.m i).camefrom ∧
      ((setNode s.m cur { s.m cur with fscore := 0 }) i).next = (s.m i).next := by
    intro i
    by_cases hi : i = cur
    · subst hi; rw [setNode_same]; exact ⟨rfl, rfl, rfl, rfl, rfl⟩
    · rw [setNode_other _ _ hi]; exact ⟨rfl, rfl, rfl, rfl, rfl⟩
  have hnd := h.chain.nodup
  have hcur_nin : cur ∉ l := (List.nodup_cons.mp hnd).1
  have hchain := h.chain
  obtain ⟨_, _, hrest⟩ := hchain
  have hw0 : WrittenInv ctx nb start W ⟨setNode s.m cur { s.m cur with fscore := 0 },
      ((setNode s.m cur { s.m cur with fscore := 0 }) cur).next, s.size⟩ l := by
    refine ⟨?_, h.start_in, ?_, ?_, ?_, ?_, ?_⟩
    · intro i hi
      obtain ⟨h1, h2⟩ := h.live i hi
      exact ⟨h1, by show (setNode _ _ _ i).version = _; rw [(hfield i).1]; exact h2⟩
    · show (setNode _ _ _ _).coord = _
      rw [(hfield _).2.1]
      exact h.start_coord
    · show (setNode _ _ _ _).gscore = _
      rw [(hfield _).2.2.1]
      exact h.start_gscore
    · intro i hi hns
      obtain ⟨h1, h2, e, he1, he2, he3⟩ := h.tree i hi hns
      show 1 ≤ (setNode _ _ _ i).gscore ∧ W (setNode _ _ _ i).camefrom ∧
        ∃ e, e ∈ nb (setNode _ _ _ (setNode _ _ _ i).camefrom).coord ∧
          e.pos = (setNode _ _ _ i).coord ∧
          (setNode _ _ _ (setNode _ _ _ i).camefrom).gscore + e.dist ≤
            (setNode _ _ _ i).gscore
      rw [(hfield i).2.2.1, (hfield i).2.2.2.1, (hfield i).2.1, (hfield _).2.1,
        (hfield _).2.2.1]
      exact ⟨h1, h2, e, he1, he2, he3⟩
    · show IsList _ _ (setNode _ _ _ _).next l
      rw [(hfield cur).2.2.2.2]
      exact IsList.congr (fun i _ => (hfield i).2.2.2.2) hrest
    · intro i hi
      exact h.open_in i (List.mem_cons_of_mem _ hi)
  have ho0 : ∀ i, i ∈ l →
      ((setNode s.m cur { s.m cur with fscore := 0 }) i).fscore ≠ 0 := by
    intro i hi
    have : i ≠ cur := fun e => hcur_nin (e ▸ hi)
    rw [setNode_other _ _ this]
    exact hopen i hi
  exact written_relax_all hdist (nb (s.m cur).coord) W _ l s1 hw0 ho0
    (h.open_in cur (List.mem_cons_self _ _)) (hfield cur).2.1 (fun d hd => hd) hfits hr

/-- The seeded start satisfies the invariant on the written slots, whatever the slot
array held. -/
theorem seed_writtenInv (ctx : context) (nb : Nat → List pathfinding_neighbor) (start : Nat)
    (m : Mem) :
    WrittenInv ctx nb start (fun i => i = hash ctx start) (seed ctx m start)
      [hash ctx start] := by
  have hs := hash_lt ctx start
  refine ⟨?_, rfl, ?_, ?_, ?_, ⟨rfl, hs, ?_⟩, ?_⟩
  · intro i hi
    subst hi
    exact ⟨hs, by simp [seed, setNode_same]⟩
  · simp [seed, setNode_same]
  · simp [seed, setNode_same]
  · intro i hi hne
    exact absurd hi hne
  · show ((seed ctx m start).m _).next < 0
    simp [seed, setNode_same]
  · intro i hi
    exact List.mem_singleton.mp hi

/-- What the loop of `astar` returns, from a state that satisfies the invariant on the
written slots and whose open list consists of open slots behind its head, in a run
without overflow: a negative index, or a written slot of a slot array that satisfies
the invariant. -/
theorem written_astar_loop {σ : Type} {ctx : context} {nb : Nat → List pathfinding_neighbor}
    {start goal : Nat} (func : pathfinding_hfunc σ)
    (hdist : ∀ p e, e ∈ nb p → 1 ≤ e.dist) (hpure : ∀ u p, (func u p).1 = nb p) :
    ∀ (fuel : Nat) (W : Nat → Prop) (s : search) (l : List Nat) (ud : σ) (r : Int)
      (m1 : Mem) (ud1 : σ), WrittenInv ctx nb start W s l →
      (∀ i, i ∈ l.tail → (s.m i).fscore ≠ 0) →
      astar_fits ctx func goal fuel s ud = true →
      astar_loop ctx func goal fuel s ud = .ok (r, m1, ud1) →
      r < 0 ∨ ∃ (n : Nat) (W1 : Nat → Prop) (size : Nat) (l1 : List Nat), r = (n : Int) ∧
        W1 n ∧ WrittenInv ctx nb start W1 ⟨m1, r, size⟩ l1 := by
  intro fuel
  induction fuel with
  | zero =>
    intro W s l ud r m1 ud1 _ _ _ hrun
    simp [astar_loop] at hrun
  | succ f ih =>
    intro W s l ud r m1 ud1 h hopen hfits hrun
    unfold astar_loop at hrun
    unfold astar_fits at hfits
    split at hrun
    · simp at hrun
    · rename_i cur hcur
      rw [hcur] at hfits
      dsimp only at hfits
      obtain ⟨h0, hlist, _⟩ := slotIndex_ok hcur
      obtain ⟨rest, rfl⟩ : ∃ rest, l = cur :: rest := by
        cases l with
        | nil =>
          have : s.list < 0 := h.chain
          omega
        | cons c rest =>
          have : s.list = (c : Int) := h.chain.1
          have e : c = cur := by omega
          exact ⟨rest, by rw [e]⟩
      by_cases hgoal : (s.m cur).coord = goal
      · rw [if_pos hgoal] at hrun
        simp only [Except.ok.injEq, Prod.mk.injEq] at hrun
        obtain ⟨rfl, rfl, _⟩ := hrun
        exact Or.inr ⟨cur, W, s.size, _, hlist, h.open_in cur (List.mem_cons_self _ _), h⟩
      · rw [if_neg hgoal] at hrun hfits
        dsimp only at hrun
        by_cases hdrain : (func ud (s.m cur).coord).1.length = 0 ∧ (s.m cur).next < 0
        · rw [if_pos hdrain] at hrun
          simp only [Except.ok.injEq, Prod.mk.injEq] at hrun
          obtain ⟨rfl, rfl, _⟩ := hrun
          exact Or.inl (by omega)
        · rw [if_neg hdrain] at hrun hfits
          rw [Bool.and_eq_true, hpure] at hfits
          obtain ⟨hfit1, hfit2⟩ := hfits
          rw [hpure] at hrun
          split at hrun
          · simp at hrun
          · rename_i s1 hexp
            rw [hexp] at hfit2
            dsimp only at hfit2
            obtain ⟨W1, l1, hw1, ho1⟩ := written_expand hdist h hopen hfit1 s1 hexp
            by_cases hbig : s1.size > 1 <<< (ctx.pow2 - 1)
            · rw [if_pos hbig] at hrun
              simp only [Except.ok.injEq, Prod.mk.injEq] at hrun
              obtain ⟨rfl, rfl, _⟩ := hrun
              rcases hw1.chain.head_link with hneg | ⟨i, hi, hie⟩
              · exact Or.inl hneg
              · exact Or.inr ⟨i, W1, s1.size, l1, hie, hw1.open_in i hi, hw1⟩
            · rw [if_neg hbig] at hrun hfit2
              exact ih W1 s1 l1 _ r m1 ud1 hw1
                (fun i hi => ho1 i (List.mem_of_mem_tail hi)) hfit2 hrun

/-- Under the invariant on the written slots every written slot has a chain of
predecessors to the start slot. -/
theorem WrittenInv.chain_to_start {ctx : context} {nb : Nat → List pathfinding_neighbor}
    {start : Nat} {W : Nat → Prop} {s : search} {l : List Nat}
    (h : WrittenInv ctx nb start W s l) (hdist : ∀ p e, e ∈ nb p → 1 ≤ e.dist) :
    ∀ (g n : Nat), (s.m n).gscore = g → W n → ∃ k, ChainTo ctx nb start s.m n k := by
  intro g
  induction g using Nat.strong_induction_on with
  | _ g ih =>
    intro n hg hn
    obtain ⟨hlt, hv⟩ := h.live n hn
    by_cases hs : n = hash ctx start
    · refine ⟨0, ⟨hs, ?_, fun j hj => absurd hj (Nat.not_lt_zero _)⟩⟩
      intro j hj
      have : j = 0 := by omega
      subst this
      exact ⟨hlt, hv⟩
    · obtain ⟨h1, h2, e, he1, he2, he3⟩ := h.tree n hn hs
      have hd := hdist _ e he1
      obtain ⟨k, hk⟩ := ih (s.m (s.m n).camefrom).gscore (by omega) (s.m n).camefrom rfl h2
      refine ⟨k + 1, ⟨hk.last, ?_, ?_⟩⟩
      · intro j hj
        cases j with
        | zero => exact ⟨hlt, hv⟩
        | succ j => exact hk.slot j (by omega)
      · intro j hj
        cases j with
        | zero =>
          refine ⟨by show (s.m n).gscore ≠ 0; omega, e, he1, he2, hd, he3⟩
        | succ j => exact hk.step j (by omega)

/-- What a run of `pathfinding_find` that returns has done on any state, whatever its
table holds, for a callback with neighbour lists `nb` that do not depend on the user
data and edge weights of at least 1, when no sum of the run overflows: it returned 0 for
a negative index of `astar`, and otherwise plus or minus the number `k + 1` of slots of
the recorded path, plus when the terminal slot holds the goal. -/
theorem pathfinding_find_written {σ : Type} {nb : Nat → List pathfinding_neighbor}
    {fuel : Nat} {st : pathfinding_state} {args : pathfinding_args σ} {ud ud1 : σ} {n : Int}
    {st1 : pathfinding_state} (hdist : ∀ p e, e ∈ nb p → 1 ≤ e.dist)
    (hpure : ∀ u p, (args.func u p).1 = nb p) (hfits : find_fits fuel st args ud = true)
    (hrun : pathfinding_find fuel st args ud = .ok (n, st1, ud1)) :
    (n = 0 ∧ st1.path_length = 0) ∨
      ∃ k : Nat, PathFacts nb args.start st1 (k + 1) ∧
        (n = (k : Int) + 1 ∨ n = -((k : Int) + 1)) := by
  obtain ⟨r, m1, hastar⟩ := pathfinding_find_astar hrun
  have hpost := written_astar_loop args.func hdist hpure fuel _ _ _ ud r m1 ud1
    (seed_writtenInv (context_init st).1 nb args.start (context_init st).2.hash)
    (fun i hi => by simp at hi) hfits hastar
  rcases hpost with hneg | ⟨nn, W1, size, l1, hr, hnn, hw⟩
  · have := pathfinding_find_of_astar_neg fuel st args ud ud1 r m1 hneg hastar
    rw [hrun] at this
    simp only [Except.ok.injEq, Prod.mk.injEq] at this
    obtain ⟨rfl, rfl, _⟩ := this
    exact Or.inl ⟨rfl, rfl⟩
  · subst hr
    obtain ⟨k, hk⟩ := hw.chain_to_start hdist (m1 nn).gscore nn rfl hnn
    obtain ⟨hfind, hfacts⟩ := pathfinding_find_of_chain fuel st args ud ud1 nn k m1 hk
      hw.start_coord hw.start_gscore hastar
    rw [hrun] at hfind
    simp only [Except.ok.injEq, Prod.mk.injEq] at hfind
    obtain ⟨rfl, rfl, _⟩ := hfind
    refine Or.inr ⟨k, hfacts, ?_⟩
    split_ifs
    · exact Or.inr rfl
    · exact Or.inl rfl
/-! # The statements of the specification -/

/-- Claim C5.  When the start coordinate is the goal, `pathfinding_find` returns 1 for
every state, every callback and every positive step budget, and leaves the user
data as it was (the callback, which may change the user data at every call, is not
called); a following `pathfinding_path` with room for at least one coordinate
returns 1, writes the start coordinate to position 0 and nothing else. -/
theorem find_start_is_goal {σ : Type} (fuel : Nat) (st : pathfinding_state)
    (args : pathfinding_args σ) (ud : σ) (hfuel : 0 < fuel) (h : args.start = args.goal) :
    ∃ st1, pathfinding_find fuel st args ud = .ok (1, st1, ud) ∧
      ∀ (result : Nat → Nat) (sz : Int), 1 ≤ sz →
        ∃ out, pathfinding_path st1 result sz = .ok (out, 1) ∧
          out 0 = args.start ∧ ∀ x, x ≠ 0 → out x = result x := by
  obtain ⟨f, rfl⟩ : ∃ f, fuel = f + 1 := ⟨fuel - 1, by omega⟩
  obtain ⟨start, goal, func⟩ := args
  simp only at h
  subst h
  have hlt := hash_lt (context_init st).1 start
  rw [context_init_pow2] at hlt
  have ha := astar_start_is_goal (context_init st).1 func f (context_init st).2.hash ud start
  have hc : calc_length_loop st.pow2 (seed (context_init st).1 (context_init st).2.hash
      start).m (cap st.pow2 + 1) (hash (context_init st).1 start) 1 = .ok 1 := by
    simp [calc_length_loop, seed, setNode_same]
  have hf := pathfinding_find_of_astar_slot (f + 1) st ⟨start, start, func⟩ ud ud _ _ 1 hlt ha hc
  have hcoord : ((seed (context_init st).1 (context_init st).2.hash start).m
      (hash (context_init st).1 start)).coord = start := by
    simp [seed, setNode_same]
  rw [hcoord] at hf
  simp only [ne_eq, not_true_eq_false, if_false] at hf
  refine ⟨_, hf, ?_⟩
  intro result sz hsz
  refine ⟨_, pathfinding_path_eq _ result sz (by omega) ?_, ?_, ?_⟩
  · refine ⟨by simp, by simp, ?_⟩
    intro j hj
    have : j = 0 := by simpa using hj
    subst this
    simpa [chainAt, context_init_state_pow2] using hlt
  · have : ((0 : Nat) : Int) < min sz 1 := by simp; omega
    simp only [this, if_true, pathCoord]
    simpa [chainAt] using hcoord
  · intro x hx
    have : ¬ ((x : Nat) : Int) < min sz 1 := by
      have : (1 : Int) ≤ x := by omega
      simp; omega
    simp [this]

/-- Claim C9.  When the callback reports no neighbour for the start coordinate and the
start is not the goal, `pathfinding_find` returns 0 and records path length 0 (for
every state and every positive step budget; the callback has been called once), and a
following `pathfinding_path` returns 0 and leaves the output array as it was, for
every capacity `sz ≥ 0`. -/
theorem find_blocked_start {σ : Type} (fuel : Nat) (st : pathfinding_state)
    (args : pathfinding_args σ) (ud : σ) (hfuel : 0 < fuel) (hne : args.start ≠ args.goal)
    (h0 : (args.func ud args.start).1 = []) :
    ∃ st1, pathfinding_find fuel st args ud = .ok (0, st1, (args.func ud args.start).2) ∧
      st1.path_length = 0 ∧
      ∀ (result : Nat → Nat) (sz : Int), 0 ≤ sz →
        pathfinding_path st1 result sz = .ok (result, 0) := by
  obtain ⟨f, rfl⟩ : ∃ f, fuel = f + 1 := ⟨fuel - 1, by omega⟩
  have ha := astar_blocked_start (context_init st).1 args.func f (context_init st).2.hash ud
    args.start args.goal hne h0
  have hf := pathfinding_find_of_astar_neg (f + 1) st args ud _ (-1) _ (by omega) ha
  refine ⟨_, hf, rfl, ?_⟩
  intro result sz hsz
  rw [pathfinding_path_eq _ result sz hsz]
  · have : ∀ x : Nat, ¬ ((x : Nat) : Int) < min sz 0 := by
      intro x; simp
    simp [this]
  · exact ⟨by simp, by simp, by intro j hj; simp at hj; omega⟩

theorem lineState_recorded : PathRecorded lineState := by
  refine ⟨by decide!, fun _ => by decide!, ?_⟩
  intro j hj
  have h3 : lineState.path_length = 3 := by decide!
  rw [h3] at hj
  have : j = 0 ∨ j = 1 ∨ j = 2 := by omega
  rcases this with rfl | rfl | rfl <;> decide!

/-- Claim C4.  For a state that records a path (the header's `path_length` slots of the
terminal's `camefrom` chain lie in the array) and every capacity `sz ≥ 0`,
`pathfinding_path` returns the recorded path length; when `sz` is at least that length
`k`, position `k - 1 - j` of the array holds the coordinate of the slot `j` steps
along `camefrom` from the terminal slot, for every `j < k` (so position `k - 1` holds
the terminal's coordinate and each position holds the predecessor of the next one),
and the positions from `k` on are as they were. -/
theorem pathfinding_path_fills (st : pathfinding_state) (result : Nat → Nat) (sz : Int)
    (hsz : 0 ≤ sz) (hst : PathRecorded st) :
    ∃ out, pathfinding_path st result sz = .ok (out, st.path_length) ∧
      (st.path_length ≤ sz →
        (∀ j : Nat, (j : Int) < st.path_length →
          out (st.path_length.toNat - 1 - j) =
            (st.hash (chainAt st.hash j st.goal_index.toNat)).coord) ∧
        (∀ x : Nat, st.path_length ≤ (x : Int) → out x = result x)) := by
  refine ⟨_, pathfinding_path_eq st result sz hsz hst, ?_⟩
  intro hle
  have hmin : min sz st.path_length = st.path_length := min_eq_right hle
  obtain ⟨k, hk⟩ := Int.eq_ofNat_of_zero_le hst.1
  constructor
  · intro j hj
    have h1 : ((st.path_length.toNat - 1 - j : Nat) : Int) < min sz st.path_length := by
      rw [hmin]; omega
    simp only [h1, if_true, pathCoord]
    congr 3
    omega
  · intro x hx
    have h1 : ¬ (x : Int) < min sz st.path_length := by
      rw [hmin]; omega
    simp only [h1, if_false]

theorem pathfinding_path_fills_witness :
    ∃ out, pathfinding_path lineState (fun _ => 7) 5 = .ok (out, lineState.path_length) ∧
      (lineState.path_length ≤ 5 →
        (∀ j : Nat, (j : Int) < lineState.path_length →
          out (lineState.path_length.toNat - 1 - j) =
            (lineState.hash (chainAt lineState.hash j lineState.goal_index.toNat)).coord) ∧
        (∀ x : Nat, lineState.path_length ≤ (x : Int) → out x = (fun _ => 7) x)) :=
  pathfinding_path_fills lineState (fun _ => 7) 5 (by decide) lineState_recorded

/-- Claim C3, as stated, fails: after the query from 0 to 2 on the line graph 0 - 1 - 2
(`pathfinding_find` returns 3, the path is 0, 1, 2 and the terminal slot holds
coordinate 2), `pathfinding_path` with capacity 2 returns 3 and writes 0, 1: the two
coordinates nearest the start, not the two nearest the goal. -/
theorem path_truncation_counterexample :
    returnOf 10 zeroState lineQuery () = some 3 ∧
      (lineState.hash lineState.goal_index.toNat).coord = 2 ∧
      pathOf lineState (fun _ => 7) 3 3 = some (3, [0, 1, 2]) ∧
      pathOf lineState (fun _ => 7) 2 3 = some (3, [0, 1, 7]) := by
  decide!

/-- Claim C3, amended.  For a state that records a path of length `len` and every
capacity `k` with `0 < k < len`, `pathfinding_path` returns `len` and writes the first
`k` coordinates of the path, those nearest the start: position `i < k` of the array
holds the coordinate of the slot `len - 1 - i` steps along `camefrom` from the terminal
slot (position `k - 1` the one `len - k` steps behind it); the other positions are as
they were. -/
theorem pathfinding_path_truncates (st : pathfinding_state) (result : Nat → Nat) (k : Nat)
    (hk : 0 < k) (hlen : (k : Int) < st.path_length) (hst : PathRecorded st) :
    ∃ out, pathfinding_path st result (k : Int) = .ok (out, st.path_length) ∧
      (∀ i : Nat, i < k →
        out i = (st.hash (chainAt st.hash (st.path_length.toNat - 1 - i)
          st.goal_index.toNat)).coord) ∧
      (∀ x : Nat, k ≤ x → out x = result x) := by
  refine ⟨_, pathfinding_path_eq st result k (by omega) hst, ?_, ?_⟩
  · intro i hi
    have h1 : (i : Int) < min (k : Int) st.path_length := by
      rw [min_eq_left hlen.le]; exact_mod_cast hi
    simp only [h1, if_true, pathCoord]
  · intro x hx
    have h1 : ¬ (x : Int) < min (k : Int) st.path_length := by
      rw [min_eq_left hlen.le]; omega
    simp only [h1, if_false]

theorem pathfinding_path_truncates_witness :
    ∃ out, pathfinding_path lineState (fun _ => 7) ((2 : Nat) : Int) =
        .ok (out, lineState.path_length) ∧
      (∀ i : Nat, i < 2 →
        out i = (lineState.hash (chainAt lineState.hash (lineState.path_length.toNat - 1 - i)
          lineState.goal_index.toNat)).coord) ∧
      (∀ x : Nat, 2 ≤ x → out x = (fun _ => 7) x) :=
  pathfinding_path_truncates lineState (fun _ => 7) 2 (by decide) (by decide!)
    lineState_recorded

theorem find_start_is_goal_witness :
    ∃ st1, pathfinding_find 1 zeroState ⟨5, 5, countingFunc (lineGraph 3 2)⟩ 0 =
        .ok (1, st1, 0) ∧
      ∀ (result : Nat → Nat) (sz : Int), 1 ≤ sz →
        ∃ out, pathfinding_path st1 result sz = .ok (out, 1) ∧
          out 0 = 5 ∧ ∀ x, x ≠ 0 → out x = result x :=
  find_start_is_goal 1 zeroState ⟨5, 5, countingFunc (lineGraph 3 2)⟩ 0 (by decide) rfl

theorem find_blocked_start_witness :
    ∃ st1, pathfinding_find 1 zeroState ⟨7, 2, pureFunc (lineGraph 3 2)⟩ () =
        .ok (0, st1, ((pureFunc (lineGraph 3 2)) () 7).2) ∧
      st1.path_length = 0 ∧
      ∀ (result : Nat → Nat) (sz : Int), 0 ≤ sz →
        pathfinding_path st1 result sz = .ok (result, 0) :=
  find_blocked_start 1 zeroState ⟨7, 2, pureFunc (lineGraph 3 2)⟩ () (by decide) (by decide)
    (by decide)

/-- Claim C2 fails on the code.  On the graph in which every coordinate has the single
neighbour 0, the query from 0 to the unreachable coordinate 1 expands the start (one
neighbour reported, the start itself, which is not improved), the open list is then
empty, and the next pass of the loop indexes the slot array with the sentinel -1. -/
theorem drained_list_indexes_sentinel :
    faultOf (pathfinding_find 5 zeroState selfLoopQuery ()) = some Fault.outOfBounds := by
  decide!

/-- Claim C10, as stated, fails: inserting slot 2 (`fscore` 5) into the open list that
consists of slot 1 (`fscore` 5) makes slot 2 the head, linked in front of slot 1. -/
theorem insert_equal_fscore_counterexample :
    (insert_node ⟨1, 8⟩ tieMem 2 1).toOption.map
      (fun r => (r.2, (r.1 2).next, (r.1 1).next)) = some (2, 1, -1) := by
  decide!

/-- Claim C6.  For every query under the callback contract (neighbour lists `nb` that do
not depend on the user data, at most 16 entries per call, every edge weight at least 1)
in whose run no sum overflows 32 bits (`find_fits`: every tentative `gscore` and every
`fscore` the run forms is below `2^32`), on every state: any capacity `2^pow2` with
`8 ≤ pow2`, whatever the slots hold and whichever of them are live when the search
starts.  If `pathfinding_find` returns `n ≠ 0`, then the recorded path has `len = |n|`
coordinates; `pathfinding_path` with room for them writes
exactly these coordinates; the first one is the start coordinate; each coordinate after
the first is the `pos` of an entry the callback reports for the one before it; and the
`gscore`s of the slots along the path increase strictly from 0 at the first slot. -/
theorem find_path_well_formed {σ : Type} {nb : Nat → List pathfinding_neighbor}
    (fuel : Nat) (st : pathfinding_state) (args : pathfinding_args σ) (ud ud1 : σ) (n : Int)
    (st1 : pathfinding_state) (hc : Contract st.pow2 nb)
    (hpure : ∀ u p, (args.func u p).1 = nb p) (hfits : find_fits fuel st args ud = true)
    (hrun : pathfinding_find fuel st args ud = .ok (n, st1, ud1)) (hn : n ≠ 0) :
    ∃ len : Nat, 0 < len ∧ (n = (len : Int) ∨ n = -(len : Int)) ∧
      st1.path_length = (len : Int) ∧
      (∀ (result : Nat → Nat) (sz : Int), (len : Int) ≤ sz →
        ∃ out, pathfinding_path st1 result sz = .ok (out, (len : Int)) ∧
          (∀ i, i < len → out i = pathCoord st1 i) ∧ ∀ i, len ≤ i → out i = result i) ∧
      pathCoord st1 0 = args.start ∧
      (∀ i, i + 1 < len → ∃ e, e ∈ nb (pathCoord st1 i) ∧ e.pos = pathCoord st1 (i + 1)) ∧
      (st1.hash (pathSlot st1 0)).gscore = 0 ∧
      (∀ i, i + 1 < len →
        (st1.hash (pathSlot st1 i)).gscore < (st1.hash (pathSlot st1 (i + 1))).gscore) := by
  rcases pathfinding_find_written hc.dist_pos hpure hfits hrun with h | ⟨k, hfacts, hnk⟩
  · exact absurd h.1 hn
  · refine ⟨k + 1, Nat.succ_pos k, ?_, hfacts.length, hfacts.output, hfacts.first_coord, ?_,
      hfacts.first_gscore, hfacts.gscore_lt⟩
    · rcases hnk with e | e
      · left; rw [e]; push_cast; ring
      · right; rw [e]; push_cast; ring
    · intro i hi
      obtain ⟨e, he1, he2, _⟩ := hfacts.edge i hi
      exact ⟨e, he1, he2⟩

theorem lineGraph_contract : Contract 8 (lineGraph 3 2) := by
  refine ⟨le_refl _, ?_, ?_⟩
  · intro p
    unfold lineGraph
    split_ifs <;> simp
  · intro p e he
    unfold lineGraph at he
    split_ifs at he <;> simp at he <;> (try rcases he with rfl | rfl) <;> simp

theorem detourGraph_contract : Contract 31 detourGraph :=
  ⟨by decide, detourGraph_count, fun p e he => (detourGraph_entries p e he).1⟩

theorem find_path_well_formed_witness :
    ∃ len : Nat, 0 < len ∧ ((2 : Int) = (len : Int) ∨ (2 : Int) = -(len : Int)) ∧
      (stateAfter 5 staleState detourQuery ()).path_length = (len : Int) ∧
      (∀ (result : Nat → Nat) (sz : Int), (len : Int) ≤ sz →
        ∃ out, pathfinding_path (stateAfter 5 staleState detourQuery ()) result sz =
            .ok (out, (len : Int)) ∧
          (∀ i, i < len → out i = pathCoord (stateAfter 5 staleState detourQuery ()) i) ∧
          ∀ i, len ≤ i → out i = result i) ∧
      pathCoord (stateAfter 5 staleState detourQuery ()) 0 = detourQuery.start ∧
      (∀ i, i + 1 < len → ∃ e, e ∈ detourGraph (pathCoord (stateAfter 5 staleState
        detourQuery ()) i) ∧ e.pos = pathCoord (stateAfter 5 staleState detourQuery ()) (i + 1)) ∧
      ((stateAfter 5 staleState detourQuery ()).hash
        (pathSlot (stateAfter 5 staleState detourQuery ()) 0)).gscore = 0 ∧
      (∀ i, i + 1 < len →
        ((stateAfter 5 staleState detourQuery ()).hash
          (pathSlot (stateAfter 5 staleState detourQuery ()) i)).gscore <
        ((stateAfter 5 staleState detourQuery ()).hash
          (pathSlot (stateAfter 5 staleState detourQuery ()) (i + 1))).gscore) :=
  find_path_well_formed 5 staleState detourQuery () (udAfter 5 staleState detourQuery ()) 2
    (stateAfter 5 staleState detourQuery ()) detourGraph_contract (fun _ _ => rfl)
    (by decide!) (pathfinding_find_of_returnOf (by decide!)) (by decide)

/-- The estimate has to be a function of the coordinate for the head of the open list
to be of least `fscore`.  On `trapGraph`, whose callback reports the estimates 0 and 100
for coordinate 900 in one call (at most 16 entries per call, every edge weight at least
1, no overflow), the query `trapQuery` ends after the ninth expansion with 136 > 128
live slots and returns -10; the terminal slot, the head of the open list, holds
coordinate 900 with `fscore` 109, while the open slot of coordinate 901 has `fscore`
14. -/
theorem two_estimates_head_not_least :
    returnOf 20 zeroState trapQuery () = some (-10) ∧
      liveCount (context_init zeroState).1 (memOf trapRun) = 136 ∧
      (memOf trapRun (indexOf trapRun).toNat).coord = 900 ∧
      (memOf trapRun (indexOf trapRun).toNat).fscore = 109 ∧
      ((find_node (context_init zeroState).1 (memOf trapRun) 901).toOption.map
        (fun q => ((memOf trapRun q).version, (memOf trapRun q).coord,
          (memOf trapRun q).fscore))) = some (1, 901, 14) := by
  decide!

/-- Optimality on a table that holds no live slot when the search starts (claim C1 for
the freshly initialised states that the first query sweeps, those of at most `2^30`
slots).  For every graph given by neighbour lists `nb` that do not depend on the user
data (at most 16 entries per call, every edge weight at least 1), whose estimates are a
function `h` of the neighbour's coordinate that is admissible, or consistent, when no
sum of the run overflows (`find_fits`: every tentative `gscore` and every `fscore`
formed is below `2^32`), with `8 ≤ pow2`: if `pathfinding_find` returns `n > 0`, then the recorded path has `n`
coordinates, `pathfinding_path` with room for them writes exactly these coordinates,
they form a walk from the start to the goal whose total edge weight is the terminal
slot's `gscore`, and no walk from the start to the goal has a smaller total edge
weight. -/
theorem find_optimal {σ : Type} {nb : Nat → List pathfinding_neighbor}
    {h : Nat → Nat} (fuel : Nat) (st : pathfinding_state) (args : pathfinding_args σ)
    (ud ud1 : σ) (n : Int) (st1 : pathfinding_state) (hc : Contract st.pow2 nb)
    (hpure : ∀ u p, (args.func u p).1 = nb p) (hest : EstFn nb h)
    (hadm : Admissible nb args.goal h ∨ Consistent nb args.goal h)
    (hfits : find_fits fuel st args ud = true) (hclean : StartsClean st)
    (hrun : pathfinding_find fuel st args ud = .ok (n, st1, ud1)) (hn : 0 < n) :
    ∃ len : Nat, n = (len : Int) ∧ st1.path_length = (len : Int) ∧
      (∀ (result : Nat → Nat) (sz : Int), (len : Int) ≤ sz →
        ∃ out, pathfinding_path st1 result sz = .ok (out, (len : Int)) ∧
          (∀ i, i < len → out i = pathCoord st1 i) ∧ ∀ i, len ≤ i → out i = result i) ∧
      Walk nb args.start args.goal ((List.range len).map (pathCoord st1))
        (st1.hash st1.goal_index.toNat).gscore ∧
      ∀ p c, Walk nb args.start args.goal p c → (st1.hash st1.goal_index.toNat).gscore ≤ c := by
  have hadm' : Admissible nb args.goal h := by
    rcases hadm with ha | hcons
    · exact ha
    · exact hcons.admissible
  obtain ⟨r, m1, hpost, hm, hgi, hneg | ⟨hr0, k, hfacts, hnk⟩⟩ :=
    pathfinding_find_post h hc hpure hfits hclean hrun
  · omega
  · have hgoal : (m1 r.toNat).coord = args.goal := by
      by_contra hne
      rw [if_pos hne] at hnk
      omega
    rw [if_neg (not_not.mpr hgoal)] at hnk
    rcases hpost with ⟨hrneg, _⟩ | ⟨nn, size, hr, _, _, _, _, hopt⟩
    · omega
    · subst hr
      simp only [Int.toNat_ofNat] at hgoal
      have hbest := hopt hgoal hest hadm'
      obtain ⟨c, hw, hcle⟩ := hfacts.walk
      have hterm := hfacts.terminal
      rw [hgi] at hterm
      simp only [Nat.add_sub_cancel, Int.toNat_ofNat] at hterm hw hcle
      have hlast : pathCoord st1 k = args.goal := by
        show (st1.hash (pathSlot st1 k)).coord = _
        rw [hterm, hm]
        exact hgoal
      rw [hlast] at hw
      rw [hterm, hm] at hcle
      have hge := hbest _ c hw
      have hceq : c = (m1 nn).gscore := le_antisymm hcle hge
      rw [hceq] at hw
      refine ⟨k + 1, by rw [hnk]; push_cast; ring, hfacts.length, hfacts.output, ?_, ?_⟩
      · rw [hgi, hm]
        simpa using hw
      · rw [hgi, hm]
        simpa using hbest

theorem lineGraph_estFn : EstFn (lineGraph 3 2) (fun q => 5 * ((2 - q) + (q - 2))) := by
  intro p e he
  unfold lineGraph at he
  split_ifs at he <;> simp at he <;> (try rcases he with rfl | rfl) <;> simp

theorem lineGraph_consistent :
    Consistent (lineGraph 3 2) lineQuery.goal (fun q => 5 * ((2 - q) + (q - 2))) := by
  refine ⟨by decide, ?_⟩
  intro u e he
  unfold lineGraph at he
  split_ifs at he <;> simp at he <;> (try rcases he with rfl | rfl) <;> simp <;> omega

theorem find_optimal_line :
    ∃ len : Nat, (3 : Int) = (len : Int) ∧
      (stateAfter 10 zeroState lineQuery ()).path_length = (len : Int) ∧
      (∀ (result : Nat → Nat) (sz : Int), (len : Int) ≤ sz →
        ∃ out, pathfinding_path (stateAfter 10 zeroState lineQuery ()) result sz =
            .ok (out, (len : Int)) ∧
          (∀ i, i < len → out i = pathCoord (stateAfter 10 zeroState lineQuery ()) i) ∧
          ∀ i, len ≤ i → out i = result i) ∧
      Walk (lineGraph 3 2) lineQuery.start lineQuery.goal
        ((List.range len).map (pathCoord (stateAfter 10 zeroState lineQuery ())))
        ((stateAfter 10 zeroState lineQuery ()).hash
          (stateAfter 10 zeroState lineQuery ()).goal_index.toNat).gscore ∧
      ∀ p c, Walk (lineGraph 3 2) lineQuery.start lineQuery.goal p c →
        ((stateAfter 10 zeroState lineQuery ()).hash
          (stateAfter 10 zeroState lineQuery ()).goal_index.toNat).gscore ≤ c :=
  find_optimal 10 zeroState lineQuery () (udAfter 10 zeroState lineQuery ()) 3
    (stateAfter 10 zeroState lineQuery ()) lineGraph_contract (fun _ _ => rfl)
    lineGraph_estFn (Or.inr lineGraph_consistent) (by decide!)
    (context_init_noLive zeroState (by decide) (Or.inl rfl))
    (pathfinding_find_of_returnOf (by decide!)) (by decide)

/-- Claim C10, amended.  For every acyclic open list `l` sorted ascending by `fscore`
and every slot that is not in it, one call of `insert_node` returns the head of the list
in which the slot stands behind the entries with a strictly smaller `fscore` and in
front of all entries whose `fscore` equals or exceeds its own; no field other than
`next` changes. -/
theorem insert_node_before_equal (ctx : context) (m : Mem) (index : Nat) (list : Int)
    (l : List Nat) (hidx : index < cap ctx.pow2) (hl : IsList ctx.pow2 m list l)
    (hs : SortedByFscore m l) (hni : index ∉ l) :
    ∃ m1 list1 l1 l2, insert_node ctx m index list = .ok (m1, list1) ∧ l = l1 ++ l2 ∧
      IsList ctx.pow2 m1 list1 (l1 ++ index :: l2) ∧ SameData m m1 ∧
      (∀ i, i ∈ l1 → (m i).fscore < (m index).fscore) ∧
      (∀ i, i ∈ l2 → (m index).fscore ≤ (m i).fscore) := by
  obtain ⟨m1, list1, hins, hl1⟩ := insert_node_spec ctx m index list l hidx hl hni
  obtain ⟨l1, l2, h1, h2, h3, h4⟩ := placeByFscore_split m index l hs
  rw [h2] at hl1
  exact ⟨m1, list1, l1, l2, hins, h1, hl1, insert_node_sameData ctx m index list m1 list1 hins,
    h3, h4⟩

theorem insert_node_before_equal_witness :
    ∃ m1 list1 l1 l2, insert_node ⟨1, 8⟩ tieMem 2 1 = .ok (m1, list1) ∧ [1] = l1 ++ l2 ∧
      IsList 8 m1 list1 (l1 ++ 2 :: l2) ∧ SameData tieMem m1 ∧
      (∀ i, i ∈ l1 → (tieMem i).fscore < (tieMem 2).fscore) ∧
      (∀ i, i ∈ l2 → (tieMem 2).fscore ≤ (tieMem i).fscore) :=
  insert_node_before_equal ⟨1, 8⟩ tieMem 2 1 [1] (by decide)
    ⟨rfl, by decide, (by decide : (tieMem 1).next < 0)⟩ (List.pairwise_singleton _ _)
    (by decide)

/-- The home slot of coordinate 7 in a table of 256 slots. -/
theorem hash_seven (v : Nat) : hash ⟨v, 8⟩ 7 = 83 := by
  unfold hash
  dsimp only
  decide

/-- The state the query `restQuery` leaves: the home slot of 7 is stamped with the new
version, nothing else in the table changes. -/
theorem stateAfter_restQuery (st : pathfinding_state) (hp : st.pow2 = 8) :
    stateAfter 1 st restQuery () =
      { (context_init st).2 with
        hash := setNode (context_init st).2.hash 83
          ⟨(context_init st).1.version, 7, 0, 0, 83, -1⟩,
        goal_index := 83, path_length := 1 } := by
  have h83 : hash (context_init st).1 7 = 83 := by
    have := hash_seven (context_init st).1.version
    rw [← hp, ← context_init_pow2 st] at this
    exact this
  have hlt : hash (context_init st).1 7 < cap st.pow2 := hash_lt (context_init st).1 7
  have ha := astar_start_is_goal (context_init st).1 restQuery.func 0
    (context_init st).2.hash () 7
  have hc : calc_length_loop st.pow2 (seed (context_init st).1
      (context_init st).2.hash 7).m (cap st.pow2 + 1)
      (hash (context_init st).1 7) 1 = .ok 1 := by
    simp [calc_length_loop, seed, setNode_same]
  have hf := pathfinding_find_of_astar_slot 1 st restQuery () () _ _ 1 hlt ha hc
  unfold stateAfter
  rw [hf]
  dsimp only
  simp only [seed, h83]
  rfl


theorem context_init_rested (k : Nat) (hk : 0 < k) (hk2 : k + 1 < 2 ^ 32) :
    context_init (restedState k) = (⟨k + 1, 8⟩, { restedState k with version := k + 1 }) := by
  have hk0 : k ≠ 0 := by omega
  unfold context_init
  simp only [restedState, hk0, if_false, Nat.mod_eq_of_lt hk2]

theorem context_init_zeroState :
    context_init zeroState = (⟨1, 8⟩, { zeroState with version := 1 }) := by
  unfold context_init
  simp only [zeroState, if_true]
  refine Prod.ext rfl ?_
  simp only [pathfinding_state.mk.injEq]
  refine ⟨rfl, trivial, trivial, trivial, ?_⟩
  funext i
  split_ifs <;> rfl

theorem stateAfter_rest_zero : stateAfter 1 zeroState restQuery () = restedState 1 := by
  rw [stateAfter_restQuery zeroState rfl, context_init_zeroState]
  simp only [restedState, zeroState, pathfinding_state.mk.injEq]
  refine ⟨trivial, trivial, trivial, trivial, ?_⟩
  funext i
  by_cases hi : i = 83
  · subst hi; rw [setNode_same]; simp
  · rw [setNode_other _ _ hi]; simp [hi]

theorem stateAfter_rest_succ (k : Nat) (hk : 0 < k) (hk2 : k + 1 < 2 ^ 32) :
    stateAfter 1 (restedState k) restQuery () = restedState (k + 1) := by
  rw [stateAfter_restQuery (restedState k) rfl, context_init_rested k hk hk2]
  simp only [restedState, pathfinding_state.mk.injEq]
  refine ⟨trivial, trivial, trivial, trivial, ?_⟩
  funext i
  by_cases hi : i = 83
  · subst hi; rw [setNode_same]; simp
  · rw [setNode_other _ _ hi]; simp [hi]

theorem stateAfterRuns_rested (j : Nat) : ∀ k, 0 < k → k + j < 2 ^ 32 →
    stateAfterRuns 1 restQuery () j (restedState k) = restedState (k + j) := by
  induction j with
  | zero => intro k _ _; rfl
  | succ j ih =>
    intro k hk hkj
    rw [stateAfterRuns, stateAfter_rest_succ k hk (by omega), ih (k + 1) (by omega) (by omega)]
    congr 1
    omega

/-- The state after `k` runs of `restQuery` on the zeroed, freshly initialised state, as
long as the version counter has not wrapped. -/
theorem stateAfterRuns_rest (k : Nat) (hk : 0 < k) (hk2 : k < 2 ^ 32) :
    stateAfterRuns 1 restQuery () k zeroState = restedState k := by
  obtain ⟨j, rfl⟩ : ∃ j, k = j + 1 := ⟨k - 1, by omega⟩
  rw [stateAfterRuns, stateAfter_rest_zero, stateAfterRuns_rested j 1 (by omega) (by omega)]
  congr 1
  omega

/-- Claim C8 (failing input).  The query `forkQuery`, from 5 to its neighbour 0, is run
as query number 2^32 on a state of 256 zeroed slots that was initialised once and has
served 2^32 - 1 runs of `restQuery` since.  The version counter wraps to 0 at this
query and `context_init` does not sweep the table, so every slot still stamped 0 counts
as live: slot 0 is taken for coordinate 0 already reached at cost 0, the edge 5 → 0 is
dropped, and `pathfinding_find` returns 0 with an empty path.  The same query on the
freshly initialised state returns 2 and the path 5, 0. -/
theorem reuse_after_wrap_differs :
    (returnOf 3 (stateAfterRuns 1 restQuery () 4294967295 zeroState) forkQuery () = some 0 ∧
      pathOf (stateAfter 3 (stateAfterRuns 1 restQuery () 4294967295 zeroState) forkQuery ())
        (fun _ => 9) 2 2 = some (0, [9, 9])) ∧
    (returnOf 3 zeroState forkQuery () = some 2 ∧
      pathOf (stateAfter 3 zeroState forkQuery ()) (fun _ => 9) 2 2 = some (2, [5, 0])) := by
  rw [stateAfterRuns_rest 4294967295 (by norm_num) (by norm_num)]
  refine ⟨⟨?_, ?_⟩, ?_, ?_⟩ <;> decide!

/-! # The statements of the specification, continued -/

/-- Claim C11.  For every length `L` with `L * L ≤ 2^30`, `pathfinding_size L` is
`16 + 24 * C` bytes (the header and `C` slots) where `C = 2^k` is the smallest power of
two not below `max 1024 (L * L)`, and `pathfinding_init` on a buffer of that size passes
its check, sets `version` to 0 and `pow2` to `k`, leaving the rest of the buffer as it
was. -/
theorem size_init_capacity (L : Nat) (hL : L * L ≤ 2 ^ 30) (P : pathfinding_state) :
    ∃ k, 8 ≤ k ∧ max 1024 (L * L) ≤ 2 ^ k ∧
      (∀ j, max 1024 (L * L) ≤ 2 ^ j → 2 ^ k ≤ 2 ^ j) ∧
      pathfinding_size L = 16 + 24 * 2 ^ k ∧
      pathfinding_init P (pathfinding_size L) = .ok { P with version := 0, pow2 := k } := by
  obtain ⟨k, hk, hk30, ha, hmin, hsize⟩ := pathfinding_size_pow L hL
  have h1024 : (1024 : Nat) ≤ 2 ^ k := by
    have : 2 ^ 10 ≤ 2 ^ k := Nat.pow_le_pow_right (by norm_num) hk
    simpa using this
  refine ⟨k, by omega, max_le h1024 ha, ?_, hsize, ?_⟩
  · intro j hj
    apply Nat.pow_le_pow_right (by norm_num)
    rcases hmin with rfl | hmin
    · have : 2 ^ 10 ≤ 2 ^ j := le_trans (by norm_num) (le_trans (le_max_left _ _) hj)
      exact (Nat.pow_le_pow_iff_right (by norm_num)).mp this
    · have : 2 ^ (k - 1) < 2 ^ j := lt_of_lt_of_le hmin (le_trans (le_max_right _ _) hj)
      have := (Nat.pow_lt_pow_iff_right (by norm_num : 1 < 2)).mp this
      omega
  · rw [hsize]
    have hn : ((16 + 24 * 2 ^ k + 2 ^ 64 - 40) % 2 ^ 64 / 24 + 1) % 2 ^ 32 = 2 ^ k := by
      interval_cases k <;> norm_num
    unfold pathfinding_init
    simp only [hn, highest_bit_idx_pow k (by omega)]
    rw [if_pos (by omega)]

theorem size_init_capacity_witness :
    ∃ k, 8 ≤ k ∧ max 1024 (100 * 100) ≤ 2 ^ k ∧
      (∀ j, max 1024 (100 * 100) ≤ 2 ^ j → 2 ^ k ≤ 2 ^ j) ∧
      pathfinding_size 100 = 16 + 24 * 2 ^ k ∧
      pathfinding_init zeroState (pathfinding_size 100) =
        .ok { zeroState with version := 0, pow2 := k } :=
  size_init_capacity 100 (by norm_num) zeroState

/-- Claim C12.  Capacity monotonicity: for every side `L` with `(L+1) * (L+1) ≤ 2^30`
(the sizes for which the `int` arithmetic of `pathfinding_size` does not overflow),
`pathfinding_size (L + 1)` is at least `pathfinding_size L`, and at most the size of
`2^30` slots. -/
theorem size_monotone (L : Nat) (hL : (L + 1) * (L + 1) ≤ 2 ^ 30) :
    pathfinding_size L ≤ pathfinding_size (L + 1) ∧
      pathfinding_size (L + 1) ≤ 16 + 24 * 2 ^ 30 := by
  constructor
  · have h := size_loop_mono (L * L) ((L + 1) * (L + 1)) (by nlinarith) 32 1024
    unfold pathfinding_size
    simp only
    have := Nat.mul_le_mul_right 24 (Nat.sub_le_sub_right h 1)
    omega
  · obtain ⟨k, _, hk30, _, _, hsize⟩ := pathfinding_size_pow (L + 1) hL
    rw [hsize]
    have : 2 ^ k ≤ 2 ^ 30 := Nat.pow_le_pow_right (by norm_num) hk30
    omega

theorem size_monotone_witness :
    pathfinding_size 32 ≤ pathfinding_size (32 + 1) ∧
      pathfinding_size (32 + 1) ≤ 16 + 24 * 2 ^ 30 :=
  size_monotone 32 (by norm_num)

/-- Claim C13 fails on the code.  The state left by the query `lineQuery` has live slots
for the coordinates 0, 1 and 2, which decode to column 0 and rows 0, 1 and 2.  For an
image of 1 column and 2 rows the slot of coordinate 2 lies outside the image (row 2),
but its column is below `x`, the test `xx < x || yy < y` lets it through, and its byte
is written at offset `2 * 1 + 0 = 2`, past the 2 bytes of the image. -/
theorem image_writes_past_buffer :
    faultOf (pathfinding_image lineState (fun _ => 7) 1 2) = some Fault.outOfBounds := by
  decide!

/-- Claim C14 fails on the code at the wrap of the version counter.  On the state of 256
zeroed slots that was initialised once and has run `restQuery` 2^32 - 1 times, the
counter is 0xFFFFFFFF; `context_init` increments it to 0 without sweeping the table (the
test is on the value before the increment), and 255 of the 256 slots, slot 0 among
them, carry the new current version 0. -/
theorem wrap_leaves_slots_live :
    (context_init (stateAfterRuns 1 restQuery () 4294967295 zeroState)).1.version = 0 ∧
    ((context_init (stateAfterRuns 1 restQuery () 4294967295 zeroState)).2.hash 0).version =
      (context_init (stateAfterRuns 1 restQuery () 4294967295 zeroState)).1.version ∧
    liveCount (context_init (stateAfterRuns 1 restQuery () 4294967295 zeroState)).1
      (context_init (stateAfterRuns 1 restQuery () 4294967295 zeroState)).2.hash = 255 := by
  rw [stateAfterRuns_rest 4294967295 (by norm_num) (by norm_num)]
  decide!

/-- Claim C15.  For every acyclic open list `l` with head link `list` (the empty list
when the link is negative) that is sorted ascending by `fscore`, and every slot `index`
of the array that is not in it, `insert_node` returns; it changes no field other than
`next`; the head it returns heads an acyclic list `l1` that is sorted ascending by
`fscore` and consists of the entries of `l` and of `index`, each once; and `index` is
the new head exactly when `l` is empty or the `fscore` of `index` is at most that of the
old head. -/
theorem insert_node_keeps_order (ctx : context) (m : Mem) (index : Nat) (list : Int)
    (l : List Nat) (hidx : index < cap ctx.pow2) (hl : IsList ctx.pow2 m list l)
    (hs : SortedByFscore m l) (hni : index ∉ l) :
    ∃ m1 list1 l1, insert_node ctx m index list = .ok (m1, list1) ∧ SameData m m1 ∧
      IsList ctx.pow2 m1 list1 l1 ∧ SortedByFscore m1 l1 ∧ l1.Nodup ∧
      l1.Perm (index :: l) ∧
      (list1 = (index : Int) ↔
        (l = [] ∨ ∃ c t, l = c :: t ∧ (m index).fscore ≤ (m c).fscore)) := by
  obtain ⟨m1, list1, hrun, hl1⟩ := insert_node_spec ctx m index list l hidx hl hni
  have hsd := insert_node_sameData ctx m index list m1 list1 hrun
  refine ⟨m1, list1, _, hrun, hsd, hl1, ?_, hl1.nodup, placeByFscore_perm m index l, ?_⟩
  · exact (placeByFscore_sorted m index l hs).congr_fscore (fun i _ => hsd.fscore i)
  · rw [← placeByFscore_head m index l hni]
    have hne : placeByFscore m index l ≠ [] := by
      intro h
      have := (placeByFscore_perm m index l).length_eq
      rw [h] at this
      simp at this
    obtain ⟨c, t, hct⟩ := List.exists_cons_of_ne_nil hne
    rw [hct] at hl1 ⊢
    have hhead : list1 = (c : Int) := hl1.1
    rw [hhead]
    simp only [List.head?_cons, Option.some.injEq]
    constructor
    · intro h; omega
    · intro h; rw [h]

theorem insert_node_keeps_order_witness :
    ∃ m1 list1 l1, insert_node ⟨1, 8⟩ tieMem 2 1 = .ok (m1, list1) ∧ SameData tieMem m1 ∧
      IsList 8 m1 list1 l1 ∧ SortedByFscore m1 l1 ∧ l1.Nodup ∧
      l1.Perm (2 :: [1]) ∧
      (list1 = ((2 : Nat) : Int) ↔
        (([1] : List Nat) = [] ∨
          ∃ c t, ([1] : List Nat) = c :: t ∧ (tieMem 2).fscore ≤ (tieMem c).fscore)) :=
  insert_node_keeps_order ⟨1, 8⟩ tieMem 2 1 [1] (by decide)
    ⟨rfl, by decide, (by decide : (tieMem 1).next < 0)⟩ (List.pairwise_singleton _ _)
    (by decide)

/-- Claim C16.  Let `l` be an acyclic open list in the slot array `m` that contains slot
`t`, and let it be sorted ascending by `fscore` apart from `t`, whose `fscore` has just
been lowered: it is sorted with the `fscore`s of an array `m0` from which `m` differs
only in a lower `fscore` of `t`.  Then `advance_node` returns; it changes no field other
than `next`; the head it returns heads an acyclic list sorted ascending by `fscore` with
the same entries, each once; and when `t` is the head already, the array and the head
are returned unchanged. -/
theorem advance_node_keeps_order (ctx : context) (m0 m : Mem) (t : Nat) (list : Int)
    (l : List Nat) (hl : IsList ctx.pow2 m list l) (ht : t ∈ l)
    (hs : SortedByFscore m0 l) (hsame : ∀ i, i ≠ t → (m i).fscore = (m0 i).fscore)
    (hlow : (m t).fscore ≤ (m0 t).fscore) :
    ∃ m1 list1 l1, advance_node ctx m t list = .ok (m1, list1) ∧ SameData m m1 ∧
      IsList ctx.pow2 m1 list1 l1 ∧ SortedByFscore m1 l1 ∧ l1.Nodup ∧ l1.Perm l ∧
      (list = (t : Int) → m1 = m ∧ list1 = list ∧ l1 = l) := by
  obtain ⟨a, b, rfl⟩ := List.append_of_mem ht
  obtain ⟨m1, list1, hrun, hl1⟩ := advance_node_spec ctx m t list a b hl
  have hsd := advance_node_sameData ctx m t list m1 list1 hrun
  have hnd := hl.nodup
  have hta : t ∉ a := by
    intro h
    rw [List.nodup_append] at hnd
    exact hnd.2.2 h (List.mem_cons_self _ _)
  have htb : t ∉ b := by
    rw [List.nodup_append] at hnd
    exact (List.nodup_cons.mp hnd.2.1).1
  have hs' : SortedByFscore m0 (a ++ t :: b) := hs
  unfold SortedByFscore at hs'
  rw [List.pairwise_append] at hs'
  obtain ⟨hsa, hstb, hab⟩ := hs'
  rw [List.pairwise_cons] at hstb
  have hsab : SortedByFscore m (a ++ b) := by
    unfold SortedByFscore
    rw [List.pairwise_append]
    refine ⟨?_, ?_, ?_⟩
    · apply hsa.imp_of_mem
      intro x y hx hy hxy
      rw [hsame x (fun e => hta (e ▸ hx)), hsame y (fun e => hta (e ▸ hy))]
      exact hxy
    · apply hstb.2.imp_of_mem
      intro x y hx hy hxy
      rw [hsame x (fun e => htb (e ▸ hx)), hsame y (fun e => htb (e ▸ hy))]
      exact hxy
    · intro x hx y hy
      rw [hsame x (fun e => hta (e ▸ hx)), hsame y (fun e => htb (e ▸ hy))]
      exact hab x hx y (List.mem_cons_of_mem _ hy)
  have htle : ∀ y, y ∈ b → (m t).fscore ≤ (m y).fscore := by
    intro y hy
    rw [hsame y (fun e => htb (e ▸ hy))]
    exact le_trans hlow (hstb.1 y hy)
  refine ⟨m1, list1, _, hrun, hsd, hl1, ?_, hl1.nodup, ?_, ?_⟩
  · exact (placeByFscore_sorted_append m t a b hsab htle).congr_fscore
      (fun i _ => hsd.fscore i)
  · have h1 := (placeByFscore_perm m t a).append_right b
    exact h1.trans (List.perm_middle.symm)
  · intro hhead
    have ha : a = [] := by
      cases a with
      | nil => rfl
      | cons a0 a =>
        exfalso
        have h1 : list = (a0 : Int) := hl.1
        have : a0 = t := by omega
        apply hta
        rw [this]
        exact List.mem_cons_self _ _
    subst ha
    unfold advance_node at hrun
    rw [if_pos hhead.symm] at hrun
    simp only [Except.ok.injEq, Prod.mk.injEq] at hrun
    obtain ⟨rfl, rfl⟩ := hrun
    exact ⟨rfl, hhead.symm, rfl⟩

theorem advance_node_keeps_order_witness :
    ∃ m1 list1 l1, advance_node ⟨1, 8⟩ (advanceMem 4) 3 1 = .ok (m1, list1) ∧
      SameData (advanceMem 4) m1 ∧
      IsList 8 m1 list1 l1 ∧ SortedByFscore m1 l1 ∧ l1.Nodup ∧ l1.Perm [1, 2, 3] ∧
      ((1 : Int) = ((3 : Nat) : Int) → m1 = advanceMem 4 ∧ list1 = 1 ∧ l1 = [1, 2, 3]) :=
  advance_node_keeps_order ⟨1, 8⟩ (advanceMem 7) (advanceMem 4) 3 1 [1, 2, 3]
    ⟨rfl, by decide, rfl, by decide, rfl, by decide, (by decide : (advanceMem 4 3).next < 0)⟩
    (by decide) (by unfold SortedByFscore; decide)
    (fun i hi => by simp [advanceMem, hi]) (by decide)

/-- The table throughout a query, for at most `2^30` slots (claim C17 without the
capacity `2^31`).  In every state `s` of a run of `astar` on a slot array without live
slots (table of `2^pow2` slots with `8 ≤ pow2 ≤ 30`, callback with at most 16 entries
per call), no two live slots hold the same coordinate, and for every coordinate `pos`
`find_node` returns an index `n` below `2^pow2`: the slot `steps` places, modulo
`2^pow2`, after the slot numbered by the top `pow2` bits of `2654435761 * pos mod 2^32`,
where every slot before it in this order is live and holds another coordinate; `n` is
the live slot that holds `pos` when there is one, and a slot that is not live
otherwise. -/
theorem find_node_throughout {σ : Type} (ctx : context) (func : pathfinding_hfunc σ)
    (goal start : Nat) (m0 : Mem) (ud : σ) (s : search) (hp : 8 ≤ ctx.pow2)
    (hp30 : ctx.pow2 ≤ 30) (hcount : ∀ u p, (func u p).1.length ≤ 16)
    (hno : ∀ i, i < cap ctx.pow2 → (m0 i).version ≠ ctx.version)
    (hv : Visited ctx func goal (seed ctx m0 start) ud s) :
    (∀ i j, i < 2 ^ ctx.pow2 → j < 2 ^ ctx.pow2 → (s.m i).version = ctx.version →
      (s.m j).version = ctx.version → (s.m i).coord = (s.m j).coord → i = j) ∧
    ∀ pos, ∃ n steps, find_node ctx s.m pos = .ok n ∧ n < 2 ^ ctx.pow2 ∧
      steps < 2 ^ ctx.pow2 ∧
      n = (2654435761 * pos % 2 ^ 32 / 2 ^ (32 - ctx.pow2) + steps) % 2 ^ ctx.pow2 ∧
      (∀ t, t < steps →
        (s.m ((2654435761 * pos % 2 ^ 32 / 2 ^ (32 - ctx.pow2) + t) %
          2 ^ ctx.pow2)).version = ctx.version ∧
        (s.m ((2654435761 * pos % 2 ^ 32 / 2 ^ (32 - ctx.pow2) + t) %
          2 ^ ctx.pow2)).coord ≠ pos) ∧
      ((∃ i, i < 2 ^ ctx.pow2 ∧ (s.m i).version = ctx.version ∧ (s.m i).coord = pos) →
        (s.m n).version = ctx.version ∧ (s.m n).coord = pos) ∧
      ((¬ ∃ i, i < 2 ^ ctx.pow2 ∧ (s.m i).version = ctx.version ∧ (s.m i).coord = pos) →
        (s.m n).version ≠ ctx.version) := by
  obtain ⟨ht, hsz⟩ := hv.tableInv hcount hno
  have hcap := half_add_le_cap ctx.pow2 hp 16 (le_refl _)
  rw [← cap_eq]
  constructor
  · intro i j hi hj hli hlj hc
    exact ht.table.unique_slot hi hj hli hlj hc
  · intro pos
    obtain ⟨k, hk, hfind, hpre, hstop⟩ := find_node_total ctx hp30 s.m pos
      (by rw [ht.count]; omega)
    have hprobe : ∀ t, probe ctx pos t =
        (2654435761 * pos % 2 ^ 32 / 2 ^ (32 - ctx.pow2) + t) % cap ctx.pow2 := by
      intro t
      rw [probe_eq_mod ctx hp30, hash_top_bits ctx pos (by omega)]
    refine ⟨probe ctx pos k, k, hfind, probe_lt ctx pos k, hk, hprobe k, ?_, ?_, ?_⟩
    · intro t ht'
      rw [← hprobe t]
      exact hpre t ht'
    · rintro ⟨i, hi, hli, hci⟩
      have := find_node_live ctx s.m ht.table i hi hli
      rw [hci, hfind] at this
      simp only [Except.ok.injEq] at this
      rw [this]
      exact ⟨hli, hci⟩
    · intro hnone hlive
      rcases hstop with h1 | h1
      · exact hnone ⟨_, probe_lt ctx pos k, hlive, h1⟩
      · exact h1 hlive

theorem find_node_throughout_line :
    (∀ i j, i < 2 ^ (context_init zeroState).1.pow2 → j < 2 ^ (context_init zeroState).1.pow2 →
      (lineMid.m i).version = (context_init zeroState).1.version →
      (lineMid.m j).version = (context_init zeroState).1.version →
      (lineMid.m i).coord = (lineMid.m j).coord → i = j) ∧
    ∀ pos, ∃ n steps, find_node (context_init zeroState).1 lineMid.m pos = .ok n ∧
      n < 2 ^ (context_init zeroState).1.pow2 ∧
      steps < 2 ^ (context_init zeroState).1.pow2 ∧
      n = (2654435761 * pos % 2 ^ 32 / 2 ^ (32 - (context_init zeroState).1.pow2) + steps) %
        2 ^ (context_init zeroState).1.pow2 ∧
      (∀ t, t < steps →
        (lineMid.m ((2654435761 * pos % 2 ^ 32 /
          2 ^ (32 - (context_init zeroState).1.pow2) + t) %
          2 ^ (context_init zeroState).1.pow2)).version =
            (context_init zeroState).1.version ∧
        (lineMid.m ((2654435761 * pos % 2 ^ 32 /
          2 ^ (32 - (context_init zeroState).1.pow2) + t) %
          2 ^ (context_init zeroState).1.pow2)).coord ≠ pos) ∧
      ((∃ i, i < 2 ^ (context_init zeroState).1.pow2 ∧
          (lineMid.m i).version = (context_init zeroState).1.version ∧
          (lineMid.m i).coord = pos) →
        (lineMid.m n).version = (context_init zeroState).1.version ∧
          (lineMid.m n).coord = pos) ∧
      ((¬ ∃ i, i < 2 ^ (context_init zeroState).1.pow2 ∧
          (lineMid.m i).version = (context_init zeroState).1.version ∧
          (lineMid.m i).coord = pos) →
        (lineMid.m n).version ≠ (context_init zeroState).1.version) :=
  find_node_throughout (context_init zeroState).1 lineQuery.func lineQuery.goal
    lineQuery.start (context_init zeroState).2.hash () lineMid (by decide) (by decide)
    (fun _ p => (lineGraph_contract).count p)
    (context_init_noLive zeroState (by decide) (Or.inl rfl))
    ⟨1, Or.inr ⟨1, eq_some_getD _ _ (by decide!)⟩⟩

/-- The table never fills up, for at most `2^30` slots (claim C19 without the capacity
`2^31`).  In every state `s` of a run of `astar` on a slot array without live slots, for
a table of `2^pow2` slots with `8 ≤ pow2 ≤ 30` and a callback with at most 16 entries
per call: at most `2^(pow2-1) + 16 < 2^pow2` slots are live, and at most `2^(pow2-1)`
when `s` is the state at the top of a pass of the loop; some slot is not live; and for
every coordinate the probe loop of `find_node` returns within its `2^pow2` steps. -/
theorem table_never_full {σ : Type} (ctx : context) (func : pathfinding_hfunc σ)
    (goal start : Nat) (m0 : Mem) (ud : σ) (s : search) (hp : 8 ≤ ctx.pow2)
    (hp30 : ctx.pow2 ≤ 30) (hcount : ∀ u p, (func u p).1.length ≤ 16)
    (hno : ∀ i, i < cap ctx.pow2 → (m0 i).version ≠ ctx.version)
    (hv : Visited ctx func goal (seed ctx m0 start) ud s) :
    liveCount ctx s.m ≤ 2 ^ (ctx.pow2 - 1) + 16 ∧ 2 ^ (ctx.pow2 - 1) + 16 < 2 ^ ctx.pow2 ∧
      ((∃ k ud1, astar_pass ctx func goal k (seed ctx m0 start) ud = some (s, ud1)) →
        liveCount ctx s.m ≤ 2 ^ (ctx.pow2 - 1)) ∧
      (∃ i, i < 2 ^ ctx.pow2 ∧ (s.m i).version ≠ ctx.version) ∧
      ∀ pos, ∃ n, n < 2 ^ ctx.pow2 ∧
        find_node_loop ctx s.m pos (2 ^ ctx.pow2) (hash ctx pos) = .ok n := by
  obtain ⟨ht, hsz⟩ := hv.tableInv hcount hno
  have hcap := half_add_le_cap ctx.pow2 hp 16 (le_refl _)
  have hlt : liveCount ctx s.m < cap ctx.pow2 := by rw [ht.count]; omega
  have hce : cap ctx.pow2 = 2 ^ ctx.pow2 := cap_eq _
  refine ⟨by rw [ht.count]; exact hsz, hce ▸ hcap, ?_, hce ▸ exists_not_live ctx s.m hlt, ?_⟩
  · rintro ⟨k, ud1, hpass⟩
    have hseed := seed_treeInv ctx (fun _ => []) start m0 hno
    obtain ⟨h1, h2⟩ := astar_pass_tableInv ctx func goal k _ ud s ud1
      ⟨hseed.table, hseed.count⟩ Nat.one_le_two_pow hpass
    rw [h1.count]
    exact h2
  · intro pos
    obtain ⟨k, _, hfind, _, _⟩ := find_node_total ctx hp30 s.m pos hlt
    unfold find_node at hfind
    rw [hce] at hfind
    exact ⟨_, hce ▸ probe_lt ctx pos k, hfind⟩

theorem table_never_full_line :
    liveCount (context_init zeroState).1 lineMid.m ≤
        2 ^ ((context_init zeroState).1.pow2 - 1) + 16 ∧
      2 ^ ((context_init zeroState).1.pow2 - 1) + 16 < 2 ^ (context_init zeroState).1.pow2 ∧
      ((∃ k ud1, astar_pass (context_init zeroState).1 lineQuery.func lineQuery.goal k
          (seed (context_init zeroState).1 (context_init zeroState).2.hash lineQuery.start)
          () = some (lineMid, ud1)) →
        liveCount (context_init zeroState).1 lineMid.m ≤
          2 ^ ((context_init zeroState).1.pow2 - 1)) ∧
      (∃ i, i < 2 ^ (context_init zeroState).1.pow2 ∧
        (lineMid.m i).version ≠ (context_init zeroState).1.version) ∧
      ∀ pos, ∃ n, n < 2 ^ (context_init zeroState).1.pow2 ∧
        find_node_loop (context_init zeroState).1 lineMid.m pos
          (2 ^ (context_init zeroState).1.pow2) (hash (context_init zeroState).1 pos) =
            .ok n :=
  table_never_full (context_init zeroState).1 lineQuery.func lineQuery.goal
    lineQuery.start (context_init zeroState).2.hash () lineMid (by decide) (by decide)
    (fun _ p => (lineGraph_contract).count p)
    (context_init_noLive zeroState (by decide) (Or.inl rfl))
    ⟨1, Or.inr ⟨1, eq_some_getD _ _ (by decide!)⟩⟩

/-- Reconstruction terminates on a table that holds no live slot when the search starts
(claim C20 for the states whose first query sweeps the table, those of at most `2^30`
slots).  For every query of every callback, with edge weights that may be 0, when no sum
of the run overflows (`find_fits`: every tentative `gscore` and every `fscore` formed is
below `2^32`): in the slot array `astar` returns, the predecessor of every live slot is a live
slot; the start slot is its own predecessor and the `camefrom` links of the live slots
have no other cycle; and when the returned index `r` is not negative it is a live slot
from which `calc_length` returns, so that `pathfinding_find` returns `len` or `-len`
with the recorded path length `len` between 1 and the number of live slots, the slot
`len - 1` steps along `camefrom` from `r` being the first one of the chain with `gscore`
0. -/
theorem reconstruction_terminates {σ : Type} (fuel : Nat) (st : pathfinding_state)
    (args : pathfinding_args σ) (ud ud1 : σ) (r : Int) (m1 : Mem)
    (hfits : find_fits fuel st args ud = true) (hclean : StartsClean st)
    (hrun : astar (context_init st).1 args.func fuel (context_init st).2.hash ud args.start
      args.goal = .ok (r, m1, ud1)) :
    (∀ i, Live (context_init st).1 m1 i → Live (context_init st).1 m1 (m1 i).camefrom) ∧
    (m1 (hash (context_init st).1 args.start)).camefrom =
      hash (context_init st).1 args.start ∧
    (∀ i n, Live (context_init st).1 m1 i → 0 < n → chainAt m1 n i = i →
      i = hash (context_init st).1 args.start) ∧
    (0 ≤ r → ∃ (len : Nat) (st1 : pathfinding_state), 1 ≤ len ∧
      len ≤ liveCount (context_init st).1 m1 ∧ Live (context_init st).1 m1 r.toNat ∧
      (pathfinding_find fuel st args ud = .ok ((len : Int), st1, ud1) ∨
        pathfinding_find fuel st args ud = .ok (-(len : Int), st1, ud1)) ∧
      st1.path_length = (len : Int) ∧ st1.hash = m1 ∧ st1.goal_index = r ∧
      (m1 (chainAt m1 (len - 1) r.toNat)).gscore = 0 ∧
      ∀ j, j + 1 < len → (m1 (chainAt m1 j r.toNat)).gscore ≠ 0) := by
  have hno := hclean
  have hseed := seed_treeInv (context_init st).1 (fun _ => []) args.start
    (context_init st).2.hash hno
  obtain ⟨size, ht, hc⟩ := @astar_loop_cameInv σ (context_init st).1 args.start args.goal
    args.func fuel _ ud r m1 ud1 ⟨hseed.table, hseed.count⟩
    (seed_cameInv (context_init st).1 args.start (context_init st).2.hash hno) hfits hrun
  refine ⟨hc.from_live, hc.start_from, fun i n hi hn hcyc => hc.no_cycle hi n hn hcyc, ?_⟩
  intro hr
  obtain ⟨n, rfl⟩ := Int.eq_ofNat_of_zero_le hr
  simp only [Int.toNat_ofNat]
  have hlive : Live (context_init st).1 m1 n := by
    rcases hc.list_ok with h1 | ⟨k, hk, hl⟩
    · have : ((n : Nat) : Int) < 0 := h1
      omega
    · have : ((n : Nat) : Int) = (k : Int) := hk
      have e : n = k := by omega
      rw [e]
      exact hl
  obtain ⟨k, hk, hcalc, hzero, hnz⟩ := hc.calc_length_total hlive
  have hcalc' : calc_length_loop st.pow2 m1 (cap st.pow2 + 1) n 1 =
      .ok (((k + 1 : Nat)) : Int) := hcalc
  have hf := pathfinding_find_of_astar_slot fuel st args ud ud1 n m1 _ hlive.1 hrun hcalc'
  obtain ⟨st1, hst, h1, h2, h3⟩ : ∃ st1 : pathfinding_state,
      pathfinding_find fuel st args ud =
        .ok (if (m1 n).coord ≠ args.goal then -(((k + 1 : Nat)) : Int)
          else (((k + 1 : Nat)) : Int), st1, ud1) ∧
      st1.path_length = (((k + 1 : Nat)) : Int) ∧ st1.hash = m1 ∧
      st1.goal_index = (n : Int) := ⟨_, hf, rfl, rfl, rfl⟩
  refine ⟨k + 1, st1, by omega, hk, hlive, ?_, h1, h2, h3, ?_, ?_⟩
  · rw [hst]
    split_ifs
    · right; rfl
    · left; rfl
  · simpa using hzero
  · intro j hj
    exact hnz j (by omega)

theorem reconstruction_terminates_zero :
    (∀ i, Live (context_init zeroState).1 (memOf zeroRun) i →
      Live (context_init zeroState).1 (memOf zeroRun) (memOf zeroRun i).camefrom) ∧
    (memOf zeroRun (hash (context_init zeroState).1 zeroQuery.start)).camefrom =
      hash (context_init zeroState).1 zeroQuery.start ∧
    (∀ i n, Live (context_init zeroState).1 (memOf zeroRun) i → 0 < n →
      chainAt (memOf zeroRun) n i = i → i = hash (context_init zeroState).1 zeroQuery.start) ∧
    (0 ≤ indexOf zeroRun → ∃ (len : Nat) (st1 : pathfinding_state), 1 ≤ len ∧
      len ≤ liveCount (context_init zeroState).1 (memOf zeroRun) ∧
      Live (context_init zeroState).1 (memOf zeroRun) (indexOf zeroRun).toNat ∧
      (pathfinding_find 10 zeroState zeroQuery () = .ok ((len : Int), st1, udOf () zeroRun) ∨
        pathfinding_find 10 zeroState zeroQuery () =
          .ok (-(len : Int), st1, udOf () zeroRun)) ∧
      st1.path_length = (len : Int) ∧ st1.hash = memOf zeroRun ∧
      st1.goal_index = indexOf zeroRun ∧
      (memOf zeroRun (chainAt (memOf zeroRun) (len - 1) (indexOf zeroRun).toNat)).gscore = 0 ∧
      ∀ j, j + 1 < len →
        (memOf zeroRun (chainAt (memOf zeroRun) j (indexOf zeroRun).toNat)).gscore ≠ 0) :=
  reconstruction_terminates 10 zeroState zeroQuery () (udOf () zeroRun) (indexOf zeroRun)
    (memOf zeroRun) (by decide!) (context_init_noLive zeroState (by decide) (Or.inl rfl))
    (eq_ok_of_indexOf zeroRun () (by decide!))

/-! # The statements of the specification on a table of `2^31` slots

For a buffer of `16 + 24 * 2^31` bytes `pathfinding_init` passes its check and stores
`pow2 = 31`.  The `int` expression `1 << pow2` then overflows: the sweep of
`context_init` over `i < cap` does not run, and the probe loop of `find_node` falls back
to slot 0 after every miss. -/

/-- Claim C19 fails on the code for a table of `2^31` slots.  `pathfinding_init` on a
zeroed buffer of `16 + 24 * 2^31` bytes leaves `wideState`, with `pow2 = 31`, and no
slot is live when the first query starts.  In the query `spinQuery`, once the start slot
(slot 0, coordinate 0) is closed, one slot is stamped (`size` is 1) and slot 1 is not
live; but the probe loop of `find_node` for the neighbour 244002641, which also hashes
to slot 0, does not return, whatever number of steps it is given: after the miss at slot
0 the test `index >= (1 << ctx->pow2)` holds, with `1 << 31` negative, and the probe is
back at slot 0. -/
theorem probe_loop_never_returns :
    pathfinding_init zeroState (16 + 24 * 2 ^ 31) = .ok wideState ∧
    (∀ i, ((context_init wideState).2.hash i).version ≠ (context_init wideState).1.version) ∧
    astar_mid (context_init wideState).1 spinQuery.func spinQuery.goal 0 0
      (seed (context_init wideState).1 (context_init wideState).2.hash spinQuery.start) () =
        some wideMid ∧
    wideMid.size = 1 ∧ (wideMid.m 1).version ≠ (context_init wideState).1.version ∧
    ∀ fuel, find_node_loop (context_init wideState).1 wideMid.m 244002641 fuel
      (hash (context_init wideState).1 244002641) = .error .diverge := by
  refine ⟨rfl, wideState_noLive, eq_some_getD _ _ (by decide!), by decide!, by decide!, ?_⟩
  intro fuel
  have hh : hash (context_init wideState).1 244002641 = 0 := by decide!
  rw [hh]
  exact find_node_loop_spin _ _ _ rfl (by decide!) (by decide!) fuel

/-- Claim C17 fails on the code for a table of `2^31` slots.  The query `spinQuery` on
`wideState` starts without a live slot.  In its state `wideMid` (the start slot closed,
no entry relaxed yet) slot 0 holds coordinate 0 and the slot of coordinate 244002641 is
looked up: `find_node` does not return an index, and `pathfinding_find` does not return,
whatever its step budget is.  The probe does not advance by one modulo the capacity: it
goes from slot 0 back to slot 0. -/
theorem find_node_never_returns :
    (∀ i, ((context_init wideState).2.hash i).version ≠ (context_init wideState).1.version) ∧
    Visited (context_init wideState).1 spinQuery.func spinQuery.goal
      (seed (context_init wideState).1 (context_init wideState).2.hash spinQuery.start) ()
      wideMid ∧
    (wideMid.m 0).version = (context_init wideState).1.version ∧ (wideMid.m 0).coord = 0 ∧
    find_node (context_init wideState).1 wideMid.m 244002641 = .error .diverge ∧
    ∀ fuel, faultOf (pathfinding_find (fuel + 1) wideState spinQuery ()) =
      some Fault.diverge := by
  have hh : hash (context_init wideState).1 244002641 = 0 := by decide!
  refine ⟨wideState_noLive, ⟨0, Or.inr ⟨0, eq_some_getD _ _ (by decide!)⟩⟩, by decide!,
    by decide!, ?_, ?_⟩
  · unfold find_node
    rw [hh]
    exact find_node_loop_spin _ _ _ rfl (by decide!) (by decide!) _
  · intro fuel
    have ha : astar (context_init wideState).1 spinQuery.func (fuel + 1)
        (context_init wideState).2.hash () spinQuery.start spinQuery.goal =
          .error .diverge := by
      unfold astar
      refine astar_loop_of_relax_error _ _ _ fuel _ () 0 ⟨244002641, 1, 0⟩ [] _ (by rfl)
        (by decide!) (by decide!) ?_
      apply relax_of_find_error
      unfold find_node
      dsimp only
      rw [hh]
      exact find_node_loop_spin _ _ _ rfl (by decide!) (by decide!) _
    rw [pathfinding_find_of_astar_error (fuel + 1) wideState spinQuery () _ ha]
    rfl

/-- Claim C1 fails on the code for a table of `2^31` slots.  `pathfinding_init` on
`staleBuffer` with a buffer size of `16 + 24 * 2^31` bytes leaves `staleState`, a freshly
initialised state with `pow2 = 31`.  The callback of `detourQuery` is pure, reports at
most 16 entries per call, edge weights of at least 1 and the estimate 0 for every
coordinate (a consistent estimate), and no score of the run exceeds 5.  The first query
does not sweep the table, so the slot that held version 1 and coordinate 1 is taken for
coordinate 1 already reached at cost 0, and the edge 0 → 1 is dropped:
`pathfinding_find` returns 2 with the path 0, 9 of total weight 5, the `gscore` of the
terminal slot, while the walk 0, 1, 9 has weight 2. -/
theorem stale_slot_hides_cheaper_path :
    pathfinding_init staleBuffer (16 + 24 * 2 ^ 31) = .ok staleState ∧
    (∀ p, (detourGraph p).length ≤ 16) ∧
    (∀ p e, e ∈ detourGraph p → 1 ≤ e.dist) ∧
    EstFn detourGraph (fun _ => 0) ∧
    Consistent detourGraph detourQuery.goal (fun _ => 0) ∧
    find_fits 5 staleState detourQuery () = true ∧
    returnOf 5 staleState detourQuery () = some 2 ∧
    pathOf (stateAfter 5 staleState detourQuery ()) (fun _ => 7) 2 2 = some (2, [0, 9]) ∧
    ((stateAfter 5 staleState detourQuery ()).hash
      (stateAfter 5 staleState detourQuery ()).goal_index.toNat).gscore = 5 ∧
    Walk detourGraph detourQuery.start detourQuery.goal [0, 1, 9] 2 := by
  refine ⟨rfl, detourGraph_count, fun p e he => (detourGraph_entries p e he).1,
    fun p e he => (detourGraph_entries p e he).2, ⟨rfl, fun _ _ _ => Nat.zero_le _⟩,
    by decide!, by decide!, by decide!, by decide!, detourGraph_walk⟩

/-- Claim C20 fails on the code for a table of `2^31` slots.  On `staleState` (`pow2 =
31`) the first query does not sweep the table.  In the slot array `astar` returns for
`detourQuery`, a run without overflow that returns a slot, slot 1327217880 still carries
version 1, the version of the query: it is live, but its `camefrom` is 12345, a slot
that is not live. -/
theorem stale_slot_has_dead_predecessor :
    pathfinding_init staleBuffer (16 + 24 * 2 ^ 31) = .ok staleState ∧
    find_fits 5 staleState detourQuery () = true ∧
    0 ≤ indexOf detourRun ∧
    Live (context_init staleState).1 (memOf detourRun) 1327217880 ∧
    (memOf detourRun 1327217880).camefrom = 12345 ∧
    ¬ Live (context_init staleState).1 (memOf detourRun) 12345 := by
  refine ⟨rfl, by decide!, by decide!, ⟨by decide!, by decide!⟩, by decide!, ?_⟩
  intro h
  exact absurd h.2 (by decide!)

end Pathfinding
